import Mathlib

/-!
# Lightgrep: bytecode virtual machine, first-byte analysis and code generator

A shallow embedding of `src/src/vm.cpp` (the thread-list interpreter
`Vm::init`, `Vm::execute`, `executeEpsilons`, `Vm::search`) and of the parts of
`src/src/utility.cpp` that build its inputs (`nextBytes`, `firstBytes`,
`pivotStates`, `createJumpTable`, `createProgram`).

Conventions of the embedding:

* a byte is a natural number (below 256 for real input);
* `uint64` values are natural numbers, arithmetic that can wrap is written
  with an explicit `% 2 ^ 64`;
* a pointer into the program is an index into the instruction list, the null
  pointer (`t.PC = 0` in the source) is `none`;
* reading outside an array, or through a null pointer, is undefined behaviour
  in the source and is the result `Fault.outOfBounds` / `Fault.nullPointer`
  here; loops that need not terminate take a fuel argument and give
  `Fault.outOfFuel` when it is used up.
-/

namespace Lightgrep

/-! ## Data model -/

/-- The ways a run of the embedded code can fail to produce a value. -/
inductive Fault where
  | outOfBounds
  | nullPointer
  | outOfFuel
  deriving DecidableEq, Repr

/-- A byte of input (`byte` in the source). -/
abbrev Byte := Nat

/-- The constant `UNALLOCATED` of `vm.cpp` line 5 (also the value of
`std::numeric_limits<uint64>::max()`). -/
def UNALLOCATED : Nat := 0xffffffffffffffff

/-- Subtraction of two `uint64` values, as the machine does it. -/
def sub64 (a b : Nat) : Nat := (a + 2 ^ 64 - b) % 2 ^ 64

/-- Increment of a `uint64` value, as the machine does it. -/
def inc64 (a : Nat) : Nat := (a + 1) % 2 ^ 64

/-- One instruction: the opcode of the source (`OpCode`) with its operand
(`Op.Literal`, `Op.Range.First` / `Op.Range.Last`, or `Op.Offset`). -/
inductive Instruction where
  | LIT_OP (Literal : Byte)
  | EITHER_OP (First Last : Byte)
  | RANGE_OP (First Last : Byte)
  | JUMP_OP (Offset : Nat)
  | JUMP_TABLE_OP
  | FORK_OP (Offset : Nat)
  | CHECK_BRANCH_OP (Offset : Nat)
  | CHECK_HALT_OP (Offset : Nat)
  | MATCH_OP (Offset : Nat)
  | HALT_OP
  deriving DecidableEq, Repr

/-- A program is the flat instruction array. -/
abbrev Program := List Instruction

/-- A logical thread of the virtual machine. `PC = none` is the null program
counter of a killed thread. -/
structure Thread where
  PC : Option Nat
  Label : Nat
  Start : Nat
  End : Nat
  deriving DecidableEq, Repr

/-- The thread list type. Modelled from the spec: `ThreadList` is declared in
`vm.h`, which is not part of the sources at hand; the spec describes it as a
list preallocated to the program length to which threads are appended, so it
is a list here, and `resize` in `Vm::init` only reserves room. -/
abbrev ThreadList := List Thread

/-- Modelled from the spec: `Thread::advance` (declared in `vm.h`) moves the
program counter to the next instruction; instructions have a fixed width. -/
def Thread.advance (t : Thread) : Thread :=
  { t with PC := t.PC.map (· + 1) }

/-- Modelled from the spec: `Thread::jump(base, offset)` (declared in `vm.h`)
sets the program counter to `base + offset`. -/
def Thread.jump (t : Thread) (base offset : Nat) : Thread :=
  { t with PC := some (base + offset) }

/-- Modelled from the spec: `Thread::fork(parent, base, offset)` (declared in
`vm.h`) makes a copy of `parent` whose program counter is `base + offset`. -/
def Thread.fork (parent : Thread) (base offset : Nat) : Thread :=
  parent.jump base offset

/-- A hit handed to the callback (`SearchHit`). -/
structure SearchHit where
  Offset : Nat
  Length : Nat
  Label : Nat
  deriving DecidableEq, Repr

/-- A cell of the match buffer: `std::pair<uint64, uint64>`. -/
abbrev MatchCell := Nat × Nat

/-- The state of a `Vm` object. -/
structure Vm where
  Prog : Program
  Active : ThreadList
  Next : ThreadList
  First : Byte → Bool
  CheckStates : List Bool
  Matches : List MatchCell

/-! ## `Vm::init` -/

/-- The loop of `Vm::init` (lines 20-26): the largest operand of a `MATCH_OP`
in the program, starting from 0. -/
def maxMatchLabel : Program → Nat → Nat
  | [], numPatterns => numPatterns
  | Instruction.MATCH_OP l :: rest, numPatterns =>
      maxMatchLabel rest (if numPatterns < l then l else numPatterns)
  | _ :: rest, numPatterns => maxMatchLabel rest numPatterns

/-- `Vm::init` (lines 13-30). `numPatterns` is a `uint32`, so `++numPatterns`
wraps at `2 ^ 32`. -/
def Vm.init (prog : Program) (firstBytes : Byte → Bool) (numCheckedStates : Nat) : Vm :=
  let numPatterns := (maxMatchLabel prog 0 + 1) % 2 ^ 32
  { Prog := prog
    Active := []
    Next := []
    First := firstBytes
    CheckStates := List.replicate numCheckedStates false
    Matches := List.replicate numPatterns (UNALLOCATED, 0) }

/-! ## `Vm::execute` and `executeEpsilons` -/

/-- What one call of `execute` leaves behind: the returned flag and the
objects it received by reference. -/
structure ExecResult where
  ret : Bool
  t : Thread
  checkStates : List Bool
  active : ThreadList
  next : ThreadList
  deriving DecidableEq, Repr

/-- Read of `t.PC->...`: the instruction the thread points at. -/
def fetch (prog : Program) (t : Thread) : Except Fault (Nat × Instruction) :=
  match t.PC with
  | none => .error .nullPointer
  | some pc =>
    match prog[pc]? with
    | none => .error .outOfBounds
    | some ins => .ok (pc, ins)

/-- The body shared by the `CHECK_BRANCH_OP` cases (lines 87-96 and 138-147). -/
def checkBranch (idx : Nat) (t : Thread) (checkStates : List Bool)
    (active next : ThreadList) : Except Fault ExecResult :=
  match checkStates[idx]? with
  | none => .error .outOfBounds
  | some true => .ok ⟨true, t.advance.advance, checkStates, active, next⟩
  | some false =>
      .ok ⟨true, t.advance, (checkStates.set idx true).set 0 true, active, next⟩

/-- The body shared by the `CHECK_HALT_OP` cases (lines 97-107 and 148-158). -/
def checkHalt (idx : Nat) (t : Thread) (checkStates : List Bool)
    (active next : ThreadList) : Except Fault ExecResult :=
  match checkStates[idx]? with
  | none => .error .outOfBounds
  | some true => .ok ⟨false, { t with PC := none }, checkStates, active, next⟩
  | some false =>
      .ok ⟨true, t.advance, (checkStates.set idx true).set 0 true, active, next⟩

/-- `Vm::execute` (lines 32-119): one instruction of thread `t` on the input
byte `cur` at absolute offset `offset`. -/
def Vm.execute (prog : Program) (t : Thread) (checkStates : List Bool)
    (active next : ThreadList) (cur : Byte) (offset : Nat) : Except Fault ExecResult :=
  match fetch prog t with
  | .error e => .error e
  | .ok (pc, ins) =>
    match ins with
    | .LIT_OP b =>
        if cur = b then .ok ⟨false, t.advance, checkStates, active, next ++ [t.advance]⟩
        else .ok ⟨false, { t with PC := none }, checkStates, active, next⟩
    | .EITHER_OP a b =>
        if cur = a ∨ cur = b then
          .ok ⟨false, t.advance, checkStates, active, next ++ [t.advance]⟩
        else .ok ⟨false, { t with PC := none }, checkStates, active, next⟩
    | .RANGE_OP lo hi =>
        if lo ≤ cur ∧ cur ≤ hi then
          .ok ⟨false, t.advance, checkStates, active, next ++ [t.advance]⟩
        else .ok ⟨false, { t with PC := none }, checkStates, active, next⟩
    | .JUMP_OP addr => .ok ⟨true, t.jump 0 addr, checkStates, active, next⟩
    | .JUMP_TABLE_OP =>
        let nextT := Thread.fork t pc (1 + cur)
        match prog[pc + (1 + cur)]? with
        | none => .error .outOfBounds
        | some slot =>
          if slot ≠ .HALT_OP then .ok ⟨false, t, checkStates, active, next ++ [nextT]⟩
          else .ok ⟨false, { t with PC := none }, checkStates, active, next⟩
    | .FORK_OP addr =>
        .ok ⟨true, t.advance, checkStates, active ++ [Thread.fork t 0 addr], next⟩
    | .CHECK_BRANCH_OP idx => checkBranch idx t checkStates active next
    | .CHECK_HALT_OP idx => checkHalt idx t checkStates active next
    | .MATCH_OP l =>
        .ok ⟨true, { t with Label := l, End := offset }.advance, checkStates, active, next⟩
    | .HALT_OP => .ok ⟨false, { t with PC := none }, checkStates, active, next⟩

/-- `executeEpsilons` (lines 121-169): one instruction of thread `t` after the
last byte of the block; byte-consuming instructions are not executed. -/
def executeEpsilons (prog : Program) (t : Thread) (checkStates : List Bool)
    (active next : ThreadList) (offset : Nat) : Except Fault ExecResult :=
  match fetch prog t with
  | .error e => .error e
  | .ok (_, ins) =>
    match ins with
    | .LIT_OP _ | .EITHER_OP _ _ | .RANGE_OP _ _ | .JUMP_TABLE_OP =>
        .ok ⟨false, t, checkStates, active, next ++ [t]⟩
    | .JUMP_OP addr => .ok ⟨true, t.jump 0 addr, checkStates, active, next⟩
    | .FORK_OP addr =>
        .ok ⟨true, t.advance, checkStates, active ++ [Thread.fork t 0 addr], next⟩
    | .CHECK_BRANCH_OP idx => checkBranch idx t checkStates active next
    | .CHECK_HALT_OP idx => checkHalt idx t checkStates active next
    | .MATCH_OP l =>
        .ok ⟨true, { t with Label := l, End := offset }.advance, checkStates, active, next⟩
    | .HALT_OP => .ok ⟨false, { t with PC := none }, checkStates, active, next⟩

/-! ## `Vm::search` -/

/-- The hit reconciliation of `Vm::search` for the thread just run (lines
186-200, and again lines 214-226): the match buffer and the hits collected so
far, before and after. -/
def reconcile (t : Thread) (offset : Nat) (cells : List MatchCell)
    (hits : List SearchHit) : Except Fault (List MatchCell × List SearchHit) :=
  if t.End = offset then
    match cells[t.Label]? with
    | none => .error .outOfBounds
    | some lastHit =>
      if lastHit.1 = UNALLOCATED ∨ (lastHit.1 = t.Start ∧ lastHit.2 < t.End) then
        .ok (cells.set t.Label (t.Start, t.End), hits)
      else if lastHit.2 ≤ t.Start then
        .ok (cells.set t.Label (t.Start, t.End),
              hits ++ [⟨lastHit.1, sub64 lastHit.2 lastHit.1, t.Label⟩])
      else .ok (cells, hits)
  else .ok (cells, hits)

/-- The loop `while (execute(...)) ;` of line 184, on the thread `t`. Every
call of `execute` uses one unit of fuel. -/
def runThread (prog : Program) (cur : Byte) (offset : Nat) :
    Nat → Thread → List Bool → ThreadList → ThreadList → Except Fault ExecResult
  | 0, _, _, _, _ => .error .outOfFuel
  | fuel + 1, t, checkStates, active, next =>
    match Vm.execute prog t checkStates active next cur offset with
    | .error e => .error e
    | .ok r =>
      if r.ret then runThread prog cur offset fuel r.t r.checkStates r.active r.next
      else .ok r

/-- The loop `while (executeEpsilons(...)) ;` of line 213. -/
def runThreadEpsilons (prog : Program) (offset : Nat) :
    Nat → Thread → List Bool → ThreadList → ThreadList → Except Fault ExecResult
  | 0, _, _, _, _ => .error .outOfFuel
  | fuel + 1, t, checkStates, active, next =>
    match executeEpsilons prog t checkStates active next offset with
    | .error e => .error e
    | .ok r =>
      if r.ret then runThreadEpsilons prog offset fuel r.t r.checkStates r.active r.next
      else .ok r

/-- The loop over the active list (lines 181-201 with `step = runThread`, lines
211-227 with `step = runThreadEpsilons`), from index `i` on. The thread
`Active[i]` is run in place, then reconciled. The list can grow while the loop
runs; every iteration uses one unit of the first fuel argument. -/
def activeLoop
    (step : Thread → List Bool → ThreadList → ThreadList → Except Fault ExecResult)
    (offset : Nat) : Nat → Nat → Vm → List SearchHit → Except Fault (Vm × List SearchHit)
  | 0, i, vm, hits =>
    if i < vm.Active.length then .error .outOfFuel else .ok (vm, hits)
  | fuel + 1, i, vm, hits =>
    match vm.Active[i]? with
    | none => .ok (vm, hits)
    | some t =>
      match step t vm.CheckStates vm.Active vm.Next with
      | .error e => .error e
      | .ok r =>
        match reconcile r.t offset vm.Matches hits with
        | .error e => .error e
        | .ok (cells, hits1) =>
          activeLoop step offset fuel (i + 1)
            { vm with Active := r.active.set i r.t, Next := r.next,
                      CheckStates := r.checkStates, Matches := cells } hits1

/-- Lines 205-207 and 239-241: when the dirty flag `CheckStates[0]` is set,
all check bits are cleared. -/
def clearCheckStates (checkStates : List Bool) : Except Fault (List Bool) :=
  match checkStates[0]? with
  | none => .error .outOfBounds
  | some true => .ok (List.replicate checkStates.length false)
  | some false => .ok checkStates

/-- One iteration of the loop over the input (lines 177-207) for the byte
`cur` at absolute offset `offset`. -/
def byteStep (fuel : Nat) (vm : Vm) (cur : Byte) (offset : Nat) (hits : List SearchHit) :
    Except Fault (Vm × List SearchHit) :=
  let vm1 : Vm :=
    if vm.First cur then { vm with Active := vm.Active ++ [⟨some 0, 0, offset, UNALLOCATED⟩] }
    else vm
  match activeLoop (runThread vm1.Prog cur offset fuel) offset fuel 0 vm1 hits with
  | .error e => .error e
  | .ok (vm2, hits2) =>
    match clearCheckStates vm2.CheckStates with
    | .error e => .error e
    | .ok cs => .ok ({ vm2 with Active := vm2.Next, Next := [], CheckStates := cs }, hits2)

/-- The loop over the input (lines 176-208): the machine, the offset and the
hits after the bytes of `input` have been consumed. -/
def byteLoop (fuel : Nat) :
    List Byte → Vm → Nat → List SearchHit → Except Fault (Vm × Nat × List SearchHit)
  | [], vm, offset, hits => .ok (vm, offset, hits)
  | cur :: rest, vm, offset, hits =>
    match byteStep fuel vm cur offset hits with
    | .error e => .error e
    | .ok (vm1, hits1) => byteLoop fuel rest vm1 (inc64 offset) hits1

/-- The final loop over the match buffer (lines 228-236), from index `i` on:
every cell whose first component is below `UNALLOCATED` is emitted and reset. -/
def flushLoop : Nat → Nat → List MatchCell → List SearchHit → List MatchCell × List SearchHit
  | 0, _, cells, hits => (cells, hits)
  | n + 1, i, cells, hits =>
    match cells[i]? with
    | none => (cells, hits)
    | some cell =>
      if cell.1 < UNALLOCATED then
        flushLoop n (i + 1) (cells.set i (UNALLOCATED, 0))
          (hits ++ [⟨cell.1, sub64 cell.2 cell.1, i⟩])
      else flushLoop n (i + 1) cells hits

/-- The value `Vm::search` returns together with what it leaves behind: the
state of the machine and the hits handed to the callback, in order. -/
structure SearchResult where
  ret : Bool
  vm : Vm
  hits : List SearchHit

/-- `Vm::search` (lines 171-243) on the block `input` whose first byte has the
absolute offset `startOffset`. -/
def Vm.search (fuel : Nat) (vm : Vm) (input : List Byte) (startOffset : Nat) :
    Except Fault SearchResult :=
  match byteLoop fuel input vm startOffset [] with
  | .error e => .error e
  | .ok (vm1, offset, hits1) =>
    match activeLoop (runThreadEpsilons vm1.Prog offset fuel) offset fuel 0 vm1 hits1 with
    | .error e => .error e
    | .ok (vm2, hits2) =>
      let flushed := flushLoop vm2.Matches.length 0 vm2.Matches hits2
      match clearCheckStates vm2.CheckStates with
      | .error e => .error e
      | .ok cs =>
        .ok { ret := 0 < vm2.Next.length
              vm := { vm2 with Active := vm2.Next, Next := [], CheckStates := cs,
                               Matches := flushed.1 }
              hits := flushed.2 }

/-- The hits of a run, when it has a result. -/
def hitsOf (r : Except Fault SearchResult) : Option (List SearchHit) :=
  match r with
  | .ok res => some res.hits
  | .error _ => none

/-! ## The NFA graph (`dynamicFSM.h`) -/

/-- A set of bytes (`ByteSet`, a 256-bit set in the source) by its membership
test. -/
abbrev ByteSet := Byte → Bool

/-- The predicate of a state. Modelled from the spec: the `Transition` classes
(`transition.h`, `states.h`) are not part of the sources at hand; the spec
gives the variants literal byte, byte pair and byte range, one for each of the
byte-consuming opcodes. -/
inductive Predicate where
  | LitState (b : Byte)
  | EitherState (a b : Byte)
  | RangeState (first last : Byte)
  deriving DecidableEq, Repr

/-- The value of `Transition::Label` that stands for "no label". -/
def NOLABEL : Nat := 0xffffffff

/-- A `Transition`: its predicate and its match label (`NOLABEL` for none). -/
structure Transition where
  Pred : Predicate
  Label : Nat
  deriving DecidableEq, Repr

/-- The bytes a predicate accepts. Modelled from the spec: literal byte `b`
accepts `b`, the pair accepts either of its bytes, the range accepts the bytes
from `first` to `last`, both included. -/
def Predicate.accepts : Predicate → Byte → Bool
  | .LitState b, c => decide (c = b)
  | .EitherState a b, c => decide (c = a ∨ c = b)
  | .RangeState first last, c => decide (first ≤ c ∧ c ≤ last)

/-- Modelled from the spec: `Transition::getBits` sets, in the byte set it is
given, the bit of every byte the predicate accepts. -/
def Transition.getBits (t : Transition) (bits : ByteSet) : ByteSet :=
  fun c => bits c || t.Pred.accepts c

/-- Modelled from the spec: `Transition::toInstruction` writes the one
instruction that tests the predicate (`numInstructions` is 1). -/
def Transition.toInstruction (t : Transition) : Instruction :=
  match t.Pred with
  | .LitState b => .LIT_OP b
  | .EitherState a b => .EITHER_OP a b
  | .RangeState first last => .RANGE_OP first last

/-- Modelled from the spec: `Transition::numInstructions`, one slot for the
transition opcode. -/
def Transition.numInstructions (_t : Transition) : Nat := 1

/-- `DynamicFSM::AdjacentList`: the discriminant `Flags` (`ZERO = 0`,
`ONE = 1`, `MANY = 2`) and `What`, the neighbour itself for `ONE` and the row
of the side table for `MANY`. -/
structure AdjacentList where
  What : Nat
  Flags : Nat
  deriving DecidableEq, Repr

/-- `DynamicFSM::Vertex`. A null `Tran` is `none`. -/
structure Vertex where
  Tran : Option Transition
  In : AdjacentList
  Out : AdjacentList
  deriving DecidableEq, Repr

/-- `DynamicFSM`: the vertices and the side table `AdjLists`. -/
structure DynamicFSM where
  AdjLists : List (List Nat)
  Vertices : List Vertex
  deriving DecidableEq, Repr

/-- `DynamicFSM::numVertices`. -/
def DynamicFSM.numVertices (g : DynamicFSM) : Nat := g.Vertices.length

/-- The neighbours an `AdjacentList` stands for, in iteration order. Modelled
from the spec: the iterators of `dynamicFSM.h` are only declared in the sources
at hand; the spec gives the three cases empty, one neighbour stored inline,
and a row of the side table. -/
def DynamicFSM.neighbours (g : DynamicFSM) (l : AdjacentList) : Except Fault (List Nat) :=
  match l.Flags with
  | 0 => .ok []
  | 1 => .ok [l.What]
  | _ =>
    match g.AdjLists[l.What]? with
    | none => .error .outOfBounds
    | some row => .ok row

/-- The out-neighbours of `v` in iteration order (`out_edges(v, graph)` with
`target`). -/
def DynamicFSM.outVertices (g : DynamicFSM) (v : Nat) : Except Fault (List Nat) :=
  match g.Vertices[v]? with
  | none => .error .outOfBounds
  | some vert => g.neighbours vert.Out

/-- The transition of a vertex that is dereferenced (`graph[v]->...`). -/
def DynamicFSM.tran (g : DynamicFSM) (v : Nat) : Except Fault Transition :=
  match g.Vertices[v]? with
  | none => .error .outOfBounds
  | some vert =>
    match vert.Tran with
    | none => .error .nullPointer
    | some t => .ok t

/-! ## First-byte analysis (`utility.cpp`, lines 254-269) -/

/-- The loop of `nextBytes` over the out-edges (lines 257-261). -/
def nextBytesLoop (g : DynamicFSM) : List Nat → ByteSet → Except Fault ByteSet
  | [], set => .ok set
  | target :: rest, set =>
    match g.tran target with
    | .error e => .error e
    | .ok t =>
      let tBits : ByteSet := t.getBits (fun _ => false)
      nextBytesLoop g rest (fun c => set c || tBits c)

/-- `nextBytes(set, v, graph)`: the set after the call. -/
def nextBytes (set : ByteSet) (v : Nat) (g : DynamicFSM) : Except Fault ByteSet :=
  match g.outVertices v with
  | .error e => .error e
  | .ok targets => nextBytesLoop g targets set

/-- `firstBytes(graph)`. -/
def firstBytes (g : DynamicFSM) : Except Fault ByteSet :=
  nextBytes (fun _ => false) 0 g

/-! ## Code generator (`utility.cpp`, lines 130-224 and 281-304) -/

/-- One pass of the inner loop of `pivotStates` (lines 289-293) for the target
`t` with accepted bytes `permitted`: `t` is appended to row `i` when the byte
`i` is accepted and the row does not yet hold `t`. The rows are walked from
index `i` on. -/
def pivotRows (permitted : ByteSet) (t : Nat) : Nat → List (List Nat) → List (List Nat)
  | _, [] => []
  | i, row :: rest =>
    (if permitted i = true ∧ t ∉ row then row ++ [t] else row) ::
      pivotRows permitted t (i + 1) rest

/-- The loop of `pivotStates` over the out-edges (lines 285-294). -/
def pivotStatesLoop (g : DynamicFSM) : List Nat → List (List Nat) → Except Fault (List (List Nat))
  | [], ret => .ok ret
  | t :: rest, ret =>
    match g.tran t with
    | .error e => .error e
    | .ok tr => pivotStatesLoop g rest (pivotRows (tr.getBits (fun _ => false)) t 0 ret)

/-- `pivotStates(source, graph)`. -/
def pivotStates (source : Nat) (g : DynamicFSM) : Except Fault (List (List Nat)) :=
  match g.outVertices source with
  | .error e => .error e
  | .ok targets => pivotStatesLoop g targets (List.replicate 256 [])

/-- The loop of `maxOutbound` (lines 300-302). -/
def maxOutboundLoop : List (List Nat) → Nat → Nat
  | [], ret => ret
  | row :: rest, ret => maxOutboundLoop rest (if row.length > ret then row.length else ret)

/-- `maxOutbound(tranTable)`. -/
def maxOutbound (tranTable : List (List Nat)) : Nat := maxOutboundLoop tranTable 0

/-- `StateLayoutInfo`, the layout of the snippet of one state. The type is
declared outside the sources at hand; the fields are the ones `utility.cpp`
reads. An unallocated `CheckIndex` (`UNALLOCATED` in the source) is `none`. -/
structure StateLayoutInfo where
  Start : Nat
  NumEval : Nat
  NumOther : Nat
  CheckIndex : Option Nat
  deriving DecidableEq, Repr

/-- Modelled from the spec: `StateLayoutInfo::numTotal`, the size of the
snippet, evaluation slots and the others. -/
def StateLayoutInfo.numTotal (info : StateLayoutInfo) : Nat := info.NumEval + info.NumOther

/-- `CodeGenHelper`, the result of the layout pass (`specialVisit` with a
`CodeGenVisitor`), which is not part of the sources at hand: `createProgram`
takes it as an argument here. -/
structure CodeGenHelper where
  Snippets : List StateLayoutInfo
  DiscoverRanks : List Nat
  Guard : Nat
  NumChecked : Nat
  deriving DecidableEq, Repr

/-- Read of `cg->Snippets[v]`. -/
def CodeGenHelper.snippet (cg : CodeGenHelper) (v : Nat) : Except Fault StateLayoutInfo :=
  match cg.Snippets[v]? with
  | none => .error .outOfBounds
  | some info => .ok info

/-- Read of `cg->DiscoverRanks[v]`. -/
def CodeGenHelper.rank (cg : CodeGenHelper) (v : Nat) : Except Fault Nat :=
  match cg.DiscoverRanks[v]? with
  | none => .error .outOfBounds
  | some r => .ok r

/-- The statement `*curOp++ = ins`: the program and the pointer afterwards. -/
def writeOp (prog : Program) (curOp : Nat) (ins : Instruction) : Except Fault (Program × Nat) :=
  if curOp < prog.length then .ok (prog.set curOp ins, curOp + 1) else .error .outOfBounds

/-- The inner loop of `createJumpTable` (lines 145-148) over the targets of
one byte: a `FORK` for each target but the last, a `JUMP` for the last. -/
def indirectLoop (cg : CodeGenHelper) : List Nat → Program → Nat → Except Fault (Program × Nat)
  | [], prog, indirectTbl => .ok (prog, indirectTbl)
  | t :: rest, prog, indirectTbl =>
    match cg.snippet t with
    | .error e => .error e
    | .ok info =>
      match writeOp prog indirectTbl
          (if rest = [] then .JUMP_OP (info.Start + info.NumEval)
           else .FORK_OP (info.Start + info.NumEval)) with
      | .error e => .error e
      | .ok (prog1, indirectTbl1) => indirectLoop cg rest prog1 indirectTbl1

/-- The loop of `createJumpTable` over the 256 rows (lines 135-150). -/
def jumpTableLoop (cg : CodeGenHelper) (base baseIndex : Nat) :
    List (List Nat) → Program → Nat → Nat → Except Fault (Program × Nat × Nat)
  | [], prog, cur, indirectTbl => .ok (prog, cur, indirectTbl)
  | row :: rest, prog, cur, indirectTbl =>
    match row with
    | [] =>
      match writeOp prog cur .HALT_OP with
      | .error e => .error e
      | .ok (prog1, cur1) => jumpTableLoop cg base baseIndex rest prog1 cur1 indirectTbl
    | [t] =>
      match cg.snippet t with
      | .error e => .error e
      | .ok info =>
        match writeOp prog cur (.JUMP_OP (info.Start + info.NumEval)) with
        | .error e => .error e
        | .ok (prog1, cur1) => jumpTableLoop cg base baseIndex rest prog1 cur1 indirectTbl
    | _ =>
      match writeOp prog cur (.JUMP_OP (baseIndex + (indirectTbl - base))) with
      | .error e => .error e
      | .ok (prog1, cur1) =>
        match indirectLoop cg row prog1 indirectTbl with
        | .error e => .error e
        | .ok (prog2, indirectTbl2) =>
          jumpTableLoop cg base baseIndex rest prog2 cur1 indirectTbl2

/-- `createJumpTable(cg, base, baseIndex, v, graph)`: the program after the
call. (The diagnostic of lines 151-153 only prints.) -/
def createJumpTable (cg : CodeGenHelper) (prog : Program) (base baseIndex : Nat) (v : Nat)
    (g : DynamicFSM) : Except Fault Program :=
  match writeOp prog base .JUMP_TABLE_OP with
  | .error e => .error e
  | .ok (prog1, cur) =>
    match pivotStates v g with
    | .error e => .error e
    | .ok tbl =>
      match jumpTableLoop cg base baseIndex tbl prog1 cur (base + 257) with
      | .error e => .error e
      | .ok (prog2, _, _) => .ok prog2

/-- The variables of the loop over the out-edges in `createProgram`. -/
structure TailState where
  prog : Program
  curOp : Nat
  hasTargetAtNext : Bool
  nextTarget : Nat
  deriving DecidableEq, Repr

/-- The loop of `createProgram` over the out-edges of `v` (lines 185-213). The
edge at hand is the last one (`next == outRange.second`) when no edge is left
after it. -/
def tailLoop (cg : CodeGenHelper) (v : Nat) : List Nat → TailState → Except Fault TailState
  | [], st => .ok st
  | curTarget :: rest, st =>
    match cg.rank v, cg.rank curTarget with
    | .error e, _ => .error e
    | _, .error e => .error e
    | .ok rv, .ok rt =>
      if rv + 1 ≠ rt then
        match cg.snippet curTarget with
        | .error e => .error e
        | .ok info =>
          let last : Bool := decide (rest = []) && !st.hasTargetAtNext
          let guarded : Except Fault (Program × Nat) :=
            match info.CheckIndex with
            | some idx =>
              writeOp st.prog st.curOp
                (if last then .CHECK_HALT_OP idx else .CHECK_BRANCH_OP idx)
            | none => .ok (st.prog, st.curOp)
          match guarded with
          | .error e => .error e
          | .ok (prog1, curOp1) =>
            match writeOp prog1 curOp1
                (if last then .JUMP_OP info.Start else .FORK_OP info.Start) with
            | .error e => .error e
            | .ok (prog2, curOp2) =>
              tailLoop cg v rest { st with prog := prog2, curOp := curOp2 }
      else tailLoop cg v rest { st with hasTargetAtNext := true, nextTarget := curTarget }

/-- The transition part of a snippet (lines 167-176): the instruction of the
predicate, then `MATCH` when the state has a label. -/
def writeTransition (prog : Program) (curOp : Nat) (tran : Option Transition) :
    Except Fault (Program × Nat) :=
  match tran with
  | none => .ok (prog, curOp)
  | some t =>
    match writeOp prog curOp t.toInstruction with
    | .error e => .error e
    | .ok (prog1, _) =>
      let curOp1 := curOp + t.numInstructions
      if t.Label < NOLABEL then writeOp prog1 curOp1 (.MATCH_OP t.Label)
      else .ok (prog1, curOp1)

/-- The body of the loop of `createProgram` for the vertex `v` (lines 165-221). -/
def vertexStep (g : DynamicFSM) (cg : CodeGenHelper) (v : Nat) (prog : Program) :
    Except Fault Program :=
  match cg.snippet v, g.Vertices[v]? with
  | .error e, _ => .error e
  | _, none => .error .outOfBounds
  | .ok info, some vert =>
    match writeTransition prog info.Start vert.Tran with
    | .error e => .error e
    | .ok (prog1, curOp) =>
      if info.numTotal > 256 then createJumpTable cg prog1 curOp curOp v g
      else
        match g.outVertices v with
        | .error e => .error e
        | .ok targets =>
          if targets ≠ [] then
            match tailLoop cg v targets ⟨prog1, curOp, false, 0⟩ with
            | .error e => .error e
            | .ok st =>
              if st.hasTargetAtNext then
                match cg.snippet st.nextTarget with
                | .error e => .error e
                | .ok ninfo =>
                  match ninfo.CheckIndex with
                  | some idx =>
                    match writeOp st.prog st.curOp (.CHECK_HALT_OP idx) with
                    | .error e => .error e
                    | .ok (prog2, _) => .ok prog2
                  | none => .ok st.prog
              else .ok st.prog
          else
            match writeOp prog1 curOp .HALT_OP with
            | .error e => .error e
            | .ok (prog2, _) => .ok prog2

/-- The loop of `createProgram` over the vertices (line 164): `n` vertices are
left, the next one is `v`. -/
def vertexLoop (g : DynamicFSM) (cg : CodeGenHelper) : Nat → Nat → Program → Except Fault Program
  | 0, _, prog => .ok prog
  | n + 1, v, prog =>
    match vertexStep g cg v prog with
    | .error e => .error e
    | .ok prog1 => vertexLoop g cg n (v + 1) prog1

/-- What `createProgram` returns: the instructions and `NumChecked`. -/
structure ProgramImage where
  Code : Program
  NumChecked : Nat
  deriving DecidableEq, Repr

/-- `createProgram(graph)` (lines 156-224). The layout `cg` is what
`specialVisit(graph, 0, vis)` leaves in the helper; `fill` is the content of a
slot after `ret->resize(cg->Guard)` (a default-constructed instruction). -/
def createProgram (g : DynamicFSM) (cg : CodeGenHelper) (fill : Instruction) :
    Except Fault ProgramImage :=
  match vertexLoop g cg g.numVertices 0 (List.replicate cg.Guard fill) with
  | .error e => .error e
  | .ok code => .ok ⟨code, cg.NumChecked⟩

/-! ## Concrete programs and graphs used below -/

/-- A vertex list entry with the given transition, in-list and out-list. -/
def mkVertex (tran : Option Transition) (inl outl : AdjacentList) : Vertex :=
  ⟨tran, inl, outl⟩

/-- The empty adjacency list (`Flags = ZERO`, `What = 0xFFFFFFFF`). -/
def adjZero : AdjacentList := ⟨0xFFFFFFFF, 0⟩

/-- The adjacency list with the one neighbour `v` (`Flags = ONE`). -/
def adjOne (v : Nat) : AdjacentList := ⟨v, 1⟩

/-- The graph of the pattern "abc" with label 0: start state 0, then the chain
`a`, `b`, `c`, the last state carrying the label. -/
def graphABC : DynamicFSM :=
  { AdjLists := []
    Vertices :=
      [ mkVertex none adjZero (adjOne 1),
        mkVertex (some ⟨.LitState 97, NOLABEL⟩) (adjOne 0) (adjOne 2),
        mkVertex (some ⟨.LitState 98, NOLABEL⟩) (adjOne 1) (adjOne 3),
        mkVertex (some ⟨.LitState 99, 0⟩) (adjOne 2) adjZero ] }

/-- The layout of `graphABC`: states in discovery order, the start state with
an empty snippet, no check index. -/
def layoutABC : CodeGenHelper :=
  { Snippets := [⟨0, 0, 0, none⟩, ⟨0, 1, 0, none⟩, ⟨1, 1, 0, none⟩, ⟨2, 2, 1, none⟩]
    DiscoverRanks := [0, 1, 2, 3]
    Guard := 5
    NumChecked := 1 }

/-- The program of scenario S1. -/
def progABC : Program := [.LIT_OP 97, .LIT_OP 98, .LIT_OP 99, .MATCH_OP 0, .HALT_OP]

/-- The graph of the patterns "ab" (label 0) and "abc" (label 1) with the
common prefix shared (the determinised graph): the chain `a`, `b`, `c`. -/
def graphS2 : DynamicFSM :=
  { AdjLists := []
    Vertices :=
      [ mkVertex none adjZero (adjOne 1),
        mkVertex (some ⟨.LitState 97, NOLABEL⟩) (adjOne 0) (adjOne 2),
        mkVertex (some ⟨.LitState 98, 0⟩) (adjOne 1) (adjOne 3),
        mkVertex (some ⟨.LitState 99, 1⟩) (adjOne 2) adjZero ] }

/-- The layout of `graphS2`. -/
def layoutS2 : CodeGenHelper :=
  { Snippets := [⟨0, 0, 0, none⟩, ⟨0, 1, 0, none⟩, ⟨1, 2, 0, none⟩, ⟨3, 2, 1, none⟩]
    DiscoverRanks := [0, 1, 2, 3]
    Guard := 6
    NumChecked := 1 }

/-- The program of scenario S2 for the determinised graph. -/
def progS2 : Program :=
  [.LIT_OP 97, .LIT_OP 98, .MATCH_OP 0, .LIT_OP 99, .MATCH_OP 1, .HALT_OP]

/-- The graph of the patterns "ab" (label 0) and "abc" (label 1) as two
separate chains below the start state (the merged graph, not determinised). -/
def graphS2Nfa : DynamicFSM :=
  { AdjLists := [[1, 3]]
    Vertices :=
      [ mkVertex none adjZero ⟨0, 2⟩,
        mkVertex (some ⟨.LitState 97, NOLABEL⟩) (adjOne 0) (adjOne 2),
        mkVertex (some ⟨.LitState 98, 0⟩) (adjOne 1) adjZero,
        mkVertex (some ⟨.LitState 97, NOLABEL⟩) (adjOne 0) (adjOne 4),
        mkVertex (some ⟨.LitState 98, NOLABEL⟩) (adjOne 3) (adjOne 5),
        mkVertex (some ⟨.LitState 99, 1⟩) (adjOne 4) adjZero ] }

/-- The layout of `graphS2Nfa`. -/
def layoutS2Nfa : CodeGenHelper :=
  { Snippets := [⟨0, 0, 1, none⟩, ⟨1, 1, 0, none⟩, ⟨2, 2, 1, none⟩,
                 ⟨5, 1, 0, none⟩, ⟨6, 1, 0, none⟩, ⟨7, 2, 1, none⟩]
    DiscoverRanks := [0, 1, 2, 3, 4, 5]
    Guard := 10
    NumChecked := 1 }

/-- The program of scenario S2 for the graph that is not determinised. -/
def progS2Nfa : Program :=
  [.FORK_OP 5, .LIT_OP 97, .LIT_OP 98, .MATCH_OP 0, .HALT_OP,
   .LIT_OP 97, .LIT_OP 98, .LIT_OP 99, .MATCH_OP 1, .HALT_OP]

/-- The graph of the one pattern "abcde|cd" with label 0: the chain `a`, `b`,
`c`, `d`, `e` and the chain `c`, `d` below the start state. -/
def graphAlt : DynamicFSM :=
  { AdjLists := [[1, 6]]
    Vertices :=
      [ mkVertex none adjZero ⟨0, 2⟩,
        mkVertex (some ⟨.LitState 97, NOLABEL⟩) (adjOne 0) (adjOne 2),
        mkVertex (some ⟨.LitState 98, NOLABEL⟩) (adjOne 1) (adjOne 3),
        mkVertex (some ⟨.LitState 99, NOLABEL⟩) (adjOne 2) (adjOne 4),
        mkVertex (some ⟨.LitState 100, NOLABEL⟩) (adjOne 3) (adjOne 5),
        mkVertex (some ⟨.LitState 101, 0⟩) (adjOne 4) adjZero,
        mkVertex (some ⟨.LitState 99, NOLABEL⟩) (adjOne 0) (adjOne 7),
        mkVertex (some ⟨.LitState 100, 0⟩) (adjOne 6) adjZero ] }

/-- The layout of `graphAlt`. -/
def layoutAlt : CodeGenHelper :=
  { Snippets := [⟨0, 0, 1, none⟩, ⟨1, 1, 0, none⟩, ⟨2, 1, 0, none⟩, ⟨3, 1, 0, none⟩,
                 ⟨4, 1, 0, none⟩, ⟨5, 2, 1, none⟩, ⟨8, 1, 0, none⟩, ⟨9, 2, 1, none⟩]
    DiscoverRanks := [0, 1, 2, 3, 4, 5, 6, 7]
    Guard := 12
    NumChecked := 1 }

/-- The program of the pattern "abcde|cd". -/
def progAlt : Program :=
  [.FORK_OP 8, .LIT_OP 97, .LIT_OP 98, .LIT_OP 99, .LIT_OP 100, .LIT_OP 101, .MATCH_OP 0,
   .HALT_OP, .LIT_OP 99, .LIT_OP 100, .MATCH_OP 0, .HALT_OP]

/-- The determinised graph of the patterns "ab" (label 0) and "a" (label 1):
the chain `a`, `b`. -/
def graphOrder : DynamicFSM :=
  { AdjLists := []
    Vertices :=
      [ mkVertex none adjZero (adjOne 1),
        mkVertex (some ⟨.LitState 97, 1⟩) (adjOne 0) (adjOne 2),
        mkVertex (some ⟨.LitState 98, 0⟩) (adjOne 1) adjZero ] }

/-- The layout of `graphOrder`. -/
def layoutOrder : CodeGenHelper :=
  { Snippets := [⟨0, 0, 0, none⟩, ⟨0, 2, 0, none⟩, ⟨2, 2, 1, none⟩]
    DiscoverRanks := [0, 1, 2]
    Guard := 5
    NumChecked := 1 }

/-- The program of the patterns "ab" (label 0) and "a" (label 1). -/
def progOrder : Program :=
  [.LIT_OP 97, .MATCH_OP 1, .LIT_OP 98, .MATCH_OP 0, .HALT_OP]

/-- The first-byte set that holds the one byte `b`. -/
def singleByte (b : Byte) : ByteSet := fun c => decide (c = b)

/-- The first-byte set of `graphAlt`: the bytes `a` and `c`. -/
def firstAlt : ByteSet := fun c => decide (c = 97 ∨ c = 99)

/-- The hit the final loop of `Vm::search` emits for the cell `p.2` at index
`p.1` (lines 229-233), if it emits one. -/
def flushHit (p : Nat × MatchCell) : Option SearchHit :=
  if p.2.1 < UNALLOCATED then some ⟨p.2.1, sub64 p.2.2 p.2.1, p.1⟩ else none

/-- The cell the final loop of `Vm::search` leaves in place of `c` (line 234). -/
def flushCell (c : MatchCell) : MatchCell :=
  if c.1 < UNALLOCATED then (UNALLOCATED, 0) else c

/-- Two consecutive calls of `Vm::search` on one machine, as
`SearchController::searchFile` makes them: the block `input[0:k]` at offset 0,
then the block `input[k:]` at offset `k` on the machine the first call left.
The hits of both calls, in order. -/
def searchTwoBlocks (fuel : Nat) (vm : Vm) (input : List Byte) (k : Nat) :
    Except Fault (List SearchHit) :=
  match Vm.search fuel vm (input.take k) 0 with
  | .error e => .error e
  | .ok r1 =>
    match Vm.search fuel r1.vm (input.drop k) k with
    | .error e => .error e
    | .ok r2 => .ok (r1.hits ++ r2.hits)

/-- The hits of a whole-input search as a result value, for comparison with
`searchTwoBlocks`. -/
def searchOneBlock (fuel : Nat) (vm : Vm) (input : List Byte) : Except Fault (List SearchHit) :=
  match Vm.search fuel vm input 0 with
  | .error e => .error e
  | .ok r => .ok r.hits

/-! ## Seeding and first bytes: definitions -/

/-- The result `r` of a step with the threads `a` put in front of the active
list it returns. -/
def ExecResult.prepend (a : ThreadList) (r : ExecResult) : ExecResult :=
  { r with active := a ++ r.active }

/-- The variables of the loop over the active list that outlive it: the check
bits, the next list, the match buffer and the hits. -/
structure LoopState where
  cs : List Bool
  next : ThreadList
  cells : List MatchCell
  hits : List SearchHit

/-- The loop over the active list as a queue: `pending` is the part of the
active list not yet visited, threads that a step appends join its end. It
computes what `activeLoop` computes (`activeLoop_eq_queueLoop`). -/
def queueLoop
    (step : Thread → List Bool → ThreadList → ThreadList → Except Fault ExecResult)
    (offset : Nat) : Nat → List Thread → LoopState → Except Fault LoopState
  | _, [], s => .ok s
  | 0, _ :: _, _ => .error .outOfFuel
  | n + 1, t :: rest, s =>
    match step t s.cs [] s.next with
    | .error e => .error e
    | .ok r =>
      match reconcile r.t offset s.cells s.hits with
      | .error e => .error e
      | .ok (cells, hits) =>
        queueLoop step offset n (rest ++ r.active) ⟨r.checkStates, r.next, cells, hits⟩

/-- The part of a machine and the hits that `activeLoop` hands on. -/
def loopStateOf (vm : Vm) (hits : List SearchHit) : LoopState :=
  ⟨vm.CheckStates, vm.Next, vm.Matches, hits⟩

/-- A thread that runs from `pc` on the byte `c` is doomed: whatever the check
bits are, it and the threads it forks die on this byte without consuming it
and without executing `MATCH`, and the only check bits they set are bits of
`D`. The first index bounds the number of instructions executed. -/
inductive Doomed (prog : Program) (D : Nat → Prop) (c : Byte) : Nat → Nat → Prop where
  | halt {k pc : Nat} : prog[pc]? = some .HALT_OP → Doomed prog D c (k + 1) pc
  | lit {k pc : Nat} {b : Byte} :
      prog[pc]? = some (.LIT_OP b) → c ≠ b → Doomed prog D c (k + 1) pc
  | either {k pc : Nat} {a b : Byte} :
      prog[pc]? = some (.EITHER_OP a b) → ¬ (c = a ∨ c = b) → Doomed prog D c (k + 1) pc
  | range {k pc : Nat} {lo hi : Byte} :
      prog[pc]? = some (.RANGE_OP lo hi) → ¬ (lo ≤ c ∧ c ≤ hi) → Doomed prog D c (k + 1) pc
  | jumpTable {k pc : Nat} :
      prog[pc]? = some .JUMP_TABLE_OP → prog[pc + (1 + c)]? = some .HALT_OP →
      Doomed prog D c (k + 1) pc
  | jump {k pc a : Nat} :
      prog[pc]? = some (.JUMP_OP a) → Doomed prog D c k a → Doomed prog D c (k + 1) pc
  | fork {k1 k2 pc a : Nat} :
      prog[pc]? = some (.FORK_OP a) → Doomed prog D c k1 a → Doomed prog D c k2 (pc + 1) →
      Doomed prog D c (k1 + k2 + 1) pc
  | checkBranch {k pc idx : Nat} :
      prog[pc]? = some (.CHECK_BRANCH_OP idx) → D idx →
      Doomed prog D c k (pc + 1) → Doomed prog D c k (pc + 2) → Doomed prog D c (k + 1) pc
  | checkHalt {k pc idx : Nat} :
      prog[pc]? = some (.CHECK_HALT_OP idx) → D idx →
      Doomed prog D c k (pc + 1) → Doomed prog D c (k + 1) pc

/-- A thread that runs from `pc` executes no `MATCH` before it consumes a byte
or dies (the threads it forks are not constrained). -/
inductive Quiet (prog : Program) : Nat → Prop where
  | halt {pc : Nat} : prog[pc]? = some .HALT_OP → Quiet prog pc
  | lit {pc : Nat} {b : Byte} : prog[pc]? = some (.LIT_OP b) → Quiet prog pc
  | either {pc : Nat} {a b : Byte} : prog[pc]? = some (.EITHER_OP a b) → Quiet prog pc
  | range {pc : Nat} {lo hi : Byte} : prog[pc]? = some (.RANGE_OP lo hi) → Quiet prog pc
  | jumpTable {pc : Nat} : prog[pc]? = some .JUMP_TABLE_OP → Quiet prog pc
  | jump {pc a : Nat} : prog[pc]? = some (.JUMP_OP a) → Quiet prog a → Quiet prog pc
  | fork {pc a : Nat} : prog[pc]? = some (.FORK_OP a) → Quiet prog (pc + 1) → Quiet prog pc
  | checkBranch {pc idx : Nat} :
      prog[pc]? = some (.CHECK_BRANCH_OP idx) →
      Quiet prog (pc + 1) → Quiet prog (pc + 2) → Quiet prog pc
  | checkHalt {pc idx : Nat} :
      prog[pc]? = some (.CHECK_HALT_OP idx) → Quiet prog (pc + 1) → Quiet prog pc

/-- The check instructions on a bit of `D` guard doomed threads only (for the
byte `c`): after `CHECK_BRANCH idx` comes a `FORK` whose target is doomed, and
the `MATCH`-free rest of the snippet; after `CHECK_HALT idx` the thread is
doomed. No check instruction uses bit 0, the dirty flag, and the bits of `D`
exist. -/
structure Guarded (prog : Program) (numChecked : Nat) (D : Nat → Prop) (c : Byte) : Prop where
  branch : ∀ pc idx : Nat, D idx → prog[pc]? = some (Instruction.CHECK_BRANCH_OP idx) →
    ∃ a k : Nat, prog[pc + 1]? = some (Instruction.FORK_OP a) ∧ Doomed prog D c k a ∧ Quiet prog (pc + 2)
  halt : ∀ pc idx : Nat, D idx → prog[pc]? = some (Instruction.CHECK_HALT_OP idx) →
    ∃ k, Doomed prog D c k (pc + 1)
  inBounds : ∀ idx, D idx → idx < numChecked
  noZeroBranch : ∀ pc : Nat, prog[pc]? ≠ some (Instruction.CHECK_BRANCH_OP 0)
  noZeroHalt : ∀ pc : Nat, prog[pc]? ≠ some (Instruction.CHECK_HALT_OP 0)

/-- A thread seeded on the byte `c` is inert in the program: the seed is
doomed and the check bits it may set guard doomed threads only. -/
def SeedInert (prog : Program) (numChecked : Nat) (c : Byte) : Prop :=
  ∃ (D : Nat → Prop) (k : Nat), Doomed prog D c k 0 ∧ Guarded prog numChecked D c

/-- The dirty flag covers the check bits: when bit 0 is clear no bit is set. -/
def DirtyOK (cs : List Bool) : Prop :=
  cs[0]? = some false → ∀ i : Nat, cs[i]? ≠ some true

/-- Two arrays of check bits of the size `numChecked` that agree outside of `D`
and bit 0. -/
structure CsRel (numChecked : Nat) (D : Nat → Prop) (x y : List Bool) : Prop where
  lenX : x.length = numChecked
  lenY : y.length = numChecked
  agree : ∀ i : Nat, i ≠ 0 → ¬ D i → x[i]? = y[i]?
  dirtyX : DirtyOK x
  dirtyY : DirtyOK y

/-- Two threads with the same label, start and end. -/
def Thread.sameSpan (a b : Thread) : Prop :=
  a.Label = b.Label ∧ a.Start = b.Start ∧ a.End = b.End

/-- The thread `e` is doomed within `k` instructions. -/
def IsExtra (prog : Program) (D : Nat → Prop) (c : Byte) (k : Nat) (e : Thread) : Prop :=
  ∃ pc, e.PC = some pc ∧ Doomed prog D c k pc

/-- Two pending lists that are equal up to doomed threads: a thread that is in
both satisfies `Q`, a doomed thread that is in one of them only satisfies `P`.
The index bounds the instructions that the doomed threads of the right list
execute. -/
inductive PendRel (prog : Program) (D : Nat → Prop) (c : Byte) (P Q : Thread → Prop) :
    Nat → List Thread → List Thread → Prop where
  | nil : PendRel prog D c P Q 0 [] []
  | both {K : Nat} {xs ys : List Thread} (t : Thread) :
      Q t → PendRel prog D c P Q K xs ys → PendRel prog D c P Q K (t :: xs) (t :: ys)
  | left {K k : Nat} {xs ys : List Thread} (e : Thread) :
      IsExtra prog D c k e → P e → PendRel prog D c P Q K xs ys →
      PendRel prog D c P Q K (e :: xs) ys
  | right {K k : Nat} {xs ys : List Thread} (e : Thread) :
      IsExtra prog D c k e → P e → PendRel prog D c P Q K xs ys →
      PendRel prog D c P Q (k + K) xs (e :: ys)

/-- Reconciling the thread `e` at the offset `q` changes nothing: the cell of
its label holds a match that `e` neither extends nor displaces. -/
def NoOp (q : Nat) (cells : List MatchCell) (e : Thread) : Prop :=
  ∃ s' q', cells[e.Label]? = some (s', q') ∧ s' ≠ UNALLOCATED ∧
    ¬ (s' = e.Start ∧ q' < q) ∧ e.Start < q'

/-- A doomed thread whose reconciliation at the offset `q` changes nothing. -/
def SafeExtra (q : Nat) (cells : List MatchCell) (e : Thread) : Prop :=
  e.End ≠ q ∨ (e.Start < q ∧ NoOp q cells e)

/-- A list of doomed threads that satisfy `P`; the index is the sum of their
instruction bounds. -/
inductive ExtraList (prog : Program) (D : Nat → Prop) (c : Byte) (P : Thread → Prop) :
    Nat → List Thread → Prop where
  | nil : ExtraList prog D c P 0 []
  | cons {K k : Nat} {es : List Thread} (e : Thread) :
      IsExtra prog D c k e → P e → ExtraList prog D c P K es →
      ExtraList prog D c P (k + K) (e :: es)

/-- What the run of a doomed thread leaves behind. -/
structure DoomedRun (prog : Program) (D : Nat → Prop) (c : Byte) (k : Nat) (t : Thread)
    (cs : List Bool) (nx : ThreadList) (r : ExecResult) : Prop where
  next_eq : r.next = nx
  span : r.t.sameSpan t
  len : r.checkStates.length = cs.length
  agree : ∀ i : Nat, i ≠ 0 → ¬ D i → r.checkStates[i]? = cs[i]?
  dirty : DirtyOK r.checkStates
  children : ∃ K, K < k ∧ ExtraList prog D c (fun e => e.sameSpan t) K r.active

/-- The runs of one thread `t` on two arrays of check bits are related: same
next list, same label, start and end of the thread, related check bits, and
the threads appended are the same up to doomed threads that carry the span of
the thread. -/
structure ThreadSim (prog : Program) (D : Nat → Prop) (c : Byte) (numChecked : Nat)
    (t : Thread) (rX rY : ExecResult) : Prop where
  next_eq : rX.next = rY.next
  span : rX.t.sameSpan rY.t
  start : rX.t.Start = t.Start
  cs : CsRel numChecked D rX.checkStates rY.checkStates
  children : ∃ K, PendRel prog D c (fun e => e.sameSpan rX.t) (fun e => e.Start = t.Start) K
    rX.active rY.active

/-- Two states of the loop over the active list that agree up to check bits
of `D` and the dirty flag. -/
structure StateSim (numChecked : Nat) (D : Nat → Prop) (sX sY : LoopState) : Prop where
  next_eq : sX.next = sY.next
  cells_eq : sX.cells = sY.cells
  hits_eq : sX.hits = sY.hits
  cs : CsRel numChecked D sX.cs sY.cs

/-- Two configurations of the loop over the active list at the offset `q`
that agree up to doomed threads whose reconciliation changes nothing. -/
structure QueueSim (prog : Program) (D : Nat → Prop) (c : Byte) (numChecked q K : Nat)
    (pendX pendY : List Thread) (sX sY : LoopState) : Prop where
  state : StateSim numChecked D sX sY
  pend : PendRel prog D c (SafeExtra q sX.cells) (fun t => t.Start < q) K pendX pendY

/-- The machine `vm` with another first-byte set. -/
def Vm.withFirst (vm : Vm) (f : Byte → Bool) : Vm := { vm with First := f }

/-- The part of `Vm::search` after the loop over the input (lines 209-243). -/
def searchEnd (fuel : Nat) (vm1 : Vm) (offset : Nat) (hits1 : List SearchHit) :
    Except Fault SearchResult :=
  match activeLoop (runThreadEpsilons vm1.Prog offset fuel) offset fuel 0 vm1 hits1 with
  | .error e => .error e
  | .ok (vm2, hits2) =>
    let flushed := flushLoop vm2.Matches.length 0 vm2.Matches hits2
    match clearCheckStates vm2.CheckStates with
    | .error e => .error e
    | .ok cs =>
      .ok { ret := 0 < vm2.Next.length
            vm := { vm2 with Active := vm2.Next, Next := [], CheckStates := cs,
                             Matches := flushed.1 }
            hits := flushed.2 }

/-- The thread that `Vm::search` seeds at the offset `q` (line 179). -/
def seedThread (q : Nat) : Thread := ⟨some 0, 0, q, UNALLOCATED⟩

/-- The active list after the seeding step of line 178-180. -/
def seededActive (vm : Vm) (c : Byte) (q : Nat) : ThreadList :=
  if vm.First c then vm.Active ++ [seedThread q] else vm.Active

/-- The state of a machine between two bytes, before the byte at the offset
`q`: the next list is empty, the `numChecked` check bits are clear, and the
threads of the active list started before `q`. -/
structure Boundary (numChecked q : Nat) (vm : Vm) : Prop where
  next_nil : vm.Next = []
  cs_len : vm.CheckStates.length = numChecked
  cs_clean : ∀ i : Nat, vm.CheckStates[i]? ≠ some true
  starts : ∀ t ∈ vm.Active, t.Start < q

/-! ## The layout of a compiled program: definitions -/

/-- `cg->DiscoverRanks[v]`, with 0 outside of the array. -/
def CodeGenHelper.rankD (cg : CodeGenHelper) (v : Nat) : Nat :=
  (cg.DiscoverRanks[v]?).getD 0

/-- `cg->Snippets[v]`, with an empty entry outside of the array. -/
def CodeGenHelper.snippetD (cg : CodeGenHelper) (v : Nat) : StateLayoutInfo :=
  (cg.Snippets[v]?).getD ⟨0, 0, 0, none⟩

/-- The instructions `createProgram` writes for one out-edge that is not the
fallthrough edge (lines 189-206): the check instruction if the target `w` has
a check index, then `JUMP` for the last edge of a state without fallthrough
edge and `FORK` otherwise. -/
def edgeCode (cg : CodeGenHelper) (w : Nat) (last : Bool) : List Instruction :=
  (match (cg.snippetD w).CheckIndex with
    | some idx => [if last then Instruction.CHECK_HALT_OP idx else Instruction.CHECK_BRANCH_OP idx]
    | none => []) ++
  [if last then Instruction.JUMP_OP (cg.snippetD w).Start
   else Instruction.FORK_OP (cg.snippetD w).Start]

/-- The instructions the loop over the out-edges writes (lines 185-213), for a
state of discover rank `rv`, the edges `targets` still to visit and the flag
`hasTargetAtNext`. -/
def tailCode (cg : CodeGenHelper) (rv : Nat) : List Nat → Bool → List Instruction
  | [], _ => []
  | w :: rest, h =>
    if rv + 1 ≠ cg.rankD w then
      edgeCode cg w (decide (rest = []) && !h) ++ tailCode cg rv rest h
    else tailCode cg rv rest true

/-- The values of `hasTargetAtNext` and `nextTarget` after the loop over the
out-edges. -/
def tailFlag (cg : CodeGenHelper) (rv : Nat) : List Nat → Bool × Nat → Bool × Nat
  | [], fl => fl
  | w :: rest, fl =>
    if rv + 1 ≠ cg.rankD w then tailFlag cg rv rest fl else tailFlag cg rv rest (true, w)

/-- The check instruction after the loop (lines 214-216): `CHECK_HALT` when the
fallthrough target has a check index. -/
def guardCode (cg : CodeGenHelper) (fl : Bool × Nat) : List Instruction :=
  if fl.1 then
    match (cg.snippetD fl.2).CheckIndex with
    | some idx => [Instruction.CHECK_HALT_OP idx]
    | none => []
  else []

/-- The instructions written for the transition of a state (lines 167-176). -/
def transitionCode (tran : Option Transition) : List Instruction :=
  match tran with
  | none => []
  | some t => t.toInstruction :: (if t.Label < NOLABEL then [Instruction.MATCH_OP t.Label] else [])

/-- The instructions written after the transition for a state that gets no
jump table (lines 181-221). -/
def snippetTail (cg : CodeGenHelper) (rv : Nat) (targets : List Nat) : List Instruction :=
  if targets ≠ [] then
    tailCode cg rv targets false ++ guardCode cg (tailFlag cg rv targets (false, 0))
  else [Instruction.HALT_OP]

/-- The number of slots `createJumpTable` uses in the indirect section for
the rows of a table: the rows with two or more targets take one slot for each
target. -/
def indirectCount : List (List Nat) → Nat
  | [] => 0
  | row :: rest => (if 2 ≤ row.length then row.length else 0) + indirectCount rest

/-- The out-neighbours of `v` (none when the read fails). -/
def DynamicFSM.targetsOf (g : DynamicFSM) (v : Nat) : List Nat :=
  match g.outVertices v with
  | .ok ts => ts
  | .error _ => []

/-- The table `pivotStates(v, graph)` (empty when the call fails). -/
def DynamicFSM.tableOf (g : DynamicFSM) (v : Nat) : List (List Nat) :=
  match pivotStates v g with
  | .ok tbl => tbl
  | .error _ => []

/-- The transition of `v` as `createProgram` reads it (`graph[v]`, possibly
null). -/
def DynamicFSM.tranOf (g : DynamicFSM) (v : Nat) : Option Transition :=
  (g.Vertices[v]?).bind (fun vert => vert.Tran)

/-- Whether `createProgram` lays out a jump table for `v` (line 177). -/
def usesTable (cg : CodeGenHelper) (v : Nat) : Bool :=
  decide ((cg.snippetD v).numTotal > 256)

/-- The number of instructions `createProgram` writes for the state `v`. -/
def snippetLen (g : DynamicFSM) (cg : CodeGenHelper) (v : Nat) : Nat :=
  (transitionCode (g.tranOf v)).length +
    (if usesTable cg v then 257 + indirectCount (g.tableOf v)
     else (snippetTail cg (cg.rankD v) (g.targetsOf v)).length)

/-- The program `new` is `old` with the instructions `code` written from the
position `base` on. -/
structure Wrote (old new : Program) (base : Nat) (code : List Instruction) : Prop where
  len : new.length = old.length
  frame : ∀ p : Nat, p < base ∨ base + code.length ≤ p → new[p]? = old[p]?
  code_eq : ∀ i : Nat, i < code.length → new[base + i]? = code[i]?

/-- The program holds the instructions `code` from the position `base` on. -/
def HasCode (prog : Program) (base : Nat) (code : List Instruction) : Prop :=
  ∀ i : Nat, i < code.length → prog[base + i]? = code[i]?

/-- An instruction that `createJumpTable` writes. -/
def Instruction.isTableOp : Instruction → Prop
  | .JUMP_TABLE_OP => True
  | .HALT_OP => True
  | .JUMP_OP _ => True
  | .FORK_OP _ => True
  | _ => False

/-- Modelled from the spec: what the layout pass (`specialVisit` with a
`CodeGenVisitor`, not part of the sources at hand) guarantees about the helper
it fills, as far as the seeding of threads depends on it. The states are laid
out in discover-rank order, one region each, the regions fill the program, a
state with a check index has an index of its own from 1 on, and the target of
a fallthrough edge follows its source. -/
structure LayoutOK (g : DynamicFSM) (cg : CodeGenHelper) : Prop where
  -- one snippet and one rank for each state
  snippets : cg.Snippets.length = g.numVertices
  ranks : cg.DiscoverRanks.length = g.numVertices
  -- the start state exists, has no transition and is laid out first
  start : 0 < g.numVertices
  startTran : g.tranOf 0 = none
  startFirst : (cg.snippetD 0).Start = 0
  -- the out-lists can be read; an edge leads to a state with a transition
  outOK : ∀ v, v < g.numVertices → ∃ ts, g.outVertices v = .ok ts
  targetOK : ∀ v, v < g.numVertices → ∀ w ∈ g.targetsOf v,
    w < g.numVertices ∧ ∃ tr, g.tranOf w = some tr
  -- check indices are positive (bit 0 is the dirty flag), below `NumChecked`
  -- and belong to one state each
  checkRange : ∀ w idx, (cg.snippetD w).CheckIndex = some idx → 0 < idx ∧ idx < cg.NumChecked
  checkInj : ∀ w w' idx, w < g.numVertices → w' < g.numVertices →
    (cg.snippetD w).CheckIndex = some idx → (cg.snippetD w').CheckIndex = some idx → w = w'
  -- the snippets do not overlap and fill the program
  disjoint : ∀ v w, v < g.numVertices → w < g.numVertices → v ≠ w →
    (cg.snippetD v).Start + snippetLen g cg v ≤ (cg.snippetD w).Start ∨
    (cg.snippetD w).Start + snippetLen g cg w ≤ (cg.snippetD v).Start
  cover : ∀ p, p < cg.Guard → ∃ v, v < g.numVertices ∧
    (cg.snippetD v).Start ≤ p ∧ p < (cg.snippetD v).Start + snippetLen g cg v
  -- the fallthrough target of a state is laid out right after it
  fallthrough : ∀ v, v < g.numVertices → usesTable cg v = false →
    (tailFlag cg (cg.rankD v) (g.targetsOf v) (false, 0)).1 = true →
    (cg.snippetD (tailFlag cg (cg.rankD v) (g.targetsOf v) (false, 0)).2).Start =
      (cg.snippetD v).Start + snippetLen g cg v

/-- What the loop of `createJumpTable` over the rows leaves, started with the
slot pointer `cur` and the pointer `ind` into the indirect section. -/
structure RowsWrote (old new : Program) (cur ind : Nat) (rows : List (List Nat)) : Prop where
  len : new.length = old.length
  frame : ∀ p : Nat, p < cur ∨ (cur + rows.length ≤ p ∧ p < ind) ∨
    ind + indirectCount rows ≤ p → new[p]? = old[p]?
  plain : ∀ p : Nat, (cur ≤ p ∧ p < cur + rows.length) ∨
    (ind ≤ p ∧ p < ind + indirectCount rows) → ∃ ins, new[p]? = some ins ∧ ins.isTableOp
  haltSlot : ∀ i : Nat, rows[i]? = some [] → new[cur + i]? = some Instruction.HALT_OP

/-- What the program holds in the region of a jump table that starts at
`base`, for the table `tbl`: the header, `HALT` in the slot of a byte without
target, and only instructions that `createJumpTable` writes. -/
structure TableAt (prog : Program) (base : Nat) (tbl : List (List Nat)) : Prop where
  header : prog[base]? = some Instruction.JUMP_TABLE_OP
  haltSlot : ∀ i : Nat, tbl[i]? = some [] → prog[base + 1 + i]? = some Instruction.HALT_OP
  plain : ∀ p : Nat, base ≤ p → p < base + 257 + indirectCount tbl →
    ∃ ins, prog[p]? = some ins ∧ ins.isTableOp

/-- What the program holds in the snippet of the state `v`. -/
def SnippetAt (g : DynamicFSM) (cg : CodeGenHelper) (prog : Program) (v : Nat) : Prop :=
  HasCode prog (cg.snippetD v).Start (transitionCode (g.tranOf v)) ∧
  (usesTable cg v = false →
    HasCode prog ((cg.snippetD v).Start + (transitionCode (g.tranOf v)).length)
      (snippetTail cg (cg.rankD v) (g.targetsOf v))) ∧
  (usesTable cg v = true →
    TableAt prog ((cg.snippetD v).Start + (transitionCode (g.tranOf v)).length) (g.tableOf v))

/-- The programs agree outside of the positions from `lo` up to `hi`. -/
def SameOutside (old new : Program) (lo hi : Nat) : Prop :=
  new.length = old.length ∧ ∀ p : Nat, p < lo ∨ hi ≤ p → new[p]? = old[p]?

/-- Rules under which a property `R` of program positions passes backwards
through the instructions of an out-edge tail whose targets satisfy `T`. -/
structure TailRules (prog : Program) (cg : CodeGenHelper) (R : Nat → Prop) (T : Nat → Prop) :
    Prop where
  jump : ∀ pc w : Nat, prog[pc]? = some (Instruction.JUMP_OP (cg.snippetD w).Start) →
    T w → R pc
  fork : ∀ pc w : Nat, prog[pc]? = some (Instruction.FORK_OP (cg.snippetD w).Start) →
    T w → R (pc + 1) → R pc
  checkBranch : ∀ pc w idx : Nat, (cg.snippetD w).CheckIndex = some idx → T w →
    prog[pc]? = some (Instruction.CHECK_BRANCH_OP idx) → R (pc + 1) → R (pc + 2) → R pc
  checkHalt : ∀ pc w idx : Nat, (cg.snippetD w).CheckIndex = some idx → T w →
    prog[pc]? = some (Instruction.CHECK_HALT_OP idx) → R (pc + 1) → R pc

/-- The check bits that a thread seeded at the start state can set: the check
indices of the successors of the state 0. -/
def seedBits (g : DynamicFSM) (cg : CodeGenHelper) (idx : Nat) : Prop :=
  ∃ w ∈ g.targetsOf 0, (cg.snippetD w).CheckIndex = some idx

/-- The two check instructions. -/
def Instruction.isCheck : Instruction → Prop
  | .CHECK_BRANCH_OP _ => True
  | .CHECK_HALT_OP _ => True
  | _ => False

/-- The end of the out-edge tail of the state `v`: the position of the check
instruction that guards the fallthrough target, if there is one. -/
def tailEnd (g : DynamicFSM) (cg : CodeGenHelper) (v : Nat) : Nat :=
  (cg.snippetD v).Start + (transitionCode (g.tranOf v)).length +
    (tailCode cg (cg.rankD v) (g.targetsOf v) false).length

/-- The fallthrough target of the state `v` (meaningful when the flag of
`tailFlag` is set). -/
def fallTarget (g : DynamicFSM) (cg : CodeGenHelper) (v : Nat) : Nat :=
  (tailFlag cg (cg.rankD v) (g.targetsOf v) (false, 0)).2

/-- What a program generated for the graph `g` with the layout `cg` holds. -/
structure Generated (g : DynamicFSM) (cg : CodeGenHelper) (prog : Program) : Prop where
  layout : LayoutOK g cg
  len : prog.length = cg.Guard
  snippet : ∀ u, u < g.numVertices → SnippetAt g cg prog u

/-! ## A graph with a shared state -/

/-- The graph of the pattern "ac|bc" with label 0 and the last state shared:
the start state 0, the states 1 (`a`) and 2 (`b`) below it, and the state 3
(`c`, label 0) that both lead to. -/
def graphJoin : DynamicFSM :=
  { AdjLists := [[1, 2], [1, 2]]
    Vertices :=
      [ mkVertex none adjZero ⟨0, 2⟩,
        mkVertex (some ⟨.LitState 97, NOLABEL⟩) (adjOne 0) (adjOne 3),
        mkVertex (some ⟨.LitState 98, NOLABEL⟩) (adjOne 0) (adjOne 3),
        mkVertex (some ⟨.LitState 99, 0⟩) ⟨1, 2⟩ adjZero ] }

/-- The layout of `graphJoin`: discovery order 0, 1, 3, 2; the state 3 has two
in-edges and the check index 1. -/
def layoutJoin : CodeGenHelper :=
  { Snippets := [⟨0, 0, 1, none⟩, ⟨1, 1, 1, none⟩, ⟨6, 1, 2, none⟩, ⟨3, 2, 1, some 1⟩]
    DiscoverRanks := [0, 1, 3, 2]
    Guard := 9
    NumChecked := 2 }

/-- The program of `graphJoin`. -/
def progJoin : Program :=
  [.FORK_OP 6, .LIT_OP 97, .CHECK_HALT_OP 1, .LIT_OP 99, .MATCH_OP 0, .HALT_OP,
   .LIT_OP 98, .CHECK_HALT_OP 1, .JUMP_OP 3]

/-- The first-byte set of `graphJoin`: the bytes `a` and `b`. -/
def firstJoin : ByteSet := fun c => decide (c = 97 ∨ c = 98)

/-! ## A jump table -/

/-- A small jump table: the header and the slot of the byte 0, which holds
`JUMP 7`. -/
def progTable : Program := [.JUMP_TABLE_OP, .JUMP_OP 7]

/-! ## Building the graph (`dynamicFSM.h`) -/

/-- The degree that `inDegree` and `outDegree` report for an adjacency list
(`dynamicFSM.h`, lines 101-121): 0 for `ZERO`, 1 for `ONE`, else the size of
the row `AdjLists[What]`. -/
def DynamicFSM.degree (g : DynamicFSM) (l : AdjacentList) : Except Fault Nat :=
  match l.Flags with
  | 0 => .ok 0
  | 1 => .ok 1
  | _ =>
    match g.AdjLists[l.What]? with
    | none => .error .outOfBounds
    | some row => .ok row.length

/-- `DynamicFSM::inDegree(v)`. -/
def DynamicFSM.inDegree (g : DynamicFSM) (v : Nat) : Except Fault Nat :=
  match g.Vertices[v]? with
  | none => .error .outOfBounds
  | some vert => g.degree vert.In

/-- `DynamicFSM::outDegree(v)`. -/
def DynamicFSM.outDegree (g : DynamicFSM) (v : Nat) : Except Fault Nat :=
  match g.Vertices[v]? with
  | none => .error .outOfBounds
  | some vert => g.degree vert.Out

/-- The in-neighbours of `v` in iteration order (`inVerticesBegin(v)` to
`inVerticesEnd(v)`). -/
def DynamicFSM.inVertices (g : DynamicFSM) (v : Nat) : Except Fault (List Nat) :=
  match g.Vertices[v]? with
  | none => .error .outOfBounds
  | some vert => g.neighbours vert.In

/-- The in-neighbours of `v` (none when the read fails). -/
def DynamicFSM.sourcesOf (g : DynamicFSM) (v : Nat) : List Nat :=
  match g.inVertices v with
  | .ok ts => ts
  | .error _ => []

/-- A vertex as the constructor of `Vertex` leaves it: no transition, both
adjacency lists empty (`AdjacentList()`: `Flags = ZERO`, `What = 0xFFFFFFFF`). -/
def freshVertex : Vertex := ⟨none, adjZero, adjZero⟩

/-- The graph `DynamicFSM(numVs)`: `numVs` fresh vertices and an empty side
table. -/
def DynamicFSM.create (numVs : Nat) : DynamicFSM :=
  ⟨[], List.replicate numVs freshVertex⟩

/-- Modelled from the spec: `DynamicFSM::addVertex` (declared in
`dynamicFSM.h`, defined outside the sources at hand) appends a state with
empty predicate and empty neighbour lists and returns its index. -/
def DynamicFSM.addVertex (g : DynamicFSM) : DynamicFSM × Nat :=
  (⟨g.AdjLists, g.Vertices ++ [freshVertex]⟩, g.Vertices.length)

/-- The adjacency list of `v` that holds the out-neighbours (`out = true`) or
the in-neighbours. -/
def Vertex.list (vert : Vertex) (out : Bool) : AdjacentList :=
  if out then vert.Out else vert.In

/-- The vertex with one of its adjacency lists replaced. -/
def Vertex.setList (vert : Vertex) (out : Bool) (l : AdjacentList) : Vertex :=
  if out then { vert with Out := l } else { vert with In := l }

/-- Modelled from the spec: `DynamicFSM::_add(l, x)` (declared in
`dynamicFSM.h`, defined outside the sources at hand) for the list `l` of the
vertex `v`, in the 0/1/many encoding: an empty list takes `x` inline; a list
with one inline neighbour moves to a new row of the side table that holds the
old neighbour and `x` ("only when a second neighbor is added is a side-table
row allocated"); a list with a row gets `x` appended to its row. -/
def DynamicFSM.add (g : DynamicFSM) (v : Nat) (out : Bool) (x : Nat) : Except Fault DynamicFSM :=
  match g.Vertices[v]? with
  | none => .error .outOfBounds
  | some vert =>
    match (vert.list out).Flags with
    | 0 => .ok ⟨g.AdjLists, g.Vertices.set v (vert.setList out ⟨x, 1⟩)⟩
    | 1 =>
      .ok ⟨g.AdjLists ++ [[(vert.list out).What, x]],
        g.Vertices.set v (vert.setList out ⟨g.AdjLists.length, 2⟩)⟩
    | _ =>
      match g.AdjLists[(vert.list out).What]? with
      | none => .error .outOfBounds
      | some row => .ok ⟨g.AdjLists.set (vert.list out).What (row ++ [x]), g.Vertices⟩

/-- Modelled from the spec: `DynamicFSM::edgeExists(source, target)` (declared
in `dynamicFSM.h`, defined outside the sources at hand): whether `target` is in
the out-list of `source`. -/
def DynamicFSM.edgeExists (g : DynamicFSM) (source target : Nat) : Except Fault Bool :=
  match g.outVertices source with
  | .error e => .error e
  | .ok ts => .ok (decide (target ∈ ts))

/-- Modelled from the spec: `DynamicFSM::addEdge(source, target)` (declared in
`dynamicFSM.h`, defined outside the sources at hand) "adds `dst` to `src`'s
out-list and `src` to `dst`'s in-list. Idempotent: `edgeExists(src,dst)`
returning true is a no-op." -/
def DynamicFSM.addEdge (g : DynamicFSM) (source target : Nat) : Except Fault DynamicFSM :=
  match g.edgeExists source target with
  | .error e => .error e
  | .ok true => .ok g
  | .ok false =>
    match g.add source true target with
    | .error e => .error e
    | .ok g1 => g1.add target false source

/-- The assignment `graph[v] = tr` through `operator[]` (line 128), which hands
out a reference to `Vertices[v].Tran`. -/
def DynamicFSM.setTran (g : DynamicFSM) (v : Nat) (tr : Option Transition) : DynamicFSM :=
  match g.Vertices[v]? with
  | none => g
  | some vert => ⟨g.AdjLists, g.Vertices.set v { vert with Tran := tr }⟩

/-- The graphs that the interface of `DynamicFSM` builds: the constructor, then
calls of `addVertex`, `addEdge` and assignments of transitions. -/
inductive DynamicFSM.Built : DynamicFSM → Prop where
  | create (numVs : Nat) : DynamicFSM.Built (DynamicFSM.create numVs)
  | addVertex {g : DynamicFSM} : DynamicFSM.Built g → DynamicFSM.Built g.addVertex.1
  | addEdge {g g1 : DynamicFSM} (source target : Nat) :
      DynamicFSM.Built g → g.addEdge source target = .ok g1 → DynamicFSM.Built g1
  | setTran {g : DynamicFSM} (v : Nat) (tr : Option Transition) :
      DynamicFSM.Built g → DynamicFSM.Built (g.setTran v tr)

/-- The neighbours in the list `out` of the vertex `v` (none when the read
fails). -/
def DynamicFSM.nb (g : DynamicFSM) (v : Nat) (out : Bool) : List Nat :=
  if out then g.targetsOf v else g.sourcesOf v

/-- The side table is used well: a list with a row has its row inside the
table, and no two lists share a row. -/
structure RowsOK (g : DynamicFSM) : Prop where
  inside : ∀ (v : Nat) (vert : Vertex) (out : Bool), g.Vertices[v]? = some vert →
    2 ≤ (vert.list out).Flags → (vert.list out).What < g.AdjLists.length
  apart : ∀ (v w : Nat) (vert wert : Vertex) (o p : Bool), g.Vertices[v]? = some vert →
    g.Vertices[w]? = some wert → 2 ≤ (vert.list o).Flags → 2 ≤ (wert.list p).Flags →
    (vert.list o).What = (wert.list p).What → v = w ∧ o = p

/-- The in-lists mirror the out-lists, without repetition. -/
structure EdgesOK (g : DynamicFSM) : Prop where
  rows : RowsOK g
  mirror : ∀ u v : Nat, u ∈ g.sourcesOf v ↔ v ∈ g.targetsOf u
  nodupIn : ∀ v : Nat, (g.sourcesOf v).Nodup
  nodupOut : ∀ u : Nat, (g.targetsOf u).Nodup

/-! ## Pattern lines (`options.cpp`) -/

/-- The fields of a `Pattern` that `Options::parseLine` sets. The type is
declared outside the sources at hand; the constructor call
`Pattern p(text, LiteralMode, CaseInsensitive, keyIndex, "")` and the
assignments of `parseLine` give the fields. A `std::string` is the list of its
characters. -/
structure Pattern where
  Expression : List Char
  FixedString : Bool
  CaseInsensitive : Bool
  Index : Nat
  Encoding : List Char
  deriving DecidableEq, Repr

/-- The members of `Options` that `parseLine` reads (the class is declared
outside the sources at hand). -/
structure Options where
  LiteralMode : Bool
  CaseInsensitive : Bool
  Encoding : List Char
  deriving DecidableEq, Repr

/-- The tokens of `boost::tokenizer<boost::char_separator<char>>` for one
separator character, with the defaults of `char_separator` (separators are
dropped, empty tokens are dropped): the maximal runs of other characters.
`cur` is the token being read. -/
def tokenizeLoop (sep : Char) : List Char → List Char → List (List Char)
  | [], cur => if cur = [] then [] else [cur]
  | c :: rest, cur =>
    if c = sep then
      if cur = [] then tokenizeLoop sep rest [] else cur :: tokenizeLoop sep rest []
    else tokenizeLoop sep rest (cur ++ [c])

/-- The tokens of a string for the separator `sep`. -/
def tokenize (sep : Char) (s : List Char) : List (List Char) := tokenizeLoop sep s []

/-- `setBool(s, b)` (lines 58-70): the value of `b` after the call. -/
def setBool (s : List Char) (b : Bool) : Bool :=
  if s = ['1'] then true
  else if s = ['0'] then false
  else b

/-- `Options::parseLine(keyIndex, line, keys)` (lines 72-102): the value
returned and `keys` after the call. -/
def Options.parseLine (opts : Options) (keyIndex : Nat) (line : List Char)
    (keys : List Pattern) : Bool × List Pattern :=
  if line ≠ [] then
    let tokens := tokenize '\t' line
    match tokens with
    | [] => (false, keys)
    | tok0 :: more =>
      let p0 : Pattern := ⟨tok0, opts.LiteralMode, opts.CaseInsensitive, keyIndex, []⟩
      let pe : Pattern × List Char :=
        match more with
        | [f2, f3, f4] =>
          ({ p0 with FixedString := setBool f2 p0.FixedString,
                     CaseInsensitive := setBool f3 p0.CaseInsensitive }, f4)
        | _ => (p0, opts.Encoding)
      let encList := tokenize ',' pe.2
      if encList ≠ [] then (true, keys ++ encList.map (fun enc => { pe.1 with Encoding := enc }))
      else (false, keys)
  else (false, keys)

/-! ## The command line (`main.cpp`) -/

/-- The index of the ASCII encoding (`LG_ENC_ASCII`, declared in
`encodings.h` outside the sources at hand; only used as a tag). -/
def LG_ENC_ASCII : Nat := 0

/-- The index of the UTF-16 encoding (`LG_ENC_UTF_16`, see `LG_ENC_ASCII`). -/
def LG_ENC_UTF_16 : Nat := 1

/-- What `main.cpp` takes from outside: the options and the answers of the
library and of the system.
* `Command`, `ascii`, `ucs16` (the bits `CP_ASCII` and `CP_UCS16` of
  `opts.getEncoding()`), `NoOutput`: options;
* `Patterns`: the value of `opts.getKeys()`;
* `addKeyword i encIdx`: whether `lg_add_keyword` accepts the pattern `i` in
  the encoding `encIdx` (the C API is not part of the sources at hand);
* `buildOk`: whether `lg_ok` holds of the handle of `lg_create_program`;
* `parseOptsThrows`, `inputOpens`, `outputOpens`: whether `parse_opts` throws,
  whether `fopen` of the input gives a file, whether `openOutput` succeeds (it
  throws otherwise);
* `graphOk`: the value of `writeGraphviz(opts)`; `otherThrows`: whether the
  command at hand, if it is `server`, `prog` or `samp`, throws. -/
structure MainEnv where
  Command : String
  ascii : Bool
  ucs16 : Bool
  NoOutput : Bool
  Patterns : List String
  addKeyword : Nat → Nat → Bool
  buildOk : Bool
  parseOptsThrows : Bool
  inputOpens : Bool
  outputOpens : Bool
  graphOk : Bool
  otherThrows : Bool

/-- `PatternInfo` as far as `parsePatterns` uses it: `Table` gets one entry for
every call of `addPattern`. -/
structure PatternInfo where
  Patterns : List String
  Table : List (Nat × Nat)
  deriving DecidableEq, Repr

/-- `addPattern` (lines 62-80): the table entry is pushed, the value is the
answer of `lg_add_keyword`. -/
def addPattern (env : MainEnv) (i encIdx : Nat) (pinfo : PatternInfo) : Bool × PatternInfo :=
  (env.addKeyword i encIdx, { pinfo with Table := pinfo.Table ++ [(i, encIdx)] })

/-- The loop over the patterns for one encoding (lines 119-123 and 129-133),
from the pattern `i` on, `n` patterns left. -/
def encodingLoop (env : MainEnv) (encIdx : Nat) :
    Nat → Nat → Nat → PatternInfo → Nat × PatternInfo
  | 0, _, numErrors, pinfo => (numErrors, pinfo)
  | n + 1, i, numErrors, pinfo =>
    let r := addPattern env i encIdx pinfo
    encodingLoop env encIdx n (i + 1) (if r.1 then numErrors else numErrors + 1) r.2

/-- What `parsePatterns` leaves: whether the parser handle is non-null,
`numErrors`, and `pinfo`. -/
structure ParseResult where
  parser : Bool
  numErrors : Nat
  pinfo : PatternInfo
  deriving DecidableEq, Repr

/-- `parsePatterns(opts, pinfo, numErrors)` (lines 82-136). -/
def parsePatterns (env : MainEnv) (pinfo : PatternInfo) : ParseResult :=
  if pinfo.Patterns = [] then ⟨false, 0, pinfo⟩
  else
    let a : Nat × PatternInfo :=
      if env.ascii then encodingLoop env LG_ENC_ASCII pinfo.Patterns.length 0 0 pinfo
      else (0, pinfo)
    let b : Nat × PatternInfo :=
      if env.ucs16 then encodingLoop env LG_ENC_UTF_16 pinfo.Patterns.length 0 a.1 a.2
      else a
    ⟨true, b.1, b.2⟩

/-- What `createProgram(opts, pinfo)` of `main.cpp` does: whether it calls
`buildProgram`, and whether the handle it returns is non-empty. -/
structure BuildResult where
  buildCalled : Bool
  handle : Bool
  deriving DecidableEq, Repr

/-- `createProgram(opts, pinfo)` of `main.cpp` (lines 148-171). -/
def Main.createProgram (env : MainEnv) (pinfo : PatternInfo) : BuildResult :=
  let r := parsePatterns env pinfo
  if r.numErrors < r.pinfo.Patterns.length then
    if env.buildOk then ⟨true, true⟩ else ⟨true, false⟩
  else ⟨false, false⟩

/-- How a call of `search(opts)` ends. -/
inductive SearchEnd where
  | noInput
  | noProgram
  | searched
  deriving DecidableEq, Repr

/-- `search(opts)` (lines 227-288): how the call ends, or `none` when it leaves
by the exception of `openOutput`. `searched` stands for lines 263-287: the
context is created and `searchFile` runs. -/
def Main.search (env : MainEnv) : Option SearchEnd :=
  if !env.inputOpens then some .noInput
  else
    let prog := Main.createProgram env ⟨env.Patterns, []⟩
    if !prog.handle then some .noProgram
    else if !env.NoOutput && !env.outputOpens then none
    else some .searched

/-- `main` (lines 393-430): the exit code. -/
def Main.main (env : MainEnv) : Nat :=
  if env.parseOptsThrows then 1
  else if env.Command = "search" then
    match Main.search env with
    | none => 1
    | some _ => 0
  else if env.Command = "server" then (if env.otherThrows then 1 else 0)
  else if env.Command = "help" then 0
  else if env.Command = "graph" then (if env.graphOk then 0 else 1)
  else if env.Command = "prog" then (if env.otherThrows then 1 else 0)
  else if env.Command = "samp" then (if env.otherThrows then 1 else 0)
  else 1

/-- The command line `search` with the patterns `a` and `(` (the second one
does not parse) in both encodings. -/
def envTwoPatterns : MainEnv :=
  { Command := "search", ascii := true, ucs16 := true, NoOutput := true,
    Patterns := ["a", "("], addKeyword := fun i _ => decide (i = 0), buildOk := true,
    parseOptsThrows := false, inputOpens := true, outputOpens := true, graphOk := true,
    otherThrows := false }

/-- The command line `search` on an input file that cannot be opened. -/
def envNoInput : MainEnv :=
  { envTwoPatterns with Patterns := ["a"], inputOpens := false }

/-! ## UTF-8 decoding (`test_unicode.cpp`) -/

/-- `onebyte` (lines 24-26), on the window `b0 b1 b2 b3`. -/
def onebyte (b0 : Nat) : Nat := b0

/-- `twobyte` (lines 28-30). -/
def twobyte (b0 b1 : Nat) : Nat := ((b0 &&& 0x1F) <<< 6) ||| (b1 &&& 0x3F)

/-- `threebyte` (lines 32-35). -/
def threebyte (b0 b1 b2 : Nat) : Nat :=
  ((b0 &&& 0x0F) <<< 12) ||| ((b1 &&& 0x3F) <<< 6) ||| (b2 &&& 0x3F)

/-- `fourbyte` (lines 37-40). -/
def fourbyte (b0 b1 b2 b3 : Nat) : Nat :=
  ((b0 &&& 0x07) <<< 18) ||| ((b1 &&& 0x3F) <<< 12) ||| ((b2 &&& 0x3F) <<< 6) ||| (b3 &&& 0x3F)

/-- `expected_length` (lines 42-55). -/
def expected_length (b : Nat) : Nat :=
  if b < 0x80 then 1
  else if b < 0xE0 then 2
  else if b < 0xF0 then 3
  else 4

/-- `bad_start` (lines 57-59). -/
def bad_start (b : Nat) : Bool := (decide (0x7F < b) && decide (b < 0xC2)) || decide (0xF4 < b)

/-- `bad_continuation` (lines 61-63): the value is converted to `bool`. -/
def bad_continuation (b : Nat) : Bool := decide (((b &&& 0xC0) ^^^ 0x80) ≠ 0)

/-- `utf16_surrogate` (lines 65-67). -/
def utf16_surrogate (cp : Nat) : Bool := decide (0xD7FF < cp) && decide (cp < 0xE000)

/-- `overlong` (lines 69-81). -/
def overlong (cp : Nat) (bc : Nat) : Bool :=
  match bc with
  | 1 => false
  | 2 => decide (cp < 0x80)
  | 3 => decide (cp < 0x800)
  | _ => decide (cp < 0x10000)

/-- `out_of_range` (lines 83-85). -/
def out_of_range (cp : Nat) : Bool := decide (cp > 0x10FFFF)

/-- `utf8_to_unicode_reference` (lines 87-129) on the window `b0 b1 b2 b3` that
the iterator points at: the value returned (`-1` or the code point) and the
number of bytes by which the iterator has advanced. -/
def utf8_to_unicode_reference (b0 b1 b2 b3 : Nat) : Int × Nat :=
  if bad_start b0 then (-1, 0)
  else
    let l := expected_length b0
    let cp : Option Nat :=
      match l with
      | 1 => some (onebyte b0)
      | 2 => if bad_continuation b1 then none else some (twobyte b0 b1)
      | 3 =>
        if bad_continuation b1 || bad_continuation b2 then none
        else some (threebyte b0 b1 b2)
      | _ =>
        if bad_continuation b1 || bad_continuation b2 || bad_continuation b3 then none
        else some (fourbyte b0 b1 b2 b3)
    match cp with
    | none => (-1, 0)
    | some cp =>
      if out_of_range cp || utf16_surrogate cp || overlong cp l then (-1, 0)
      else ((cp : Int), l)

/-- The windows that hold a well-formed UTF-8 sequence, by the table of byte
ranges that `utf8_to_unicode_tester` walks (lines 306-405). -/
def utf8Valid (b0 b1 b2 b3 : Nat) : Prop :=
  b0 ≤ 0x7F ∨
  (0xC2 ≤ b0 ∧ b0 ≤ 0xDF ∧ 0x80 ≤ b1 ∧ b1 ≤ 0xBF) ∨
  (b0 = 0xE0 ∧ 0xA0 ≤ b1 ∧ b1 ≤ 0xBF ∧ 0x80 ≤ b2 ∧ b2 ≤ 0xBF) ∨
  (((0xE1 ≤ b0 ∧ b0 ≤ 0xEC) ∨ (0xEE ≤ b0 ∧ b0 ≤ 0xEF)) ∧
    0x80 ≤ b1 ∧ b1 ≤ 0xBF ∧ 0x80 ≤ b2 ∧ b2 ≤ 0xBF) ∨
  (b0 = 0xED ∧ 0x80 ≤ b1 ∧ b1 ≤ 0x9F ∧ 0x80 ≤ b2 ∧ b2 ≤ 0xBF) ∨
  (b0 = 0xF0 ∧ 0x90 ≤ b1 ∧ b1 ≤ 0xBF ∧ 0x80 ≤ b2 ∧ b2 ≤ 0xBF ∧ 0x80 ≤ b3 ∧ b3 ≤ 0xBF) ∨
  (0xF1 ≤ b0 ∧ b0 ≤ 0xF3 ∧ 0x80 ≤ b1 ∧ b1 ≤ 0xBF ∧ 0x80 ≤ b2 ∧ b2 ≤ 0xBF ∧
    0x80 ≤ b3 ∧ b3 ≤ 0xBF) ∨
  (b0 = 0xF4 ∧ 0x80 ≤ b1 ∧ b1 ≤ 0x8F ∧ 0x80 ≤ b2 ∧ b2 ≤ 0xBF ∧ 0x80 ≤ b3 ∧ b3 ≤ 0xBF)

/-- The value that the tester expects for a well-formed window: `onebyte`,
`twobyte`, `threebyte` or `fourbyte` of the window, by the length that the
first byte announces. -/
def utf8Value (b0 b1 b2 b3 : Nat) : Nat :=
  if b0 < 0x80 then onebyte b0
  else if b0 < 0xE0 then twobyte b0 b1
  else if b0 < 0xF0 then threebyte b0 b1 b2
  else fourbyte b0 b1 b2 b3

/-- The seeding of lines 178-180: the machine after the test of `First[*cur]`
at the offset `offset`. -/
def Vm.seed (vm : Vm) (cur : Byte) (offset : Nat) : Vm :=
  if vm.First cur then { vm with Active := vm.Active ++ [⟨some 0, 0, offset, UNALLOCATED⟩] }
  else vm

/-- The rest of one iteration of the loop over the input (lines 181-207), on
the machine `vm1` that the seeding leaves. -/
def stepActive (fuel : Nat) (vm1 : Vm) (cur : Byte) (offset : Nat) (hits : List SearchHit) :
    Except Fault (Vm × List SearchHit) :=
  match activeLoop (runThread vm1.Prog cur offset fuel) offset fuel 0 vm1 hits with
  | .error e => .error e
  | .ok (vm2, hits2) =>
    match clearCheckStates vm2.CheckStates with
    | .error e => .error e
    | .ok cs => .ok ({ vm2 with Active := vm2.Next, Next := [], CheckStates := cs }, hits2)

/-- The opcodes that consume a byte. -/
def Instruction.isConsuming : Instruction → Prop
  | .LIT_OP _ => True
  | .EITHER_OP _ _ => True
  | .RANGE_OP _ _ => True
  | .JUMP_TABLE_OP => True
  | _ => False

/-- The thread is at a byte-consuming opcode of the program. -/
def AtConsuming (prog : Program) (t : Thread) : Prop :=
  ∃ pc ins, t.PC = some pc ∧ prog[pc]? = some ins ∧ ins.isConsuming

/-! ## The tail of a snippet, as the specification words it -/

/-- The instruction is a `FORK` or a `JUMP`. -/
def Instruction.isBranch : Instruction → Bool
  | .FORK_OP _ => true
  | .JUMP_OP _ => true
  | _ => false

/-- The out-edge to `w` of a state of discover rank `rv` is a fallthrough
edge: the rank of `w` is `rv + 1`. -/
def isFallthrough (cg : CodeGenHelper) (rv w : Nat) : Bool :=
  decide (rv + 1 = cg.rankD w)

/-- The state of discover rank `rv` with the out-edges `targets` has a
fallthrough edge. -/
def hasFallthrough (cg : CodeGenHelper) (rv : Nat) (targets : List Nat) : Bool :=
  targets.any (isFallthrough cg rv)

/-- The targets of the out-edges that are not fallthrough edges, in iteration
order. -/
def branchTargets (cg : CodeGenHelper) (rv : Nat) (targets : List Nat) : List Nat :=
  targets.filter (fun w => !isFallthrough cg rv w)

/-- The `FORK` and `JUMP` instructions of a state as the specification states
them: nothing for a fallthrough edge, a `FORK` to the start of the snippet of
the target for every other edge, except the last edge that is not a
fallthrough edge, which is a `JUMP`. -/
def statedBranches (cg : CodeGenHelper) (rv : Nat) (targets : List Nat) : List Instruction :=
  (branchTargets cg rv targets).dropLast.map (fun w => Instruction.FORK_OP (cg.snippetD w).Start) ++
    ((branchTargets cg rv targets).getLast?.map
      (fun w => Instruction.JUMP_OP (cg.snippetD w).Start)).toList

/-- The `FORK` and `JUMP` instructions of a state, the statement amended: when
the state has a fallthrough edge every other edge is a `FORK`; when it has
none, every edge is a `FORK` except the last one, which is a `JUMP`. -/
def amendedBranches (cg : CodeGenHelper) (rv : Nat) (targets : List Nat) : List Instruction :=
  if hasFallthrough cg rv targets then
    (branchTargets cg rv targets).map (fun w => Instruction.FORK_OP (cg.snippetD w).Start)
  else statedBranches cg rv targets

/-- The instructions of the out-edges of a state as the specification states
them, for the edges `targets` from some edge on; `noFall` says that the state
has no fallthrough edge. An edge that is not a fallthrough edge is encoded as
`JUMP` when it is the last out-edge and the state has no fallthrough edge, and
as `FORK` otherwise; when the target has a check index the instruction is
preceded by `CHECK_HALT` on that index in the first case and by
`CHECK_BRANCH` in the second. -/
def guardedEdges (cg : CodeGenHelper) (rv : Nat) (noFall : Bool) : List Nat → List Instruction
  | [] => []
  | w :: rest =>
    (if isFallthrough cg rv w then []
     else
      (match (cg.snippetD w).CheckIndex with
        | some idx =>
          [if decide (rest = []) && noFall then Instruction.CHECK_HALT_OP idx
           else Instruction.CHECK_BRANCH_OP idx]
        | none => []) ++
      [if decide (rest = []) && noFall then Instruction.JUMP_OP (cg.snippetD w).Start
       else Instruction.FORK_OP (cg.snippetD w).Start]) ++
    guardedEdges cg rv noFall rest

/-- The instructions of all out-edges of a state, as the specification states
them. -/
def statedTail (cg : CodeGenHelper) (rv : Nat) (targets : List Nat) : List Instruction :=
  guardedEdges cg rv (!hasFallthrough cg rv targets) targets

/-- The instructions of the program from the position `lo` up to the position
`hi`. -/
def Program.slice (prog : Program) (lo hi : Nat) : List Instruction :=
  (prog.drop lo).take (hi - lo)

/-! ## The guard of the fallthrough target -/

/-- The target of the fallthrough edge of a state of discover rank `rv` with
the out-edges `targets` (the last one in iteration order, should several
targets have the rank `rv + 1`), if there is one. -/
def fallthroughTarget (cg : CodeGenHelper) (rv : Nat) (targets : List Nat) : Option Nat :=
  (targets.filter (isFallthrough cg rv)).getLast?

/-! ## The rows of `pivotStates` -/

/-- Whether the transition predicate of the state `t` accepts the byte `b`
(`graph[t]->getBits` sets the bit `b`). -/
def DynamicFSM.acceptsByte (g : DynamicFSM) (t : Nat) (b : Byte) : Bool :=
  match g.tranOf t with
  | some tr => tr.Pred.accepts b
  | none => false

/-- The row of the byte `b` in `pivotStates` after the loop over the out-edges
`targets`, started with the row `row` (lines 285-294, for one row). -/
def pivotRow (g : DynamicFSM) (b : Byte) : List Nat → List Nat → List Nat
  | [], row => row
  | t :: rest, row =>
    pivotRow g b rest (if g.acceptsByte t b = true ∧ t ∉ row then row ++ [t] else row)

/-! ## The label table of `createDynamicFSM` -/

/-- The bit of the ASCII encoding in the argument `enc` (`utility.h`). -/
def CP_ASCII : Nat := 1

/-- The bit of the UCS-16 encoding in the argument `enc` (`utility.h`). -/
def CP_UCS16 : Nat := 2

/-- `KwInfo` (`utility.h`). -/
structure KwInfo where
  Keywords : List String
  Encodings : List String
  PatternsTable : List (Nat × Nat)
  deriving DecidableEq, Repr

/-- One call of `p.setCurLabel(keyIdx)` for a keyword that parses: the label,
the index of the keyword in the list, and the index of the encoding at hand
in `keyInfo.Encodings`. -/
structure LabelUse where
  Label : Nat
  Keyword : Nat
  Encoding : Nat
  deriving DecidableEq, Repr

/-- The loop of `addKeys` (lines 21-42) from the keyword `i` on, as far as the
labels go: `parses kw` is the answer of `parse(kw, tree, p)` (parser, tree and
compiler are not part of the sources at hand, and the automaton is left out);
`uses` collects the labels given to the keywords that parse; `keyIdx` is a
`uint32`. -/
def addKeysLoop (parses : String → Bool) (encIdx : Nat) :
    List String → Nat → Nat → List LabelUse → List LabelUse × Nat
  | [], _, keyIdx, uses => (uses, keyIdx)
  | kw :: rest, i, keyIdx, uses =>
    if kw ≠ "" then
      if parses kw then
        addKeysLoop parses encIdx rest (i + 1) ((keyIdx + 1) % 2 ^ 32)
          (uses ++ [⟨keyIdx, i, encIdx⟩])
      else addKeysLoop parses encIdx rest (i + 1) keyIdx uses
    else addKeysLoop parses encIdx rest (i + 1) keyIdx uses

/-- `addKeys(keywords, enc, caseSensitive, fsm, keyIdx)` (lines 16-43): the
labels used and `keyIdx` after the call. -/
def addKeys (parses : String → Bool) (encIdx : Nat) (keywords : List String) (keyIdx : Nat)
    (uses : List LabelUse) : List LabelUse × Nat :=
  addKeysLoop parses encIdx keywords 0 keyIdx uses

/-- The block of `createDynamicFSM` for one encoding (lines 62-68 and 70-76):
the name is pushed on `Encodings`, `addKeys` runs, and one pair is pushed on
`PatternsTable` for every keyword. -/
def encodingBlock (parses : String → Bool) (name : String) (keyInfo : KwInfo) (keyIdx : Nat)
    (uses : List LabelUse) : KwInfo × Nat × List LabelUse :=
  let encodings := keyInfo.Encodings ++ [name]
  let encIdx := encodings.length - 1
  let r := addKeys parses encIdx keyInfo.Keywords keyIdx uses
  ({ keyInfo with
      Encodings := encodings
      PatternsTable := keyInfo.PatternsTable ++
        (List.range keyInfo.Keywords.length).map (fun i => (i, encIdx)) },
    r.2, r.1)

/-- `createDynamicFSM(keyInfo, enc, caseSensitive)` (lines 58-78): `keyInfo`
after the call and the labels that `addKeys` used. `parses e kw` says whether
the keyword parses under the encoding with the bit `e`. -/
def createDynamicFSM (parses : Nat → String → Bool) (keyInfo : KwInfo) (enc : Nat) :
    KwInfo × List LabelUse :=
  let a : KwInfo × Nat × List LabelUse :=
    if enc &&& CP_ASCII ≠ 0 then encodingBlock (parses CP_ASCII) "ASCII" keyInfo 0 []
    else (keyInfo, 0, [])
  let b : KwInfo × Nat × List LabelUse :=
    if enc &&& CP_UCS16 ≠ 0 then encodingBlock (parses CP_UCS16) "UCS-16" a.1 a.2.1 a.2.2
    else a
  (b.1, b.2.2)

/-! ## The layout of a jump table -/

/-- The position a thread enters the snippet of the state `t` at when it
comes from a jump table: `Start + NumEval`, past the instructions that test
the byte. -/
def tableEntry (cg : CodeGenHelper) (t : Nat) : Nat :=
  (cg.snippetD t).Start + (cg.snippetD t).NumEval

/-- The run of the indirect section for the accepting out-neighbours `row`, as
the specification states it: a `FORK` for every neighbour but the last and a
`JUMP` for the last. -/
def statedRun (cg : CodeGenHelper) (row : List Nat) : List Instruction :=
  row.dropLast.map (fun t => Instruction.FORK_OP (tableEntry cg t)) ++
    (row.getLast?.map (fun t => Instruction.JUMP_OP (tableEntry cg t))).toList

/-- The dispatch slot of a byte with the accepting out-neighbours `row`, as
the specification states it: `HALT` for none, a `JUMP` to the neighbour for
one, and a `JUMP` to the run at the position `run` otherwise. -/
def statedSlot (cg : CodeGenHelper) (run : Nat) (row : List Nat) : Instruction :=
  match row with
  | [] => Instruction.HALT_OP
  | [t] => Instruction.JUMP_OP (tableEntry cg t)
  | _ => Instruction.JUMP_OP run

/-- The position of the run of the byte `b` in a table whose header is at
`base`: the indirect section begins at `base + 257` and holds the runs in the
order of the bytes. -/
def runStart (base : Nat) (tbl : List (List Nat)) (b : Nat) : Nat :=
  base + 257 + indirectCount (tbl.take b)

/-! ## The match buffer during a search -/

/-- The label `l` is the operand of a `MATCH` instruction of the program. -/
def IsMatchLabel (prog : Program) (l : Nat) : Prop :=
  ∃ pc : Nat, prog[pc]? = some (Instruction.MATCH_OP l)

/-- The label of a thread is 0, the label of a seeded thread, or the operand
of a `MATCH` instruction. -/
def LabelOK (prog : Program) (t : Thread) : Prop :=
  t.Label = 0 ∨ IsMatchLabel prog t.Label

/-- What holds of a thread while the offset `q` is processed, in a search that
started at the offset `s0`: it started between `s0` and `q`, and either it has
no end, or its end lies between its start and `q` and its label is the operand
of a `MATCH` instruction. -/
structure ThreadOK (prog : Program) (s0 q : Nat) (t : Thread) : Prop where
  start_ge : s0 ≤ t.Start
  start_le : t.Start ≤ q
  span : t.End = UNALLOCATED ∨ (t.Start ≤ t.End ∧ t.End ≤ q ∧ IsMatchLabel prog t.Label)

/-- A cell of the match buffer is empty, or holds a start and an end with
`s0 ≤ start ≤ end ≤ q`. -/
def CellOK (s0 q : Nat) (cell : MatchCell) : Prop :=
  cell.1 = UNALLOCATED ∨ (s0 ≤ cell.1 ∧ cell.1 ≤ cell.2 ∧ cell.2 ≤ q)

/-- A hit was made from a start and an end `e` with `s0 ≤ start ≤ e ≤ q`: its
length is `e - start`, which is also what the 64-bit subtraction gives. -/
def HitOK (s0 q : Nat) (h : SearchHit) : Prop :=
  s0 ≤ h.Offset ∧ ∃ e, h.Offset ≤ e ∧ e ≤ q ∧ h.Length = e - h.Offset ∧
    h.Length = sub64 e h.Offset

/-- The calls of `reconcile` (the reads and writes of `Matches`, lines 186-200
and 214-226) that the loop over the active list makes, from the index `i` on:
the thread and the match buffer of the call. -/
inductive LoopCall
    (step : Thread → List Bool → ThreadList → ThreadList → Except Fault ExecResult)
    (offset : Nat) : Nat → Nat → Vm → List SearchHit → Thread → List MatchCell → Prop where
  | here {fuel i : Nat} {vm : Vm} {hits : List SearchHit} {t : Thread} {r : ExecResult} :
      vm.Active[i]? = some t → step t vm.CheckStates vm.Active vm.Next = .ok r →
      LoopCall step offset (fuel + 1) i vm hits r.t vm.Matches
  | later {fuel i : Nat} {vm : Vm} {hits hits1 : List SearchHit} {t t' : Thread}
      {r : ExecResult} {cells cells' : List MatchCell} :
      vm.Active[i]? = some t → step t vm.CheckStates vm.Active vm.Next = .ok r →
      reconcile r.t offset vm.Matches hits = .ok (cells, hits1) →
      LoopCall step offset fuel (i + 1)
        { vm with Active := r.active.set i r.t, Next := r.next,
                  CheckStates := r.checkStates, Matches := cells } hits1 t' cells' →
      LoopCall step offset (fuel + 1) i vm hits t' cells'

/-- The calls of `reconcile` during `Vm::search` on the bytes `input` from the
offset `q` on: the offset, the thread and the match buffer of the call. -/
inductive SearchCall (fuel : Nat) :
    List Byte → Vm → Nat → List SearchHit → Nat → Thread → List MatchCell → Prop where
  | byte {c : Byte} {rest : List Byte} {vm : Vm} {q : Nat} {hits : List SearchHit}
      {t : Thread} {cells : List MatchCell} :
      LoopCall (runThread (vm.seed c q).Prog c q fuel) q fuel 0 (vm.seed c q) hits t cells →
      SearchCall fuel (c :: rest) vm q hits q t cells
  | next {c : Byte} {rest : List Byte} {vm vm1 : Vm} {q q1 : Nat} {hits hits1 : List SearchHit}
      {t : Thread} {cells : List MatchCell} :
      byteStep fuel vm c q hits = .ok (vm1, hits1) →
      SearchCall fuel rest vm1 (inc64 q) hits1 q1 t cells →
      SearchCall fuel (c :: rest) vm q hits q1 t cells
  | last {vm : Vm} {q : Nat} {hits : List SearchHit} {t : Thread} {cells : List MatchCell} :
      LoopCall (runThreadEpsilons vm.Prog q fuel) q fuel 0 vm hits t cells →
      SearchCall fuel [] vm q hits q t cells

/-- The labels of the threads of a machine are in order, and its match buffer
has `n` cells. -/
structure LabelsOK (prog : Program) (n : Nat) (vm : Vm) : Prop where
  active : ∀ t ∈ vm.Active, LabelOK prog t
  next : ∀ t ∈ vm.Next, LabelOK prog t
  size : vm.Matches.length = n

/-- The threads, the match buffer and the hits of a machine are in order while
the offset `q` is processed. -/
structure SearchOK (prog : Program) (s0 q : Nat) (vm : Vm) (hits : List SearchHit) : Prop where
  active : ∀ t ∈ vm.Active, ThreadOK prog s0 q t
  next : ∀ t ∈ vm.Next, ThreadOK prog s0 q t
  cells : ∀ cell ∈ vm.Matches, CellOK s0 q cell
  hits : ∀ h ∈ hits, HitOK s0 q h

/-! ## The decoder under test (`unicode.h`) -/

/-- The table of `utf8_to_unicode_tester` can be decided. -/
instance utf8ValidDecidable (b0 b1 b2 b3 : Nat) : Decidable (utf8Valid b0 b1 b2 b3) := by
  unfold utf8Valid
  infer_instance

theorem runThread_fuel_mono (prog : Program) (cur : Byte) (offset : Nat) :
    ∀ (n m : Nat) (t : Thread) (cs : List Bool) (a nx : ThreadList) (r : ExecResult),
      n ≤ m → runThread prog cur offset n t cs a nx = .ok r →
      runThread prog cur offset m t cs a nx = .ok r := by
  intro n
  induction n with
  | zero => intro m t cs a nx r _ h; simp [runThread] at h
  | succ n ih =>
    intro m t cs a nx r hnm h
    obtain ⟨m, rfl⟩ : ∃ k, m = k + 1 := ⟨m - 1, by omega⟩
    simp only [runThread] at h ⊢
    cases hex : Vm.execute prog t cs a nx cur offset with
    | error e => simp [hex] at h
    | ok r1 =>
      simp only [hex] at h ⊢
      by_cases hr : r1.ret = true
      · simp only [hr, if_true] at h ⊢
        exact ih m _ _ _ _ r (by omega) h
      · simpa [hr] using h

theorem runThreadEpsilons_fuel_mono (prog : Program) (offset : Nat) :
    ∀ (n m : Nat) (t : Thread) (cs : List Bool) (a nx : ThreadList) (r : ExecResult),
      n ≤ m → runThreadEpsilons prog offset n t cs a nx = .ok r →
      runThreadEpsilons prog offset m t cs a nx = .ok r := by
  intro n
  induction n with
  | zero => intro m t cs a nx r _ h; simp [runThreadEpsilons] at h
  | succ n ih =>
    intro m t cs a nx r hnm h
    obtain ⟨m, rfl⟩ : ∃ k, m = k + 1 := ⟨m - 1, by omega⟩
    simp only [runThreadEpsilons] at h ⊢
    cases hex : executeEpsilons prog t cs a nx offset with
    | error e => simp [hex] at h
    | ok r1 =>
      simp only [hex] at h ⊢
      by_cases hr : r1.ret = true
      · simp only [hr, if_true] at h ⊢
        exact ih m _ _ _ _ r (by omega) h
      · simpa [hr] using h

theorem activeLoop_fuel_mono
    (step step' : Thread → List Bool → ThreadList → ThreadList → Except Fault ExecResult)
    (hstep : ∀ t cs a nx r, step t cs a nx = .ok r → step' t cs a nx = .ok r) (offset : Nat) :
    ∀ (n m i : Nat) (vm : Vm) (hits : List SearchHit) (res : Vm × List SearchHit),
      n ≤ m → activeLoop step offset n i vm hits = .ok res →
      activeLoop step' offset m i vm hits = .ok res := by
  intro n
  induction n with
  | zero =>
    intro m i vm hits res _ h
    simp only [activeLoop] at h
    split at h
    · simp at h
    · rename_i hi
      cases m with
      | zero => simp only [activeLoop, hi, if_false]; exact h
      | succ m =>
        have : vm.Active[i]? = none := by
          rw [List.getElem?_eq_none_iff]; omega
        simp only [activeLoop, this]; exact h
  | succ n ih =>
    intro m i vm hits res hnm h
    obtain ⟨m, rfl⟩ : ∃ k, m = k + 1 := ⟨m - 1, by omega⟩
    simp only [activeLoop] at h ⊢
    cases hget : vm.Active[i]? with
    | none => simpa [hget] using h
    | some t =>
      simp only [hget] at h ⊢
      cases hs : step t vm.CheckStates vm.Active vm.Next with
      | error e => simp [hs] at h
      | ok r =>
        simp only [hs, hstep _ _ _ _ _ hs] at h ⊢
        cases hrec : reconcile r.t offset vm.Matches hits with
        | error e => simp [hrec] at h
        | ok p =>
          obtain ⟨cells, hits1⟩ := p
          simp only [hrec] at h ⊢
          exact ih m _ _ _ res (by omega) h

theorem byteStep_fuel_mono (n m : Nat) (vm : Vm) (cur : Byte) (offset : Nat)
    (hits : List SearchHit) (res : Vm × List SearchHit) (hnm : n ≤ m)
    (h : byteStep n vm cur offset hits = .ok res) :
    byteStep m vm cur offset hits = .ok res := by
  simp only [byteStep] at h ⊢
  generalize (if vm.First cur = true then
      ({ vm with Active := vm.Active ++ [⟨some 0, 0, offset, UNALLOCATED⟩] } : Vm)
      else vm) = vm1 at h ⊢
  cases hal : activeLoop (runThread vm1.Prog cur offset n) offset n 0 vm1 hits with
  | error e => simp [hal] at h
  | ok p =>
    have hal' := activeLoop_fuel_mono (runThread vm1.Prog cur offset n)
      (runThread vm1.Prog cur offset m)
      (fun t cs a nx r hr => runThread_fuel_mono vm1.Prog cur offset n m t cs a nx r hnm hr)
      offset n m 0 vm1 hits p hnm hal
    simp only [hal] at h
    simp only [hal']
    exact h

theorem byteLoop_fuel_mono (n m : Nat) (hnm : n ≤ m) :
    ∀ (input : List Byte) (vm : Vm) (offset : Nat) (hits : List SearchHit)
      (res : Vm × Nat × List SearchHit),
      byteLoop n input vm offset hits = .ok res → byteLoop m input vm offset hits = .ok res := by
  intro input
  induction input with
  | nil => intro vm offset hits res h; simpa [byteLoop] using h
  | cons cur rest ih =>
    intro vm offset hits res h
    simp only [byteLoop] at h ⊢
    cases hb : byteStep n vm cur offset hits with
    | error e => simp [hb] at h
    | ok p =>
      simp only [hb] at h
      simp only [byteStep_fuel_mono n m vm cur offset hits p hnm hb]
      exact ih _ _ _ res h

/-- More fuel does not change the result of `Vm::search`. -/
theorem search_fuel_mono (n m : Nat) (hnm : n ≤ m) (vm : Vm) (input : List Byte)
    (startOffset : Nat) (res : SearchResult) (h : Vm.search n vm input startOffset = .ok res) :
    Vm.search m vm input startOffset = .ok res := by
  simp only [Vm.search] at h ⊢
  cases hb : byteLoop n input vm startOffset [] with
  | error e => simp [hb] at h
  | ok p =>
    obtain ⟨vm1, offset, hits1⟩ := p
    simp only [hb] at h
    simp only [byteLoop_fuel_mono n m hnm input vm startOffset [] _ hb]
    cases hal : activeLoop (runThreadEpsilons vm1.Prog offset n) offset n 0 vm1 hits1 with
    | error e => simp [hal] at h
    | ok q =>
      have hal' := activeLoop_fuel_mono (runThreadEpsilons vm1.Prog offset n)
        (runThreadEpsilons vm1.Prog offset m)
        (fun t cs a nx r hr => runThreadEpsilons_fuel_mono vm1.Prog offset n m t cs a nx r hnm hr)
        offset n m 0 vm1 hits1 q hnm hal
      simp only [hal] at h
      simp only [hal']
      exact h

theorem hitsOf_fuel_mono (n m : Nat) (hnm : n ≤ m) (vm : Vm) (input : List Byte)
    (startOffset : Nat) (hs : List SearchHit)
    (h : hitsOf (Vm.search n vm input startOffset) = some hs) :
    hitsOf (Vm.search m vm input startOffset) = some hs := by
  cases hr : Vm.search n vm input startOffset with
  | error e => simp [hr, hitsOf] at h
  | ok res =>
    rw [search_fuel_mono n m hnm vm input startOffset res hr]
    simpa [hr, hitsOf] using h

/-! ## Hit reconciliation -/

/-- C1. The reconciliation step of `Vm::search` for a thread with start `s`
and label `L` whose match ends at the current offset `q`, on a match buffer
whose cell `L` holds `prior = (s', q')`: the step has a result; the cells of
all other labels are unchanged; if the cell is empty (`s' = UNALLOCATED`) it
becomes `(s, q)` and nothing is emitted; otherwise, if `s' = s` and `q' < q`
it becomes `(s, q)` and nothing is emitted; else if `q' ≤ s` the hit
`(s', q' - s', L)` is emitted and the cell becomes `(s, q)`; in every other
case the buffer is unchanged and nothing is emitted. The length is the
machine difference, which is `q' - s'` whenever `s' ≤ q'`. -/
theorem reconcile_cell_update (t : Thread) (q : Nat) (cells : List MatchCell)
    (hits : List SearchHit) (prior : MatchCell)
    (hEnd : t.End = q) (hCell : cells[t.Label]? = some prior) :
    ∃ cells' hits', reconcile t q cells hits = .ok (cells', hits') ∧
      (∀ j, j ≠ t.Label → cells'[j]? = cells[j]?) ∧
      (prior.1 = UNALLOCATED → cells'[t.Label]? = some (t.Start, q) ∧ hits' = hits) ∧
      (prior.1 ≠ UNALLOCATED → prior.1 = t.Start ∧ prior.2 < q →
        cells'[t.Label]? = some (t.Start, q) ∧ hits' = hits) ∧
      (prior.1 ≠ UNALLOCATED → ¬ (prior.1 = t.Start ∧ prior.2 < q) → prior.2 ≤ t.Start →
        cells'[t.Label]? = some (t.Start, q) ∧
        hits' = hits ++ [⟨prior.1, sub64 prior.2 prior.1, t.Label⟩]) ∧
      (prior.1 ≠ UNALLOCATED → ¬ (prior.1 = t.Start ∧ prior.2 < q) → ¬ prior.2 ≤ t.Start →
        cells' = cells ∧ hits' = hits) ∧
      (prior.1 ≤ prior.2 → prior.2 < 2 ^ 64 → sub64 prior.2 prior.1 = prior.2 - prior.1) := by
  have hlt : t.Label < cells.length := by
    by_contra hc
    rw [List.getElem?_eq_none_iff.mpr (by omega)] at hCell
    cases hCell
  have hsub : prior.1 ≤ prior.2 → prior.2 < 2 ^ 64 → sub64 prior.2 prior.1 = prior.2 - prior.1 := by
    intro h1 h2
    unfold sub64
    have : prior.2 + 2 ^ 64 - prior.1 = (prior.2 - prior.1) + 2 ^ 64 := by omega
    rw [this, Nat.add_mod_right]
    exact Nat.mod_eq_of_lt (by omega)
  have hset : ∀ c : MatchCell, (cells.set t.Label c)[t.Label]? = some c := by
    intro c; simp [hlt]
  have hother : ∀ (c : MatchCell) (j : Nat), j ≠ t.Label →
      (cells.set t.Label c)[j]? = cells[j]? := by
    intro c j hj
    rw [List.getElem?_set_ne (Ne.symm hj)]
  subst hEnd
  by_cases h1 : prior.1 = UNALLOCATED ∨ (prior.1 = t.Start ∧ prior.2 < t.End)
  · refine ⟨cells.set t.Label (t.Start, t.End), hits, ?_, hother _, ?_, ?_, ?_, ?_, hsub⟩
    · simp [reconcile, hCell, h1]
    · intro _; exact ⟨hset _, rfl⟩
    · intro _ _; exact ⟨hset _, rfl⟩
    · intro hne hn; exact absurd (h1.resolve_left hne) hn
    · intro hne hn; exact absurd (h1.resolve_left hne) hn
  · have hne : prior.1 ≠ UNALLOCATED := fun h => h1 (Or.inl h)
    have hn : ¬ (prior.1 = t.Start ∧ prior.2 < t.End) := fun h => h1 (Or.inr h)
    by_cases h2 : prior.2 ≤ t.Start
    · refine ⟨cells.set t.Label (t.Start, t.End),
        hits ++ [⟨prior.1, sub64 prior.2 prior.1, t.Label⟩], ?_, hother _, ?_, ?_, ?_, ?_, hsub⟩
      · simp [reconcile, hCell, h1, h2]
      · intro h; exact absurd h hne
      · intro _ h; exact absurd h hn
      · intro _ _ _; exact ⟨hset _, rfl⟩
      · intro _ _ h; exact absurd h2 h
    · refine ⟨cells, hits, ?_, fun _ _ => rfl, ?_, ?_, ?_, ?_, hsub⟩
      · simp [reconcile, hCell, h1, h2]
      · intro h; exact absurd h hne
      · intro _ h; exact absurd h hn
      · intro _ _ h; exact absurd h h2
      · intro _ _ _; exact ⟨rfl, rfl⟩

/-- Witness of C1: the thread with start 5 whose match ends at offset 8, on a
buffer whose cell 0 holds `(1, 4)`, emits the hit `(1, 3, 0)` and stores
`(5, 8)`. -/
theorem reconcile_cell_update_witness :
    (⟨none, 0, 5, 8⟩ : Thread).End = 8 ∧
    ([(1, 4)] : List MatchCell)[(⟨none, 0, 5, 8⟩ : Thread).Label]? = some (1, 4) ∧
    ∃ cells' hits', reconcile ⟨none, 0, 5, 8⟩ 8 [(1, 4)] [] = .ok (cells', hits') ∧
      cells'[0]? = some (5, 8) ∧ hits' = [⟨1, 3, 0⟩] := by
  refine ⟨rfl, rfl, ?_⟩
  obtain ⟨c, h, hr, _, _, _, h5, _, hlen⟩ :=
    reconcile_cell_update ⟨none, 0, 5, 8⟩ 8 [(1, 4)] [] (1, 4) rfl rfl
  have h5' := h5 (by decide) (by decide) (by decide)
  have hlen' := hlen (by decide) (by decide)
  refine ⟨c, h, hr, h5'.1, ?_⟩
  rw [h5'.2, hlen']
  rfl

/-! ## The final flush of the match buffer -/

theorem flushLoop_append :
    ∀ (suf pre : List MatchCell) (hits : List SearchHit),
      flushLoop suf.length pre.length (pre ++ suf) hits =
        (pre ++ suf.map flushCell,
         hits ++ (suf.enumFrom pre.length).filterMap flushHit) := by
  intro suf
  induction suf with
  | nil => intro pre hits; simp [flushLoop]
  | cons c rest ih =>
    intro pre hits
    have hget : (pre ++ c :: rest)[pre.length]? = some c := by
      rw [List.getElem?_append_right (le_refl _)]; simp
    simp only [List.length_cons, flushLoop, hget]
    by_cases hc : c.1 < UNALLOCATED
    · have hset : (pre ++ c :: rest).set pre.length (UNALLOCATED, 0) =
          (pre ++ [(UNALLOCATED, 0)]) ++ rest := by simp
      have hlen : pre.length + 1 = (pre ++ [((UNALLOCATED, 0) : MatchCell)]).length := by simp
      simp only [hc, if_true, hset]
      rw [hlen, ih]
      simp [List.enumFrom_cons, flushHit, flushCell, hc]
    · have hsplit : pre ++ c :: rest = (pre ++ [c]) ++ rest := by simp
      have hlen : pre.length + 1 = (pre ++ [c]).length := by simp
      simp only [hc, if_false]
      rw [hsplit, hlen, ih]
      simp [List.enumFrom_cons, flushHit, flushCell, hc]

theorem flushLoop_all (cells : List MatchCell) (hits : List SearchHit) :
    flushLoop cells.length 0 cells hits =
      (cells.map flushCell, hits ++ cells.enum.filterMap flushHit) := by
  have := flushLoop_append cells [] hits
  simpa [List.enum] using this

/-- The structure of a run of `Vm::search` that has a result: the loop over
the input, the pass over the pending threads, then the flush. -/
theorem search_ok_split (fuel : Nat) (vm : Vm) (input : List Byte) (startOffset : Nat)
    (r : SearchResult) (h : Vm.search fuel vm input startOffset = .ok r) :
    ∃ vm1 offset hits1 vm2 hits2,
      byteLoop fuel input vm startOffset [] = .ok (vm1, offset, hits1) ∧
      activeLoop (runThreadEpsilons vm1.Prog offset fuel) offset fuel 0 vm1 hits1
        = .ok (vm2, hits2) ∧
      r.hits = hits2 ++ vm2.Matches.enum.filterMap flushHit ∧
      r.vm.Matches = vm2.Matches.map flushCell ∧
      r.vm.Active = vm2.Next ∧
      r.ret = decide (0 < vm2.Next.length) := by
  simp only [Vm.search] at h
  cases hb : byteLoop fuel input vm startOffset [] with
  | error e => simp [hb] at h
  | ok p =>
    obtain ⟨vm1, offset, hits1⟩ := p
    simp only [hb] at h
    cases hal : activeLoop (runThreadEpsilons vm1.Prog offset fuel) offset fuel 0 vm1 hits1 with
    | error e => simp [hal] at h
    | ok q =>
      obtain ⟨vm2, hits2⟩ := q
      simp only [hal] at h
      cases hcs : clearCheckStates vm2.CheckStates with
      | error e => simp [hcs] at h
      | ok cs =>
        simp only [hcs, Except.ok.injEq] at h
        subst h
        refine ⟨vm1, offset, hits1, vm2, hits2, rfl, hal, ?_, ?_, rfl, rfl⟩
        · simp [flushLoop_all]
        · simp [flushLoop_all]

/-- C8. End-of-input flush. When `Vm::search` returns, its run is the loop over
the input, then the pass over the pending threads, which leaves a match
buffer `vm2.Matches`; the hits of the call then end with, for every non-empty
cell `i` of that buffer holding `(s, e)` (first component below `UNALLOCATED`),
the hit `(s, e - s, i)`, once each and in increasing order of `i`, and in the
machine that is returned every one of those cells is `(UNALLOCATED, 0)`, so no
cell is non-empty any more. -/
theorem search_final_flush (fuel : Nat) (vm : Vm) (input : List Byte) (startOffset : Nat)
    (r : SearchResult) (h : Vm.search fuel vm input startOffset = .ok r) :
    ∃ vm1 offset hits1 vm2 hits2,
      byteLoop fuel input vm startOffset [] = .ok (vm1, offset, hits1) ∧
      activeLoop (runThreadEpsilons vm1.Prog offset fuel) offset fuel 0 vm1 hits1
        = .ok (vm2, hits2) ∧
      r.hits = hits2 ++
        vm2.Matches.enum.filterMap
          (fun p => if p.2.1 < UNALLOCATED then
            some ⟨p.2.1, sub64 p.2.2 p.2.1, p.1⟩ else none) ∧
      r.vm.Matches =
        vm2.Matches.map (fun c => if c.1 < UNALLOCATED then (UNALLOCATED, 0) else c) ∧
      (∀ c ∈ r.vm.Matches, ¬ c.1 < UNALLOCATED) ∧
      (∀ c ∈ r.vm.Matches, c.1 < 2 ^ 64 → c.1 = UNALLOCATED) := by
  obtain ⟨vm1, offset, hits1, vm2, hits2, hb, hal, hh, hm, _, _⟩ :=
    search_ok_split fuel vm input startOffset r h
  have hempty : ∀ c ∈ r.vm.Matches, ¬ c.1 < UNALLOCATED := by
    intro c hc
    rw [hm, List.mem_map] at hc
    obtain ⟨c0, _, rfl⟩ := hc
    unfold flushCell
    split
    · simp
    · assumption
  refine ⟨vm1, offset, hits1, vm2, hits2, hb, hal, hh, hm, hempty, ?_⟩
  intro c hc hlt
  have := hempty c hc
  unfold UNALLOCATED at this ⊢
  omega

/-- Witness of C8: the search of scenario S1 returns, so the theorem applies
to it; its last hit is the flushed cell of label 0. -/
theorem search_final_flush_witness :
    Vm.search 2 (Vm.init progABC (singleByte 97) 1) [120, 97, 98, 99, 121, 97, 98, 99] 0 =
      .ok ⟨false, ⟨progABC, [], [], singleByte 97, [false], [(UNALLOCATED, 0)]⟩,
            [⟨1, 3, 0⟩, ⟨5, 3, 0⟩]⟩ ∧
    ∃ (vm2 : Vm) (hits2 : List SearchHit),
      ([⟨1, 3, 0⟩, ⟨5, 3, 0⟩] : List SearchHit) = hits2 ++
        vm2.Matches.enum.filterMap
          (fun p => if p.2.1 < UNALLOCATED then
            some ⟨p.2.1, sub64 p.2.2 p.2.1, p.1⟩ else none) := by
  refine ⟨rfl, ?_⟩
  obtain ⟨_, _, _, vm2, hits2, _, _, hh, _⟩ :=
    search_final_flush 2 (Vm.init progABC (singleByte 97) 1)
      [120, 97, 98, 99, 121, 97, 98, 99] 0
      ⟨false, ⟨progABC, [], [], singleByte 97, [false], [(UNALLOCATED, 0)]⟩,
        [⟨1, 3, 0⟩, ⟨5, 3, 0⟩]⟩ rfl
  exact ⟨vm2, hits2, hh⟩

/-! ## Scenarios -/

theorem firstBytes_graphABC : firstBytes graphABC = .ok (singleByte 97) := by
  have : ∀ f g : ByteSet, (∀ c, f c = g c) → (Except.ok f : Except Fault ByteSet) = .ok g := by
    intro f g hfg; rw [funext hfg]
  apply this
  intro c
  simp [Transition.getBits, Predicate.accepts, singleByte]

/-- C4. Scenario S1. The graph of the pattern "abc" (label 0) compiles to the
program `LIT 'a'; LIT 'b'; LIT 'c'; MATCH 0; HALT`, its first-byte set is
`{'a'}`, and `Vm::search` over "xabcyabc" from offset 0 returns (with any fuel
from 2 on) having emitted exactly the hits `(1, 3, 0)` and `(5, 3, 0)`, in
that order. -/
theorem scenario_S1 (fill : Instruction) (n : Nat) :
    createProgram graphABC layoutABC fill = .ok ⟨progABC, 1⟩ ∧
    firstBytes graphABC = .ok (singleByte 97) ∧
    hitsOf (Vm.search (n + 2) (Vm.init progABC (singleByte 97) 1)
      [120, 97, 98, 99, 121, 97, 98, 99] 0) = some [⟨1, 3, 0⟩, ⟨5, 3, 0⟩] := by
  refine ⟨rfl, firstBytes_graphABC, ?_⟩
  exact hitsOf_fuel_mono 2 (n + 2) (by omega) _ _ _ _ (by decide)

theorem except_ok_byteSet_ext (f g : ByteSet) (h : ∀ c, f c = g c) :
    (Except.ok f : Except Fault ByteSet) = .ok g := by
  rw [funext h]

theorem firstBytes_graphS2 : firstBytes graphS2 = .ok (singleByte 97) := by
  apply except_ok_byteSet_ext
  intro c
  simp [Transition.getBits, Predicate.accepts, singleByte]

theorem firstBytes_graphS2Nfa : firstBytes graphS2Nfa = .ok (singleByte 97) := by
  apply except_ok_byteSet_ext
  intro c
  simp [Transition.getBits, Predicate.accepts, singleByte]

theorem firstBytes_graphAlt : firstBytes graphAlt = .ok firstAlt := by
  apply except_ok_byteSet_ext
  intro c
  simp [Transition.getBits, Predicate.accepts, firstAlt]

theorem firstBytes_graphOrder : firstBytes graphOrder = .ok (singleByte 97) := by
  apply except_ok_byteSet_ext
  intro c
  simp [Transition.getBits, Predicate.accepts, singleByte]

/-- C5, as stated, fails. For the program of the patterns "ab" (label 0) and
"abc" (label 1), with the common prefix shared or not, the hits of
`Vm::search` over "abcab" are not the sequence `(0,2,0), (0,3,1), (3,2,0)`. -/
theorem scenario_S2_stated_order_fails :
    hitsOf (Vm.search 10 (Vm.init progS2 (singleByte 97) 1) [97, 98, 99, 97, 98] 0)
      ≠ some [⟨0, 2, 0⟩, ⟨0, 3, 1⟩, ⟨3, 2, 0⟩] ∧
    hitsOf (Vm.search 10 (Vm.init progS2Nfa (singleByte 97) 1) [97, 98, 99, 97, 98] 0)
      ≠ some [⟨0, 2, 0⟩, ⟨0, 3, 1⟩, ⟨3, 2, 0⟩] := by
  constructor <;> decide

/-- C5, amended. Scenario S2. The graph of the patterns "ab" (label 0) and
"abc" (label 1), determinised or not, compiles to `progS2` resp. `progS2Nfa`
with first-byte set `{'a'}`, and `Vm::search` over "abcab" from offset 0
returns (with any fuel from 3 on) having emitted the hits `(0,2,0)`,
`(3,2,0)`, `(0,3,1)`, in that order: `(0,2,0)` when the second match of label
0 displaces it, the other two in the final flush, in label order. -/
theorem scenario_S2 (fill : Instruction) (n : Nat) :
    createProgram graphS2 layoutS2 fill = .ok ⟨progS2, 1⟩ ∧
    firstBytes graphS2 = .ok (singleByte 97) ∧
    hitsOf (Vm.search (n + 3) (Vm.init progS2 (singleByte 97) 1) [97, 98, 99, 97, 98] 0)
      = some [⟨0, 2, 0⟩, ⟨3, 2, 0⟩, ⟨0, 3, 1⟩] ∧
    createProgram graphS2Nfa layoutS2Nfa fill = .ok ⟨progS2Nfa, 1⟩ ∧
    firstBytes graphS2Nfa = .ok (singleByte 97) ∧
    hitsOf (Vm.search (n + 3) (Vm.init progS2Nfa (singleByte 97) 1) [97, 98, 99, 97, 98] 0)
      = some [⟨0, 2, 0⟩, ⟨3, 2, 0⟩, ⟨0, 3, 1⟩] := by
  refine ⟨rfl, firstBytes_graphS2, ?_, rfl, firstBytes_graphS2Nfa, ?_⟩
  · exact hitsOf_fuel_mono 3 (n + 3) (by omega) _ _ _ _ (by decide)
  · exact hitsOf_fuel_mono 3 (n + 3) (by omega) _ _ _ _ (by decide)

/-- C2, the code at the failing input. The graph of the one pattern
"abcde|cd" (label 0) compiles to `progAlt` with first-byte set `{'a', 'c'}`.
On the input "abcde" the matches of label 0 are `(2, 4)` ("cd") and `(0, 5)`
("abcde"); `Vm::search` emits the one hit `(2, 2, 0)`: the match with the
earlier start is dropped and the later-starting one is emitted. -/
theorem leftmost_longest_at_abcde (fill : Instruction) (n : Nat) :
    createProgram graphAlt layoutAlt fill = .ok ⟨progAlt, 1⟩ ∧
    firstBytes graphAlt = .ok firstAlt ∧
    hitsOf (Vm.search (n + 3) (Vm.init progAlt firstAlt 1) [97, 98, 99, 100, 101] 0)
      = some [⟨2, 2, 0⟩] := by
  refine ⟨rfl, firstBytes_graphAlt, ?_⟩
  exact hitsOf_fuel_mono 3 (n + 3) (by omega) _ _ _ _ (by decide)

/-- C3, the code at the failing input. For the program of the patterns "ab"
(label 0) and "abc" (label 1) and the input "abc", one call of `Vm::search`
emits `(0,2,0), (0,3,1)`; the two calls on "ab" and then "c" emit
`(0,2,0), (0,2,0), (0,3,1)`: the hit of label 0 twice. -/
theorem block_split_at_abc :
    createProgram graphS2 layoutS2 .HALT_OP = .ok ⟨progS2, 1⟩ ∧
    searchOneBlock 10 (Vm.init progS2 (singleByte 97) 1) [97, 98, 99]
      = .ok [⟨0, 2, 0⟩, ⟨0, 3, 1⟩] ∧
    searchTwoBlocks 10 (Vm.init progS2 (singleByte 97) 1) [97, 98, 99] 2
      = .ok [⟨0, 2, 0⟩, ⟨0, 2, 0⟩, ⟨0, 3, 1⟩] := by
  refine ⟨rfl, rfl, rfl⟩

/-- C6. Scenario S6. For every program and first-byte set, a machine freshly
set up by `Vm::init` with at least one check state (slot 0 is the dirty flag
that `search` reads) and run by `Vm::search` on the empty input returns, with
any fuel, the value false, emits no hit and has an empty active list. -/
theorem search_empty_input (prog : Program) (first : ByteSet) (numCheckedStates : Nat)
    (fuel startOffset : Nat) (h : 0 < numCheckedStates) :
    ∃ r, Vm.search fuel (Vm.init prog first numCheckedStates) [] startOffset = .ok r ∧
      r.ret = false ∧ r.hits = [] ∧ r.vm.Active = [] := by
  have hal : ∀ (step : Thread → List Bool → ThreadList → ThreadList → Except Fault ExecResult),
      activeLoop step startOffset fuel 0 (Vm.init prog first numCheckedStates) [] =
        .ok (Vm.init prog first numCheckedStates, []) := by
    intro step
    cases fuel <;> simp [activeLoop, Vm.init]
  have hcs : clearCheckStates (Vm.init prog first numCheckedStates).CheckStates =
      .ok (List.replicate numCheckedStates false) := by
    obtain ⟨k, rfl⟩ : ∃ k, numCheckedStates = k + 1 := ⟨numCheckedStates - 1, by omega⟩
    simp [clearCheckStates, Vm.init, List.replicate_succ]
  have hflush : ((Vm.init prog first numCheckedStates).Matches.enum.filterMap flushHit) = [] := by
    rw [List.filterMap_eq_nil_iff]
    intro p hp
    have hmem := List.mem_enum hp
    simp only [Vm.init, List.mem_replicate] at hmem
    simp [flushHit, hmem.2]
  simp only [Vm.search, byteLoop, hal, hcs, flushLoop_all, hflush]
  exact ⟨_, rfl, by simp [Vm.init], rfl, by simp [Vm.init]⟩

/-- Witness of C6: the program of scenario S1 with one check state. -/
theorem search_empty_input_witness :
    0 < 1 ∧
    ∃ r, Vm.search 0 (Vm.init progABC (singleByte 97) 1) [] 0 = .ok r ∧
      r.ret = false ∧ r.hits = [] ∧ r.vm.Active = [] :=
  ⟨by decide, search_empty_input progABC (singleByte 97) 1 0 0 (by decide)⟩

/-- Without a check state the machine has no dirty flag: `search` reads
`CheckStates[0]` outside the array. -/
theorem search_empty_input_no_check_state :
    ∃ e, Vm.search 5 (Vm.init progABC (singleByte 97) 0) [] 0 = .error e :=
  ⟨.outOfBounds, rfl⟩

/-! ## Order of the hits -/

theorem flushHit_label_ge (l : List MatchCell) :
    ∀ (n : Nat) (h : SearchHit), h ∈ (l.enumFrom n).filterMap flushHit → n ≤ h.Label := by
  induction l with
  | nil => intro n h hh; simp at hh
  | cons c rest ih =>
    intro n h hh
    rw [List.enumFrom_cons, List.filterMap_cons] at hh
    cases hf : flushHit (n, c) with
    | none =>
      rw [hf] at hh
      exact Nat.le_of_succ_le (ih (n + 1) h hh)
    | some x =>
      rw [hf] at hh
      rcases List.mem_cons.mp hh with rfl | hmem
      · unfold flushHit at hf
        split at hf
        · cases hf; exact le_refl _
        · cases hf
      · exact Nat.le_of_succ_le (ih (n + 1) h hmem)

theorem flushHit_pairwise (l : List MatchCell) :
    ∀ n : Nat, ((l.enumFrom n).filterMap flushHit).Pairwise (fun a b => a.Label < b.Label) := by
  induction l with
  | nil => intro n; simp
  | cons c rest ih =>
    intro n
    rw [List.enumFrom_cons, List.filterMap_cons]
    cases hf : flushHit (n, c) with
    | none => exact ih (n + 1)
    | some x =>
      refine List.Pairwise.cons ?_ (ih (n + 1))
      intro b hb
      have hge := flushHit_label_ge rest (n + 1) b hb
      have hx : x.Label = n := by
        unfold flushHit at hf
        split at hf
        · cases hf; rfl
        · cases hf
      omega

/-- C7, as stated, fails. For the program of the patterns "ab" (label 0) and
"a" (label 1), `Vm::search` over "aba" emits `(0,1,1)`, `(0,2,0)`, `(2,1,1)`:
the first two hits have the same offset and the one with the larger label
comes first. -/
theorem hit_order_by_label_fails :
    createProgram graphOrder layoutOrder .HALT_OP = .ok ⟨progOrder, 1⟩ ∧
    hitsOf (Vm.search 10 (Vm.init progOrder (singleByte 97) 1) [97, 98, 97] 0)
      = some [⟨0, 1, 1⟩, ⟨0, 2, 0⟩, ⟨2, 1, 1⟩] ∧
    ¬ List.Pairwise (fun a b : SearchHit => a.Offset = b.Offset → a.Label < b.Label)
      [⟨0, 1, 1⟩, ⟨0, 2, 0⟩, ⟨2, 1, 1⟩] := by
  refine ⟨rfl, by decide, by decide⟩

/-- C7, amended. The hits of a call of `Vm::search` are the hits committed
while threads were run (`committed`, in the order in which a later match
displaced them), followed by the hits of the final flush (`flushed`); in
`flushed` the labels increase strictly, so two flushed hits with the same
offset are emitted smaller label first. -/
theorem flushed_hits_label_order (fuel : Nat) (vm : Vm) (input : List Byte)
    (startOffset : Nat) (r : SearchResult)
    (h : Vm.search fuel vm input startOffset = .ok r) :
    ∃ vm1 offset hits1 vm2 committed flushed,
      byteLoop fuel input vm startOffset [] = .ok (vm1, offset, hits1) ∧
      activeLoop (runThreadEpsilons vm1.Prog offset fuel) offset fuel 0 vm1 hits1
        = .ok (vm2, committed) ∧
      flushed = (flushLoop vm2.Matches.length 0 vm2.Matches []).2 ∧
      r.hits = committed ++ flushed ∧
      flushed.Pairwise (fun a b => a.Label < b.Label) ∧
      flushed.Pairwise (fun a b => a.Offset = b.Offset → a.Label < b.Label) := by
  obtain ⟨vm1, offset, hits1, vm2, hits2, hb, hal, hh, _, _, _⟩ :=
    search_ok_split fuel vm input startOffset r h
  have hp := flushHit_pairwise vm2.Matches 0
  refine ⟨vm1, offset, hits1, vm2, hits2, vm2.Matches.enum.filterMap flushHit,
    hb, hal, ?_, hh, hp, ?_⟩
  · simp [flushLoop_all]
  · exact List.Pairwise.imp (R := fun a b : SearchHit => a.Label < b.Label)
      (S := fun a b : SearchHit => a.Offset = b.Offset → a.Label < b.Label)
      (fun hab _ => hab) hp

/-- Witness of C7, amended: the search of the counterexample returns; its
flushed hits are `(0,2,0)` and `(2,1,1)`. -/
theorem flushed_hits_label_order_witness :
    Vm.search 3 (Vm.init progOrder (singleByte 97) 1) [97, 98, 97] 0 =
      .ok ⟨true, ⟨progOrder, [⟨some 2, 1, 2, 3⟩], [], singleByte 97, [false],
            [(UNALLOCATED, 0), (UNALLOCATED, 0)]⟩,
            [⟨0, 1, 1⟩, ⟨0, 2, 0⟩, ⟨2, 1, 1⟩]⟩ ∧
    ∃ committed flushed : List SearchHit,
      ([⟨0, 1, 1⟩, ⟨0, 2, 0⟩, ⟨2, 1, 1⟩] : List SearchHit) = committed ++ flushed ∧
      flushed.Pairwise (fun a b => a.Label < b.Label) := by
  refine ⟨rfl, ?_⟩
  obtain ⟨_, _, _, _, committed, flushed, _, _, _, hh, hp, _⟩ :=
    flushed_hits_label_order 3 (Vm.init progOrder (singleByte 97) 1) [97, 98, 97] 0
      ⟨true, ⟨progOrder, [⟨some 2, 1, 2, 3⟩], [], singleByte 97, [false],
            [(UNALLOCATED, 0), (UNALLOCATED, 0)]⟩,
            [⟨0, 1, 1⟩, ⟨0, 2, 0⟩, ⟨2, 1, 1⟩]⟩ rfl
  exact ⟨committed, flushed, hh, hp⟩

/-! ## First-byte analysis -/

theorem nextBytesLoop_spec (g : DynamicFSM) :
    ∀ (targets : List Nat) (set : ByteSet),
      (∀ t ∈ targets, ∃ tr, g.tran t = .ok tr) →
      ∃ s, nextBytesLoop g targets set = .ok s ∧
        ∀ b, s b = true ↔
          (set b = true ∨ ∃ t ∈ targets, ∃ tr, g.tran t = .ok tr ∧ tr.Pred.accepts b = true) := by
  intro targets
  induction targets with
  | nil => intro set _; exact ⟨set, rfl, by simp⟩
  | cons t rest ih =>
    intro set htr
    obtain ⟨tr, htr0⟩ := htr t (List.mem_cons_self _ _)
    obtain ⟨s, hs, hiff⟩ := ih (fun c => set c || (tr.getBits (fun _ => false)) c)
      (fun t' ht' => htr t' (List.mem_cons_of_mem _ ht'))
    refine ⟨s, by simp [nextBytesLoop, htr0, hs], ?_⟩
    intro b
    rw [hiff b]
    constructor
    · rintro (h | ⟨t', ht', tr', htr', hacc⟩)
      · simp only [Transition.getBits, Bool.false_or, Bool.or_eq_true] at h
        rcases h with h | h
        · exact Or.inl h
        · exact Or.inr ⟨t, List.mem_cons_self _ _, tr, htr0, h⟩
      · exact Or.inr ⟨t', List.mem_cons_of_mem _ ht', tr', htr', hacc⟩
    · rintro (h | ⟨t', ht', tr', htr', hacc⟩)
      · left; simp [h]
      · rcases List.mem_cons.mp ht' with rfl | hmem
        · left
          rw [htr0] at htr'
          cases htr'
          simp [Transition.getBits, hacc]
        · exact Or.inr ⟨t', hmem, tr', htr', hacc⟩

theorem nextBytesLoop_mono (g : DynamicFSM) :
    ∀ (targets : List Nat) (set s : ByteSet),
      nextBytesLoop g targets set = .ok s → ∀ b, set b = true → s b = true := by
  intro targets
  induction targets with
  | nil =>
    intro set s h b hb
    simp only [nextBytesLoop, Except.ok.injEq] at h
    rw [← h]; exact hb
  | cons t rest ih =>
    intro set s h b hb
    simp only [nextBytesLoop] at h
    cases htr : g.tran t with
    | error e => simp [htr] at h
    | ok tr =>
      simp only [htr] at h
      exact ih _ s h b (by simp [hb])

/-- C10. `firstBytes(graph)` is the union of the accepting byte sets of the
direct successors of state 0: when state 0 has the out-neighbours `targets`
and each of them carries a transition, `firstBytes` returns a set, and a byte
`b` is in it if and only if some out-neighbour of state 0 has a transition
whose predicate accepts `b`. And `nextBytes(set, v, graph)` only adds bytes:
every byte of `set` is in the set it leaves. -/
theorem firstBytes_union (g : DynamicFSM) (targets : List Nat)
    (hout : g.outVertices 0 = .ok targets)
    (htran : ∀ t ∈ targets, ∃ tr, g.tran t = .ok tr) :
    (∃ s, firstBytes g = .ok s ∧
      ∀ b, s b = true ↔
        ∃ t ∈ targets, ∃ tr, g.tran t = .ok tr ∧ tr.Pred.accepts b = true) ∧
    (∀ (set : ByteSet) (v : Nat) (s' : ByteSet),
      nextBytes set v g = .ok s' → ∀ b, set b = true → s' b = true) := by
  constructor
  · obtain ⟨s, hs, hiff⟩ := nextBytesLoop_spec g targets (fun _ => false) htran
    refine ⟨s, by simp [firstBytes, nextBytes, hout, hs], ?_⟩
    intro b
    rw [hiff b]
    simp
  · intro set v s' h b hb
    simp only [nextBytes] at h
    cases hv : g.outVertices v with
    | error e => simp [hv] at h
    | ok ts =>
      simp only [hv] at h
      exact nextBytesLoop_mono g ts set s' h b hb

/-- Witness of C10: the graph of "abcde|cd", whose start state has the
out-neighbours 1 (`a`) and 6 (`c`). -/
theorem firstBytes_union_witness :
    graphAlt.outVertices 0 = .ok [1, 6] ∧
    (∀ t ∈ [1, 6], ∃ tr, graphAlt.tran t = .ok tr) ∧
    (∃ s, firstBytes graphAlt = .ok s ∧
      ∀ b, s b = true ↔
        ∃ t ∈ [1, 6], ∃ tr, graphAlt.tran t = .ok tr ∧ tr.Pred.accepts b = true) := by
  have h1 : graphAlt.outVertices 0 = .ok [1, 6] := rfl
  have h2 : ∀ t ∈ [1, 6], ∃ tr, graphAlt.tran t = .ok tr := by
    intro t ht
    simp only [List.mem_cons, List.mem_singleton, List.not_mem_nil, or_false] at ht
    rcases ht with rfl | rfl
    · exact ⟨_, rfl⟩
    · exact ⟨_, rfl⟩
  exact ⟨h1, h2, (firstBytes_union graphAlt [1, 6] h1 h2).1⟩

/-! ## One instruction -/

theorem except_map_ok {α β : Type} (f : α → β) (a : α) :
    (Except.ok a : Except Fault α).map f = .ok (f a) := rfl

theorem except_map_error {α β : Type} (f : α → β) (e : Fault) :
    (Except.error e : Except Fault α).map f = .error e := rfl

theorem fetch_eq_ok {prog : Program} {t : Thread} {pc : Nat} {ins : Instruction}
    (hpc : t.PC = some pc) (hins : prog[pc]? = some ins) : fetch prog t = .ok (pc, ins) := by
  simp [fetch, hpc, hins]

theorem fetch_ok_inv {prog : Program} {t : Thread} {pc : Nat} {ins : Instruction}
    (h : fetch prog t = .ok (pc, ins)) : t.PC = some pc ∧ prog[pc]? = some ins := by
  unfold fetch at h
  cases hpc : t.PC with
  | none => simp [hpc] at h
  | some p =>
    simp only [hpc] at h
    cases hi : prog[p]? with
    | none => simp [hi] at h
    | some i =>
      simp only [hi, Except.ok.injEq, Prod.mk.injEq] at h
      obtain ⟨rfl, rfl⟩ := h
      exact ⟨rfl, hi⟩

theorem checkBranch_prepend (idx : Nat) (t : Thread) (cs : List Bool) (a nx : ThreadList) :
    checkBranch idx t cs a nx = (checkBranch idx t cs [] nx).map (ExecResult.prepend a) := by
  unfold checkBranch
  cases h : cs[idx]? with
  | none => rfl
  | some b => cases b <;> simp [Except.map, ExecResult.prepend]

theorem checkHalt_prepend (idx : Nat) (t : Thread) (cs : List Bool) (a nx : ThreadList) :
    checkHalt idx t cs a nx = (checkHalt idx t cs [] nx).map (ExecResult.prepend a) := by
  unfold checkHalt
  cases h : cs[idx]? with
  | none => rfl
  | some b => cases b <;> simp [Except.map, ExecResult.prepend]

theorem execute_prepend (prog : Program) (t : Thread) (cs : List Bool) (a nx : ThreadList)
    (c : Byte) (q : Nat) :
    Vm.execute prog t cs a nx c q =
      (Vm.execute prog t cs [] nx c q).map (ExecResult.prepend a) := by
  unfold Vm.execute
  cases hf : fetch prog t with
  | error e => rfl
  | ok p =>
    obtain ⟨pc, ins⟩ := p
    cases ins with
    | LIT_OP b => by_cases hc : c = b <;> simp [hc, Except.map, ExecResult.prepend]
    | EITHER_OP x y => by_cases hc : c = x ∨ c = y <;> simp [hc, Except.map, ExecResult.prepend]
    | RANGE_OP lo hi =>
      by_cases hc : lo ≤ c ∧ c ≤ hi <;> simp [hc, Except.map, ExecResult.prepend]
    | JUMP_OP addr => simp [Except.map, ExecResult.prepend]
    | JUMP_TABLE_OP =>
      simp only
      cases hs : prog[pc + (1 + c)]? with
      | none => rfl
      | some slot =>
        by_cases hh : slot = .HALT_OP <;> simp [hh, Except.map, ExecResult.prepend]
    | FORK_OP addr => simp [Except.map, ExecResult.prepend]
    | CHECK_BRANCH_OP idx => exact checkBranch_prepend idx t cs a nx
    | CHECK_HALT_OP idx => exact checkHalt_prepend idx t cs a nx
    | MATCH_OP l => simp [Except.map, ExecResult.prepend]
    | HALT_OP => simp [Except.map, ExecResult.prepend]

theorem prepend_prepend (a b : ThreadList) (r : ExecResult) :
    ExecResult.prepend a (ExecResult.prepend b r) = ExecResult.prepend (a ++ b) r := by
  simp [ExecResult.prepend]

theorem runThread_prepend (prog : Program) (c : Byte) (q : Nat) :
    ∀ (n : Nat) (t : Thread) (cs : List Bool) (a nx : ThreadList),
      runThread prog c q n t cs a nx =
        (runThread prog c q n t cs [] nx).map (ExecResult.prepend a) := by
  intro n
  induction n with
  | zero => intro t cs a nx; rfl
  | succ n ih =>
    intro t cs a nx
    simp only [runThread]
    rw [execute_prepend prog t cs a nx c q]
    cases hex : Vm.execute prog t cs [] nx c q with
    | error e => rfl
    | ok r =>
      rw [except_map_ok]
      by_cases hr : r.ret = true
      · have h1 : (ExecResult.prepend a r).ret = true := hr
        simp only [h1, hr, if_true]
        rw [ih (ExecResult.prepend a r).t (ExecResult.prepend a r).checkStates
          (ExecResult.prepend a r).active (ExecResult.prepend a r).next]
        rw [ih r.t r.checkStates r.active r.next]
        have e1 : (ExecResult.prepend a r).t = r.t := rfl
        have e2 : (ExecResult.prepend a r).checkStates = r.checkStates := rfl
        have e3 : (ExecResult.prepend a r).next = r.next := rfl
        have e4 : (ExecResult.prepend a r).active = a ++ r.active := rfl
        rw [e1, e2, e3, e4]
        cases hrec : runThread prog c q n r.t r.checkStates [] r.next with
        | error e => rfl
        | ok r2 =>
          simp only [except_map_ok, prepend_prepend]
      · have h1 : ¬ (ExecResult.prepend a r).ret = true := hr
        simp only []
        rw [if_neg h1, if_neg hr, except_map_ok]

theorem runThread_ok_prepend {prog : Program} {c : Byte} {q n : Nat} {t : Thread}
    {cs : List Bool} {nx : ThreadList} {r : ExecResult} (a : ThreadList)
    (h : runThread prog c q n t cs [] nx = .ok r) :
    runThread prog c q n t cs a nx = .ok (ExecResult.prepend a r) := by
  rw [runThread_prepend, h]; rfl

theorem runThread_det {prog : Program} {c : Byte} {q n m : Nat} {t : Thread}
    {cs : List Bool} {a nx : ThreadList} {r r' : ExecResult}
    (h : runThread prog c q n t cs a nx = .ok r) (h' : runThread prog c q m t cs a nx = .ok r') :
    r = r' := by
  have h1 := runThread_fuel_mono prog c q n (max n m) t cs a nx r (le_max_left _ _) h
  have h2 := runThread_fuel_mono prog c q m (max n m) t cs a nx r' (le_max_right _ _) h'
  rw [h1] at h2
  exact Except.ok.inj h2

/-! ## The loop over the active list as a queue -/

theorem queueLoop_nil
    (step : Thread → List Bool → ThreadList → ThreadList → Except Fault ExecResult)
    (offset n : Nat) (s : LoopState) : queueLoop step offset n [] s = .ok s := by
  cases n <;> rfl

theorem activeLoop_eq_queueLoop
    (step : Thread → List Bool → ThreadList → ThreadList → Except Fault ExecResult)
    (hstep : ∀ t cs a nx, step t cs a nx = (step t cs [] nx).map (ExecResult.prepend a))
    (offset : Nat) :
    ∀ (n i : Nat) (vm : Vm) (hits : List SearchHit),
      (activeLoop step offset n i vm hits).map (fun p => loopStateOf p.1 p.2) =
        queueLoop step offset n (vm.Active.drop i) (loopStateOf vm hits) := by
  intro n
  induction n with
  | zero =>
    intro i vm hits
    simp only [activeLoop]
    by_cases hi : i < vm.Active.length
    · have hd : vm.Active.drop i = vm.Active[i] :: vm.Active.drop (i + 1) :=
        List.drop_eq_getElem_cons hi
      rw [if_pos hi, hd]
      rfl
    · have hd : vm.Active.drop i = [] := List.drop_eq_nil_of_le (by omega)
      rw [if_neg hi, hd]
      rfl
  | succ n ih =>
    intro i vm hits
    simp only [activeLoop]
    by_cases hi : i < vm.Active.length
    · have hd : vm.Active.drop i = vm.Active[i] :: vm.Active.drop (i + 1) :=
        List.drop_eq_getElem_cons hi
      rw [List.getElem?_eq_getElem hi, hd]
      simp only [queueLoop, loopStateOf]
      rw [hstep]
      cases hs : step vm.Active[i] vm.CheckStates [] vm.Next with
      | error e => rfl
      | ok r =>
        rw [except_map_ok]
        have e1 : (ExecResult.prepend vm.Active r).t = r.t := rfl
        have e2 : (ExecResult.prepend vm.Active r).checkStates = r.checkStates := rfl
        have e3 : (ExecResult.prepend vm.Active r).next = r.next := rfl
        have e4 : (ExecResult.prepend vm.Active r).active = vm.Active ++ r.active := rfl
        simp only [e1, e2, e3, e4]
        cases hrec : reconcile r.t offset vm.Matches hits with
        | error e => rfl
        | ok p =>
          obtain ⟨cells, hits1⟩ := p
          simp only []
          have := ih (i + 1)
            { vm with Active := (vm.Active ++ r.active).set i r.t, Next := r.next,
                      CheckStates := r.checkStates, Matches := cells } hits1
          simp only [loopStateOf] at this
          rw [this]
          congr 1
          rw [List.drop_set_of_lt _ _ (Nat.lt_succ_self i),
            List.drop_append_of_le_length (by omega)]
    · have hd : vm.Active.drop i = [] := List.drop_eq_nil_of_le (by omega)
      have hn : vm.Active[i]? = none := List.getElem?_eq_none_iff.mpr (by omega)
      rw [hn, hd, queueLoop_nil]
      rfl

/-! ## Doomed threads -/

theorem advance_pc {t : Thread} {pc : Nat} (h : t.PC = some pc) :
    t.advance.PC = some (pc + 1) := by
  simp [Thread.advance, h]

theorem sameSpan_refl (t : Thread) : t.sameSpan t := ⟨rfl, rfl, rfl⟩

theorem sameSpan_trans {a b d : Thread} (h1 : a.sameSpan b) (h2 : b.sameSpan d) :
    a.sameSpan d :=
  ⟨h1.1.trans h2.1, h1.2.1.trans h2.2.1, h1.2.2.trans h2.2.2⟩

theorem sameSpan_symm {a b : Thread} (h : a.sameSpan b) : b.sameSpan a :=
  ⟨h.1.symm, h.2.1.symm, h.2.2.symm⟩

theorem dirtyOK_set (cs : List Bool) (idx : Nat) :
    DirtyOK ((cs.set idx true).set 0 true) := by
  intro h0 i
  by_cases hlen : 0 < cs.length
  · rw [List.getElem?_set_self (by simpa using hlen)] at h0
    cases h0
  · have : cs = [] := List.eq_nil_of_length_eq_zero (by omega)
    subst this
    simp

theorem set_set_agree (cs : List Bool) (idx i : Nat) (hi0 : i ≠ 0) (hi : i ≠ idx) :
    ((cs.set idx true).set 0 true)[i]? = cs[i]? := by
  rw [List.getElem?_set_ne (Ne.symm hi0), List.getElem?_set_ne (Ne.symm hi)]

theorem extraList_append {prog : Program} {D : Nat → Prop} {c : Byte} {P : Thread → Prop}
    {K1 K2 : Nat} {l1 l2 : List Thread}
    (h1 : ExtraList prog D c P K1 l1) (h2 : ExtraList prog D c P K2 l2) :
    ExtraList prog D c P (K1 + K2) (l1 ++ l2) := by
  induction h1 with
  | nil => simpa using h2
  | cons e he hp _ ih =>
    rw [List.cons_append, Nat.add_assoc]
    exact ExtraList.cons e he hp ih

theorem extraList_imp {prog : Program} {D : Nat → Prop} {c : Byte} {P P' : Thread → Prop}
    (hPP : ∀ e, P e → P' e) {K : Nat} {l : List Thread}
    (h : ExtraList prog D c P K l) : ExtraList prog D c P' K l := by
  induction h with
  | nil => exact ExtraList.nil
  | cons e he hp _ ih => exact ExtraList.cons e he (hPP e hp) ih


theorem doomed_run {prog : Program} {D : Nat → Prop} {c : Byte} (q : Nat) :
    ∀ (k pc : Nat), Doomed prog D c k pc →
    ∀ (t : Thread) (cs : List Bool) (nx : ThreadList),
      t.PC = some pc → (∀ idx, D idx → idx < cs.length) → DirtyOK cs →
      ∃ r, runThread prog c q k t cs [] nx = .ok r ∧ DoomedRun prog D c k t cs nx r := by
  intro k pc hd
  induction hd with
  | @halt k pc hins =>
    intro t cs nx hpc _ hdirty
    refine ⟨⟨false, { t with PC := none }, cs, [], nx⟩, ?_, ?_⟩
    · simp [runThread, Vm.execute, fetch_eq_ok hpc hins]
    · exact ⟨rfl, ⟨rfl, rfl, rfl⟩, rfl, fun _ _ _ => rfl, hdirty, 0, by omega, ExtraList.nil⟩
  | @lit k pc b hins hne =>
    intro t cs nx hpc _ hdirty
    refine ⟨⟨false, { t with PC := none }, cs, [], nx⟩, ?_, ?_⟩
    · simp [runThread, Vm.execute, fetch_eq_ok hpc hins, hne]
    · exact ⟨rfl, ⟨rfl, rfl, rfl⟩, rfl, fun _ _ _ => rfl, hdirty, 0, by omega, ExtraList.nil⟩
  | @either k pc a b hins hne =>
    intro t cs nx hpc _ hdirty
    refine ⟨⟨false, { t with PC := none }, cs, [], nx⟩, ?_, ?_⟩
    · simp only [runThread, Vm.execute, fetch_eq_ok hpc hins, if_neg hne]
      simp
    · exact ⟨rfl, ⟨rfl, rfl, rfl⟩, rfl, fun _ _ _ => rfl, hdirty, 0, by omega, ExtraList.nil⟩
  | @range k pc lo hi hins hne =>
    intro t cs nx hpc _ hdirty
    refine ⟨⟨false, { t with PC := none }, cs, [], nx⟩, ?_, ?_⟩
    · simp only [runThread, Vm.execute, fetch_eq_ok hpc hins, if_neg hne]
      simp
    · exact ⟨rfl, ⟨rfl, rfl, rfl⟩, rfl, fun _ _ _ => rfl, hdirty, 0, by omega, ExtraList.nil⟩
  | @jumpTable k pc hins hslot =>
    intro t cs nx hpc _ hdirty
    refine ⟨⟨false, { t with PC := none }, cs, [], nx⟩, ?_, ?_⟩
    · simp [runThread, Vm.execute, fetch_eq_ok hpc hins, hslot]
    · exact ⟨rfl, ⟨rfl, rfl, rfl⟩, rfl, fun _ _ _ => rfl, hdirty, 0, by omega, ExtraList.nil⟩
  | @jump k pc a hins _ ih =>
    intro t cs nx hpc hb hdirty
    obtain ⟨r, hr, hrun⟩ := ih (t.jump 0 a) cs nx (by simp [Thread.jump]) hb hdirty
    refine ⟨r, ?_, ?_⟩
    · simp only [runThread, Vm.execute, fetch_eq_ok hpc hins]
      simpa using hr
    · obtain ⟨K, hK, hex⟩ := hrun.children
      exact ⟨hrun.next_eq, sameSpan_trans hrun.span ⟨rfl, rfl, rfl⟩, hrun.len, hrun.agree,
        hrun.dirty, K, by omega, hex⟩
  | @fork k1 k2 pc a hins hda _ _ ih2 =>
    intro t cs nx hpc hb hdirty
    obtain ⟨r, hr, hrun⟩ := ih2 t.advance cs nx (advance_pc hpc) hb hdirty
    have hr' := runThread_fuel_mono prog c q k2 (k1 + k2) _ _ _ _ _ (by omega) hr
    have hr'' := runThread_ok_prepend ([] ++ [Thread.fork t 0 a]) hr'
    refine ⟨ExecResult.prepend ([] ++ [Thread.fork t 0 a]) r, ?_, ?_⟩
    · simp only [runThread, Vm.execute, fetch_eq_ok hpc hins]
      simpa using hr''
    · obtain ⟨K, hK, hex⟩ := hrun.children
      refine ⟨hrun.next_eq, sameSpan_trans hrun.span ⟨rfl, rfl, rfl⟩, hrun.len, hrun.agree,
        hrun.dirty, k1 + K, by omega, ?_⟩
      have hchild : ExtraList prog D c (fun e => e.sameSpan t) (k1 + K)
          (Thread.fork t 0 a :: r.active) := by
        refine ExtraList.cons _ ⟨a, by simp [Thread.fork, Thread.jump], hda⟩ ⟨rfl, rfl, rfl⟩ ?_
        exact extraList_imp (fun e he => sameSpan_trans he ⟨rfl, rfl, rfl⟩) hex
      simpa [ExecResult.prepend] using hchild
  | @checkBranch k pc idx hins hD _ _ ih1 ih2 =>
    intro t cs nx hpc hb hdirty
    have hlt := hb idx hD
    cases hbit : cs[idx] with
    | true =>
      obtain ⟨r, hr, hrun⟩ := ih2 t.advance.advance cs nx (advance_pc (advance_pc hpc)) hb hdirty
      refine ⟨r, ?_, ?_⟩
      · simp only [runThread, Vm.execute, fetch_eq_ok hpc hins, checkBranch,
          List.getElem?_eq_getElem hlt, hbit]
        simpa using hr
      · obtain ⟨K, hK, hex⟩ := hrun.children
        exact ⟨hrun.next_eq, sameSpan_trans hrun.span ⟨rfl, rfl, rfl⟩, hrun.len, hrun.agree,
          hrun.dirty, K, by omega,
          extraList_imp (fun e he => sameSpan_trans he ⟨rfl, rfl, rfl⟩) hex⟩
    | false =>
      obtain ⟨r, hr, hrun⟩ := ih1 t.advance ((cs.set idx true).set 0 true) nx (advance_pc hpc)
        (by simpa using hb) (dirtyOK_set cs idx)
      refine ⟨r, ?_, ?_⟩
      · simp only [runThread, Vm.execute, fetch_eq_ok hpc hins, checkBranch,
          List.getElem?_eq_getElem hlt, hbit]
        simpa using hr
      · obtain ⟨K, hK, hex⟩ := hrun.children
        refine ⟨hrun.next_eq, sameSpan_trans hrun.span ⟨rfl, rfl, rfl⟩, by simpa using hrun.len,
          ?_, hrun.dirty, K, by omega,
          extraList_imp (fun e he => sameSpan_trans he ⟨rfl, rfl, rfl⟩) hex⟩
        intro i hi0 hiD
        rw [hrun.agree i hi0 hiD]
        exact set_set_agree cs idx i hi0 (fun h => hiD (h ▸ hD))
  | @checkHalt k pc idx hins hD _ ih =>
    intro t cs nx hpc hb hdirty
    have hlt := hb idx hD
    cases hbit : cs[idx] with
    | true =>
      refine ⟨⟨false, { t with PC := none }, cs, [], nx⟩, ?_, ?_⟩
      · simp [runThread, Vm.execute, fetch_eq_ok hpc hins, checkHalt,
          List.getElem?_eq_getElem hlt, hbit]
      · exact ⟨rfl, ⟨rfl, rfl, rfl⟩, rfl, fun _ _ _ => rfl, hdirty, 0, by omega, ExtraList.nil⟩
    | false =>
      obtain ⟨r, hr, hrun⟩ := ih t.advance ((cs.set idx true).set 0 true) nx (advance_pc hpc)
        (by simpa using hb) (dirtyOK_set cs idx)
      refine ⟨r, ?_, ?_⟩
      · simp only [runThread, Vm.execute, fetch_eq_ok hpc hins, checkHalt,
          List.getElem?_eq_getElem hlt, hbit]
        simpa using hr
      · obtain ⟨K, hK, hex⟩ := hrun.children
        refine ⟨hrun.next_eq, sameSpan_trans hrun.span ⟨rfl, rfl, rfl⟩, by simpa using hrun.len,
          ?_, hrun.dirty, K, by omega,
          extraList_imp (fun e he => sameSpan_trans he ⟨rfl, rfl, rfl⟩) hex⟩
        intro i hi0 hiD
        rw [hrun.agree i hi0 hiD]
        exact set_set_agree cs idx i hi0 (fun h => hiD (h ▸ hD))

/-! ## One step of the thread loop, by instruction -/

section Steps

variable {prog : Program} {c : Byte} {q : Nat} {t : Thread} {pc : Nat}

theorem runThread_fetch_error {e : Fault} {r : ExecResult} (n : Nat) (cs : List Bool) (a nx : ThreadList)
    (h : fetch prog t = .error e) : runThread prog c q n t cs a nx ≠ .ok r := by
  cases n with
  | zero => simp [runThread]
  | succ n => simp [runThread, Vm.execute, h]

theorem runThread_lit {b : Byte} (n : Nat) (cs : List Bool) (a nx : ThreadList)
    (hpc : t.PC = some pc) (hins : prog[pc]? = some (.LIT_OP b)) :
    runThread prog c q (n + 1) t cs a nx =
      if c = b then .ok ⟨false, t.advance, cs, a, nx ++ [t.advance]⟩
      else .ok ⟨false, { t with PC := none }, cs, a, nx⟩ := by
  by_cases hc : c = b <;> simp [runThread, Vm.execute, fetch_eq_ok hpc hins, hc]

theorem runThread_either {x y : Byte} (n : Nat) (cs : List Bool) (a nx : ThreadList)
    (hpc : t.PC = some pc) (hins : prog[pc]? = some (.EITHER_OP x y)) :
    runThread prog c q (n + 1) t cs a nx =
      if c = x ∨ c = y then .ok ⟨false, t.advance, cs, a, nx ++ [t.advance]⟩
      else .ok ⟨false, { t with PC := none }, cs, a, nx⟩ := by
  by_cases hc : c = x ∨ c = y
  · simp only [runThread, Vm.execute, fetch_eq_ok hpc hins, if_pos hc]; simp
  · simp only [runThread, Vm.execute, fetch_eq_ok hpc hins, if_neg hc]; simp

theorem runThread_range {lo hi : Byte} (n : Nat) (cs : List Bool) (a nx : ThreadList)
    (hpc : t.PC = some pc) (hins : prog[pc]? = some (.RANGE_OP lo hi)) :
    runThread prog c q (n + 1) t cs a nx =
      if lo ≤ c ∧ c ≤ hi then .ok ⟨false, t.advance, cs, a, nx ++ [t.advance]⟩
      else .ok ⟨false, { t with PC := none }, cs, a, nx⟩ := by
  by_cases hc : lo ≤ c ∧ c ≤ hi
  · simp only [runThread, Vm.execute, fetch_eq_ok hpc hins, if_pos hc]; simp
  · simp only [runThread, Vm.execute, fetch_eq_ok hpc hins, if_neg hc]; simp

theorem runThread_jumpTable (n : Nat) (cs : List Bool) (a nx : ThreadList)
    (hpc : t.PC = some pc) (hins : prog[pc]? = some .JUMP_TABLE_OP) :
    runThread prog c q (n + 1) t cs a nx =
      match prog[pc + (1 + c)]? with
      | none => .error .outOfBounds
      | some slot =>
        if slot ≠ .HALT_OP then .ok ⟨false, t, cs, a, nx ++ [Thread.fork t pc (1 + c)]⟩
        else .ok ⟨false, { t with PC := none }, cs, a, nx⟩ := by
  simp only [runThread, Vm.execute, fetch_eq_ok hpc hins]
  cases prog[pc + (1 + c)]? with
  | none => rfl
  | some slot => by_cases hs : slot = .HALT_OP <;> simp [hs]

theorem runThread_halt (n : Nat) (cs : List Bool) (a nx : ThreadList)
    (hpc : t.PC = some pc) (hins : prog[pc]? = some .HALT_OP) :
    runThread prog c q (n + 1) t cs a nx = .ok ⟨false, { t with PC := none }, cs, a, nx⟩ := by
  simp [runThread, Vm.execute, fetch_eq_ok hpc hins]

theorem runThread_jump {addr : Nat} (n : Nat) (cs : List Bool) (a nx : ThreadList)
    (hpc : t.PC = some pc) (hins : prog[pc]? = some (.JUMP_OP addr)) :
    runThread prog c q (n + 1) t cs a nx = runThread prog c q n (t.jump 0 addr) cs a nx := by
  simp [runThread, Vm.execute, fetch_eq_ok hpc hins]

theorem runThread_fork {addr : Nat} (n : Nat) (cs : List Bool) (a nx : ThreadList)
    (hpc : t.PC = some pc) (hins : prog[pc]? = some (.FORK_OP addr)) :
    runThread prog c q (n + 1) t cs a nx =
      runThread prog c q n t.advance cs (a ++ [Thread.fork t 0 addr]) nx := by
  simp [runThread, Vm.execute, fetch_eq_ok hpc hins]

theorem runThread_match {l : Nat} (n : Nat) (cs : List Bool) (a nx : ThreadList)
    (hpc : t.PC = some pc) (hins : prog[pc]? = some (.MATCH_OP l)) :
    runThread prog c q (n + 1) t cs a nx =
      runThread prog c q n ({ t with Label := l, End := q } : Thread).advance cs a nx := by
  simp [runThread, Vm.execute, fetch_eq_ok hpc hins]

theorem runThread_checkBranch {idx : Nat} (n : Nat) (cs : List Bool) (a nx : ThreadList)
    (hpc : t.PC = some pc) (hins : prog[pc]? = some (.CHECK_BRANCH_OP idx)) :
    runThread prog c q (n + 1) t cs a nx =
      match cs[idx]? with
      | none => .error .outOfBounds
      | some true => runThread prog c q n t.advance.advance cs a nx
      | some false => runThread prog c q n t.advance ((cs.set idx true).set 0 true) a nx := by
  simp only [runThread, Vm.execute, fetch_eq_ok hpc hins, checkBranch]
  cases cs[idx]? with
  | none => rfl
  | some b => cases b <;> simp

theorem runThread_checkHalt {idx : Nat} (n : Nat) (cs : List Bool) (a nx : ThreadList)
    (hpc : t.PC = some pc) (hins : prog[pc]? = some (.CHECK_HALT_OP idx)) :
    runThread prog c q (n + 1) t cs a nx =
      match cs[idx]? with
      | none => .error .outOfBounds
      | some true => .ok ⟨false, { t with PC := none }, cs, a, nx⟩
      | some false => runThread prog c q n t.advance ((cs.set idx true).set 0 true) a nx := by
  simp only [runThread, Vm.execute, fetch_eq_ok hpc hins, checkHalt]
  cases cs[idx]? with
  | none => rfl
  | some b => cases b <;> simp

end Steps

theorem except_map_eq_ok {α β : Type} {f : α → β} {x : Except Fault α} {y : β}
    (h : x.map f = .ok y) : ∃ a, x = .ok a ∧ y = f a := by
  cases x with
  | error e => cases h
  | ok a => exact ⟨a, rfl, (Except.ok.inj h).symm⟩

theorem runThread_ok_of_prepend {prog : Program} {c : Byte} {q n : Nat} {t : Thread}
    {cs : List Bool} {a nx : ThreadList} {r : ExecResult}
    (h : runThread prog c q n t cs a nx = .ok r) :
    ∃ r0, runThread prog c q n t cs [] nx = .ok r0 ∧ r = ExecResult.prepend a r0 := by
  rw [runThread_prepend] at h
  exact except_map_eq_ok h

/-! ## Check bits -/

theorem csRel_set_both {nc : Nat} {D : Nat → Prop} {x y : List Bool} (h : CsRel nc D x y)
    (idx : Nat) :
    CsRel nc D ((x.set idx true).set 0 true) ((y.set idx true).set 0 true) := by
  refine ⟨by simpa using h.lenX, by simpa using h.lenY, ?_, dirtyOK_set x idx, dirtyOK_set y idx⟩
  intro i hi0 hiD
  by_cases hi : i = idx
  · subst hi
    rw [List.getElem?_set_ne (Ne.symm hi0), List.getElem?_set_ne (Ne.symm hi0)]
    by_cases hlt : i < nc
    · rw [List.getElem?_set_self (by rw [h.lenX]; exact hlt),
        List.getElem?_set_self (by rw [h.lenY]; exact hlt)]
    · rw [List.getElem?_eq_none_iff.mpr (by simp; rw [h.lenX]; omega),
        List.getElem?_eq_none_iff.mpr (by simp; rw [h.lenY]; omega)]
  · rw [set_set_agree x idx i hi0 hi, set_set_agree y idx i hi0 hi]
    exact h.agree i hi0 hiD

theorem csRel_set_left {nc : Nat} {D : Nat → Prop} {x y : List Bool} (h : CsRel nc D x y)
    {idx : Nat} (hD : D idx) : CsRel nc D ((x.set idx true).set 0 true) y := by
  refine ⟨by simpa using h.lenX, h.lenY, ?_, dirtyOK_set x idx, h.dirtyY⟩
  intro i hi0 hiD
  rw [set_set_agree x idx i hi0 (fun hh => hiD (hh ▸ hD))]
  exact h.agree i hi0 hiD

theorem csRel_set_right {nc : Nat} {D : Nat → Prop} {x y : List Bool} (h : CsRel nc D x y)
    {idx : Nat} (hD : D idx) : CsRel nc D x ((y.set idx true).set 0 true) := by
  refine ⟨h.lenX, by simpa using h.lenY, ?_, h.dirtyX, dirtyOK_set y idx⟩
  intro i hi0 hiD
  rw [set_set_agree y idx i hi0 (fun hh => hiD (hh ▸ hD))]
  exact h.agree i hi0 hiD

theorem csRel_getElem {nc : Nat} {D : Nat → Prop} {x y : List Bool} (h : CsRel nc D x y)
    {idx : Nat} {b : Bool} (hx : x[idx]? = some b) : ∃ b', y[idx]? = some b' := by
  have hlt : idx < x.length := by
    by_contra hc
    rw [List.getElem?_eq_none_iff.mpr (by omega)] at hx
    cases hx
  have hly : idx < y.length := by rw [h.lenY, ← h.lenX]; exact hlt
  exact ⟨y.get ⟨idx, hly⟩, List.getElem?_eq_getElem hly⟩

/-! ## Pending lists -/

section Pend

variable {prog : Program} {D : Nat → Prop} {c : Byte} {P Q : Thread → Prop}

theorem pendRel_append {K1 K2 : Nat} {xs ys xs' ys' : List Thread}
    (h1 : PendRel prog D c P Q K1 xs ys) (h2 : PendRel prog D c P Q K2 xs' ys') :
    PendRel prog D c P Q (K1 + K2) (xs ++ xs') (ys ++ ys') := by
  induction h1 with
  | nil => simpa using h2
  | both t hq _ ih => exact PendRel.both t hq ih
  | left e he hp _ ih => exact PendRel.left e he hp ih
  | right e he hp _ ih =>
    rw [Nat.add_assoc]
    exact PendRel.right e he hp ih

theorem pendRel_imp {P' Q' : Thread → Prop} (hP : ∀ e, P e → P' e) (hQ : ∀ e, Q e → Q' e)
    {K : Nat} {xs ys : List Thread} (h : PendRel prog D c P Q K xs ys) :
    PendRel prog D c P' Q' K xs ys := by
  induction h with
  | nil => exact PendRel.nil
  | both t hq _ ih => exact PendRel.both t (hQ t hq) ih
  | left e he hp _ ih => exact PendRel.left e he (hP e hp) ih
  | right e he hp _ ih => exact PendRel.right e he (hP e hp) ih

theorem pendRel_of_extraList_right {K : Nat} {l : List Thread}
    (h : ExtraList prog D c P K l) : PendRel prog D c P Q K [] l := by
  induction h with
  | nil => exact PendRel.nil
  | cons e he hp _ ih => exact PendRel.right e he hp ih

theorem pendRel_of_extraList_left {K : Nat} {l : List Thread}
    (h : ExtraList prog D c P K l) : PendRel prog D c P Q 0 l [] := by
  induction h with
  | nil => exact PendRel.nil
  | cons e he hp _ ih => exact PendRel.left e he hp ih

end Pend

/-! ## Two runs of one thread -/

theorem quiet_inv {prog : Program} {pc : Nat} (h : Quiet prog pc) :
    match prog[pc]? with
    | some (.JUMP_OP a) => Quiet prog a
    | some (.FORK_OP _) => Quiet prog (pc + 1)
    | some (.CHECK_BRANCH_OP _) => Quiet prog (pc + 1) ∧ Quiet prog (pc + 2)
    | some (.CHECK_HALT_OP _) => Quiet prog (pc + 1)
    | some (.MATCH_OP _) => False
    | _ => True := by
  cases h <;> simp [*]

theorem quiet_of_pc {prog : Program} {t : Thread} {pc : Nat} (hpc : t.PC = some pc)
    (h : Quiet prog pc) : ∀ pc', t.PC = some pc' → Quiet prog pc' := by
  intro pc' h'
  rw [hpc] at h'
  cases h'
  exact h

theorem threadSim_leaf {prog : Program} {D : Nat → Prop} {c : Byte} {nc : Nat}
    {t t' : Thread} {csX csY : List Bool} {nx' : ThreadList}
    (hrel : CsRel nc D csX csY) (hspan : t'.sameSpan t) :
    ThreadSim prog D c nc t ⟨false, t', csX, [], nx'⟩ ⟨false, t', csY, [], nx'⟩ :=
  ⟨rfl, sameSpan_refl _, hspan.2.1, hrel, 0, PendRel.nil⟩

theorem threadSim_step {prog : Program} {D : Nat → Prop} {c : Byte} {nc : Nat}
    {t t' : Thread} {rX rY : ExecResult} (h : ThreadSim prog D c nc t' rX rY)
    (hstart : t'.Start = t.Start) : ThreadSim prog D c nc t rX rY := by
  obtain ⟨K, hK⟩ := h.children
  exact ⟨h.next_eq, h.span, h.start.trans hstart, h.cs, K,
    pendRel_imp (fun _ he => he) (fun _ he => he.trans hstart) hK⟩

theorem threadSim_prepend_both {prog : Program} {D : Nat → Prop} {c : Byte} {nc : Nat}
    {t : Thread} {rX rY : ExecResult} (e : Thread) (he : e.Start = t.Start)
    (h : ThreadSim prog D c nc t rX rY) :
    ThreadSim prog D c nc t (ExecResult.prepend [e] rX) (ExecResult.prepend [e] rY) := by
  obtain ⟨K, hK⟩ := h.children
  exact ⟨h.next_eq, h.span, h.start, h.cs, K, PendRel.both e he hK⟩

theorem thread_sim {prog : Program} {D : Nat → Prop} {c : Byte} {nc : Nat}
    (hG : Guarded prog nc D c) (q : Nat) :
    ∀ (n : Nat) (quiet : Bool) (t : Thread) (csX csY : List Bool) (nx : ThreadList)
      (rX : ExecResult),
      (quiet = true → ∀ pc, t.PC = some pc → Quiet prog pc) →
      CsRel nc D csX csY →
      runThread prog c q n t csX [] nx = .ok rX →
      ∃ m rY, runThread prog c q m t csY [] nx = .ok rY ∧
        ThreadSim prog D c nc t rX rY ∧ (quiet = true → rX.t.sameSpan t) := by
  intro n
  induction n using Nat.strong_induction_on with
  | _ n ih =>
    intro quiet t csX csY nx rX hq hrel hrun
    cases n with
    | zero => simp [runThread] at hrun
    | succ n =>
      cases hf : fetch prog t with
      | error e => exact absurd hrun (runThread_fetch_error _ _ _ _ hf)
      | ok p =>
        obtain ⟨pc, ins⟩ := p
        obtain ⟨hpc, hins⟩ := fetch_ok_inv hf
        have hq' : quiet = true → Quiet prog pc := fun h => hq h pc hpc
        cases ins with
        | LIT_OP b =>
          rw [runThread_lit n csX [] nx hpc hins] at hrun
          refine ⟨1, ?_⟩
          rw [runThread_lit 0 csY [] nx hpc hins]
          by_cases hc : c = b
          · rw [if_pos hc] at hrun ⊢
            cases Except.ok.inj hrun
            exact ⟨_, rfl, threadSim_leaf hrel ⟨rfl, rfl, rfl⟩, fun _ => ⟨rfl, rfl, rfl⟩⟩
          · rw [if_neg hc] at hrun ⊢
            cases Except.ok.inj hrun
            exact ⟨_, rfl, threadSim_leaf hrel ⟨rfl, rfl, rfl⟩, fun _ => ⟨rfl, rfl, rfl⟩⟩
        | EITHER_OP x y =>
          rw [runThread_either n csX [] nx hpc hins] at hrun
          refine ⟨1, ?_⟩
          rw [runThread_either 0 csY [] nx hpc hins]
          by_cases hc : c = x ∨ c = y
          · rw [if_pos hc] at hrun ⊢
            cases Except.ok.inj hrun
            exact ⟨_, rfl, threadSim_leaf hrel ⟨rfl, rfl, rfl⟩, fun _ => ⟨rfl, rfl, rfl⟩⟩
          · rw [if_neg hc] at hrun ⊢
            cases Except.ok.inj hrun
            exact ⟨_, rfl, threadSim_leaf hrel ⟨rfl, rfl, rfl⟩, fun _ => ⟨rfl, rfl, rfl⟩⟩
        | RANGE_OP lo hi =>
          rw [runThread_range n csX [] nx hpc hins] at hrun
          refine ⟨1, ?_⟩
          rw [runThread_range 0 csY [] nx hpc hins]
          by_cases hc : lo ≤ c ∧ c ≤ hi
          · rw [if_pos hc] at hrun ⊢
            cases Except.ok.inj hrun
            exact ⟨_, rfl, threadSim_leaf hrel ⟨rfl, rfl, rfl⟩, fun _ => ⟨rfl, rfl, rfl⟩⟩
          · rw [if_neg hc] at hrun ⊢
            cases Except.ok.inj hrun
            exact ⟨_, rfl, threadSim_leaf hrel ⟨rfl, rfl, rfl⟩, fun _ => ⟨rfl, rfl, rfl⟩⟩
        | JUMP_TABLE_OP =>
          rw [runThread_jumpTable n csX [] nx hpc hins] at hrun
          refine ⟨1, ?_⟩
          rw [runThread_jumpTable 0 csY [] nx hpc hins]
          cases hs : prog[pc + (1 + c)]? with
          | none => simp [hs] at hrun
          | some slot =>
            simp only [hs] at hrun ⊢
            by_cases hh : slot ≠ .HALT_OP
            · rw [if_pos hh] at hrun ⊢
              cases Except.ok.inj hrun
              exact ⟨_, rfl, threadSim_leaf hrel ⟨rfl, rfl, rfl⟩, fun _ => ⟨rfl, rfl, rfl⟩⟩
            · rw [if_neg hh] at hrun ⊢
              cases Except.ok.inj hrun
              exact ⟨_, rfl, threadSim_leaf hrel ⟨rfl, rfl, rfl⟩, fun _ => ⟨rfl, rfl, rfl⟩⟩
        | HALT_OP =>
          rw [runThread_halt n csX [] nx hpc hins] at hrun
          refine ⟨1, ?_⟩
          rw [runThread_halt 0 csY [] nx hpc hins]
          cases Except.ok.inj hrun
          exact ⟨_, rfl, threadSim_leaf hrel ⟨rfl, rfl, rfl⟩, fun _ => ⟨rfl, rfl, rfl⟩⟩
        | JUMP_OP addr =>
          rw [runThread_jump n csX [] nx hpc hins] at hrun
          have hqa : quiet = true → Quiet prog addr := by
            intro h
            have := quiet_inv (hq' h)
            simpa [hins] using this
          obtain ⟨m, rY, hY, hsim, hsp⟩ := ih n (Nat.lt_succ_self n) quiet (t.jump 0 addr)
            csX csY nx rX
            (fun h => quiet_of_pc (by simp [Thread.jump]) (hqa h)) hrel hrun
          refine ⟨m + 1, rY, ?_, threadSim_step hsim rfl, fun h => hsp h⟩
          rw [runThread_jump m csY [] nx hpc hins]
          exact hY
        | FORK_OP addr =>
          rw [runThread_fork n csX [] nx hpc hins] at hrun
          obtain ⟨rX0, hrun0, rfl⟩ := runThread_ok_of_prepend hrun
          have hqa : quiet = true → Quiet prog (pc + 1) := by
            intro h
            have := quiet_inv (hq' h)
            simpa [hins] using this
          obtain ⟨m, rY, hY, hsim, hsp⟩ := ih n (Nat.lt_succ_self n) quiet t.advance
            csX csY nx rX0
            (fun h => quiet_of_pc (advance_pc hpc) (hqa h)) hrel hrun0
          refine ⟨m + 1, ExecResult.prepend ([] ++ [Thread.fork t 0 addr]) rY, ?_, ?_,
            fun h => hsp h⟩
          · rw [runThread_fork m csY [] nx hpc hins]
            exact runThread_ok_prepend _ hY
          · exact threadSim_prepend_both _ rfl (threadSim_step hsim rfl)
        | MATCH_OP l =>
          rw [runThread_match n csX [] nx hpc hins] at hrun
          have hnq : quiet = false := by
            cases quiet with
            | false => rfl
            | true =>
              have := quiet_inv (hq' rfl)
              simp [hins] at this
          subst hnq
          obtain ⟨m, rY, hY, hsim, _⟩ := ih n (Nat.lt_succ_self n) false
            ({ t with Label := l, End := q } : Thread).advance csX csY nx rX
            (fun h => by cases h) hrel hrun
          refine ⟨m + 1, rY, ?_, threadSim_step hsim rfl, fun h => by cases h⟩
          rw [runThread_match m csY [] nx hpc hins]
          exact hY
        | CHECK_BRANCH_OP idx =>
          rw [runThread_checkBranch n csX [] nx hpc hins] at hrun
          have hq1 : quiet = true → Quiet prog (pc + 1) ∧ Quiet prog (pc + 2) := by
            intro h
            have := quiet_inv (hq' h)
            simpa [hins] using this
          have hidx0 : idx ≠ 0 := by
            rintro rfl
            exact hG.noZeroBranch pc hins
          cases hbX : csX[idx]? with
          | none => simp [hbX] at hrun
          | some bX =>
            obtain ⟨bY, hbY⟩ := csRel_getElem hrel hbX
            simp only [hbX] at hrun
            by_cases hD : D idx
            · obtain ⟨a, ka, hfork, hda, hqt⟩ := hG.branch pc idx hD hins
              cases bX with
              | true =>
                cases bY with
                | true =>
                  obtain ⟨m, rY, hY, hsim, hsp⟩ := ih n (Nat.lt_succ_self n) quiet
                    t.advance.advance csX csY nx rX
                    (fun h => quiet_of_pc (advance_pc (advance_pc hpc)) (hq1 h).2) hrel hrun
                  refine ⟨m + 1, rY, ?_, threadSim_step hsim rfl, fun h => hsp h⟩
                  rw [runThread_checkBranch m csY [] nx hpc hins, hbY]
                  exact hY
                | false =>
                  obtain ⟨m, rY, hY, hsim, hsp⟩ := ih n (Nat.lt_succ_self n) true
                    t.advance.advance csX ((csY.set idx true).set 0 true) nx rX
                    (fun _ => quiet_of_pc (advance_pc (advance_pc hpc)) hqt)
                    (csRel_set_right hrel hD) hrun
                  have hsp' := hsp rfl
                  refine ⟨m + 1 + 1,
                    ExecResult.prepend ([] ++ [Thread.fork t.advance 0 a]) rY, ?_, ?_,
                    fun _ => hsp'⟩
                  · rw [runThread_checkBranch (m + 1) csY [] nx hpc hins, hbY]
                    simp only []
                    rw [runThread_fork m _ [] nx (advance_pc hpc) hfork]
                    exact runThread_ok_prepend _ hY
                  · obtain ⟨K, hK⟩ := hsim.children
                    refine ⟨hsim.next_eq, hsim.span, hsim.start, hsim.cs, ka + K, ?_⟩
                    refine PendRel.right _ ⟨a, by simp [Thread.fork, Thread.jump], hda⟩ ?_
                      (pendRel_imp (fun _ he => he) (fun _ he => he) hK)
                    exact sameSpan_symm hsp'
              | false =>
                cases bY with
                | false =>
                  obtain ⟨m, rY, hY, hsim, hsp⟩ := ih n (Nat.lt_succ_self n) quiet
                    t.advance ((csX.set idx true).set 0 true) ((csY.set idx true).set 0 true)
                    nx rX
                    (fun h => quiet_of_pc (advance_pc hpc) (hq1 h).1)
                    (csRel_set_both hrel idx) hrun
                  refine ⟨m + 1, rY, ?_, threadSim_step hsim rfl, fun h => hsp h⟩
                  rw [runThread_checkBranch m csY [] nx hpc hins, hbY]
                  exact hY
                | true =>
                  cases n with
                  | zero => simp [runThread] at hrun
                  | succ n' =>
                    simp only [] at hrun
                    rw [runThread_fork n' _ [] nx (advance_pc hpc) hfork] at hrun
                    obtain ⟨rX0, hrun0, rfl⟩ := runThread_ok_of_prepend hrun
                    obtain ⟨m, rY, hY, hsim, hsp⟩ := ih n' (by omega) true
                      t.advance.advance ((csX.set idx true).set 0 true) csY nx rX0
                      (fun _ => quiet_of_pc (advance_pc (advance_pc hpc)) hqt)
                      (csRel_set_left hrel hD) hrun0
                    have hsp' := hsp rfl
                    refine ⟨m + 1, rY, ?_, ?_, fun _ => hsp'⟩
                    · rw [runThread_checkBranch m csY [] nx hpc hins, hbY]
                      exact hY
                    · obtain ⟨K, hK⟩ := hsim.children
                      refine ⟨hsim.next_eq, hsim.span, hsim.start, hsim.cs, K, ?_⟩
                      refine PendRel.left (k := ka) _
                        ⟨a, by simp [Thread.fork, Thread.jump], hda⟩ ?_
                        (pendRel_imp (fun _ he => he) (fun _ he => he) hK)
                      exact sameSpan_symm hsp'
            · have hbb : csX[idx]? = csY[idx]? := hrel.agree idx hidx0 hD
              rw [hbX, hbY] at hbb
              cases Option.some.inj hbb
              cases bX with
              | true =>
                obtain ⟨m, rY, hY, hsim, hsp⟩ := ih n (Nat.lt_succ_self n) quiet
                  t.advance.advance csX csY nx rX
                  (fun h => quiet_of_pc (advance_pc (advance_pc hpc)) (hq1 h).2) hrel hrun
                refine ⟨m + 1, rY, ?_, threadSim_step hsim rfl, fun h => hsp h⟩
                rw [runThread_checkBranch m csY [] nx hpc hins, hbY]
                exact hY
              | false =>
                obtain ⟨m, rY, hY, hsim, hsp⟩ := ih n (Nat.lt_succ_self n) quiet
                  t.advance ((csX.set idx true).set 0 true) ((csY.set idx true).set 0 true)
                  nx rX
                  (fun h => quiet_of_pc (advance_pc hpc) (hq1 h).1)
                  (csRel_set_both hrel idx) hrun
                refine ⟨m + 1, rY, ?_, threadSim_step hsim rfl, fun h => hsp h⟩
                rw [runThread_checkBranch m csY [] nx hpc hins, hbY]
                exact hY
        | CHECK_HALT_OP idx =>
          rw [runThread_checkHalt n csX [] nx hpc hins] at hrun
          have hq1 : quiet = true → Quiet prog (pc + 1) := by
            intro h
            have := quiet_inv (hq' h)
            simpa [hins] using this
          have hidx0 : idx ≠ 0 := by
            rintro rfl
            exact hG.noZeroHalt pc hins
          have hboundX : ∀ i, D i → i < csX.length := fun i hi => by
            rw [hrel.lenX]; exact hG.inBounds i hi
          have hboundY : ∀ i, D i → i < csY.length := fun i hi => by
            rw [hrel.lenY]; exact hG.inBounds i hi
          cases hbX : csX[idx]? with
          | none => simp [hbX] at hrun
          | some bX =>
            obtain ⟨bY, hbY⟩ := csRel_getElem hrel hbX
            simp only [hbX] at hrun
            have same_true : bX = true → bY = true →
                ∃ m rY, runThread prog c q m t csY [] nx = .ok rY ∧
                  ThreadSim prog D c nc t rX rY ∧ (quiet = true → rX.t.sameSpan t) := by
              intro h1 h2
              subst h1; subst h2
              cases Except.ok.inj hrun
              refine ⟨1, _, ?_, threadSim_leaf hrel ⟨rfl, rfl, rfl⟩, fun _ => ⟨rfl, rfl, rfl⟩⟩
              rw [runThread_checkHalt 0 csY [] nx hpc hins, hbY]
            have same_false : bX = false → bY = false →
                ∃ m rY, runThread prog c q m t csY [] nx = .ok rY ∧
                  ThreadSim prog D c nc t rX rY ∧ (quiet = true → rX.t.sameSpan t) := by
              intro h1 h2
              subst h1; subst h2
              obtain ⟨m, rY, hY, hsim, hsp⟩ := ih n (Nat.lt_succ_self n) quiet
                t.advance ((csX.set idx true).set 0 true) ((csY.set idx true).set 0 true)
                nx rX
                (fun h => quiet_of_pc (advance_pc hpc) (hq1 h))
                (csRel_set_both hrel idx) hrun
              refine ⟨m + 1, rY, ?_, threadSim_step hsim rfl, fun h => hsp h⟩
              rw [runThread_checkHalt m csY [] nx hpc hins, hbY]
              exact hY
            by_cases hD : D idx
            · obtain ⟨k, hdk⟩ := hG.halt pc idx hD hins
              cases bX with
              | true =>
                cases bY with
                | true => exact same_true rfl rfl
                | false =>
                  cases Except.ok.inj hrun
                  obtain ⟨rY, hY, hdr⟩ := doomed_run q k (pc + 1) hdk t.advance
                    ((csY.set idx true).set 0 true) nx (advance_pc hpc)
                    (by simpa using hboundY) (dirtyOK_set csY idx)
                  obtain ⟨K, _, hex⟩ := hdr.children
                  refine ⟨k + 1, rY, ?_, ?_, fun _ => ⟨rfl, rfl, rfl⟩⟩
                  · rw [runThread_checkHalt k csY [] nx hpc hins, hbY]
                    exact hY
                  · refine ⟨hdr.next_eq.symm, sameSpan_symm hdr.span, rfl, ?_, K, ?_⟩
                    · refine ⟨hrel.lenX, by rw [hdr.len]; simpa using hrel.lenY, ?_,
                        hrel.dirtyX, hdr.dirty⟩
                      intro i hi0 hiD
                      rw [hdr.agree i hi0 hiD,
                        set_set_agree csY idx i hi0 (fun h => hiD (h ▸ hD))]
                      exact hrel.agree i hi0 hiD
                    · exact pendRel_of_extraList_right
                        (extraList_imp (fun e he => he) hex)
              | false =>
                cases bY with
                | false => exact same_false rfl rfl
                | true =>
                  simp only [] at hrun
                  obtain ⟨r0, h0, hdr⟩ := doomed_run q k (pc + 1) hdk t.advance
                    ((csX.set idx true).set 0 true) nx (advance_pc hpc)
                    (by simpa using hboundX) (dirtyOK_set csX idx)
                  have hEq : rX = r0 := runThread_det hrun h0
                  subst hEq
                  obtain ⟨K, _, hex⟩ := hdr.children
                  refine ⟨1, ⟨false, { t with PC := none }, csY, [], nx⟩, ?_, ?_,
                    fun _ => hdr.span⟩
                  · rw [runThread_checkHalt 0 csY [] nx hpc hins, hbY]
                  · refine ⟨hdr.next_eq, hdr.span, hdr.span.2.1, ?_, 0, ?_⟩
                    · refine ⟨by rw [hdr.len]; simpa using hrel.lenX, hrel.lenY, ?_,
                        hdr.dirty, hrel.dirtyY⟩
                      intro i hi0 hiD
                      rw [hdr.agree i hi0 hiD,
                        set_set_agree csX idx i hi0 (fun h => hiD (h ▸ hD))]
                      exact hrel.agree i hi0 hiD
                    · exact pendRel_of_extraList_left
                        (extraList_imp (fun e he => sameSpan_trans he (sameSpan_symm hdr.span))
                          hex)
            · have hbb : csX[idx]? = csY[idx]? := hrel.agree idx hidx0 hD
              rw [hbX, hbY] at hbb
              cases Option.some.inj hbb
              cases bX with
              | true => exact same_true rfl rfl
              | false => exact same_false rfl rfl

/-! ## Reconciliation of doomed threads -/

theorem reconcile_congr {a b : Thread} (h : a.sameSpan b) (q : Nat) (cells : List MatchCell)
    (hits : List SearchHit) : reconcile a q cells hits = reconcile b q cells hits := by
  unfold reconcile
  rw [h.1, h.2.1, h.2.2]

theorem reconcile_cases {t : Thread} {q : Nat} {cells cells' : List MatchCell}
    {hits hits' : List SearchHit} (h : reconcile t q cells hits = .ok (cells', hits')) :
    cells' = cells ∨ (t.End = q ∧ t.Label < cells.length ∧
      cells' = cells.set t.Label (t.Start, t.End)) := by
  unfold reconcile at h
  by_cases hq : t.End = q
  · rw [if_pos hq] at h
    cases hc : cells[t.Label]? with
    | none => simp [hc] at h
    | some lastHit =>
      have hlt : t.Label < cells.length := by
        by_contra hcon
        rw [List.getElem?_eq_none_iff.mpr (by omega)] at hc
        cases hc
      simp only [hc] at h
      split at h
      · cases Except.ok.inj h
        exact Or.inr ⟨hq, hlt, rfl⟩
      · split at h
        · cases Except.ok.inj h
          exact Or.inr ⟨hq, hlt, rfl⟩
        · cases Except.ok.inj h
          exact Or.inl rfl
  · rw [if_neg hq] at h
    cases Except.ok.inj h
    exact Or.inl rfl

theorem reconcile_safeExtra {e : Thread} {q : Nat} {cells : List MatchCell}
    (hits : List SearchHit) (h : SafeExtra q cells e) :
    reconcile e q cells hits = .ok (cells, hits) := by
  unfold reconcile
  rcases h with hne | ⟨_, s', q', hcell, hs', hext, hlt⟩
  · rw [if_neg hne]
  · by_cases hq : e.End = q
    · rw [if_pos hq]
      simp only [hcell]
      have h1 : ¬ (s' = UNALLOCATED ∨ (s' = e.Start ∧ q' < e.End)) := by
        rw [hq]
        rintro (h | h)
        · exact hs' h
        · exact hext h
      have h2 : ¬ q' ≤ e.Start := by omega
      rw [if_neg h1, if_neg h2]
    · rw [if_neg hq]

theorem safeExtra_congr {e e' : Thread} (h : e.sameSpan e') {q : Nat} {cells : List MatchCell}
    (hs : SafeExtra q cells e') : SafeExtra q cells e := by
  unfold SafeExtra NoOp at hs ⊢
  rw [h.1, h.2.1, h.2.2]
  exact hs

theorem safeExtra_stable {u e : Thread} {q : Nat} {cells cells' : List MatchCell}
    {hits hits' : List SearchHit} (h : reconcile u q cells hits = .ok (cells', hits'))
    (hu : u.Start ≠ UNALLOCATED) (hs : SafeExtra q cells e) : SafeExtra q cells' e := by
  rcases reconcile_cases h with rfl | ⟨huq, hul, rfl⟩
  · exact hs
  · rcases hs with hne | ⟨hstart, s', q', hcell, hs', hext, hlt⟩
    · exact Or.inl hne
    · refine Or.inr ⟨hstart, ?_⟩
      by_cases hl : u.Label = e.Label
      · refine ⟨u.Start, u.End, ?_, hu, ?_, ?_⟩
        · rw [← hl, List.getElem?_set_self hul]
        · rw [huq]; omega
        · rw [huq]; exact hstart
      · refine ⟨s', q', ?_, hs', hext, hlt⟩
        rw [List.getElem?_set_ne hl]
        exact hcell

theorem noOp_after_reconcile {t : Thread} {q : Nat} {cells cells' : List MatchCell}
    {hits hits' : List SearchHit} (h : reconcile t q cells hits = .ok (cells', hits'))
    (hend : t.End = q) (hstart : t.Start < q) (hq : q ≤ UNALLOCATED) : NoOp q cells' t := by
  unfold reconcile at h
  rw [if_pos hend] at h
  cases hc : cells[t.Label]? with
  | none => simp [hc] at h
  | some lastHit =>
    have hlt : t.Label < cells.length := by
      by_contra hcon
      rw [List.getElem?_eq_none_iff.mpr (by omega)] at hc
      cases hc
    simp only [hc] at h
    have hstored : NoOp q (cells.set t.Label (t.Start, t.End)) t := by
      refine ⟨t.Start, t.End, List.getElem?_set_self hlt, by omega, ?_, by omega⟩
      rw [hend]; omega
    split at h
    · cases Except.ok.inj h
      exact hstored
    · rename_i h1
      split at h
      · cases Except.ok.inj h
        exact hstored
      · rename_i h2
        cases Except.ok.inj h
        refine ⟨lastHit.1, lastHit.2, hc, fun hh => h1 (Or.inl hh), ?_, by omega⟩
        rw [← hend]
        exact fun hh => h1 (Or.inr hh)

theorem safeExtra_after_reconcile {t e : Thread} {q : Nat} {cells cells' : List MatchCell}
    {hits hits' : List SearchHit} (h : reconcile t q cells hits = .ok (cells', hits'))
    (hstart : t.Start < q) (hq : q ≤ UNALLOCATED) (he : e.sameSpan t) :
    SafeExtra q cells' e := by
  apply safeExtra_congr he
  by_cases hend : t.End = q
  · exact Or.inr ⟨hstart, noOp_after_reconcile h hend hstart hq⟩
  · exact Or.inl hend

/-! ## Fuel of the queue loop -/

theorem queueLoop_cons
    (step : Thread → List Bool → ThreadList → ThreadList → Except Fault ExecResult)
    (offset n : Nat) (t : Thread) (rest : List Thread) (s : LoopState) :
    queueLoop step offset (n + 1) (t :: rest) s =
      match step t s.cs [] s.next with
      | .error e => .error e
      | .ok r =>
        match reconcile r.t offset s.cells s.hits with
        | .error e => .error e
        | .ok (cells, hits) =>
          queueLoop step offset n (rest ++ r.active) ⟨r.checkStates, r.next, cells, hits⟩ := rfl

theorem queueLoop_cons_inv
    {step : Thread → List Bool → ThreadList → ThreadList → Except Fault ExecResult}
    {offset n : Nat} {t : Thread} {rest : List Thread} {s res : LoopState}
    (h : queueLoop step offset n (t :: rest) s = .ok res) :
    ∃ n' r cells hits, n = n' + 1 ∧ step t s.cs [] s.next = .ok r ∧
      reconcile r.t offset s.cells s.hits = .ok (cells, hits) ∧
      queueLoop step offset n' (rest ++ r.active) ⟨r.checkStates, r.next, cells, hits⟩
        = .ok res := by
  cases n with
  | zero => simp [queueLoop] at h
  | succ n' =>
    rw [queueLoop_cons] at h
    cases hs : step t s.cs [] s.next with
    | error e => simp [hs] at h
    | ok r =>
      simp only [hs] at h
      cases hr : reconcile r.t offset s.cells s.hits with
      | error e => simp [hr] at h
      | ok p =>
        obtain ⟨cells, hits⟩ := p
        simp only [hr] at h
        exact ⟨n', r, cells, hits, rfl, rfl, hr, h⟩

theorem queueLoop_cons_intro
    {step : Thread → List Bool → ThreadList → ThreadList → Except Fault ExecResult}
    {offset n : Nat} {t : Thread} {rest : List Thread} {s res : LoopState}
    {r : ExecResult} {cells : List MatchCell} {hits : List SearchHit}
    (hs : step t s.cs [] s.next = .ok r)
    (hr : reconcile r.t offset s.cells s.hits = .ok (cells, hits))
    (h : queueLoop step offset n (rest ++ r.active) ⟨r.checkStates, r.next, cells, hits⟩
      = .ok res) :
    queueLoop step offset (n + 1) (t :: rest) s = .ok res := by
  rw [queueLoop_cons, hs]
  simp only [hr]
  exact h

theorem queueLoop_fuel_mono
    (step step' : Thread → List Bool → ThreadList → ThreadList → Except Fault ExecResult)
    (hstep : ∀ t cs a nx r, step t cs a nx = .ok r → step' t cs a nx = .ok r) (offset : Nat) :
    ∀ (n m : Nat) (pend : List Thread) (s res : LoopState),
      n ≤ m → queueLoop step offset n pend s = .ok res →
      queueLoop step' offset m pend s = .ok res := by
  intro n
  induction n with
  | zero =>
    intro m pend s res _ h
    cases pend with
    | nil => rw [queueLoop_nil] at h ⊢; exact h
    | cons t rest => simp [queueLoop] at h
  | succ n ih =>
    intro m pend s res hnm h
    cases pend with
    | nil => rw [queueLoop_nil] at h ⊢; exact h
    | cons t rest =>
      obtain ⟨n', r, cells, hits, hn, hs, hr, hrest⟩ := queueLoop_cons_inv h
      cases hn
      obtain ⟨m, rfl⟩ : ∃ k, m = k + 1 := ⟨m - 1, by omega⟩
      exact queueLoop_cons_intro (hstep _ _ _ _ _ hs) hr (ih m _ _ _ (by omega) hrest)

theorem queueLoop_runThread_mono {prog : Program} {c : Byte} {q : Nat}
    {ns nl ms ml : Nat} (hs : ns ≤ ms) (hl : nl ≤ ml) {pend : List Thread} {s res : LoopState}
    (h : queueLoop (runThread prog c q ns) q nl pend s = .ok res) :
    queueLoop (runThread prog c q ms) q ml pend s = .ok res :=
  queueLoop_fuel_mono _ _
    (fun t cs a nx r hr => runThread_fuel_mono prog c q ns ms t cs a nx r hs hr) q nl ml
    pend s res hl h

/-! ## Two runs of the loop over the active list -/

theorem queue_sim {prog : Program} {D : Nat → Prop} {c : Byte} {nc q : Nat}
    (hG : Guarded prog nc D c) (hq : q < UNALLOCATED) :
    ∀ (nl ns K : Nat) (pendX pendY : List Thread) (sX sY resX : LoopState),
      QueueSim prog D c nc q K pendX pendY sX sY →
      queueLoop (runThread prog c q ns) q nl pendX sX = .ok resX →
      ∃ ml ms resY, queueLoop (runThread prog c q ms) q ml pendY sY = .ok resY ∧
        StateSim nc D resX resY := by
  intro nl
  induction nl using Nat.strong_induction_on with
  | _ nl ihO =>
    intro ns K
    induction K using Nat.strong_induction_on with
    | _ K ihK =>
      intro pendX pendY sX sY resX hsim hrun
      obtain ⟨hst, hpend⟩ := hsim
      have hbX : ∀ i, D i → i < sX.cs.length := fun i hi => by
        rw [hst.cs.lenX]; exact hG.inBounds i hi
      have hbY : ∀ i, D i → i < sY.cs.length := fun i hi => by
        rw [hst.cs.lenY]; exact hG.inBounds i hi
      cases hpend with
      | nil =>
        rw [queueLoop_nil] at hrun
        cases Except.ok.inj hrun
        exact ⟨0, 0, sY, queueLoop_nil _ _ _ _, hst⟩
      | @both K xs ys t hQ hrest =>
        obtain ⟨n', rX, cells, hits, hn, hs, hr, hrestX⟩ := queueLoop_cons_inv hrun
        subst hn
        obtain ⟨m, rY, hY, hts, _⟩ := thread_sim hG q ns false t sX.cs sY.cs sX.next rX
          (by intro h; cases h) hst.cs hs
        obtain ⟨K', hK'⟩ := hts.children
        have hstartX : rX.t.Start < q := by rw [hts.start]; exact hQ
        have hrY : reconcile rY.t q sY.cells sY.hits = .ok (cells, hits) := by
          rw [← reconcile_congr hts.span, ← hst.cells_eq, ← hst.hits_eq]
          exact hr
        have hnew : QueueSim prog D c nc q (K + K') (xs ++ rX.active) (ys ++ rY.active)
            ⟨rX.checkStates, rX.next, cells, hits⟩ ⟨rY.checkStates, rY.next, cells, hits⟩ := by
          refine ⟨⟨hts.next_eq, rfl, rfl, hts.cs⟩, pendRel_append ?_ ?_⟩
          · exact pendRel_imp
              (fun e he => safeExtra_stable hr (by omega) he) (fun _ h => h) hrest
          · exact pendRel_imp
              (fun e he => safeExtra_after_reconcile hr hstartX (by omega) he)
              (fun e he => by rw [he]; exact hQ) hK'
        obtain ⟨ml, ms, resY, hYrest, hfin⟩ :=
          ihO n' (Nat.lt_succ_self n') ns (K + K') _ _ _ _ resX hnew hrestX
        refine ⟨ml + 1, max m ms, resY, ?_, hfin⟩
        refine queueLoop_cons_intro (r := rY) ?_ hrY
          (queueLoop_runThread_mono (le_max_right m ms) (le_refl ml) hYrest)
        rw [← hst.next_eq]
        exact runThread_fuel_mono prog c q m _ _ _ _ _ _ (le_max_left m ms) hY
      | @left K k xs ys e hex hP hrest =>
        obtain ⟨n', rX, cells, hits, hn, hs, hr, hrestX⟩ := queueLoop_cons_inv hrun
        subst hn
        obtain ⟨pc, hpc, hd⟩ := hex
        obtain ⟨r0, h0, hdr⟩ := doomed_run q k pc hd e sX.cs sX.next hpc hbX hst.cs.dirtyX
        have hEq : rX = r0 := runThread_det hs h0
        subst hEq
        rw [reconcile_safeExtra sX.hits (safeExtra_congr hdr.span hP)] at hr
        cases Except.ok.inj hr
        obtain ⟨K', _, hch⟩ := hdr.children
        have hnew : QueueSim prog D c nc q (K + 0) (xs ++ rX.active) (pendY ++ [])
            ⟨rX.checkStates, rX.next, sX.cells, sX.hits⟩ sY := by
          refine ⟨⟨hdr.next_eq.trans hst.next_eq, hst.cells_eq, hst.hits_eq, ?_⟩,
            pendRel_append hrest ?_⟩
          · refine ⟨by rw [hdr.len]; exact hst.cs.lenX, hst.cs.lenY, ?_, hdr.dirty,
              hst.cs.dirtyY⟩
            intro i hi0 hiD
            rw [hdr.agree i hi0 hiD]
            exact hst.cs.agree i hi0 hiD
          · exact pendRel_of_extraList_left
              (extraList_imp (fun x hx => safeExtra_congr hx hP) hch)
        rw [List.append_nil] at hnew
        exact ihO n' (Nat.lt_succ_self n') ns (K + 0) _ _ _ _ resX hnew hrestX
      | @right K0 k xs ys e hex hP hrest =>
        obtain ⟨pc, hpc, hd⟩ := hex
        obtain ⟨rY, hY, hdr⟩ := doomed_run q k pc hd e sY.cs sY.next hpc hbY hst.cs.dirtyY
        have hrY : reconcile rY.t q sY.cells sY.hits = .ok (sY.cells, sY.hits) := by
          rw [← hst.cells_eq]
          exact reconcile_safeExtra sY.hits (safeExtra_congr hdr.span hP)
        obtain ⟨K', hK', hch⟩ := hdr.children
        have hnew : QueueSim prog D c nc q (K0 + K') (pendX ++ []) (ys ++ rY.active)
            sX ⟨rY.checkStates, rY.next, sY.cells, sY.hits⟩ := by
          refine ⟨⟨hst.next_eq.trans hdr.next_eq.symm, hst.cells_eq, hst.hits_eq, ?_⟩,
            pendRel_append hrest ?_⟩
          · refine ⟨hst.cs.lenX, by rw [hdr.len]; exact hst.cs.lenY, ?_, hst.cs.dirtyX,
              hdr.dirty⟩
            intro i hi0 hiD
            rw [hdr.agree i hi0 hiD]
            exact hst.cs.agree i hi0 hiD
          · exact pendRel_of_extraList_right
              (extraList_imp (fun x hx => safeExtra_congr hx hP) hch)
        rw [List.append_nil] at hnew
        obtain ⟨ml, ms, resY, hYrest, hfin⟩ :=
          ihK (K0 + K') (by omega) _ _ _ _ resX hnew hrun
        refine ⟨ml + 1, max k ms, resY, ?_, hfin⟩
        refine queueLoop_cons_intro (r := rY) ?_ hrY
          (queueLoop_runThread_mono (le_max_right k ms) (le_refl ml) hYrest)
        exact runThread_fuel_mono prog c q k _ _ _ _ _ _ (le_max_left k ms) hY

/-! ## Invariants of a thread run -/

theorem runThread_inv {prog : Program} {c : Byte} {q : Nat} :
    ∀ (n : Nat) (t : Thread) (cs : List Bool) (a nx : ThreadList) (r : ExecResult),
      runThread prog c q n t cs a nx = .ok r →
      r.checkStates.length = cs.length ∧ (DirtyOK cs → DirtyOK r.checkStates) ∧
      r.t.Start = t.Start ∧
      (∀ x ∈ r.active, x ∈ a ∨ x.Start = t.Start) ∧
      (∀ x ∈ r.next, x ∈ nx ∨ x.Start = t.Start) := by
  intro n
  induction n with
  | zero => intro t cs a nx r h; simp [runThread] at h
  | succ n ih =>
    intro t cs a nx r hrun
    have leaf : ∀ t' : Thread, t'.Start = t.Start →
        (⟨false, t', cs, a, nx⟩ : ExecResult).checkStates.length = cs.length ∧
        (DirtyOK cs → DirtyOK (⟨false, t', cs, a, nx⟩ : ExecResult).checkStates) ∧
        (⟨false, t', cs, a, nx⟩ : ExecResult).t.Start = t.Start ∧
        (∀ x ∈ (⟨false, t', cs, a, nx⟩ : ExecResult).active, x ∈ a ∨ x.Start = t.Start) ∧
        (∀ x ∈ (⟨false, t', cs, a, nx⟩ : ExecResult).next, x ∈ nx ∨ x.Start = t.Start) :=
      fun t' ht' => ⟨rfl, fun h => h, ht', fun x hx => Or.inl hx, fun x hx => Or.inl hx⟩
    have push : ∀ t' : Thread, t'.Start = t.Start →
        (⟨false, t', cs, a, nx ++ [t']⟩ : ExecResult).checkStates.length = cs.length ∧
        (DirtyOK cs → DirtyOK (⟨false, t', cs, a, nx ++ [t']⟩ : ExecResult).checkStates) ∧
        (⟨false, t', cs, a, nx ++ [t']⟩ : ExecResult).t.Start = t.Start ∧
        (∀ x ∈ (⟨false, t', cs, a, nx ++ [t']⟩ : ExecResult).active,
          x ∈ a ∨ x.Start = t.Start) ∧
        (∀ x ∈ (⟨false, t', cs, a, nx ++ [t']⟩ : ExecResult).next,
          x ∈ nx ∨ x.Start = t.Start) := by
      intro t' ht'
      refine ⟨rfl, fun h => h, ht', fun x hx => Or.inl hx, ?_⟩
      intro x hx
      rcases List.mem_append.mp hx with h | h
      · exact Or.inl h
      · rw [List.mem_singleton.mp h]; exact Or.inr ht'
    cases hf : fetch prog t with
    | error e => exact absurd hrun (runThread_fetch_error _ _ _ _ hf)
    | ok p =>
      obtain ⟨pc, ins⟩ := p
      obtain ⟨hpc, hins⟩ := fetch_ok_inv hf
      cases ins with
      | LIT_OP b =>
        rw [runThread_lit n cs a nx hpc hins] at hrun
        split at hrun
        · cases Except.ok.inj hrun; exact push _ rfl
        · cases Except.ok.inj hrun; exact leaf _ rfl
      | EITHER_OP x y =>
        rw [runThread_either n cs a nx hpc hins] at hrun
        split at hrun
        · cases Except.ok.inj hrun; exact push _ rfl
        · cases Except.ok.inj hrun; exact leaf _ rfl
      | RANGE_OP lo hi =>
        rw [runThread_range n cs a nx hpc hins] at hrun
        split at hrun
        · cases Except.ok.inj hrun; exact push _ rfl
        · cases Except.ok.inj hrun; exact leaf _ rfl
      | JUMP_TABLE_OP =>
        rw [runThread_jumpTable n cs a nx hpc hins] at hrun
        cases hs : prog[pc + (1 + c)]? with
        | none => simp [hs] at hrun
        | some slot =>
          simp only [hs] at hrun
          split at hrun
          · cases Except.ok.inj hrun
            refine ⟨rfl, fun h => h, rfl, fun x hx => Or.inl hx, ?_⟩
            intro x hx
            rcases List.mem_append.mp hx with h | h
            · exact Or.inl h
            · rw [List.mem_singleton.mp h]; exact Or.inr rfl
          · cases Except.ok.inj hrun; exact leaf _ rfl
      | HALT_OP =>
        rw [runThread_halt n cs a nx hpc hins] at hrun
        cases Except.ok.inj hrun; exact leaf _ rfl
      | JUMP_OP addr =>
        rw [runThread_jump n cs a nx hpc hins] at hrun
        have := ih _ _ _ _ _ hrun
        exact this
      | FORK_OP addr =>
        rw [runThread_fork n cs a nx hpc hins] at hrun
        obtain ⟨h1, h2, h3, h4, h5⟩ := ih _ _ _ _ _ hrun
        refine ⟨h1, h2, h3, ?_, h5⟩
        intro x hx
        rcases h4 x hx with h | h
        · rcases List.mem_append.mp h with h | h
          · exact Or.inl h
          · rw [List.mem_singleton.mp h]; exact Or.inr rfl
        · exact Or.inr h
      | MATCH_OP l =>
        rw [runThread_match n cs a nx hpc hins] at hrun
        have := ih _ _ _ _ _ hrun
        exact this
      | CHECK_BRANCH_OP idx =>
        rw [runThread_checkBranch n cs a nx hpc hins] at hrun
        cases hb : cs[idx]? with
        | none => simp [hb] at hrun
        | some b =>
          simp only [hb] at hrun
          cases b with
          | true =>
            have := ih _ _ _ _ _ hrun
            exact this
          | false =>
            obtain ⟨h1, h2, h3, h4, h5⟩ := ih _ _ _ _ _ hrun
            exact ⟨by simpa using h1, fun _ => h2 (dirtyOK_set cs idx), h3, h4, h5⟩
      | CHECK_HALT_OP idx =>
        rw [runThread_checkHalt n cs a nx hpc hins] at hrun
        cases hb : cs[idx]? with
        | none => simp [hb] at hrun
        | some b =>
          simp only [hb] at hrun
          cases b with
          | true => cases Except.ok.inj hrun; exact leaf _ rfl
          | false =>
            obtain ⟨h1, h2, h3, h4, h5⟩ := ih _ _ _ _ _ hrun
            exact ⟨by simpa using h1, fun _ => h2 (dirtyOK_set cs idx), h3, h4, h5⟩

theorem queueLoop_inv {prog : Program} {c : Byte} {q ns B nc : Nat} :
    ∀ (nl : Nat) (pend : List Thread) (s res : LoopState),
      queueLoop (runThread prog c q ns) q nl pend s = .ok res →
      (∀ x ∈ pend, x.Start ≤ B) → (∀ x ∈ s.next, x.Start ≤ B) →
      s.cs.length = nc → DirtyOK s.cs →
      (∀ x ∈ res.next, x.Start ≤ B) ∧ res.cs.length = nc ∧ DirtyOK res.cs := by
  intro nl
  induction nl with
  | zero =>
    intro pend s res h hp hn hl hd
    cases pend with
    | nil => rw [queueLoop_nil] at h; cases Except.ok.inj h; exact ⟨hn, hl, hd⟩
    | cons t rest => simp [queueLoop] at h
  | succ nl ih =>
    intro pend s res h hp hn hl hd
    cases pend with
    | nil => rw [queueLoop_nil] at h; cases Except.ok.inj h; exact ⟨hn, hl, hd⟩
    | cons t rest =>
      obtain ⟨n', r, cells, hits, hn', hs, hr, hrest⟩ := queueLoop_cons_inv h
      cases hn'
      obtain ⟨h1, h2, h3, h4, h5⟩ := runThread_inv ns t s.cs [] s.next r hs
      have ht : t.Start ≤ B := hp t (List.mem_cons_self _ _)
      refine ih _ _ _ hrest ?_ ?_ (by rw [← hl]; exact h1) (h2 hd)
      · intro x hx
        rcases List.mem_append.mp hx with hx | hx
        · exact hp x (List.mem_cons_of_mem _ hx)
        · rcases h4 x hx with hx | hx
          · cases hx
          · omega
      · intro x hx
        rcases h5 x hx with hx | hx
        · exact hn x hx
        · omega

theorem clearCheckStates_dirtyOK {cs : List Bool} (hd : DirtyOK cs) (hlen : 0 < cs.length) :
    clearCheckStates cs = .ok (List.replicate cs.length false) := by
  unfold clearCheckStates
  rw [List.getElem?_eq_getElem hlen]
  cases hb : cs[0] with
  | true => rfl
  | false =>
    simp only
    congr 1
    apply List.ext_getElem?
    intro i
    by_cases hi : i < cs.length
    · rw [List.getElem?_eq_getElem hi, List.getElem?_replicate]
      simp only [hi, if_true]
      have := hd (by rw [List.getElem?_eq_getElem hlen, hb]) i
      rw [List.getElem?_eq_getElem hi] at this
      cases hv : cs[i] with
      | true => rw [hv] at this; exact absurd rfl this
      | false => rfl
    · rw [List.getElem?_eq_none_iff.mpr (by omega), List.getElem?_eq_none_iff.mpr (by simp; omega)]

theorem dirtyOK_of_clean {cs : List Bool} (h : ∀ i : Nat, cs[i]? ≠ some true) : DirtyOK cs :=
  fun _ i => h i

/-! ## The machine with another first-byte set -/

theorem activeLoop_withFirst
    (step : Thread → List Bool → ThreadList → ThreadList → Except Fault ExecResult)
    (offset : Nat) (f : Byte → Bool) :
    ∀ (n i : Nat) (vm : Vm) (hits : List SearchHit),
      activeLoop step offset n i (vm.withFirst f) hits =
        (activeLoop step offset n i vm hits).map (fun p => (p.1.withFirst f, p.2)) := by
  intro n
  induction n with
  | zero =>
    intro i vm hits
    simp only [activeLoop, Vm.withFirst]
    split <;> rfl
  | succ n ih =>
    intro i vm hits
    simp only [activeLoop]
    have e1 : (vm.withFirst f).Active = vm.Active := rfl
    have e2 : (vm.withFirst f).CheckStates = vm.CheckStates := rfl
    have e3 : (vm.withFirst f).Next = vm.Next := rfl
    have e4 : (vm.withFirst f).Matches = vm.Matches := rfl
    rw [e1, e2, e3, e4]
    cases hget : vm.Active[i]? with
    | none => rfl
    | some t =>
      simp only []
      cases hs : step t vm.CheckStates vm.Active vm.Next with
      | error e => rfl
      | ok r =>
        simp only []
        cases hr : reconcile r.t offset vm.Matches hits with
        | error e => rfl
        | ok p =>
          obtain ⟨cells, hits1⟩ := p
          simp only []
          exact ih (i + 1) { vm with Active := r.active.set i r.t, Next := r.next,
                                     CheckStates := r.checkStates, Matches := cells } hits1

theorem activeLoop_fields
    (step : Thread → List Bool → ThreadList → ThreadList → Except Fault ExecResult)
    (offset : Nat) :
    ∀ (n i : Nat) (vm vm' : Vm) (hits hits' : List SearchHit),
      activeLoop step offset n i vm hits = .ok (vm', hits') →
      vm'.Prog = vm.Prog ∧ vm'.First = vm.First := by
  intro n
  induction n with
  | zero =>
    intro i vm vm' hits hits' h
    simp only [activeLoop] at h
    split at h
    · cases h
    · cases Except.ok.inj h; exact ⟨rfl, rfl⟩
  | succ n ih =>
    intro i vm vm' hits hits' h
    simp only [activeLoop] at h
    cases hget : vm.Active[i]? with
    | none => simp only [hget] at h; cases Except.ok.inj h; exact ⟨rfl, rfl⟩
    | some t =>
      simp only [hget] at h
      cases hs : step t vm.CheckStates vm.Active vm.Next with
      | error e => simp [hs] at h
      | ok r =>
        simp only [hs] at h
        cases hr : reconcile r.t offset vm.Matches hits with
        | error e => simp [hr] at h
        | ok p =>
          obtain ⟨cells, hits1⟩ := p
          simp only [hr] at h
          have := ih (i + 1) _ vm' hits1 hits' h
          exact this

/-! ## One byte of input on two machines -/

theorem byteStep_ok_iff (n : Nat) (vm : Vm) (c : Byte) (q : Nat) (hits : List SearchHit)
    (res : Vm × List SearchHit) :
    byteStep n vm c q hits = .ok res ↔
      ∃ s cs', queueLoop (runThread vm.Prog c q n) q n (seededActive vm c q)
          (loopStateOf vm hits) = .ok s ∧
        clearCheckStates s.cs = .ok cs' ∧
        res = (⟨vm.Prog, s.next, [], vm.First, cs', s.cells⟩, s.hits) := by
  have key : ∀ vm1 : Vm, vm1.Prog = vm.Prog → vm1.First = vm.First →
      vm1.Active = seededActive vm c q → loopStateOf vm1 hits = loopStateOf vm hits →
      ((match activeLoop (runThread vm1.Prog c q n) q n 0 vm1 hits with
        | .error e => .error e
        | .ok (vm2, hits2) =>
          match clearCheckStates vm2.CheckStates with
          | .error e => .error e
          | .ok cs => .ok ({ vm2 with Active := vm2.Next, Next := [], CheckStates := cs }, hits2))
        = Except.ok res ↔
      ∃ s cs', queueLoop (runThread vm.Prog c q n) q n (seededActive vm c q)
          (loopStateOf vm hits) = .ok s ∧
        clearCheckStates s.cs = .ok cs' ∧
        res = (⟨vm.Prog, s.next, [], vm.First, cs', s.cells⟩, s.hits)) := by
    intro vm1 hP hF hA hL
    have hq := activeLoop_eq_queueLoop (runThread vm1.Prog c q n)
      (fun t cs a nx => runThread_prepend vm1.Prog c q n t cs a nx) q n 0 vm1 hits
    rw [List.drop_zero, hA, hL, hP] at hq
    rw [hP]
    cases hal : activeLoop (runThread vm.Prog c q n) q n 0 vm1 hits with
    | error e =>
      rw [hal, except_map_error] at hq
      constructor
      · intro h; cases h
      · rintro ⟨s, cs', hs, _, _⟩
        rw [← hq] at hs; cases hs
    | ok p =>
      obtain ⟨vm2, hits2⟩ := p
      rw [hal, except_map_ok] at hq
      obtain ⟨hP2, hF2⟩ := activeLoop_fields _ _ _ _ _ _ _ _ hal
      simp only []
      constructor
      · intro h
        cases hc : clearCheckStates vm2.CheckStates with
        | error e => simp [hc] at h
        | ok cs =>
          simp only [hc] at h
          refine ⟨loopStateOf vm2 hits2, cs, hq.symm, hc, ?_⟩
          rw [← Except.ok.inj h, ← hP, ← hF, ← hP2, ← hF2]
          rfl
      · rintro ⟨s, cs', hs, hc, rfl⟩
        rw [← hq] at hs
        cases Except.ok.inj hs
        have hc' : clearCheckStates vm2.CheckStates = .ok cs' := hc
        simp only [hc']
        rw [← hP, ← hF, ← hP2, ← hF2]
        rfl
  have hb : byteStep n vm c q hits =
      (match activeLoop (runThread (if vm.First c = true then
            ({ vm with Active := vm.Active ++ [⟨some 0, 0, q, UNALLOCATED⟩] } : Vm)
            else vm).Prog c q n) q n 0
          (if vm.First c = true then
            ({ vm with Active := vm.Active ++ [⟨some 0, 0, q, UNALLOCATED⟩] } : Vm)
            else vm) hits with
        | .error e => .error e
        | .ok (vm2, hits2) =>
          match clearCheckStates vm2.CheckStates with
          | .error e => .error e
          | .ok cs =>
            .ok ({ vm2 with Active := vm2.Next, Next := [], CheckStates := cs }, hits2)) := rfl
  rw [hb]
  apply key
  · split <;> rfl
  · split <;> rfl
  · unfold seededActive seedThread
    split <;> rfl
  · split <;> rfl

theorem seededActive_withFirst (vm : Vm) (c : Byte) (q : Nat) (f : Byte → Bool)
    (hf : f c = vm.First c) : seededActive (vm.withFirst f) c q = seededActive vm c q := by
  simp [seededActive, Vm.withFirst, hf]

theorem byteStep_withFirst_fwd (n : Nat) (vm : Vm) (c : Byte) (q : Nat)
    (hits : List SearchHit) (f : Byte → Bool) (hf : f c = vm.First c)
    (res : Vm × List SearchHit) (hb : byteStep n vm c q hits = .ok res) :
    byteStep n (vm.withFirst f) c q hits = .ok (res.1.withFirst f, res.2) := by
  obtain ⟨s, cs', hs, hc, rfl⟩ := (byteStep_ok_iff n vm c q hits res).mp hb
  refine (byteStep_ok_iff n _ c q hits _).mpr ⟨s, cs', ?_, hc, rfl⟩
  rw [seededActive_withFirst vm c q f hf]
  exact hs

theorem byteStep_withFirst_bwd (n : Nat) (vm : Vm) (c : Byte) (q : Nat)
    (hits : List SearchHit) (f : Byte → Bool) (hf : f c = vm.First c)
    (res' : Vm × List SearchHit) (hb : byteStep n (vm.withFirst f) c q hits = .ok res') :
    ∃ res, byteStep n vm c q hits = .ok res ∧ res' = (res.1.withFirst f, res.2) := by
  obtain ⟨s, cs', hs, hc, rfl⟩ := (byteStep_ok_iff n _ c q hits res').mp hb
  rw [seededActive_withFirst vm c q f hf] at hs
  exact ⟨_, (byteStep_ok_iff n vm c q hits _).mpr ⟨s, cs', hs, hc, rfl⟩, rfl⟩

/-! ## Seeding on a byte that starts no match -/

theorem pendRel_refl {prog : Program} {D : Nat → Prop} {c : Byte} {P Q : Thread → Prop} :
    ∀ l : List Thread, (∀ t ∈ l, Q t) → PendRel prog D c P Q 0 l l := by
  intro l
  induction l with
  | nil => intro _; exact PendRel.nil
  | cons t rest ih =>
    intro h
    exact PendRel.both t (h t (List.mem_cons_self _ _))
      (ih (fun x hx => h x (List.mem_cons_of_mem _ hx)))

theorem seed_safeExtra {q : Nat} (hq : q < UNALLOCATED) (cells : List MatchCell) :
    SafeExtra q cells (seedThread q) := by
  left
  simp only [seedThread]
  omega

theorem stateSim_clear {nc : Nat} {D : Nat → Prop} {sX sY : LoopState}
    (h : StateSim nc D sX sY) {cs' : List Bool} (hc : clearCheckStates sX.cs = .ok cs') :
    clearCheckStates sY.cs = .ok cs' := by
  have hpos : 0 < sX.cs.length := by
    by_contra hcon
    have : sX.cs = [] := List.eq_nil_of_length_eq_zero (by omega)
    rw [this] at hc
    simp [clearCheckStates] at hc
  rw [clearCheckStates_dirtyOK h.cs.dirtyX hpos] at hc
  rw [clearCheckStates_dirtyOK h.cs.dirtyY (by rw [h.cs.lenY, ← h.cs.lenX]; exact hpos),
    h.cs.lenY, ← h.cs.lenX]
  exact hc

theorem stateSim_symm_clear {nc : Nat} {D : Nat → Prop} {sX sY : LoopState}
    (h : StateSim nc D sX sY) {cs' : List Bool} (hc : clearCheckStates sY.cs = .ok cs') :
    clearCheckStates sX.cs = .ok cs' := by
  have hpos : 0 < sY.cs.length := by
    by_contra hcon
    have : sY.cs = [] := List.eq_nil_of_length_eq_zero (by omega)
    rw [this] at hc
    simp [clearCheckStates] at hc
  rw [clearCheckStates_dirtyOK h.cs.dirtyY hpos] at hc
  rw [clearCheckStates_dirtyOK h.cs.dirtyX (by rw [h.cs.lenX, ← h.cs.lenY]; exact hpos),
    h.cs.lenX, ← h.cs.lenY]
  exact hc

theorem boundary_stateSim {nc q : Nat} {vm : Vm} (D : Nat → Prop) (hB : Boundary nc q vm)
    (hits : List SearchHit) : StateSim nc D (loopStateOf vm hits) (loopStateOf vm hits) :=
  ⟨rfl, rfl, rfl, hB.cs_len, hB.cs_len, fun _ _ _ => rfl, dirtyOK_of_clean hB.cs_clean,
    dirtyOK_of_clean hB.cs_clean⟩

/-- On a byte for which the seed is inert, the machine that seeds a thread
takes the step the machine that does not seed takes. -/
theorem byteStep_seed_fwd {nc q : Nat} {vm : Vm} {c : Byte} (hB : Boundary nc q vm)
    (hq : q < UNALLOCATED) (hI : SeedInert vm.Prog nc c) (hF : vm.First c = false)
    (f : Byte → Bool) (hf : f c = true) (n : Nat) (hits : List SearchHit)
    (res : Vm × List SearchHit) (h : byteStep n vm c q hits = .ok res) :
    ∃ m, byteStep m (vm.withFirst f) c q hits = .ok (res.1.withFirst f, res.2) := by
  obtain ⟨D, k, hd, hG⟩ := hI
  obtain ⟨s, cs', hs, hc, rfl⟩ := (byteStep_ok_iff n vm c q hits res).mp h
  have hsa : seededActive vm c q = vm.Active := by simp [seededActive, hF]
  have hsb : seededActive (vm.withFirst f) c q = vm.Active ++ [seedThread q] := by
    simp [seededActive, Vm.withFirst, hf]
  rw [hsa] at hs
  have hsim : QueueSim vm.Prog D c nc q (0 + (k + 0)) (vm.Active ++ [])
      (vm.Active ++ [seedThread q]) (loopStateOf vm hits) (loopStateOf vm hits) := by
    refine ⟨boundary_stateSim D hB hits, pendRel_append (pendRel_refl _ hB.starts) ?_⟩
    exact PendRel.right _ ⟨0, rfl, hd⟩ (seed_safeExtra hq _) PendRel.nil
  rw [List.append_nil] at hsim
  obtain ⟨ml, ms, resY, hY, hfin⟩ := queue_sim hG hq n n _ _ _ _ _ s hsim hs
  refine ⟨max ml ms, (byteStep_ok_iff _ _ c q hits _).mpr ⟨resY, cs', ?_, stateSim_clear hfin hc, ?_⟩⟩
  · rw [hsb]
    exact queueLoop_runThread_mono (le_max_right ml ms) (le_max_left ml ms) hY
  · simp only [Vm.withFirst, hfin.next_eq, hfin.cells_eq, hfin.hits_eq]

/-- On a byte for which the seed is inert, the machine that does not seed
takes the step the machine that seeds a thread takes. -/
theorem byteStep_seed_bwd {nc q : Nat} {vm : Vm} {c : Byte} (hB : Boundary nc q vm)
    (hq : q < UNALLOCATED) (hI : SeedInert vm.Prog nc c) (hF : vm.First c = false)
    (f : Byte → Bool) (hf : f c = true) (n : Nat) (hits : List SearchHit)
    (res' : Vm × List SearchHit) (h : byteStep n (vm.withFirst f) c q hits = .ok res') :
    ∃ m res, byteStep m vm c q hits = .ok res ∧ res' = (res.1.withFirst f, res.2) := by
  obtain ⟨D, k, hd, hG⟩ := hI
  obtain ⟨s, cs', hs, hc, rfl⟩ := (byteStep_ok_iff n _ c q hits res').mp h
  have hsa : seededActive vm c q = vm.Active := by simp [seededActive, hF]
  have hsb : seededActive (vm.withFirst f) c q = vm.Active ++ [seedThread q] := by
    simp [seededActive, Vm.withFirst, hf]
  rw [hsb] at hs
  have hsim : QueueSim vm.Prog D c nc q (0 + 0) (vm.Active ++ [seedThread q])
      (vm.Active ++ []) (loopStateOf vm hits) (loopStateOf vm hits) := by
    refine ⟨boundary_stateSim D hB hits, pendRel_append (pendRel_refl _ hB.starts) ?_⟩
    exact PendRel.left (k := k) _ ⟨0, rfl, hd⟩ (seed_safeExtra hq _) PendRel.nil
  rw [List.append_nil] at hsim
  have hs' : queueLoop (runThread vm.Prog c q n) q n (vm.Active ++ [seedThread q])
      (loopStateOf vm hits) = .ok s := hs
  obtain ⟨ml, ms, resY, hY, hfin⟩ := queue_sim hG hq n n _ _ _ _ _ s hsim hs'
  refine ⟨max ml ms, _, (byteStep_ok_iff _ _ c q hits _).mpr
    ⟨resY, cs', ?_, stateSim_clear hfin hc, rfl⟩, ?_⟩
  · rw [hsa]
    exact queueLoop_runThread_mono (le_max_right ml ms) (le_max_left ml ms) hY
  · simp only [Vm.withFirst, hfin.next_eq, hfin.cells_eq, hfin.hits_eq]

/-- A step of the loop over the input leads from one byte boundary to the
next one, and keeps the program and the first-byte set. -/
theorem byteStep_boundary {nc q : Nat} {vm : Vm} {c : Byte} (hB : Boundary nc q vm)
    (n : Nat) (hits : List SearchHit) (res : Vm × List SearchHit)
    (h : byteStep n vm c q hits = .ok res) :
    Boundary nc (q + 1) res.1 ∧ res.1.Prog = vm.Prog ∧ res.1.First = vm.First := by
  obtain ⟨s, cs', hs, hc, rfl⟩ := (byteStep_ok_iff n vm c q hits res).mp h
  have hpend : ∀ x ∈ seededActive vm c q, x.Start ≤ q := by
    intro x hx
    unfold seededActive at hx
    split at hx
    · rcases List.mem_append.mp hx with hx | hx
      · exact Nat.le_of_lt (hB.starts x hx)
      · rw [List.mem_singleton.mp hx]; exact le_refl _
    · exact Nat.le_of_lt (hB.starts x hx)
  obtain ⟨h1, h2, h3⟩ := queueLoop_inv n _ _ _ hs hpend
    (by intro x hx; simp only [loopStateOf] at hx; rw [hB.next_nil] at hx; cases hx)
    hB.cs_len (dirtyOK_of_clean hB.cs_clean)
  have hpos : 0 < s.cs.length := by
    by_contra hcon
    have : s.cs = [] := List.eq_nil_of_length_eq_zero (by omega)
    rw [this] at hc
    simp [clearCheckStates] at hc
  rw [clearCheckStates_dirtyOK h3 hpos] at hc
  cases Except.ok.inj hc
  refine ⟨⟨rfl, by simp [h2], ?_, ?_⟩, rfl, rfl⟩
  · intro i
    simp only [List.getElem?_replicate]
    split <;> simp
  · intro t ht
    exact Nat.lt_succ_of_le (h1 t ht)

theorem inc64_eq {q : Nat} (hq : q < UNALLOCATED) : inc64 q = q + 1 := by
  unfold inc64
  unfold UNALLOCATED at hq
  exact Nat.mod_eq_of_lt (by omega)

/-! ## The loop over the input on two machines -/

theorem byteLoop_seed_fwd {nc : Nat} {prog : Program} {F : Byte → Bool} (f : Byte → Bool)
    (hf : ∀ c, f c = true) :
    ∀ (input : List Byte) (vm : Vm) (q : Nat) (hits : List SearchHit) (n : Nat)
      (res : Vm × Nat × List SearchHit),
      Boundary nc q vm → vm.Prog = prog → vm.First = F →
      (∀ c ∈ input, F c = false → SeedInert prog nc c) →
      q + input.length ≤ UNALLOCATED →
      byteLoop n input vm q hits = .ok res →
      ∃ m, byteLoop m input (vm.withFirst f) q hits = .ok (res.1.withFirst f, res.2) := by
  intro input
  induction input with
  | nil =>
    intro vm q hits n res _ _ _ _ _ h
    simp only [byteLoop] at h
    cases Except.ok.inj h
    exact ⟨0, rfl⟩
  | cons c rest ih =>
    intro vm q hits n res hB hP hF hI hlen h
    simp only [byteLoop] at h
    have hq : q < UNALLOCATED := by simp only [List.length_cons] at hlen; omega
    cases hb : byteStep n vm c q hits with
    | error e => simp [hb] at h
    | ok p =>
      obtain ⟨vm1, hits1⟩ := p
      simp only [hb] at h
      rw [inc64_eq hq] at h
      obtain ⟨hB1, hP1, hF1⟩ := byteStep_boundary hB n hits _ hb
      obtain ⟨m2, h2⟩ := ih vm1 (q + 1) hits1 n res hB1 (hP1.trans hP) (hF1.trans hF)
        (fun c' hc' => hI c' (List.mem_cons_of_mem _ hc'))
        (by simp only [List.length_cons] at hlen; omega) h
      have hstep : ∃ m1, byteStep m1 (vm.withFirst f) c q hits = .ok (vm1.withFirst f, hits1) := by
        cases hFc : F c with
        | true =>
          exact ⟨n, byteStep_withFirst_fwd n vm c q hits f (by rw [hf, hF, hFc]) _ hb⟩
        | false =>
          exact byteStep_seed_fwd hB hq (by rw [hP]; exact hI c (List.mem_cons_self _ _) hFc)
            (by rw [hF]; exact hFc) f (hf c) n hits _ hb
      obtain ⟨m1, h1⟩ := hstep
      refine ⟨max m1 m2, ?_⟩
      simp only [byteLoop]
      rw [byteStep_fuel_mono m1 (max m1 m2) _ c q hits _ (le_max_left _ _) h1]
      simp only []
      rw [inc64_eq hq]
      exact byteLoop_fuel_mono m2 (max m1 m2) (le_max_right _ _) _ _ _ _ _ h2

theorem byteLoop_seed_bwd {nc : Nat} {prog : Program} {F : Byte → Bool} (f : Byte → Bool)
    (hf : ∀ c, f c = true) :
    ∀ (input : List Byte) (vm : Vm) (q : Nat) (hits : List SearchHit) (n : Nat)
      (res' : Vm × Nat × List SearchHit),
      Boundary nc q vm → vm.Prog = prog → vm.First = F →
      (∀ c ∈ input, F c = false → SeedInert prog nc c) →
      q + input.length ≤ UNALLOCATED →
      byteLoop n input (vm.withFirst f) q hits = .ok res' →
      ∃ m res, byteLoop m input vm q hits = .ok res ∧
        res' = (res.1.withFirst f, res.2) := by
  intro input
  induction input with
  | nil =>
    intro vm q hits n res _ _ _ _ _ h
    simp only [byteLoop] at h
    cases Except.ok.inj h
    exact ⟨0, _, rfl, rfl⟩
  | cons c rest ih =>
    intro vm q hits n res' hB hP hF hI hlen h
    simp only [byteLoop] at h
    have hq : q < UNALLOCATED := by simp only [List.length_cons] at hlen; omega
    cases hb : byteStep n (vm.withFirst f) c q hits with
    | error e => simp [hb] at h
    | ok p =>
      obtain ⟨vmA1, hits1⟩ := p
      simp only [hb] at h
      rw [inc64_eq hq] at h
      have hstep : ∃ m1 r1, byteStep m1 vm c q hits = .ok r1 ∧
          (vmA1, hits1) = (r1.1.withFirst f, r1.2) := by
        cases hFc : F c with
        | true =>
          obtain ⟨r1, hr1, he⟩ :=
            byteStep_withFirst_bwd n vm c q hits f (by rw [hf, hF, hFc]) _ hb
          exact ⟨n, r1, hr1, he⟩
        | false =>
          exact byteStep_seed_bwd hB hq (by rw [hP]; exact hI c (List.mem_cons_self _ _) hFc)
            (by rw [hF]; exact hFc) f (hf c) n hits _ hb
      obtain ⟨m1, r1, h1, he⟩ := hstep
      obtain ⟨vm1, hits1'⟩ := r1
      simp only [Prod.mk.injEq] at he
      obtain ⟨rfl, rfl⟩ := he
      obtain ⟨hB1, hP1, hF1⟩ := byteStep_boundary hB m1 hits _ h1
      obtain ⟨m2, r2, h2, he2⟩ := ih vm1 (q + 1) hits1 n res' hB1 (hP1.trans hP) (hF1.trans hF)
        (fun c' hc' => hI c' (List.mem_cons_of_mem _ hc'))
        (by simp only [List.length_cons] at hlen; omega) h
      refine ⟨max m1 m2, r2, ?_, he2⟩
      simp only [byteLoop]
      rw [byteStep_fuel_mono m1 (max m1 m2) _ c q hits _ (le_max_left _ _) h1]
      simp only []
      rw [inc64_eq hq]
      exact byteLoop_fuel_mono m2 (max m1 m2) (le_max_right _ _) _ _ _ _ _ h2

/-! ## The whole search on two machines -/

theorem search_eq_searchEnd (n : Nat) (vm : Vm) (input : List Byte) (startOffset : Nat) :
    Vm.search n vm input startOffset =
      match byteLoop n input vm startOffset [] with
      | .error e => .error e
      | .ok (vm1, offset, hits1) => searchEnd n vm1 offset hits1 := rfl

theorem searchEnd_fuel_mono (n m : Nat) (hnm : n ≤ m) (vm1 : Vm) (offset : Nat)
    (hits1 : List SearchHit) (res : SearchResult) (h : searchEnd n vm1 offset hits1 = .ok res) :
    searchEnd m vm1 offset hits1 = .ok res := by
  simp only [searchEnd] at h ⊢
  cases hal : activeLoop (runThreadEpsilons vm1.Prog offset n) offset n 0 vm1 hits1 with
  | error e => simp [hal] at h
  | ok p =>
    have hal' := activeLoop_fuel_mono (runThreadEpsilons vm1.Prog offset n)
      (runThreadEpsilons vm1.Prog offset m)
      (fun t cs a nx r hr => runThreadEpsilons_fuel_mono vm1.Prog offset n m t cs a nx r hnm hr)
      offset n m 0 vm1 hits1 p hnm hal
    simp only [hal] at h
    simp only [hal']
    exact h

theorem searchEnd_withFirst (n : Nat) (vm1 : Vm) (f : Byte → Bool) (offset : Nat)
    (hits1 : List SearchHit) :
    hitsOf (searchEnd n (vm1.withFirst f) offset hits1) = hitsOf (searchEnd n vm1 offset hits1) := by
  simp only [searchEnd]
  have e1 : (vm1.withFirst f).Prog = vm1.Prog := rfl
  rw [e1, activeLoop_withFirst]
  cases hal : activeLoop (runThreadEpsilons vm1.Prog offset n) offset n 0 vm1 hits1 with
  | error e => rfl
  | ok p =>
    obtain ⟨vm2, hits2⟩ := p
    simp only [except_map_ok]
    have e2 : (vm2.withFirst f).CheckStates = vm2.CheckStates := rfl
    have e3 : (vm2.withFirst f).Matches = vm2.Matches := rfl
    rw [e2, e3]
    cases hc : clearCheckStates vm2.CheckStates with
    | error e => rfl
    | ok cs => rfl

theorem hitsOf_eq_some {r : Except Fault SearchResult} {hs : List SearchHit}
    (h : hitsOf r = some hs) : ∃ res, r = .ok res ∧ res.hits = hs := by
  cases r with
  | error e => simp [hitsOf] at h
  | ok res => exact ⟨res, rfl, by simpa [hitsOf] using h⟩

theorem init_boundary (prog : Program) (F : Byte → Bool) (nc q : Nat) :
    Boundary nc q (Vm.init prog F nc) := by
  refine ⟨rfl, by simp [Vm.init], ?_, ?_⟩
  · intro i
    simp only [Vm.init, List.getElem?_replicate]
    split <;> simp
  · intro t ht
    simp [Vm.init] at ht

/-- Seeding only on first bytes does not change the hits, for a program in
which a thread seeded on any other byte of the input is inert. -/
theorem search_seed_filter (prog : Program) (F : Byte → Bool) (nc : Nat) (input : List Byte)
    (startOffset : Nat)
    (hI : ∀ c ∈ input, F c = false → SeedInert prog nc c)
    (hlen : startOffset + input.length ≤ UNALLOCATED) (hs : List SearchHit) :
    (∃ n, hitsOf (Vm.search n (Vm.init prog F nc) input startOffset) = some hs) ↔
    (∃ m, hitsOf (Vm.search m (Vm.init prog (fun _ => true) nc) input startOffset) = some hs) := by
  have hinit : Vm.init prog (fun _ => true) nc = (Vm.init prog F nc).withFirst (fun _ => true) :=
    rfl
  constructor
  · rintro ⟨n, h⟩
    obtain ⟨res, hres, hhits⟩ := hitsOf_eq_some h
    rw [search_eq_searchEnd] at hres
    cases hb : byteLoop n input (Vm.init prog F nc) startOffset [] with
    | error e => simp [hb] at hres
    | ok p =>
      obtain ⟨vm1, q1, h1⟩ := p
      simp only [hb] at hres
      obtain ⟨m, hm⟩ := byteLoop_seed_fwd (fun _ => true) (fun _ => rfl) input _ startOffset []
        n _ (init_boundary prog F nc startOffset) rfl rfl hI hlen hb
      refine ⟨max n m, ?_⟩
      rw [search_eq_searchEnd, hinit,
        byteLoop_fuel_mono m (max n m) (le_max_right _ _) _ _ _ _ _ hm]
      simp only []
      rw [searchEnd_withFirst,
        searchEnd_fuel_mono n (max n m) (le_max_left _ _) _ _ _ _ hres]
      simpa [hitsOf] using hhits
  · rintro ⟨n, h⟩
    obtain ⟨res, hres, hhits⟩ := hitsOf_eq_some h
    rw [search_eq_searchEnd, hinit] at hres
    cases hb : byteLoop n input ((Vm.init prog F nc).withFirst (fun _ => true)) startOffset []
      with
    | error e => simp [hb] at hres
    | ok p =>
      obtain ⟨vmA1, q1, h1⟩ := p
      simp only [hb] at hres
      obtain ⟨m, r, hm, he⟩ := byteLoop_seed_bwd (fun _ => true) (fun _ => rfl) input _
        startOffset [] n _ (init_boundary prog F nc startOffset) rfl rfl hI hlen hb
      obtain ⟨vm1, q1', h1'⟩ := r
      simp only [Prod.mk.injEq] at he
      obtain ⟨rfl, rfl, rfl⟩ := he
      have hres' := searchEnd_fuel_mono n (max n m) (le_max_left _ _) _ _ _ _ hres
      refine ⟨max n m, ?_⟩
      rw [search_eq_searchEnd, byteLoop_fuel_mono m (max n m) (le_max_right _ _) _ _ _ _ _ hm]
      simp only []
      rw [← searchEnd_withFirst (max n m) vm1 (fun _ => true), hres']
      simpa [hitsOf] using hhits

/-! ## Writing instructions -/

theorem writeOp_ok {prog prog' : Program} {cur cur' : Nat} {ins : Instruction}
    (h : writeOp prog cur ins = .ok (prog', cur')) :
    cur < prog.length ∧ prog' = prog.set cur ins ∧ cur' = cur + 1 := by
  unfold writeOp at h
  split at h
  · rename_i hlt
    simp only [Except.ok.injEq, Prod.mk.injEq] at h
    exact ⟨hlt, h.1.symm, h.2.symm⟩
  · cases h

theorem wrote_nil (prog : Program) (base : Nat) : Wrote prog prog base [] :=
  ⟨rfl, fun _ _ => rfl, fun i hi => by simp at hi⟩

theorem wrote_writeOp {prog prog' : Program} {cur cur' : Nat} {ins : Instruction}
    (h : writeOp prog cur ins = .ok (prog', cur')) :
    Wrote prog prog' cur [ins] ∧ cur' = cur + 1 := by
  obtain ⟨hlt, rfl, rfl⟩ := writeOp_ok h
  refine ⟨⟨by simp, ?_, ?_⟩, rfl⟩
  · intro p hp
    simp only [List.length_singleton] at hp
    rw [List.getElem?_set_ne (by omega)]
  · intro i hi
    simp only [List.length_singleton] at hi
    have : i = 0 := by omega
    subst this
    simp [hlt]

theorem wrote_append {a b d : Program} {base : Nat} {A B : List Instruction}
    (h1 : Wrote a b base A) (h2 : Wrote b d (base + A.length) B) :
    Wrote a d base (A ++ B) := by
  refine ⟨h2.len.trans h1.len, ?_, ?_⟩
  · intro p hp
    simp only [List.length_append] at hp
    rw [h2.frame p (by omega), h1.frame p (by omega)]
  · intro i hi
    simp only [List.length_append] at hi
    by_cases hA : i < A.length
    · rw [h2.frame (base + i) (by omega), h1.code_eq i hA, List.getElem?_append_left hA]
    · have := h2.code_eq (i - A.length) (by omega)
      rw [show base + A.length + (i - A.length) = base + i by omega] at this
      rw [this, List.getElem?_append_right (by omega)]

theorem wrote_hasCode {a b : Program} {base : Nat} {A : List Instruction}
    (h : Wrote a b base A) : HasCode b base A := h.code_eq

theorem hasCode_append {prog : Program} {base : Nat} {A B : List Instruction} :
    HasCode prog base (A ++ B) ↔ HasCode prog base A ∧ HasCode prog (base + A.length) B := by
  constructor
  · intro h
    constructor
    · intro i hi
      rw [h i (by simp; omega), List.getElem?_append_left hi]
    · intro i hi
      have := h (A.length + i) (by simp; omega)
      rw [List.getElem?_append_right (by omega)] at this
      rw [show base + A.length + i = base + (A.length + i) by omega, this]
      simp
  · rintro ⟨h1, h2⟩ i hi
    simp only [List.length_append] at hi
    by_cases hA : i < A.length
    · rw [h1 i hA, List.getElem?_append_left hA]
    · have := h2 (i - A.length) (by omega)
      rw [show base + A.length + (i - A.length) = base + i by omega] at this
      rw [this, List.getElem?_append_right (by omega)]

theorem hasCode_cons {prog : Program} {base : Nat} {x : Instruction} {B : List Instruction} :
    HasCode prog base (x :: B) ↔ prog[base]? = some x ∧ HasCode prog (base + 1) B := by
  have := @hasCode_append prog base [x] B
  simp only [List.singleton_append, List.length_singleton] at this
  rw [this]
  constructor
  · rintro ⟨h1, h2⟩
    exact ⟨by simpa using h1 0 (by simp), h2⟩
  · rintro ⟨h1, h2⟩
    refine ⟨?_, h2⟩
    intro i hi
    simp only [List.length_singleton] at hi
    have : i = 0 := by omega
    subst this
    simpa using h1

/-! ## The loop over the out-edges -/

theorem rank_ok {cg : CodeGenHelper} {v r : Nat} (h : cg.rank v = .ok r) : cg.rankD v = r := by
  unfold CodeGenHelper.rank at h
  unfold CodeGenHelper.rankD
  cases hv : cg.DiscoverRanks[v]? with
  | none => simp [hv] at h
  | some x => simp only [hv] at h; cases Except.ok.inj h; rfl

theorem snippet_ok {cg : CodeGenHelper} {v : Nat} {info : StateLayoutInfo}
    (h : cg.snippet v = .ok info) : cg.snippetD v = info := by
  unfold CodeGenHelper.snippet at h
  unfold CodeGenHelper.snippetD
  cases hv : cg.Snippets[v]? with
  | none => simp [hv] at h
  | some x => simp only [hv] at h; cases Except.ok.inj h; rfl

theorem tailLoop_wrote (cg : CodeGenHelper) (v : Nat) :
    ∀ (targets : List Nat) (st st' : TailState),
      tailLoop cg v targets st = .ok st' →
      Wrote st.prog st'.prog st.curOp (tailCode cg (cg.rankD v) targets st.hasTargetAtNext) ∧
      st'.curOp = st.curOp + (tailCode cg (cg.rankD v) targets st.hasTargetAtNext).length ∧
      (st'.hasTargetAtNext, st'.nextTarget) =
        tailFlag cg (cg.rankD v) targets (st.hasTargetAtNext, st.nextTarget) := by
  intro targets
  induction targets with
  | nil =>
    intro st st' h
    simp only [tailLoop] at h
    cases Except.ok.inj h
    exact ⟨wrote_nil _ _, rfl, rfl⟩
  | cons w rest ih =>
    intro st st' h
    simp only [tailLoop] at h
    cases hrv : cg.rank v with
    | error e => simp [hrv] at h
    | ok rv =>
      cases hrw : cg.rank w with
      | error e => simp [hrv, hrw] at h
      | ok rw' =>
        simp only [hrv, hrw] at h
        have e1 := rank_ok hrv
        have e2 := rank_ok hrw
        subst e1
        subst e2
        simp only [tailCode, tailFlag]
        by_cases hne : cg.rankD v + 1 ≠ cg.rankD w
        · rw [if_pos hne] at h
          rw [if_pos hne, if_pos hne]
          generalize hlast : (decide (rest = []) && !st.hasTargetAtNext) = last at h ⊢
          cases hsn : cg.snippet w with
          | error e => simp [hsn] at h
          | ok info =>
            simp only [hsn] at h
            have e3 := snippet_ok hsn
            cases hci : info.CheckIndex with
            | some idx =>
              simp only [hci] at h
              cases hw1 : writeOp st.prog st.curOp
                  (if last = true
                    then Instruction.CHECK_HALT_OP idx else Instruction.CHECK_BRANCH_OP idx) with
              | error e => simp [hw1] at h
              | ok p1 =>
                obtain ⟨prog1, curOp1⟩ := p1
                simp only [hw1] at h
                cases hw2 : writeOp prog1 curOp1
                    (if last = true
                      then Instruction.JUMP_OP info.Start else Instruction.FORK_OP info.Start) with
                | error e => simp [hw2] at h
                | ok p2 =>
                  obtain ⟨prog2, curOp2⟩ := p2
                  simp only [hw2] at h
                  obtain ⟨hW1, rfl⟩ := wrote_writeOp hw1
                  obtain ⟨hW2, rfl⟩ := wrote_writeOp hw2
                  obtain ⟨hW3, hc3, hf3⟩ := ih _ _ h
                  have hedge : edgeCode cg w last =
                      [if last = true
                        then Instruction.CHECK_HALT_OP idx else Instruction.CHECK_BRANCH_OP idx]
                      ++ [if last = true
                        then Instruction.JUMP_OP info.Start
                        else Instruction.FORK_OP info.Start] := by
                    simp only [edgeCode, e3, hci]
                  rw [hedge]
                  refine ⟨?_, ?_, hf3⟩
                  · refine wrote_append (wrote_append hW1 hW2) ?_
                    simpa [Nat.add_assoc] using hW3
                  · rw [hc3]; simp only [List.length_append, List.length_singleton]; omega
            | none =>
              simp only [hci] at h
              cases hw2 : writeOp st.prog st.curOp
                  (if last = true
                    then Instruction.JUMP_OP info.Start else Instruction.FORK_OP info.Start) with
              | error e => simp [hw2] at h
              | ok p2 =>
                obtain ⟨prog2, curOp2⟩ := p2
                simp only [hw2] at h
                obtain ⟨hW2, rfl⟩ := wrote_writeOp hw2
                obtain ⟨hW3, hc3, hf3⟩ := ih _ _ h
                have hedge : edgeCode cg w last =
                    [if last = true
                      then Instruction.JUMP_OP info.Start
                      else Instruction.FORK_OP info.Start] := by
                  simp only [edgeCode, e3, hci, List.nil_append]
                rw [hedge]
                refine ⟨?_, ?_, hf3⟩
                · exact wrote_append hW2 (by simpa using hW3)
                · rw [hc3]; simp only [List.length_append, List.length_singleton]; omega
        · rw [if_neg hne] at h
          rw [if_neg hne, if_neg hne]
          obtain ⟨hW3, hc3, hf3⟩ := ih _ _ h
          exact ⟨hW3, hc3, hf3⟩

/-! ## The snippet of one state -/

theorem writeTransition_wrote {prog prog' : Program} {curOp curOp' : Nat}
    {tran : Option Transition} (h : writeTransition prog curOp tran = .ok (prog', curOp')) :
    Wrote prog prog' curOp (transitionCode tran) ∧
      curOp' = curOp + (transitionCode tran).length := by
  unfold writeTransition at h
  cases tran with
  | none =>
    simp only [Except.ok.injEq, Prod.mk.injEq] at h
    obtain ⟨rfl, rfl⟩ := h
    exact ⟨wrote_nil _ _, rfl⟩
  | some t =>
    simp only at h
    cases hw : writeOp prog curOp t.toInstruction with
    | error e => simp [hw] at h
    | ok p =>
      obtain ⟨prog1, c1⟩ := p
      simp only [hw] at h
      obtain ⟨hW1, _⟩ := wrote_writeOp hw
      by_cases hl : t.Label < NOLABEL
      · rw [if_pos hl] at h
        obtain ⟨hW2, rfl⟩ := wrote_writeOp h
        simp only [transitionCode, hl, if_true, Transition.numInstructions] at hW2 ⊢
        exact ⟨wrote_append hW1 hW2, by simp⟩
      · rw [if_neg hl] at h
        simp only [Except.ok.injEq, Prod.mk.injEq] at h
        obtain ⟨rfl, rfl⟩ := h
        simp only [transitionCode, hl, if_false, Transition.numInstructions]
        exact ⟨hW1, by simp⟩

theorem pivotRows_length (permitted : ByteSet) (t : Nat) :
    ∀ (rows : List (List Nat)) (i : Nat), (pivotRows permitted t i rows).length = rows.length := by
  intro rows
  induction rows with
  | nil => intro i; rfl
  | cons row rest ih => intro i; simp [pivotRows, ih]

theorem pivotStatesLoop_length (g : DynamicFSM) :
    ∀ (targets : List Nat) (ret tbl : List (List Nat)),
      pivotStatesLoop g targets ret = .ok tbl → tbl.length = ret.length := by
  intro targets
  induction targets with
  | nil => intro ret tbl h; simp only [pivotStatesLoop] at h; cases Except.ok.inj h; rfl
  | cons t rest ih =>
    intro ret tbl h
    simp only [pivotStatesLoop] at h
    cases ht : g.tran t with
    | error e => simp [ht] at h
    | ok tr =>
      simp only [ht] at h
      rw [ih _ _ h, pivotRows_length]

theorem pivotStates_length {g : DynamicFSM} {v : Nat} {tbl : List (List Nat)}
    (h : pivotStates v g = .ok tbl) : tbl.length = 256 := by
  unfold pivotStates at h
  cases ho : g.outVertices v with
  | error e => simp [ho] at h
  | ok ts =>
    simp only [ho] at h
    rw [pivotStatesLoop_length g _ _ _ h, List.length_replicate]

theorem indirectLoop_wrote (cg : CodeGenHelper) :
    ∀ (row : List Nat) (prog prog' : Program) (ind ind' : Nat),
      indirectLoop cg row prog ind = .ok (prog', ind') →
      ∃ code, Wrote prog prog' ind code ∧ code.length = row.length ∧
        ind' = ind + row.length ∧ ∀ x ∈ code, x.isTableOp := by
  intro row
  induction row with
  | nil =>
    intro prog prog' ind ind' h
    simp only [indirectLoop, Except.ok.injEq, Prod.mk.injEq] at h
    obtain ⟨rfl, rfl⟩ := h
    exact ⟨[], wrote_nil _ _, rfl, rfl, by simp⟩
  | cons t rest ih =>
    intro prog prog' ind ind' h
    simp only [indirectLoop] at h
    cases hs : cg.snippet t with
    | error e => simp [hs] at h
    | ok info =>
      simp only [hs] at h
      cases hw : writeOp prog ind
          (if rest = [] then Instruction.JUMP_OP (info.Start + info.NumEval)
            else Instruction.FORK_OP (info.Start + info.NumEval)) with
      | error e => simp [hw] at h
      | ok p =>
        obtain ⟨prog1, ind1⟩ := p
        simp only [hw] at h
        obtain ⟨hW1, rfl⟩ := wrote_writeOp hw
        obtain ⟨code, hW2, hlen, hind, hall⟩ := ih _ _ _ _ h
        refine ⟨_ :: code, wrote_append hW1 (by simpa using hW2), by simp [hlen],
          by rw [hind]; simp; omega, ?_⟩
        intro x hx
        rcases List.mem_cons.mp hx with rfl | hx
        · split <;> trivial
        · exact hall x hx

theorem rowsWrote_cons_single {old mid new : Program} {cur ind : Nat} {row : List Nat}
    {rest : List (List Nat)} {ins : Instruction}
    (hW : Wrote old mid cur [ins]) (hR : RowsWrote mid new (cur + 1) ind rest)
    (hle : cur + (rest.length + 1) ≤ ind)
    (hrow : row.length < 2) (hins : ins.isTableOp) (hhalt : row = [] → ins = .HALT_OP) :
    RowsWrote old new cur ind (row :: rest) := by
  have hcount : indirectCount (row :: rest) = indirectCount rest := by
    simp only [indirectCount]
    rw [if_neg (by omega)]
    omega
  have hcur : new[cur]? = some ins := by
    rw [hR.frame cur (Or.inl (by omega))]
    simpa using hW.code_eq 0 (by simp)
  refine ⟨hR.len.trans hW.len, ?_, ?_, ?_⟩
  · intro p hp
    rw [hcount] at hp
    simp only [List.length_cons] at hp
    rw [hR.frame p (by omega), hW.frame p (by simp; omega)]
  · intro p hp
    rw [hcount] at hp
    simp only [List.length_cons] at hp
    by_cases hpc : p = cur
    · subst hpc; exact ⟨ins, hcur, hins⟩
    · exact hR.plain p (by omega)
  · intro i hi
    cases i with
    | zero =>
      simp only [List.getElem?_cons_zero, Option.some.injEq] at hi
      rw [Nat.add_zero, hcur, hhalt hi]
    | succ j =>
      simp only [List.getElem?_cons_succ] at hi
      have := hR.haltSlot j hi
      rw [show cur + (j + 1) = cur + 1 + j by omega]
      exact this

theorem jumpTableLoop_rowsWrote (cg : CodeGenHelper) (base baseIndex : Nat) :
    ∀ (rows : List (List Nat)) (prog prog' : Program) (cur ind cur' ind' : Nat),
      jumpTableLoop cg base baseIndex rows prog cur ind = .ok (prog', cur', ind') →
      cur + rows.length ≤ ind →
      RowsWrote prog prog' cur ind rows ∧ cur' = cur + rows.length ∧
        ind' = ind + indirectCount rows := by
  intro rows
  induction rows with
  | nil =>
    intro prog prog' cur ind cur' ind' h _
    simp only [jumpTableLoop, Except.ok.injEq, Prod.mk.injEq] at h
    obtain ⟨rfl, rfl, rfl⟩ := h
    exact ⟨⟨rfl, fun _ _ => rfl, fun p hp => by simp [indirectCount] at hp; omega,
      fun i hi => by simp at hi⟩, rfl, rfl⟩
  | cons row rest ih =>
    intro prog prog' cur ind cur' ind' h hle
    simp only [List.length_cons] at hle
    cases row with
    | nil =>
      simp only [jumpTableLoop] at h
      cases hw : writeOp prog cur Instruction.HALT_OP with
      | error e => simp [hw] at h
      | ok p =>
        obtain ⟨prog1, c1⟩ := p
        simp only [hw] at h
        obtain ⟨hW, rfl⟩ := wrote_writeOp hw
        obtain ⟨hR, rfl, rfl⟩ := ih _ _ _ _ _ _ h (by omega)
        refine ⟨rowsWrote_cons_single hW hR hle (by simp) trivial (fun _ => rfl), ?_, ?_⟩
        · simp only [List.length_cons]; omega
        · simp [indirectCount]
    | cons t row' =>
      cases row' with
      | nil =>
        simp only [jumpTableLoop] at h
        cases hs : cg.snippet t with
        | error e => simp [hs] at h
        | ok info =>
          simp only [hs] at h
          cases hw : writeOp prog cur (Instruction.JUMP_OP (info.Start + info.NumEval)) with
          | error e => simp [hw] at h
          | ok p =>
            obtain ⟨prog1, c1⟩ := p
            simp only [hw] at h
            obtain ⟨hW, rfl⟩ := wrote_writeOp hw
            obtain ⟨hR, rfl, rfl⟩ := ih _ _ _ _ _ _ h (by omega)
            refine ⟨rowsWrote_cons_single hW hR hle (by simp) trivial (fun hh => by cases hh),
              ?_, ?_⟩
            · simp only [List.length_cons]; omega
            · simp [indirectCount]
      | cons t2 row'' =>
        simp only [jumpTableLoop] at h
        cases hw : writeOp prog cur (Instruction.JUMP_OP (baseIndex + (ind - base))) with
        | error e => simp [hw] at h
        | ok p =>
          obtain ⟨prog1, c1⟩ := p
          simp only [hw] at h
          obtain ⟨hW, rfl⟩ := wrote_writeOp hw
          cases hi : indirectLoop cg (t :: t2 :: row'') prog1 ind with
          | error e => simp [hi] at h
          | ok p2 =>
            obtain ⟨prog2, ind2⟩ := p2
            simp only [hi] at h
            obtain ⟨code, hWi, hclen, rfl, hall⟩ := indirectLoop_wrote cg _ _ _ _ _ hi
            obtain ⟨hR, rfl, rfl⟩ := ih _ _ _ _ _ _ h (by omega)
            have hrl : (t :: t2 :: row'').length = row''.length + 2 := by simp
            have hcount : indirectCount ((t :: t2 :: row'') :: rest) =
                (row''.length + 2) + indirectCount rest := by
              simp only [indirectCount, hrl]
              rw [if_pos (by omega)]
            rw [hrl] at hR hclen
            have hcur : prog'[cur]? = some (Instruction.JUMP_OP (baseIndex + (ind - base))) := by
              rw [hR.frame cur (Or.inl (by omega)), hWi.frame cur (Or.inl (by omega))]
              simpa using hW.code_eq 0 (by simp)
            refine ⟨⟨hR.len.trans (hWi.len.trans hW.len), ?_, ?_, ?_⟩, ?_, ?_⟩
            · intro p hp
              rw [hcount] at hp
              simp only [List.length_cons] at hp
              rw [hR.frame p (by omega), hWi.frame p (by omega), hW.frame p (by simp; omega)]
            · intro p hp
              rw [hcount] at hp
              simp only [List.length_cons] at hp
              by_cases hpc : p = cur
              · subst hpc; exact ⟨_, hcur, trivial⟩
              · by_cases hpi : ind ≤ p ∧ p < ind + (row''.length + 2)
                · have h1 := hWi.code_eq (p - ind) (by omega)
                  rw [show ind + (p - ind) = p by omega] at h1
                  have hlt : p - ind < code.length := by omega
                  rw [List.getElem?_eq_getElem hlt] at h1
                  refine ⟨code[p - ind], ?_, hall _ (List.getElem_mem _)⟩
                  rw [hR.frame p (Or.inr (Or.inl (by omega))), h1]
                · exact hR.plain p (by omega)
            · intro i hi'
              cases i with
              | zero => simp at hi'
              | succ j =>
                simp only [List.getElem?_cons_succ] at hi'
                have := hR.haltSlot j hi'
                rw [show cur + (j + 1) = cur + 1 + j by omega]
                exact this
            · simp only [List.length_cons]; omega
            · rw [hcount]; omega

theorem createJumpTable_spec {cg : CodeGenHelper} {prog prog' : Program} {base baseIndex v : Nat}
    {g : DynamicFSM} (h : createJumpTable cg prog base baseIndex v g = .ok prog') :
    SameOutside prog prog' base (base + 257 + indirectCount (g.tableOf v)) ∧
      TableAt prog' base (g.tableOf v) := by
  unfold createJumpTable at h
  cases hw : writeOp prog base Instruction.JUMP_TABLE_OP with
  | error e => simp [hw] at h
  | ok p =>
    obtain ⟨prog1, c1⟩ := p
    simp only [hw] at h
    obtain ⟨hW, rfl⟩ := wrote_writeOp hw
    cases hp : pivotStates v g with
    | error e => simp [hp] at h
    | ok tbl =>
      simp only [hp] at h
      have htbl : g.tableOf v = tbl := by simp [DynamicFSM.tableOf, hp]
      have hlen := pivotStates_length hp
      cases hj : jumpTableLoop cg base baseIndex tbl prog1 (base + 1) (base + 257) with
      | error e => simp [hj] at h
      | ok r =>
        obtain ⟨prog2, c2, i2⟩ := r
        simp only [hj, Except.ok.injEq] at h
        subst h
        obtain ⟨hR, _, _⟩ := jumpTableLoop_rowsWrote cg base baseIndex _ _ _ _ _ _ _ hj
          (by omega)
        rw [htbl]
        have hhead : prog2[base]? = some Instruction.JUMP_TABLE_OP := by
          rw [hR.frame base (Or.inl (by omega))]
          simpa using hW.code_eq 0 (by simp)
        refine ⟨⟨hR.len.trans hW.len, ?_⟩, hhead, ?_, ?_⟩
        · intro p hp'
          rw [hR.frame p (by omega), hW.frame p (by simp; omega)]
        · intro i hi
          exact hR.haltSlot i hi
        · intro p hp1 hp2
          by_cases hpb : p = base
          · subst hpb; exact ⟨_, hhead, trivial⟩
          · exact hR.plain p (by omega)

theorem wrote_sameOutside {a b : Program} {base : Nat} {A : List Instruction}
    (h : Wrote a b base A) : SameOutside a b base (base + A.length) :=
  ⟨h.len, h.frame⟩

theorem guard_wrote {cg : CodeGenHelper} {st : TailState} {prog' : Program}
    (h : (if st.hasTargetAtNext then
        match cg.snippet st.nextTarget with
        | .error e => .error e
        | .ok ninfo =>
          match ninfo.CheckIndex with
          | some idx =>
            match writeOp st.prog st.curOp (.CHECK_HALT_OP idx) with
            | .error e => .error e
            | .ok (prog2, _) => .ok prog2
          | none => .ok st.prog
      else (.ok st.prog : Except Fault Program)) = .ok prog') :
    Wrote st.prog prog' st.curOp (guardCode cg (st.hasTargetAtNext, st.nextTarget)) := by
  unfold guardCode
  cases hf : st.hasTargetAtNext with
  | false =>
    rw [hf] at h
    simp only [Bool.false_eq_true, if_false, Except.ok.injEq] at h
    subst h
    exact wrote_nil _ _
  | true =>
    rw [hf] at h
    simp only [if_true] at h
    cases hs : cg.snippet st.nextTarget with
    | error e => simp [hs] at h
    | ok ninfo =>
      simp only [hs] at h
      rw [snippet_ok hs]
      cases hc : ninfo.CheckIndex with
      | none =>
        simp only [hc, Except.ok.injEq] at h
        subst h
        exact wrote_nil _ _
      | some idx =>
        simp only [hc] at h
        cases hw : writeOp st.prog st.curOp (Instruction.CHECK_HALT_OP idx) with
        | error e => simp [hw] at h
        | ok p =>
          obtain ⟨p2, c2⟩ := p
          simp only [hw, Except.ok.injEq] at h
          subst h
          exact (wrote_writeOp hw).1

theorem vertexStep_spec {g : DynamicFSM} {cg : CodeGenHelper} {v : Nat} {prog prog' : Program}
    (h : vertexStep g cg v prog = .ok prog') :
    SameOutside prog prog' (cg.snippetD v).Start ((cg.snippetD v).Start + snippetLen g cg v) ∧
      SnippetAt g cg prog' v := by
  unfold vertexStep at h
  cases hs : cg.snippet v with
  | error e => simp [hs] at h
  | ok info =>
    cases hv : g.Vertices[v]? with
    | none => simp [hs, hv] at h
    | some vert =>
      simp only [hs, hv] at h
      have hinfo := snippet_ok hs
      have htran : g.tranOf v = vert.Tran := by simp [DynamicFSM.tranOf, hv]
      cases hwt : writeTransition prog info.Start vert.Tran with
      | error e => simp [hwt] at h
      | ok p1 =>
        obtain ⟨prog1, curOp⟩ := p1
        simp only [hwt] at h
        obtain ⟨hW1, hcur⟩ := writeTransition_wrote hwt
        rw [← htran] at hW1 hcur
        by_cases hbig : info.numTotal > 256
        · rw [if_pos hbig] at h
          have hut : usesTable cg v = true := by simp [usesTable, hinfo, hbig]
          obtain ⟨hSO, hT⟩ := createJumpTable_spec h
          unfold SnippetAt
          rw [hinfo, hut]
          unfold snippetLen
          rw [hut, if_pos rfl]
          subst hcur
          refine ⟨⟨hSO.1.trans hW1.len, ?_⟩, ?_, (fun hh => by cases hh), fun _ => hT⟩
          · intro p hp
            rw [hSO.2 p (by omega), hW1.frame p (by omega)]
          · intro i hi
            rw [hSO.2 _ (Or.inl (by omega))]
            exact hW1.code_eq i hi
        · rw [if_neg hbig] at h
          have hut : usesTable cg v = false := by simp [usesTable, hinfo, hbig]
          have key : Wrote prog1 prog' curOp (snippetTail cg (cg.rankD v) (g.targetsOf v)) := by
            cases ho : g.outVertices v with
            | error e => simp [ho] at h
            | ok targets =>
              simp only [ho] at h
              have htg : g.targetsOf v = targets := by simp [DynamicFSM.targetsOf, ho]
              rw [htg]
              unfold snippetTail
              by_cases hne : targets ≠ []
              · rw [if_pos hne] at h
                rw [if_pos hne]
                cases htl : tailLoop cg v targets ⟨prog1, curOp, false, 0⟩ with
                | error e => simp [htl] at h
                | ok st =>
                  simp only [htl] at h
                  obtain ⟨hWt, hc, hfl⟩ := tailLoop_wrote cg v _ _ _ htl
                  simp only at hWt hc hfl
                  have hg := guard_wrote h
                  rw [hfl, hc] at hg
                  exact wrote_append hWt hg
              · rw [if_neg hne] at h
                rw [if_neg hne]
                cases hw : writeOp prog1 curOp Instruction.HALT_OP with
                | error e => simp [hw] at h
                | ok p =>
                  obtain ⟨p2, c2⟩ := p
                  simp only [hw, Except.ok.injEq] at h
                  subst h
                  exact (wrote_writeOp hw).1
          subst hcur
          have hall := wrote_append hW1 key
          unfold SnippetAt
          rw [hinfo, hut]
          unfold snippetLen
          rw [hut]
          simp only [Bool.false_eq_true, if_false]
          have hso := wrote_sameOutside hall
          rw [List.length_append] at hso
          refine ⟨hso, ?_, fun _ => ?_, (fun hh => by cases hh)⟩
          · exact (hasCode_append.1 (wrote_hasCode hall)).1
          · exact (hasCode_append.1 (wrote_hasCode hall)).2

theorem tableOf_length (g : DynamicFSM) (v : Nat) : (g.tableOf v).length ≤ 256 := by
  unfold DynamicFSM.tableOf
  cases h : pivotStates v g with
  | error e => simp
  | ok tbl => simp only []; rw [pivotStates_length h]

theorem transitionCode_length_le (g : DynamicFSM) (cg : CodeGenHelper) (v : Nat) :
    (transitionCode (g.tranOf v)).length ≤ snippetLen g cg v := by
  unfold snippetLen
  omega

theorem snippetAt_congr {g : DynamicFSM} {cg : CodeGenHelper} {old new : Program} {v : Nat}
    (heq : ∀ p : Nat, (cg.snippetD v).Start ≤ p → p < (cg.snippetD v).Start + snippetLen g cg v →
      new[p]? = old[p]?)
    (h : SnippetAt g cg old v) : SnippetAt g cg new v := by
  obtain ⟨h1, h2, h3⟩ := h
  have hle := transitionCode_length_le g cg v
  refine ⟨?_, ?_, ?_⟩
  · intro i hi
    rw [heq _ (by omega) (by omega)]
    exact h1 i hi
  · intro hut i hi
    have hlen : snippetLen g cg v = (transitionCode (g.tranOf v)).length +
        (snippetTail cg (cg.rankD v) (g.targetsOf v)).length := by
      unfold snippetLen; rw [hut]; rfl
    rw [heq _ (by omega) (by omega)]
    exact h2 hut i hi
  · intro hut
    have hlen : snippetLen g cg v = (transitionCode (g.tranOf v)).length +
        (257 + indirectCount (g.tableOf v)) := by
      unfold snippetLen; rw [hut]; rfl
    have ht := h3 hut
    refine ⟨?_, ?_, ?_⟩
    · rw [heq _ (by omega) (by omega)]
      exact ht.header
    · intro i hi
      have hil : i < (g.tableOf v).length := by
        by_contra hcon
        rw [List.getElem?_eq_none (by omega)] at hi
        cases hi
      have := tableOf_length g v
      rw [heq _ (by omega) (by omega)]
      exact ht.haltSlot i hi
    · intro p hp1 hp2
      rw [heq _ (by omega) (by omega)]
      exact ht.plain p hp1 hp2

theorem vertexLoop_spec {g : DynamicFSM} {cg : CodeGenHelper}
    (hdis : ∀ v w, v < g.numVertices → w < g.numVertices → v ≠ w →
      (cg.snippetD v).Start + snippetLen g cg v ≤ (cg.snippetD w).Start ∨
      (cg.snippetD w).Start + snippetLen g cg w ≤ (cg.snippetD v).Start) :
    ∀ (n v : Nat) (prog prog' : Program),
      vertexLoop g cg n v prog = .ok prog' → v + n ≤ g.numVertices →
      (∀ u, u < v → SnippetAt g cg prog u) →
      prog'.length = prog.length ∧ ∀ u, u < v + n → SnippetAt g cg prog' u := by
  intro n
  induction n with
  | zero =>
    intro v prog prog' h _ hpre
    simp only [vertexLoop, Except.ok.injEq] at h
    subst h
    exact ⟨rfl, fun u hu => hpre u (by omega)⟩
  | succ n ih =>
    intro v prog prog' h hle hpre
    simp only [vertexLoop] at h
    cases hs : vertexStep g cg v prog with
    | error e => simp [hs] at h
    | ok prog1 =>
      simp only [hs] at h
      obtain ⟨hSO, hAt⟩ := vertexStep_spec hs
      have hpre1 : ∀ u, u < v + 1 → SnippetAt g cg prog1 u := by
        intro u hu
        by_cases huv : u = v
        · subst huv; exact hAt
        · refine snippetAt_congr ?_ (hpre u (by omega))
          intro p hp1 hp2
          apply hSO.2
          rcases hdis u v (by omega) (by omega) huv with hd | hd
          · left; omega
          · right; omega
      obtain ⟨hl, hall⟩ := ih (v + 1) prog1 prog' h (by omega) hpre1
      refine ⟨hl.trans hSO.1, fun u hu => hall u (by omega)⟩

theorem createProgram_spec {g : DynamicFSM} {cg : CodeGenHelper} {fill : Instruction}
    {img : ProgramImage} (hL : LayoutOK g cg) (h : createProgram g cg fill = .ok img) :
    img.NumChecked = cg.NumChecked ∧ img.Code.length = cg.Guard ∧
      ∀ u, u < g.numVertices → SnippetAt g cg img.Code u := by
  unfold createProgram at h
  cases hv : vertexLoop g cg g.numVertices 0 (List.replicate cg.Guard fill) with
  | error e => simp [hv] at h
  | ok code =>
    simp only [hv, Except.ok.injEq] at h
    subst h
    obtain ⟨hl, hall⟩ := vertexLoop_spec hL.disjoint _ _ _ _ hv (by omega)
      (fun u hu => by omega)
    refine ⟨rfl, ?_, fun u hu => hall u (by omega)⟩
    simp only [hl, List.length_replicate]

theorem tailCode_cons_cases (cg : CodeGenHelper) (rv w : Nat) (rest : List Nat) (h : Bool) :
    (tailCode cg rv (w :: rest) h = tailCode cg rv rest true ∧
      ∀ n, tailFlag cg rv (w :: rest) (h, n) = tailFlag cg rv rest (true, w)) ∨
    ((rest = [] → h = true) ∧
      (∀ n, tailFlag cg rv (w :: rest) (h, n) = tailFlag cg rv rest (h, n)) ∧
      (((cg.snippetD w).CheckIndex = none ∧ tailCode cg rv (w :: rest) h =
          Instruction.FORK_OP (cg.snippetD w).Start :: tailCode cg rv rest h) ∨
        ∃ idx, (cg.snippetD w).CheckIndex = some idx ∧ tailCode cg rv (w :: rest) h =
          Instruction.CHECK_BRANCH_OP idx :: Instruction.FORK_OP (cg.snippetD w).Start ::
            tailCode cg rv rest h)) ∨
    (rest = [] ∧ h = false ∧
      (((cg.snippetD w).CheckIndex = none ∧ tailCode cg rv (w :: rest) h =
          [Instruction.JUMP_OP (cg.snippetD w).Start]) ∨
        ∃ idx, (cg.snippetD w).CheckIndex = some idx ∧ tailCode cg rv (w :: rest) h =
          [Instruction.CHECK_HALT_OP idx, Instruction.JUMP_OP (cg.snippetD w).Start])) := by
  by_cases hne : rv + 1 ≠ cg.rankD w
  · cases hlast : (decide (rest = []) && !h) with
    | false =>
      right; left
      refine ⟨?_, ?_, ?_⟩
      · intro hr
        subst hr
        cases h with
        | true => rfl
        | false => simp at hlast
      · intro n
        simp only [tailFlag]
        rw [if_pos hne]
      · cases hci : (cg.snippetD w).CheckIndex with
        | none =>
          left
          refine ⟨rfl, ?_⟩
          simp only [tailCode]
          rw [if_pos hne, hlast]
          simp [edgeCode, hci]
        | some idx =>
          right
          refine ⟨idx, rfl, ?_⟩
          simp only [tailCode]
          rw [if_pos hne, hlast]
          simp [edgeCode, hci]
    | true =>
      right; right
      have hr : rest = [] := by
        simp only [Bool.and_eq_true, decide_eq_true_eq] at hlast
        exact hlast.1
      have hh : h = false := by
        simp only [Bool.and_eq_true, Bool.not_eq_true', decide_eq_true_eq] at hlast
        exact hlast.2
      refine ⟨hr, hh, ?_⟩
      subst hr
      subst hh
      cases hci : (cg.snippetD w).CheckIndex with
      | none =>
        left
        refine ⟨rfl, ?_⟩
        simp only [tailCode]
        rw [if_pos hne]
        simp [edgeCode, hci]
      | some idx =>
        right
        refine ⟨idx, rfl, ?_⟩
        simp only [tailCode]
        rw [if_pos hne]
        simp [edgeCode, hci]
  · left
    refine ⟨?_, ?_⟩
    · simp only [tailCode]
      rw [if_neg hne]
    · intro n
      simp only [tailFlag]
      rw [if_neg hne]

theorem tail_rules {prog : Program} {cg : CodeGenHelper} {R T : Nat → Prop}
    (hr : TailRules prog cg R T) (rv : Nat) :
    ∀ (ts : List Nat) (h : Bool) (n base : Nat),
      HasCode prog base (tailCode cg rv ts h) → (∀ w ∈ ts, T w) →
      ((tailFlag cg rv ts (h, n)).1 = true → R (base + (tailCode cg rv ts h).length)) →
      (ts = [] → h = true) → R base := by
  intro ts
  induction ts with
  | nil =>
    intro h n base _ _ hfin hh
    have := hfin (by simpa [tailFlag] using hh rfl)
    simpa [tailCode] using this
  | cons w rest ih =>
    intro h n base hc hT hfin _
    have hTr : ∀ x ∈ rest, T x := fun x hx => hT x (List.mem_cons_of_mem _ hx)
    have hTw : T w := hT w (List.mem_cons_self _ _)
    rcases tailCode_cons_cases cg rv w rest h with ⟨hcode, hflag⟩ | ⟨hrh, hflag, hcode⟩ |
      ⟨hr0, hh0, hcode⟩
    · rw [hcode] at hc hfin
      rw [hflag] at hfin
      exact ih true w base hc hTr hfin (fun _ => rfl)
    · rw [hflag] at hfin
      rcases hcode with ⟨_, hcode⟩ | ⟨idx, hci, hcode⟩
      · rw [hcode] at hc hfin
        obtain ⟨h0, hrest⟩ := hasCode_cons.1 hc
        refine hr.fork base w h0 hTw (ih h n (base + 1) hrest hTr ?_ hrh)
        intro hf
        have := hfin hf
        simp only [List.length_cons] at this
        rw [show base + 1 + (tailCode cg rv rest h).length =
          base + ((tailCode cg rv rest h).length + 1) by omega]
        exact this
      · rw [hcode] at hc hfin
        obtain ⟨h0, hc1⟩ := hasCode_cons.1 hc
        obtain ⟨h1, hrest⟩ := hasCode_cons.1 hc1
        have hR2 : R (base + 2) := by
          refine ih h n (base + 1 + 1) hrest hTr ?_ hrh
          intro hf
          have := hfin hf
          simp only [List.length_cons] at this
          rw [show base + 1 + 1 + (tailCode cg rv rest h).length =
            base + ((tailCode cg rv rest h).length + 1 + 1) by omega]
          exact this
        exact hr.checkBranch base w idx hci hTw h0 (hr.fork (base + 1) w h1 hTw hR2) hR2
    · rcases hcode with ⟨_, hcode⟩ | ⟨idx, hci, hcode⟩
      · rw [hcode] at hc
        exact hr.jump base w (hasCode_cons.1 hc).1 hTw
      · rw [hcode] at hc
        obtain ⟨h0, hc1⟩ := hasCode_cons.1 hc
        exact hr.checkHalt base w idx hci hTw h0 (hr.jump (base + 1) w (hasCode_cons.1 hc1).1 hTw)

theorem tail_checkBranch {prog : Program} {cg : CodeGenHelper} {R T : Nat → Prop}
    (hr : TailRules prog cg R T) (rv : Nat) :
    ∀ (ts : List Nat) (h : Bool) (n base : Nat),
      HasCode prog base (tailCode cg rv ts h) → (∀ w ∈ ts, T w) →
      ((tailFlag cg rv ts (h, n)).1 = true → R (base + (tailCode cg rv ts h).length)) →
      ∀ pc idx : Nat, base ≤ pc → pc < base + (tailCode cg rv ts h).length →
        prog[pc]? = some (Instruction.CHECK_BRANCH_OP idx) →
        ∃ w ∈ ts, (cg.snippetD w).CheckIndex = some idx ∧
          prog[pc + 1]? = some (Instruction.FORK_OP (cg.snippetD w).Start) ∧ R (pc + 2) := by
  intro ts
  induction ts with
  | nil =>
    intro h n base _ _ _ pc idx h1 h2 _
    simp [tailCode] at h2
    omega
  | cons w rest ih =>
    intro h n base hc hT hfin pc idx hp1 hp2 hins
    have hTr : ∀ x ∈ rest, T x := fun x hx => hT x (List.mem_cons_of_mem _ hx)
    have lift : (∃ x ∈ rest, (cg.snippetD x).CheckIndex = some idx ∧
        prog[pc + 1]? = some (Instruction.FORK_OP (cg.snippetD x).Start) ∧ R (pc + 2)) →
        ∃ x ∈ w :: rest, (cg.snippetD x).CheckIndex = some idx ∧
        prog[pc + 1]? = some (Instruction.FORK_OP (cg.snippetD x).Start) ∧ R (pc + 2) := by
      rintro ⟨x, hx, hrest⟩
      exact ⟨x, List.mem_cons_of_mem _ hx, hrest⟩
    rcases tailCode_cons_cases cg rv w rest h with ⟨hcode, hflag⟩ | ⟨hrh, hflag, hcode⟩ |
      ⟨hr0, hh0, hcode⟩
    · rw [hcode] at hc hfin hp2
      rw [hflag] at hfin
      exact lift (ih true w base hc hTr hfin pc idx hp1 hp2 hins)
    · rw [hflag] at hfin
      rcases hcode with ⟨_, hcode⟩ | ⟨idx0, hci, hcode⟩
      · rw [hcode] at hc hfin hp2
        simp only [List.length_cons] at hfin hp2
        obtain ⟨h0, hrest⟩ := hasCode_cons.1 hc
        by_cases hpb : pc = base
        · subst hpb
          rw [h0] at hins
          cases hins
        · refine lift (ih h n (base + 1) hrest hTr ?_ pc idx (by omega) (by omega) hins)
          intro hf
          have := hfin hf
          rw [show base + 1 + (tailCode cg rv rest h).length =
            base + ((tailCode cg rv rest h).length + 1) by omega]
          exact this
      · rw [hcode] at hc hfin hp2
        simp only [List.length_cons] at hfin hp2
        obtain ⟨h0, hc1⟩ := hasCode_cons.1 hc
        obtain ⟨h1, hrest⟩ := hasCode_cons.1 hc1
        have hfin2 : (tailFlag cg rv rest (h, n)).1 = true →
            R (base + 1 + 1 + (tailCode cg rv rest h).length) := by
          intro hf
          have := hfin hf
          rw [show base + 1 + 1 + (tailCode cg rv rest h).length =
            base + ((tailCode cg rv rest h).length + 1 + 1) by omega]
          exact this
        by_cases hpb : pc = base
        · subst hpb
          rw [h0] at hins
          cases hins
          exact ⟨w, List.mem_cons_self _ _, hci, h1,
            tail_rules hr rv rest h n (pc + 1 + 1) hrest hTr hfin2 hrh⟩
        · by_cases hpb1 : pc = base + 1
          · subst hpb1
            rw [h1] at hins
            cases hins
          · exact lift (ih h n (base + 1 + 1) hrest hTr hfin2 pc idx (by omega) (by omega) hins)
    · rcases hcode with ⟨_, hcode⟩ | ⟨idx0, hci, hcode⟩
      · rw [hcode] at hc hp2
        simp only [List.length_singleton] at hp2
        have hpb : pc = base := by omega
        subst hpb
        rw [(hasCode_cons.1 hc).1] at hins
        cases hins
      · rw [hcode] at hc hp2
        simp only [List.length_cons, List.length_nil] at hp2
        obtain ⟨h0, hc1⟩ := hasCode_cons.1 hc
        by_cases hpb : pc = base
        · subst hpb
          rw [h0] at hins
          cases hins
        · have hpb1 : pc = base + 1 := by omega
          subst hpb1
          rw [(hasCode_cons.1 hc1).1] at hins
          cases hins

theorem tail_checkHalt {prog : Program} {cg : CodeGenHelper} (rv : Nat) :
    ∀ (ts : List Nat) (h : Bool) (base : Nat),
      HasCode prog base (tailCode cg rv ts h) →
      ∀ pc idx : Nat, base ≤ pc → pc < base + (tailCode cg rv ts h).length →
        prog[pc]? = some (Instruction.CHECK_HALT_OP idx) →
        ∃ w ∈ ts, (cg.snippetD w).CheckIndex = some idx ∧
          prog[pc + 1]? = some (Instruction.JUMP_OP (cg.snippetD w).Start) := by
  intro ts
  induction ts with
  | nil =>
    intro h base _ pc idx h1 h2 _
    simp [tailCode] at h2
    omega
  | cons w rest ih =>
    intro h base hc pc idx hp1 hp2 hins
    have lift : (∃ x ∈ rest, (cg.snippetD x).CheckIndex = some idx ∧
        prog[pc + 1]? = some (Instruction.JUMP_OP (cg.snippetD x).Start)) →
        ∃ x ∈ w :: rest, (cg.snippetD x).CheckIndex = some idx ∧
        prog[pc + 1]? = some (Instruction.JUMP_OP (cg.snippetD x).Start) := by
      rintro ⟨x, hx, hrest⟩
      exact ⟨x, List.mem_cons_of_mem _ hx, hrest⟩
    rcases tailCode_cons_cases cg rv w rest h with ⟨hcode, _⟩ | ⟨_, _, hcode⟩ |
      ⟨hr0, hh0, hcode⟩
    · rw [hcode] at hc hp2
      exact lift (ih true base hc pc idx hp1 hp2 hins)
    · rcases hcode with ⟨_, hcode⟩ | ⟨idx0, hci, hcode⟩
      · rw [hcode] at hc hp2
        simp only [List.length_cons] at hp2
        obtain ⟨h0, hrest⟩ := hasCode_cons.1 hc
        by_cases hpb : pc = base
        · subst hpb
          rw [h0] at hins
          cases hins
        · exact lift (ih h (base + 1) hrest pc idx (by omega) (by omega) hins)
      · rw [hcode] at hc hp2
        simp only [List.length_cons] at hp2
        obtain ⟨h0, hc1⟩ := hasCode_cons.1 hc
        obtain ⟨h1, hrest⟩ := hasCode_cons.1 hc1
        by_cases hpb : pc = base
        · subst hpb
          rw [h0] at hins
          cases hins
        · by_cases hpb1 : pc = base + 1
          · subst hpb1
            rw [h1] at hins
            cases hins
          · exact lift (ih h (base + 1 + 1) hrest pc idx (by omega) (by omega) hins)
    · rcases hcode with ⟨_, hcode⟩ | ⟨idx0, hci, hcode⟩
      · rw [hcode] at hc hp2
        simp only [List.length_singleton] at hp2
        have hpb : pc = base := by omega
        subst hpb
        rw [(hasCode_cons.1 hc).1] at hins
        cases hins
      · rw [hcode] at hc hp2
        simp only [List.length_cons, List.length_nil] at hp2
        obtain ⟨h0, hc1⟩ := hasCode_cons.1 hc
        by_cases hpb : pc = base
        · subst hpb
          rw [h0] at hins
          cases hins
          exact ⟨w, List.mem_cons_self _ _, hci, (hasCode_cons.1 hc1).1⟩
        · have hpb1 : pc = base + 1 := by omega
          subst hpb1
          rw [(hasCode_cons.1 hc1).1] at hins
          cases hins

theorem tailFlag_mem (cg : CodeGenHelper) (rv : Nat) :
    ∀ (ts : List Nat) (h : Bool) (n : Nat), (tailFlag cg rv ts (h, n)).1 = true →
      (h = true ∧ (tailFlag cg rv ts (h, n)).2 = n) ∨ (tailFlag cg rv ts (h, n)).2 ∈ ts := by
  intro ts
  induction ts with
  | nil => intro h n hf; left; exact ⟨by simpa [tailFlag] using hf, rfl⟩
  | cons w rest ih =>
    intro h n hf
    simp only [tailFlag] at hf ⊢
    by_cases hne : rv + 1 ≠ cg.rankD w
    · rw [if_pos hne] at hf ⊢
      rcases ih h n hf with ⟨h1, h2⟩ | h3
      · left; exact ⟨h1, h2⟩
      · right; exact List.mem_cons_of_mem _ h3
    · rw [if_neg hne] at hf ⊢
      rcases ih true w hf with ⟨_, h2⟩ | h3
      · right; rw [h2]; exact List.mem_cons_self _ _
      · right; exact List.mem_cons_of_mem _ h3

theorem doomed_mono {prog : Program} {D : Nat → Prop} {c : Byte} :
    ∀ {k pc : Nat}, Doomed prog D c k pc → ∀ k', k ≤ k' → Doomed prog D c k' pc := by
  intro k pc hd
  induction hd with
  | @halt k pc h =>
    intro k' hk
    obtain ⟨j, rfl⟩ : ∃ j, k' = j + 1 := ⟨k' - 1, by omega⟩
    exact Doomed.halt h
  | @lit k pc b h hne =>
    intro k' hk
    obtain ⟨j, rfl⟩ : ∃ j, k' = j + 1 := ⟨k' - 1, by omega⟩
    exact Doomed.lit h hne
  | @either k pc a b h hne =>
    intro k' hk
    obtain ⟨j, rfl⟩ : ∃ j, k' = j + 1 := ⟨k' - 1, by omega⟩
    exact Doomed.either h hne
  | @range k pc lo hi h hne =>
    intro k' hk
    obtain ⟨j, rfl⟩ : ∃ j, k' = j + 1 := ⟨k' - 1, by omega⟩
    exact Doomed.range h hne
  | @jumpTable k pc h hs =>
    intro k' hk
    obtain ⟨j, rfl⟩ : ∃ j, k' = j + 1 := ⟨k' - 1, by omega⟩
    exact Doomed.jumpTable h hs
  | @jump k pc a h _ ih =>
    intro k' hk
    obtain ⟨j, rfl⟩ : ∃ j, k' = j + 1 := ⟨k' - 1, by omega⟩
    exact Doomed.jump h (ih j (by omega))
  | @fork k1 k2 pc a h _ _ ih1 ih2 =>
    intro k' hk
    obtain ⟨j, rfl⟩ : ∃ j, k' = k1 + j + 1 := ⟨k' - k1 - 1, by omega⟩
    exact Doomed.fork h (ih1 k1 (le_refl _)) (ih2 j (by omega))
  | @checkBranch k pc idx h hD _ _ ih1 ih2 =>
    intro k' hk
    obtain ⟨j, rfl⟩ : ∃ j, k' = j + 1 := ⟨k' - 1, by omega⟩
    exact Doomed.checkBranch h hD (ih1 j (by omega)) (ih2 j (by omega))
  | @checkHalt k pc idx h hD _ ih =>
    intro k' hk
    obtain ⟨j, rfl⟩ : ∃ j, k' = j + 1 := ⟨k' - 1, by omega⟩
    exact Doomed.checkHalt h hD (ih j (by omega))

theorem tailRules_quiet (prog : Program) (cg : CodeGenHelper) :
    TailRules prog cg (Quiet prog) (fun w => Quiet prog (cg.snippetD w).Start) :=
  ⟨fun _ _ h hT => Quiet.jump h hT,
   fun _ _ h _ hR => Quiet.fork h hR,
   fun _ _ _ _ _ h h1 h2 => Quiet.checkBranch h h1 h2,
   fun _ _ _ _ _ h h1 => Quiet.checkHalt h h1⟩

theorem tailRules_doomed (prog : Program) (cg : CodeGenHelper) (D : Nat → Prop) (c : Byte) :
    TailRules prog cg (fun pc => ∃ k, Doomed prog D c k pc)
      (fun w => (∃ k, Doomed prog D c k (cg.snippetD w).Start) ∧
        ∀ idx, (cg.snippetD w).CheckIndex = some idx → D idx) := by
  refine ⟨?_, ?_, ?_, ?_⟩
  · rintro pc w h ⟨⟨k, hk⟩, _⟩
    exact ⟨k + 1, Doomed.jump h hk⟩
  · rintro pc w h ⟨⟨k1, hk1⟩, _⟩ ⟨k2, hk2⟩
    exact ⟨k1 + k2 + 1, Doomed.fork h hk1 hk2⟩
  · rintro pc w idx hci ⟨_, hD⟩ h ⟨k1, hk1⟩ ⟨k2, hk2⟩
    exact ⟨max k1 k2 + 1, Doomed.checkBranch h (hD idx hci)
      (doomed_mono hk1 _ (le_max_left _ _)) (doomed_mono hk2 _ (le_max_right _ _))⟩
  · rintro pc w idx hci ⟨_, hD⟩ h ⟨k, hk⟩
    exact ⟨k + 1, Doomed.checkHalt h (hD idx hci) hk⟩

theorem pivotRows_getElem (permitted : ByteSet) (t : Nat) :
    ∀ (rows : List (List Nat)) (i j : Nat), permitted (i + j) = false →
      (pivotRows permitted t i rows)[j]? = rows[j]? := by
  intro rows
  induction rows with
  | nil => intro i j _; rfl
  | cons row rest ih =>
    intro i j hp
    cases j with
    | zero =>
      simp only [pivotRows, List.getElem?_cons_zero]
      rw [Nat.add_zero] at hp
      simp [hp]
    | succ j =>
      simp only [pivotRows, List.getElem?_cons_succ]
      exact ih (i + 1) j (by rw [show i + 1 + j = i + (j + 1) by omega]; exact hp)

theorem pivotStatesLoop_reject (g : DynamicFSM) (c : Nat) :
    ∀ (targets : List Nat) (ret : List (List Nat)),
      (∀ t ∈ targets, ∃ tr, g.tran t = .ok tr ∧ tr.Pred.accepts c = false) →
      ∃ tbl, pivotStatesLoop g targets ret = .ok tbl ∧ tbl[c]? = ret[c]? := by
  intro targets
  induction targets with
  | nil => intro ret _; exact ⟨ret, rfl, rfl⟩
  | cons t rest ih =>
    intro ret h
    obtain ⟨tr, htr, hacc⟩ := h t (List.mem_cons_self _ _)
    obtain ⟨tbl, htbl, hrow⟩ := ih (pivotRows (tr.getBits (fun _ => false)) t 0 ret)
      (fun x hx => h x (List.mem_cons_of_mem _ hx))
    refine ⟨tbl, by simp [pivotStatesLoop, htr, htbl], ?_⟩
    rw [hrow]
    exact pivotRows_getElem _ t ret 0 c (by simp [Transition.getBits, hacc])

theorem tran_of_tranOf {g : DynamicFSM} {w : Nat} {tr : Transition}
    (h : g.tranOf w = some tr) : g.tran w = .ok tr := by
  unfold DynamicFSM.tranOf at h
  unfold DynamicFSM.tran
  cases hv : g.Vertices[w]? with
  | none => simp [hv] at h
  | some vert =>
    simp only [hv, Option.some_bind] at h
    simp only [h]

theorem targetsOf_eq {g : DynamicFSM} {v : Nat} {ts : List Nat}
    (h : g.outVertices v = .ok ts) : g.targetsOf v = ts := by
  simp [DynamicFSM.targetsOf, h]

/-- A byte outside of the first-byte set is rejected by every successor of the
start state. -/
theorem firstBytes_reject {g : DynamicFSM} {cg : CodeGenHelper} {F : ByteSet} {c : Byte}
    (hL : LayoutOK g cg) (hF : firstBytes g = .ok F) (hc : F c = false) :
    ∀ w ∈ g.targetsOf 0, ∃ tr, g.tranOf w = some tr ∧ tr.Pred.accepts c = false := by
  obtain ⟨ts, hts⟩ := hL.outOK 0 hL.start
  have htg := targetsOf_eq hts
  have hall : ∀ t ∈ ts, ∃ tr, g.tran t = .ok tr := by
    intro t ht
    obtain ⟨_, tr, htr⟩ := hL.targetOK 0 hL.start t (by rw [htg]; exact ht)
    exact ⟨tr, tran_of_tranOf htr⟩
  obtain ⟨s, hs, hiff⟩ := nextBytesLoop_spec g ts (fun _ => false) hall
  have hFs : F = s := by
    unfold firstBytes nextBytes at hF
    rw [hts] at hF
    simp only [] at hF
    rw [hs] at hF
    exact (Except.ok.inj hF).symm
  intro w hw
  obtain ⟨_, tr, htr⟩ := hL.targetOK 0 hL.start w hw
  refine ⟨tr, htr, ?_⟩
  by_contra hacc
  have hacc1 : tr.Pred.accepts c = true := by
    cases h : tr.Pred.accepts c with
    | true => rfl
    | false => exact absurd h hacc
  have : s c = true := (hiff c).2 (Or.inr ⟨w, by rw [← htg]; exact hw, tr, tran_of_tranOf htr, hacc1⟩)
  rw [← hFs, hc] at this
  cases this

theorem tableOf_reject {g : DynamicFSM} {cg : CodeGenHelper} {c : Byte}
    (hL : LayoutOK g cg) (hc : c < 256)
    (hrej : ∀ w ∈ g.targetsOf 0, ∃ tr, g.tranOf w = some tr ∧ tr.Pred.accepts c = false) :
    (g.tableOf 0)[c]? = some [] := by
  obtain ⟨ts, hts⟩ := hL.outOK 0 hL.start
  have htg := targetsOf_eq hts
  rw [htg] at hrej
  obtain ⟨tbl, htbl, hrow⟩ := pivotStatesLoop_reject g c ts (List.replicate 256 [])
    (fun t ht => by
      obtain ⟨tr, htr, hacc⟩ := hrej t ht
      exact ⟨tr, tran_of_tranOf htr, hacc⟩)
  have : pivotStates 0 g = .ok tbl := by
    unfold pivotStates
    rw [hts]
    exact htbl
  unfold DynamicFSM.tableOf
  rw [this]
  simp only []
  rw [hrow, List.getElem?_replicate]
  simp [hc]

theorem quiet_of_tran {prog : Program} {pc : Nat} (tr : Transition)
    (h : prog[pc]? = some tr.toInstruction) : Quiet prog pc := by
  unfold Transition.toInstruction at h
  cases hp : tr.Pred with
  | LitState b => rw [hp] at h; exact Quiet.lit h
  | EitherState a b => rw [hp] at h; exact Quiet.either h
  | RangeState lo hi => rw [hp] at h; exact Quiet.range h

theorem doomed_of_tran {prog : Program} {D : Nat → Prop} {c : Byte} {pc : Nat} (tr : Transition)
    (h : prog[pc]? = some tr.toInstruction) (hacc : tr.Pred.accepts c = false) :
    Doomed prog D c 1 pc := by
  unfold Transition.toInstruction at h
  cases hp : tr.Pred with
  | LitState b =>
    rw [hp] at h hacc
    exact Doomed.lit h (by simpa [Predicate.accepts] using hacc)
  | EitherState a b =>
    rw [hp] at h hacc
    exact Doomed.either h (by simpa [Predicate.accepts] using hacc)
  | RangeState lo hi =>
    rw [hp] at h hacc
    refine Doomed.range h ?_
    simp only [Predicate.accepts, decide_eq_false_iff_not] at hacc
    exact hacc

theorem not_check_toInstruction (tr : Transition) : ¬ tr.toInstruction.isCheck := by
  unfold Transition.toInstruction
  cases tr.Pred <;> exact fun h => h

theorem not_check_of_tableOp {ins : Instruction} (h : ins.isTableOp) : ¬ ins.isCheck := by
  cases ins <;> first | exact fun h' => h' | exact absurd h (fun h' => h')

theorem start_instr {g : DynamicFSM} {cg : CodeGenHelper} {prog : Program}
    (hG : Generated g cg prog) {u : Nat} (hu : u < g.numVertices) {tr : Transition}
    (htr : g.tranOf u = some tr) : prog[(cg.snippetD u).Start]? = some tr.toInstruction := by
  have h := (hG.snippet u hu).1
  rw [htr] at h
  have := h 0 (by simp [transitionCode])
  simpa [transitionCode] using this

theorem transitionCode_not_check (tran : Option Transition) :
    ∀ x ∈ transitionCode tran, ¬ x.isCheck := by
  intro x hx
  cases tran with
  | none => simp [transitionCode] at hx
  | some t =>
    simp only [transitionCode, List.mem_cons] at hx
    rcases hx with rfl | hx
    · exact not_check_toInstruction t
    · by_cases hl : t.Label < NOLABEL
      · rw [if_pos hl] at hx
        simp only [List.mem_singleton] at hx
        subst hx
        exact fun h => h
      · rw [if_neg hl] at hx
        simp at hx

theorem target_quiet {g : DynamicFSM} {cg : CodeGenHelper} {prog : Program}
    (hG : Generated g cg prog) {v : Nat} (hv : v < g.numVertices) :
    ∀ w ∈ g.targetsOf v, Quiet prog (cg.snippetD w).Start := by
  intro w hw
  obtain ⟨hwn, tr, htr⟩ := hG.layout.targetOK v hv w hw
  exact quiet_of_tran tr (start_instr hG hwn htr)

/-- The position of a check instruction: in the out-edge tail of a state that
has out-edges and no jump table. -/
theorem check_locate {g : DynamicFSM} {cg : CodeGenHelper} {prog : Program}
    (hG : Generated g cg prog) {pc : Nat} {ins : Instruction}
    (hins : prog[pc]? = some ins) (hchk : ins.isCheck) :
    ∃ v, v < g.numVertices ∧ usesTable cg v = false ∧ g.targetsOf v ≠ [] ∧
      (cg.snippetD v).Start + (transitionCode (g.tranOf v)).length ≤ pc ∧
      pc < tailEnd g cg v + (guardCode cg (tailFlag cg (cg.rankD v) (g.targetsOf v)
        (false, 0))).length ∧
      HasCode prog ((cg.snippetD v).Start + (transitionCode (g.tranOf v)).length)
        (tailCode cg (cg.rankD v) (g.targetsOf v) false) ∧
      HasCode prog (tailEnd g cg v)
        (guardCode cg (tailFlag cg (cg.rankD v) (g.targetsOf v) (false, 0))) := by
  have hlt : pc < prog.length := by
    by_contra hcon
    rw [List.getElem?_eq_none (by omega)] at hins
    cases hins
  rw [hG.len] at hlt
  obtain ⟨v, hv, hlo, hhi⟩ := hG.layout.cover pc hlt
  obtain ⟨h1, h2, h3⟩ := hG.snippet v hv
  refine ⟨v, hv, ?_⟩
  by_cases htl : pc < (cg.snippetD v).Start + (transitionCode (g.tranOf v)).length
  · exfalso
    have hi : pc - (cg.snippetD v).Start < (transitionCode (g.tranOf v)).length := by omega
    have := h1 _ hi
    rw [show (cg.snippetD v).Start + (pc - (cg.snippetD v).Start) = pc by omega, hins,
      List.getElem?_eq_getElem hi] at this
    cases this
    exact transitionCode_not_check _ _ (List.getElem_mem _) hchk
  · cases hut : usesTable cg v with
    | true =>
      exfalso
      have hlen : snippetLen g cg v = (transitionCode (g.tranOf v)).length +
          (257 + indirectCount (g.tableOf v)) := by
        unfold snippetLen; rw [hut]; rfl
      obtain ⟨ins', hi', htab⟩ := (h3 hut).plain pc (by omega) (by omega)
      rw [hins] at hi'
      cases hi'
      exact not_check_of_tableOp htab hchk
    | false =>
      have hlen : snippetLen g cg v = (transitionCode (g.tranOf v)).length +
          (snippetTail cg (cg.rankD v) (g.targetsOf v)).length := by
        unfold snippetLen; rw [hut]; rfl
      have hc := h2 hut
      by_cases hne : g.targetsOf v ≠ []
      · unfold snippetTail at hc hlen
        rw [if_pos hne] at hc hlen
        rw [List.length_append] at hlen
        obtain ⟨hc1, hc2⟩ := hasCode_append.1 hc
        refine ⟨rfl, hne, by omega, ?_, hc1, hc2⟩
        unfold tailEnd
        omega
      · exfalso
        unfold snippetTail at hc hlen
        rw [if_neg hne] at hc hlen
        simp only [List.length_singleton] at hlen
        have := hc 0 (by simp)
        rw [show (cg.snippetD v).Start + (transitionCode (g.tranOf v)).length + 0 = pc by omega,
          hins] at this
        simp only [List.getElem?_cons_zero, Option.some.injEq] at this
        subst this
        exact hchk

/-- The instructions after the out-edge tail of a state without jump table:
when the state has a fallthrough target, this target is one of its out-edges
and its snippet follows, after a `CHECK_HALT` if it has a check index. -/
theorem guard_facts {g : DynamicFSM} {cg : CodeGenHelper} {prog : Program}
    (hG : Generated g cg prog) {v : Nat} (hv : v < g.numVertices)
    (hut : usesTable cg v = false) (hne : g.targetsOf v ≠ [])
    (hfl : (tailFlag cg (cg.rankD v) (g.targetsOf v) (false, 0)).1 = true) :
    fallTarget g cg v ∈ g.targetsOf v ∧
      (((cg.snippetD (fallTarget g cg v)).CheckIndex = none ∧
          guardCode cg (tailFlag cg (cg.rankD v) (g.targetsOf v) (false, 0)) = [] ∧
          tailEnd g cg v = (cg.snippetD (fallTarget g cg v)).Start) ∨
        ∃ idx, (cg.snippetD (fallTarget g cg v)).CheckIndex = some idx ∧
          guardCode cg (tailFlag cg (cg.rankD v) (g.targetsOf v) (false, 0)) =
            [Instruction.CHECK_HALT_OP idx] ∧
          tailEnd g cg v + 1 = (cg.snippetD (fallTarget g cg v)).Start) := by
  have hmem : fallTarget g cg v ∈ g.targetsOf v := by
    rcases tailFlag_mem cg (cg.rankD v) (g.targetsOf v) false 0 hfl with ⟨h, _⟩ | h
    · cases h
    · exact h
  have hft := hG.layout.fallthrough v hv hut hfl
  have hlen : snippetLen g cg v = (transitionCode (g.tranOf v)).length +
      ((tailCode cg (cg.rankD v) (g.targetsOf v) false).length +
       (guardCode cg (tailFlag cg (cg.rankD v) (g.targetsOf v) (false, 0))).length) := by
    unfold snippetLen snippetTail
    rw [hut, if_pos hne, List.length_append]
    rfl
  refine ⟨hmem, ?_⟩
  unfold fallTarget tailEnd
  cases hci : (cg.snippetD (tailFlag cg (cg.rankD v) (g.targetsOf v) (false, 0)).2).CheckIndex with
  | none =>
    left
    have hg : guardCode cg (tailFlag cg (cg.rankD v) (g.targetsOf v) (false, 0)) = [] := by
      unfold guardCode
      rw [if_pos hfl, hci]
    refine ⟨rfl, hg, ?_⟩
    rw [hft, hlen, hg]
    simp only [List.length_nil]
    omega
  | some idx =>
    right
    have hg : guardCode cg (tailFlag cg (cg.rankD v) (g.targetsOf v) (false, 0)) =
        [Instruction.CHECK_HALT_OP idx] := by
      unfold guardCode
      rw [if_pos hfl, hci]
    refine ⟨idx, rfl, hg, ?_⟩
    rw [hft, hlen, hg]
    simp only [List.length_singleton]
    omega

theorem guard_nil_of_not_flag {cg : CodeGenHelper} {fl : Bool × Nat} (h : fl.1 = false) :
    guardCode cg fl = [] := by
  unfold guardCode
  rw [h]
  rfl

/-- The end of the out-edge tail of a state with a fallthrough target is
quiet. -/
theorem tailEnd_quiet {g : DynamicFSM} {cg : CodeGenHelper} {prog : Program}
    (hG : Generated g cg prog) {v : Nat} (hv : v < g.numVertices)
    (hut : usesTable cg v = false) (hne : g.targetsOf v ≠ [])
    (hc2 : HasCode prog (tailEnd g cg v)
      (guardCode cg (tailFlag cg (cg.rankD v) (g.targetsOf v) (false, 0))))
    (hfl : (tailFlag cg (cg.rankD v) (g.targetsOf v) (false, 0)).1 = true) :
    Quiet prog (tailEnd g cg v) := by
  obtain ⟨hmem, hcase⟩ := guard_facts hG hv hut hne hfl
  have hq := target_quiet hG hv _ hmem
  rcases hcase with ⟨_, _, he⟩ | ⟨idx, _, hg, he⟩
  · rw [he]; exact hq
  · rw [hg] at hc2
    rw [← he] at hq
    exact Quiet.checkHalt (hasCode_cons.1 hc2).1 hq

theorem check_branch_locate {g : DynamicFSM} {cg : CodeGenHelper} {prog : Program}
    (hG : Generated g cg prog) {pc idx : Nat}
    (hins : prog[pc]? = some (Instruction.CHECK_BRANCH_OP idx)) :
    ∃ w, w < g.numVertices ∧ (cg.snippetD w).CheckIndex = some idx ∧
      prog[pc + 1]? = some (Instruction.FORK_OP (cg.snippetD w).Start) ∧ Quiet prog (pc + 2) := by
  obtain ⟨v, hv, hut, hne, hlo, hhi, hc1, hc2⟩ := check_locate hG hins trivial
  by_cases htail : pc < tailEnd g cg v
  · obtain ⟨w, hw, hci, hfork, hq⟩ := tail_checkBranch (tailRules_quiet prog cg) (cg.rankD v)
      (g.targetsOf v) false 0 _ hc1 (target_quiet hG hv)
      (fun hfl => tailEnd_quiet hG hv hut hne hc2 hfl) pc idx hlo htail hins
    exact ⟨w, (hG.layout.targetOK v hv w hw).1, hci, hfork, hq⟩
  · exfalso
    cases hfl : (tailFlag cg (cg.rankD v) (g.targetsOf v) (false, 0)).1 with
    | false =>
      rw [guard_nil_of_not_flag hfl] at hhi
      simp only [List.length_nil] at hhi
      omega
    | true =>
      obtain ⟨_, hcase⟩ := guard_facts hG hv hut hne hfl
      rcases hcase with ⟨_, hg, _⟩ | ⟨idx0, _, hg, _⟩
      · rw [hg] at hhi
        simp only [List.length_nil] at hhi
        omega
      · rw [hg] at hhi hc2
        simp only [List.length_singleton] at hhi
        have hpc : pc = tailEnd g cg v := by omega
        rw [← hpc] at hc2
        have := (hasCode_cons.1 hc2).1
        rw [hins] at this
        cases this

theorem check_halt_locate {g : DynamicFSM} {cg : CodeGenHelper} {prog : Program}
    (hG : Generated g cg prog) {pc idx : Nat}
    (hins : prog[pc]? = some (Instruction.CHECK_HALT_OP idx)) :
    ∃ w, w < g.numVertices ∧ (cg.snippetD w).CheckIndex = some idx ∧
      (prog[pc + 1]? = some (Instruction.JUMP_OP (cg.snippetD w).Start) ∨
        pc + 1 = (cg.snippetD w).Start) := by
  obtain ⟨v, hv, hut, hne, hlo, hhi, hc1, hc2⟩ := check_locate hG hins trivial
  by_cases htail : pc < tailEnd g cg v
  · obtain ⟨w, hw, hci, hjump⟩ := tail_checkHalt (cg.rankD v) (g.targetsOf v) false _ hc1
      pc idx hlo htail hins
    exact ⟨w, (hG.layout.targetOK v hv w hw).1, hci, Or.inl hjump⟩
  · cases hfl : (tailFlag cg (cg.rankD v) (g.targetsOf v) (false, 0)).1 with
    | false =>
      exfalso
      rw [guard_nil_of_not_flag hfl] at hhi
      simp only [List.length_nil] at hhi
      omega
    | true =>
      obtain ⟨hmem, hcase⟩ := guard_facts hG hv hut hne hfl
      rcases hcase with ⟨_, hg, _⟩ | ⟨idx0, hci, hg, he⟩
      · exfalso
        rw [hg] at hhi
        simp only [List.length_nil] at hhi
        omega
      · rw [hg] at hhi hc2
        simp only [List.length_singleton] at hhi
        have hpc : pc = tailEnd g cg v := by omega
        rw [← hpc] at hc2
        have := (hasCode_cons.1 hc2).1
        rw [hins] at this
        cases this
        exact ⟨_, (hG.layout.targetOK v hv _ hmem).1, hci, Or.inr (by omega)⟩

/-- A thread seeded on a byte that every successor of the start state rejects
is inert in the generated program. -/
theorem seed_inert_of_generated {g : DynamicFSM} {cg : CodeGenHelper} {prog : Program}
    (hG : Generated g cg prog) {c : Byte} (hc : c < 256)
    (hrej : ∀ w ∈ g.targetsOf 0, ∃ tr, g.tranOf w = some tr ∧ tr.Pred.accepts c = false) :
    SeedInert prog cg.NumChecked c := by
  have hL := hG.layout
  have hT0 : ∀ w ∈ g.targetsOf 0, (∃ k, Doomed prog (seedBits g cg) c k (cg.snippetD w).Start) ∧
      ∀ idx, (cg.snippetD w).CheckIndex = some idx → seedBits g cg idx := by
    intro w hw
    obtain ⟨tr, htr, hacc⟩ := hrej w hw
    exact ⟨⟨1, doomed_of_tran tr (start_instr hG (hL.targetOK 0 hL.start w hw).1 htr) hacc⟩,
      fun idx hci => ⟨w, hw, hci⟩⟩
  have hD : ∀ w idx, w < g.numVertices → (cg.snippetD w).CheckIndex = some idx →
      seedBits g cg idx → ∃ k, Doomed prog (seedBits g cg) c k (cg.snippetD w).Start := by
    rintro w idx hw hci ⟨w', hw', hci'⟩
    have := hL.checkInj w w' idx hw (hL.targetOK 0 hL.start w' hw').1 hci hci'
    subst this
    exact (hT0 w hw').1
  refine ⟨seedBits g cg, ?_⟩
  have hseed : ∃ k, Doomed prog (seedBits g cg) c k 0 := by
    obtain ⟨_, h2, h3⟩ := hG.snippet 0 hL.start
    rw [hL.startTran, hL.startFirst] at h2 h3
    simp only [transitionCode, List.length_nil, Nat.add_zero] at h2 h3
    cases hut : usesTable cg 0 with
    | true =>
      have ht := h3 hut
      have hslot := ht.haltSlot c (tableOf_reject hL hc hrej)
      exact ⟨1, Doomed.jumpTable ht.header (by rw [← Nat.add_assoc]; exact hslot)⟩
    | false =>
      have hcode := h2 hut
      by_cases hne : g.targetsOf 0 ≠ []
      · unfold snippetTail at hcode
        rw [if_pos hne] at hcode
        obtain ⟨hc1, hc2⟩ := hasCode_append.1 hcode
        have hte : tailEnd g cg 0 = 0 + (tailCode cg (cg.rankD 0) (g.targetsOf 0) false).length := by
          unfold tailEnd
          rw [hL.startTran, hL.startFirst]
          simp [transitionCode]
        refine tail_rules (tailRules_doomed prog cg (seedBits g cg) c) (cg.rankD 0)
          (g.targetsOf 0) false 0 0 hc1 hT0 ?_ (fun h => absurd h hne)
        intro hfl
        obtain ⟨hmem, hcase⟩ := guard_facts hG hL.start hut hne hfl
        obtain ⟨⟨k, hk⟩, hbits⟩ := hT0 _ hmem
        rw [← hte]
        rcases hcase with ⟨_, _, he⟩ | ⟨idx, hci, hg, he⟩
        · rw [he]; exact ⟨k, hk⟩
        · rw [hg, ← hte] at hc2
          rw [← he] at hk
          exact ⟨k + 1, Doomed.checkHalt (hasCode_cons.1 hc2).1 (hbits idx hci) hk⟩
      · unfold snippetTail at hcode
        rw [if_neg hne] at hcode
        exact ⟨1, Doomed.halt (hasCode_cons.1 hcode).1⟩
  obtain ⟨k, hk⟩ := hseed
  refine ⟨k, hk, ?_, ?_, ?_, ?_, ?_⟩
  · intro pc idx hbit hins
    obtain ⟨w, hw, hci, hfork, hq⟩ := check_branch_locate hG hins
    obtain ⟨k', hk'⟩ := hD w idx hw hci hbit
    exact ⟨_, k', hfork, hk', hq⟩
  · intro pc idx hbit hins
    obtain ⟨w, hw, hci, hnext⟩ := check_halt_locate hG hins
    obtain ⟨k', hk'⟩ := hD w idx hw hci hbit
    rcases hnext with hj | he
    · exact ⟨k' + 1, Doomed.jump hj hk'⟩
    · rw [he]; exact ⟨k', hk'⟩
  · rintro idx ⟨w, _, hci⟩
    exact (hL.checkRange w idx hci).2
  · intro pc hins
    obtain ⟨w, _, hci, _⟩ := check_branch_locate hG hins
    exact absurd (hL.checkRange w 0 hci).1 (by omega)
  · intro pc hins
    obtain ⟨w, _, hci, _⟩ := check_halt_locate hG hins
    exact absurd (hL.checkRange w 0 hci).1 (by omega)

theorem generated_of_createProgram {g : DynamicFSM} {cg : CodeGenHelper} {fill : Instruction}
    {img : ProgramImage} (hL : LayoutOK g cg) (h : createProgram g cg fill = .ok img) :
    Generated g cg img.Code ∧ img.NumChecked = cg.NumChecked := by
  obtain ⟨h1, h2, h3⟩ := createProgram_spec hL h
  exact ⟨⟨hL, h2, h3⟩, h1⟩

/-! ## First-byte filtering -/

theorem firstBytes_graphJoin : firstBytes graphJoin = .ok firstJoin := by
  apply except_ok_byteSet_ext
  intro c
  simp [Transition.getBits, Predicate.accepts, firstJoin]

theorem createProgram_graphJoin (fill : Instruction) :
    createProgram graphJoin layoutJoin fill = .ok ⟨progJoin, 2⟩ := rfl

theorem layoutOK_graphJoin : LayoutOK graphJoin layoutJoin := by
  have hsn : ∀ w, 4 ≤ w → layoutJoin.snippetD w = ⟨0, 0, 0, none⟩ := by
    intro w hw
    obtain ⟨j, rfl⟩ : ∃ j, w = j + 4 := ⟨w - 4, by omega⟩
    rfl
  have hnv : graphJoin.numVertices = 4 := rfl
  refine ⟨rfl, rfl, by decide, rfl, rfl, ?_, ?_, ?_, ?_, ?_, ?_, ?_⟩
  · intro v hv
    rw [hnv] at hv
    interval_cases v <;> exact ⟨_, rfl⟩
  · intro v hv w hw
    rw [hnv] at hv ⊢
    interval_cases v
    · have : graphJoin.targetsOf 0 = [1, 2] := rfl
      rw [this] at hw
      simp only [List.mem_cons, List.mem_singleton, List.not_mem_nil, or_false] at hw
      rcases hw with rfl | rfl
      · exact ⟨by decide, _, rfl⟩
      · exact ⟨by decide, _, rfl⟩
    · have : graphJoin.targetsOf 1 = [3] := rfl
      rw [this] at hw
      simp only [List.mem_singleton] at hw
      subst hw
      exact ⟨by decide, _, rfl⟩
    · have : graphJoin.targetsOf 2 = [3] := rfl
      rw [this] at hw
      simp only [List.mem_singleton] at hw
      subst hw
      exact ⟨by decide, _, rfl⟩
    · have : graphJoin.targetsOf 3 = [] := rfl
      rw [this] at hw
      cases hw
  · intro w idx h
    by_cases hw : 4 ≤ w
    · rw [hsn w hw] at h; cases h
    · have hw4 : w < 4 := by omega
      interval_cases w
      · cases h
      · cases h
      · cases h
      · cases h; decide
  · intro w w' idx hw hw' h h'
    rw [hnv] at hw hw'
    interval_cases w <;> cases h
    interval_cases w' <;> first | rfl | cases h'
  · intro v w hv hw hne
    rw [hnv] at hv hw
    interval_cases v <;> interval_cases w <;> first | exact absurd rfl hne | decide
  · intro p hp
    rw [hnv]
    have hg : layoutJoin.Guard = 9 := rfl
    rw [hg] at hp
    interval_cases p
    · exact ⟨0, by decide, by decide, by decide⟩
    · exact ⟨1, by decide, by decide, by decide⟩
    · exact ⟨1, by decide, by decide, by decide⟩
    · exact ⟨3, by decide, by decide, by decide⟩
    · exact ⟨3, by decide, by decide, by decide⟩
    · exact ⟨3, by decide, by decide, by decide⟩
    · exact ⟨2, by decide, by decide, by decide⟩
    · exact ⟨2, by decide, by decide, by decide⟩
    · exact ⟨2, by decide, by decide, by decide⟩
  · intro v hv hut hfl
    rw [hnv] at hv
    interval_cases v
    · rfl
    · rfl
    · cases hfl
    · cases hfl

/-- C9. First-byte filtering preserves the hits. For a graph `g`, a layout `cg`
of it as the layout pass leaves it (`LayoutOK`), the program of
`createProgram` and the set of `firstBytes(g)`: on every input (of bytes, with
offsets that do not reach `UNALLOCATED`) `Vm::search` with `First` set to the
first-byte set returns with the hit sequence `hs` if and only if the search in
which every byte seeds a thread (`First` all true) returns with `hs`. -/
theorem first_byte_filter_preserves_hits (g : DynamicFSM) (cg : CodeGenHelper)
    (fill : Instruction) (img : ProgramImage) (F : ByteSet) (input : List Byte)
    (startOffset : Nat) (hs : List SearchHit)
    (hL : LayoutOK g cg) (hP : createProgram g cg fill = .ok img)
    (hF : firstBytes g = .ok F) (hb : ∀ c ∈ input, c < 256)
    (hlen : startOffset + input.length ≤ UNALLOCATED) :
    (∃ n, hitsOf (Vm.search n (Vm.init img.Code F img.NumChecked) input startOffset) = some hs) ↔
    (∃ m, hitsOf (Vm.search m (Vm.init img.Code (fun _ => true) img.NumChecked) input
      startOffset) = some hs) := by
  obtain ⟨hG, hnc⟩ := generated_of_createProgram hL hP
  apply search_seed_filter
  · intro c hc hFc
    rw [hnc]
    exact seed_inert_of_generated hG (hb c hc) (firstBytes_reject hL hF hFc)
  · exact hlen

theorem first_byte_filter_preserves_hits_witness :
    LayoutOK graphJoin layoutJoin ∧
    createProgram graphJoin layoutJoin .HALT_OP = .ok ⟨progJoin, 2⟩ ∧
    firstBytes graphJoin = .ok firstJoin ∧
    (∀ c ∈ [120, 97, 99, 98, 99], c < 256) ∧
    0 + [120, 97, 99, 98, 99].length ≤ UNALLOCATED ∧
    ((∃ n, hitsOf (Vm.search n (Vm.init progJoin firstJoin 2) [120, 97, 99, 98, 99] 0) =
        some [⟨1, 2, 0⟩, ⟨3, 2, 0⟩]) ↔
     (∃ m, hitsOf (Vm.search m (Vm.init progJoin (fun _ => true) 2) [120, 97, 99, 98, 99] 0) =
        some [⟨1, 2, 0⟩, ⟨3, 2, 0⟩])) :=
  ⟨layoutOK_graphJoin, rfl, firstBytes_graphJoin, by decide, by decide,
    first_byte_filter_preserves_hits graphJoin layoutJoin .HALT_OP ⟨progJoin, 2⟩ firstJoin
      [120, 97, 99, 98, 99] 0 [⟨1, 2, 0⟩, ⟨3, 2, 0⟩] layoutOK_graphJoin rfl firstBytes_graphJoin
      (by decide) (by decide)⟩

/-- The two searches of the witness return, with the hits `(1, 2, 0)` and
`(3, 2, 0)`. -/
theorem search_graphJoin_hits :
    hitsOf (Vm.search 4 (Vm.init progJoin firstJoin 2) [120, 97, 99, 98, 99] 0) =
      some [⟨1, 2, 0⟩, ⟨3, 2, 0⟩] ∧
    hitsOf (Vm.search 4 (Vm.init progJoin (fun _ => true) 2) [120, 97, 99, 98, 99] 0) =
      some [⟨1, 2, 0⟩, ⟨3, 2, 0⟩] := by
  constructor <;> decide

/-! ## The instructions of `Vm::execute` and `executeEpsilons` -/

/-- C11. The byte-consuming opcodes in `Vm::execute`. For a thread at `LIT b`,
`EITHER a b` or `RANGE lo hi`: if the input byte satisfies the predicate
(`cur = b`; `cur = a` or `cur = b`; `lo ≤ cur ≤ hi`), the thread has its pc
moved by one instruction (label, start and end kept) and is appended to the
next list; otherwise the thread is killed (null pc) and the next list is
unchanged. In both cases `execute` returns false and the active list and the
check bits are unchanged. -/
theorem execute_byte_consuming (prog : Program) (t : Thread) (cs : List Bool)
    (active next : ThreadList) (cur : Byte) (offset pc : Nat) (hpc : t.PC = some pc) :
    (∀ b, prog[pc]? = some (.LIT_OP b) →
      Vm.execute prog t cs active next cur offset =
        if cur = b then
          .ok ⟨false, ⟨some (pc + 1), t.Label, t.Start, t.End⟩, cs, active,
            next ++ [⟨some (pc + 1), t.Label, t.Start, t.End⟩]⟩
        else .ok ⟨false, ⟨none, t.Label, t.Start, t.End⟩, cs, active, next⟩) ∧
    (∀ a b, prog[pc]? = some (.EITHER_OP a b) →
      Vm.execute prog t cs active next cur offset =
        if cur = a ∨ cur = b then
          .ok ⟨false, ⟨some (pc + 1), t.Label, t.Start, t.End⟩, cs, active,
            next ++ [⟨some (pc + 1), t.Label, t.Start, t.End⟩]⟩
        else .ok ⟨false, ⟨none, t.Label, t.Start, t.End⟩, cs, active, next⟩) ∧
    (∀ lo hi, prog[pc]? = some (.RANGE_OP lo hi) →
      Vm.execute prog t cs active next cur offset =
        if lo ≤ cur ∧ cur ≤ hi then
          .ok ⟨false, ⟨some (pc + 1), t.Label, t.Start, t.End⟩, cs, active,
            next ++ [⟨some (pc + 1), t.Label, t.Start, t.End⟩]⟩
        else .ok ⟨false, ⟨none, t.Label, t.Start, t.End⟩, cs, active, next⟩) := by
  refine ⟨?_, ?_, ?_⟩
  · intro b hins
    simp only [Vm.execute, fetch_eq_ok hpc hins, Thread.advance, hpc, Option.map_some']
  · intro a b hins
    simp only [Vm.execute, fetch_eq_ok hpc hins, Thread.advance, hpc, Option.map_some']
  · intro lo hi hins
    simp only [Vm.execute, fetch_eq_ok hpc hins, Thread.advance, hpc, Option.map_some']

/-- Witness of C11: the thread seeded at offset 4 on the program of scenario
S1, on the bytes `a` (accepted by `LIT 'a'`) and `x` (rejected). -/
theorem execute_byte_consuming_witness :
    (⟨some 0, 0, 4, UNALLOCATED⟩ : Thread).PC = some 0 ∧
    progABC[0]? = some (.LIT_OP 97) ∧
    Vm.execute progABC ⟨some 0, 0, 4, UNALLOCATED⟩ [false] [] [] 97 4 =
      .ok ⟨false, ⟨some 1, 0, 4, UNALLOCATED⟩, [false], [], [⟨some 1, 0, 4, UNALLOCATED⟩]⟩ ∧
    Vm.execute progABC ⟨some 0, 0, 4, UNALLOCATED⟩ [false] [] [] 120 4 =
      .ok ⟨false, ⟨none, 0, 4, UNALLOCATED⟩, [false], [], []⟩ :=
  ⟨rfl, rfl,
    (execute_byte_consuming progABC ⟨some 0, 0, 4, UNALLOCATED⟩ [false] [] [] 97 4 0 rfl).1 97 rfl,
    (execute_byte_consuming progABC ⟨some 0, 0, 4, UNALLOCATED⟩ [false] [] [] 120 4 0 rfl).1 97 rfl⟩

/-- C12. `FORK` in `Vm::execute`. For a thread at `FORK addr`, a sibling with
pc `addr` and the label, start and end of the thread is appended to the active
list, the pc of the thread moves by one instruction, the next list and the
check bits are unchanged, and `execute` returns true. -/
theorem execute_fork (prog : Program) (t : Thread) (cs : List Bool)
    (active next : ThreadList) (cur : Byte) (offset pc addr : Nat)
    (hpc : t.PC = some pc) (hins : prog[pc]? = some (.FORK_OP addr)) :
    Vm.execute prog t cs active next cur offset =
      .ok ⟨true, ⟨some (pc + 1), t.Label, t.Start, t.End⟩, cs,
        active ++ [⟨some addr, t.Label, t.Start, t.End⟩], next⟩ := by
  simp only [Vm.execute, fetch_eq_ok hpc hins, Thread.advance, Thread.fork, Thread.jump, hpc,
    Option.map_some', Nat.zero_add]

/-- Witness of C12: the seed thread on the program of "abcde|cd", which starts
with `FORK 8`. -/
theorem execute_fork_witness :
    (⟨some 0, 0, 2, UNALLOCATED⟩ : Thread).PC = some 0 ∧
    progAlt[0]? = some (.FORK_OP 8) ∧
    Vm.execute progAlt ⟨some 0, 0, 2, UNALLOCATED⟩ [false] [] [] 99 2 =
      .ok ⟨true, ⟨some 1, 0, 2, UNALLOCATED⟩, [false], [⟨some 8, 0, 2, UNALLOCATED⟩], []⟩ :=
  ⟨rfl, rfl, execute_fork progAlt ⟨some 0, 0, 2, UNALLOCATED⟩ [false] [] [] 99 2 0 8 rfl rfl⟩

/-- Counterexample to C13 as stated: on `progTable` and the byte 0 the slot
read holds `JUMP 7`, and the thread appended to the next list has the pc 1, the
position of the slot, not the target 7. -/
theorem jump_table_pushes_target_fails :
    progTable[0 + (1 + 0)]? = some (.JUMP_OP 7) ∧
    ∃ r, Vm.execute progTable ⟨some 0, 0, 3, UNALLOCATED⟩ [false] [] [] 0 3 = .ok r ∧
      r.next = [⟨some 1, 0, 3, UNALLOCATED⟩] ∧ ¬ ∃ x ∈ r.next, x.PC = some 7 := by
  refine ⟨rfl, _, rfl, rfl, ?_⟩
  decide

/-- C13, amended. `JUMP_TABLE` in `Vm::execute`: for a thread at a `JUMP_TABLE`
instruction at `pc` and the input byte `cur`, the slot at `pc + 1 + cur` is
read. If it holds `HALT` the thread is killed and nothing is appended to the
next list. If it holds `JUMP a`, a thread whose pc is the position of the slot
(with the start, end and label of the thread) is appended to the next list;
the `JUMP` is executed when that thread is run next, which sets its pc to `a`.
In both cases `execute` returns false and the active list and the check bits
are unchanged. -/
theorem execute_jump_table (prog : Program) (t : Thread) (cs : List Bool)
    (active next : ThreadList) (cur : Byte) (offset pc : Nat)
    (hpc : t.PC = some pc) (hins : prog[pc]? = some .JUMP_TABLE_OP) :
    (prog[pc + (1 + cur)]? = some .HALT_OP →
      Vm.execute prog t cs active next cur offset =
        .ok ⟨false, ⟨none, t.Label, t.Start, t.End⟩, cs, active, next⟩) ∧
    (∀ a, prog[pc + (1 + cur)]? = some (.JUMP_OP a) →
      Vm.execute prog t cs active next cur offset =
        .ok ⟨false, t, cs, active, next ++ [⟨some (pc + (1 + cur)), t.Label, t.Start, t.End⟩]⟩ ∧
      ∀ (cs' : List Bool) (active' next' : ThreadList) (cur' : Byte) (offset' : Nat),
        Vm.execute prog ⟨some (pc + (1 + cur)), t.Label, t.Start, t.End⟩ cs' active' next'
            cur' offset' =
          .ok ⟨true, ⟨some a, t.Label, t.Start, t.End⟩, cs', active', next'⟩) := by
  refine ⟨?_, ?_⟩
  · intro hslot
    simp only [Vm.execute, fetch_eq_ok hpc hins, hslot, ne_eq, not_true_eq_false, if_false]
  · intro a hslot
    refine ⟨?_, ?_⟩
    · simp only [Vm.execute, fetch_eq_ok hpc hins, hslot, Thread.fork, Thread.jump]
      simp
    · intro cs' active' next' cur' offset'
      have hf : fetch prog ⟨some (pc + (1 + cur)), t.Label, t.Start, t.End⟩ =
          .ok (pc + (1 + cur), .JUMP_OP a) := fetch_eq_ok rfl hslot
      simp only [Vm.execute, hf, Thread.jump, Nat.zero_add]

/-- Witness of C13 (amended), on `progTable` and the byte 0. -/
theorem execute_jump_table_witness :
    (⟨some 0, 0, 3, UNALLOCATED⟩ : Thread).PC = some 0 ∧
    progTable[0]? = some .JUMP_TABLE_OP ∧
    progTable[0 + (1 + 0)]? = some (.JUMP_OP 7) ∧
    Vm.execute progTable ⟨some 0, 0, 3, UNALLOCATED⟩ [false] [] [] 0 3 =
      .ok ⟨false, ⟨some 0, 0, 3, UNALLOCATED⟩, [false], [], [⟨some 1, 0, 3, UNALLOCATED⟩]⟩ :=
  ⟨rfl, rfl, rfl,
    ((execute_jump_table progTable ⟨some 0, 0, 3, UNALLOCATED⟩ [false] [] [] 0 3 0 rfl rfl).2
      7 rfl).1⟩

/-- C14. `CHECK_BRANCH` in `Vm::execute` and `executeEpsilons`. For a thread
at `CHECK_BRANCH idx`: if the check bit `idx` is set, the pc moves past the
instruction and the one after it (`pc + 2`) and the check bits are unchanged;
if it is clear, the bits `idx` and 0 are set (no other bit changes) and the pc
moves past the instruction only (`pc + 1`). In both cases the function returns
true and the active and next lists are unchanged. -/
theorem check_branch_step (prog : Program) (t : Thread) (cs : List Bool)
    (active next : ThreadList) (cur : Byte) (offset pc idx : Nat)
    (hpc : t.PC = some pc) (hins : prog[pc]? = some (.CHECK_BRANCH_OP idx)) :
    (cs[idx]? = some true →
      Vm.execute prog t cs active next cur offset =
        .ok ⟨true, ⟨some (pc + 2), t.Label, t.Start, t.End⟩, cs, active, next⟩ ∧
      executeEpsilons prog t cs active next offset =
        .ok ⟨true, ⟨some (pc + 2), t.Label, t.Start, t.End⟩, cs, active, next⟩) ∧
    (cs[idx]? = some false →
      ∃ cs', Vm.execute prog t cs active next cur offset =
          .ok ⟨true, ⟨some (pc + 1), t.Label, t.Start, t.End⟩, cs', active, next⟩ ∧
        executeEpsilons prog t cs active next offset =
          .ok ⟨true, ⟨some (pc + 1), t.Label, t.Start, t.End⟩, cs', active, next⟩ ∧
        cs'.length = cs.length ∧ cs'[idx]? = some true ∧ cs'[0]? = some true ∧
        ∀ i, i ≠ idx → i ≠ 0 → cs'[i]? = cs[i]?) := by
  refine ⟨?_, ?_⟩
  · intro hbit
    constructor <;>
    simp only [Vm.execute, executeEpsilons, fetch_eq_ok hpc hins, checkBranch, hbit,
      Thread.advance, hpc, Option.map_some']
  · intro hbit
    have hlt : idx < cs.length := by
      by_contra hcon
      rw [List.getElem?_eq_none (by omega)] at hbit
      cases hbit
    refine ⟨(cs.set idx true).set 0 true, ?_, ?_, by simp, ?_, ?_, ?_⟩
    · simp only [Vm.execute, fetch_eq_ok hpc hins, checkBranch, hbit, Thread.advance, hpc,
        Option.map_some']
    · simp only [executeEpsilons, fetch_eq_ok hpc hins, checkBranch, hbit, Thread.advance, hpc,
        Option.map_some']
    · by_cases h0 : idx = 0
      · subst h0
        simp [List.getElem?_set, hlt]
      · rw [List.getElem?_set_ne (by omega)]
        simp [List.getElem?_set, hlt]
    · have h0 : 0 < ((cs.set idx true)).length := by simp; omega
      rw [List.getElem?_set_self h0]
    · intro i hi h0
      rw [List.getElem?_set_ne (by omega), List.getElem?_set_ne (by omega)]

/-- Witness of C14: a thread at `CHECK_BRANCH 1` with the bit 1 clear. -/
theorem check_branch_step_witness :
    (⟨some 0, 0, 3, UNALLOCATED⟩ : Thread).PC = some 0 ∧
    ([.CHECK_BRANCH_OP 1, .FORK_OP 5, .HALT_OP] : Program)[0]? = some (.CHECK_BRANCH_OP 1) ∧
    ([false, false] : List Bool)[1]? = some false ∧
    ∃ cs', Vm.execute [.CHECK_BRANCH_OP 1, .FORK_OP 5, .HALT_OP] ⟨some 0, 0, 3, UNALLOCATED⟩
          [false, false] [] [] 97 3 =
          .ok ⟨true, ⟨some (0 + 1), 0, 3, UNALLOCATED⟩, cs', [], []⟩ ∧
        executeEpsilons [.CHECK_BRANCH_OP 1, .FORK_OP 5, .HALT_OP] ⟨some 0, 0, 3, UNALLOCATED⟩
          [false, false] [] [] 3 =
          .ok ⟨true, ⟨some (0 + 1), 0, 3, UNALLOCATED⟩, cs', [], []⟩ ∧
        cs'.length = 2 ∧ cs'[1]? = some true ∧ cs'[0]? = some true ∧
        ∀ i, i ≠ 1 → i ≠ 0 → cs'[i]? = ([false, false] : List Bool)[i]? :=
  ⟨rfl, rfl, rfl,
    (check_branch_step [.CHECK_BRANCH_OP 1, .FORK_OP 5, .HALT_OP] ⟨some 0, 0, 3, UNALLOCATED⟩
      [false, false] [] [] 97 3 0 1 rfl rfl).2 rfl⟩

/-- C15. `CHECK_HALT` in `Vm::execute` and `executeEpsilons`. For a thread at
`CHECK_HALT idx`: if the check bit `idx` is set, the thread is killed, the
check bits are unchanged and the function returns false; if it is clear, the
bits `idx` and 0 are set (no other bit changes), the pc moves by one
instruction and the function returns true. The active and next lists are
unchanged. -/
theorem check_halt_step (prog : Program) (t : Thread) (cs : List Bool)
    (active next : ThreadList) (cur : Byte) (offset pc idx : Nat)
    (hpc : t.PC = some pc) (hins : prog[pc]? = some (.CHECK_HALT_OP idx)) :
    (cs[idx]? = some true →
      Vm.execute prog t cs active next cur offset =
        .ok ⟨false, ⟨none, t.Label, t.Start, t.End⟩, cs, active, next⟩ ∧
      executeEpsilons prog t cs active next offset =
        .ok ⟨false, ⟨none, t.Label, t.Start, t.End⟩, cs, active, next⟩) ∧
    (cs[idx]? = some false →
      ∃ cs', Vm.execute prog t cs active next cur offset =
          .ok ⟨true, ⟨some (pc + 1), t.Label, t.Start, t.End⟩, cs', active, next⟩ ∧
        executeEpsilons prog t cs active next offset =
          .ok ⟨true, ⟨some (pc + 1), t.Label, t.Start, t.End⟩, cs', active, next⟩ ∧
        cs'.length = cs.length ∧ cs'[idx]? = some true ∧ cs'[0]? = some true ∧
        ∀ i, i ≠ idx → i ≠ 0 → cs'[i]? = cs[i]?) := by
  refine ⟨?_, ?_⟩
  · intro hbit
    constructor <;>
    simp only [Vm.execute, executeEpsilons, fetch_eq_ok hpc hins, checkHalt, hbit]
  · intro hbit
    have hlt : idx < cs.length := by
      by_contra hcon
      rw [List.getElem?_eq_none (by omega)] at hbit
      cases hbit
    refine ⟨(cs.set idx true).set 0 true, ?_, ?_, by simp, ?_, ?_, ?_⟩
    · simp only [Vm.execute, fetch_eq_ok hpc hins, checkHalt, hbit, Thread.advance, hpc,
        Option.map_some']
    · simp only [executeEpsilons, fetch_eq_ok hpc hins, checkHalt, hbit, Thread.advance, hpc,
        Option.map_some']
    · by_cases h0 : idx = 0
      · subst h0
        simp [List.getElem?_set, hlt]
      · rw [List.getElem?_set_ne (by omega)]
        simp [List.getElem?_set, hlt]
    · have h0 : 0 < ((cs.set idx true)).length := by simp; omega
      rw [List.getElem?_set_self h0]
    · intro i hi h0
      rw [List.getElem?_set_ne (by omega), List.getElem?_set_ne (by omega)]

/-- Witness of C15: the thread at `CHECK_HALT 1` of the program of "ac|bc"
with the bit 1 set. -/
theorem check_halt_step_witness :
    (⟨some 2, 0, 3, UNALLOCATED⟩ : Thread).PC = some 2 ∧
    progJoin[2]? = some (.CHECK_HALT_OP 1) ∧
    ([true, true] : List Bool)[1]? = some true ∧
    Vm.execute progJoin ⟨some 2, 0, 3, UNALLOCATED⟩ [true, true] [] [] 99 4 =
      .ok ⟨false, ⟨none, 0, 3, UNALLOCATED⟩, [true, true], [], []⟩ ∧
    executeEpsilons progJoin ⟨some 2, 0, 3, UNALLOCATED⟩ [true, true] [] [] 4 =
      .ok ⟨false, ⟨none, 0, 3, UNALLOCATED⟩, [true, true], [], []⟩ :=
  ⟨rfl, rfl, rfl,
    (check_halt_step progJoin ⟨some 2, 0, 3, UNALLOCATED⟩ [true, true] [] [] 99 4 2 1
      rfl rfl).1 rfl⟩

/-! ## The start of a thread -/

theorem execute_start {prog : Program} {t : Thread} {cs : List Bool} {a nx : ThreadList}
    {c : Byte} {q : Nat} {r : ExecResult} (h : Vm.execute prog t cs a nx c q = .ok r) :
    r.t.Start = t.Start ∧
      (∃ ea, r.active = a ++ ea ∧ ∀ x ∈ ea, x.Start = t.Start) ∧
      (∃ en, r.next = nx ++ en ∧ ∀ x ∈ en, x.Start = t.Start) := by
  unfold Vm.execute at h
  cases hf : fetch prog t with
  | error e => simp [hf] at h
  | ok p =>
    obtain ⟨pc, ins⟩ := p
    simp only [hf] at h
    have nil : ∀ l : ThreadList, ∃ e, l = l ++ e ∧ ∀ x ∈ e, x.Start = t.Start :=
      fun l => ⟨[], by simp, by simp⟩
    have one : ∀ (l : ThreadList) (y : Thread), y.Start = t.Start →
        ∃ e, l ++ [y] = l ++ e ∧ ∀ x ∈ e, x.Start = t.Start :=
      fun l y hy => ⟨[y], rfl, by simpa using hy⟩
    cases ins with
    | LIT_OP b =>
      simp only [] at h
      split at h <;> cases Except.ok.inj h
      · exact ⟨rfl, nil _, one _ _ rfl⟩
      · exact ⟨rfl, nil _, nil _⟩
    | EITHER_OP x y =>
      simp only [] at h
      split at h <;> cases Except.ok.inj h
      · exact ⟨rfl, nil _, one _ _ rfl⟩
      · exact ⟨rfl, nil _, nil _⟩
    | RANGE_OP lo hi =>
      simp only [] at h
      split at h <;> cases Except.ok.inj h
      · exact ⟨rfl, nil _, one _ _ rfl⟩
      · exact ⟨rfl, nil _, nil _⟩
    | JUMP_OP addr =>
      cases Except.ok.inj h
      exact ⟨rfl, nil _, nil _⟩
    | JUMP_TABLE_OP =>
      simp only [] at h
      cases hs : prog[pc + (1 + c)]? with
      | none => simp [hs] at h
      | some slot =>
        simp only [hs] at h
        split at h <;> cases Except.ok.inj h
        · exact ⟨rfl, nil _, one _ _ rfl⟩
        · exact ⟨rfl, nil _, nil _⟩
    | FORK_OP addr =>
      cases Except.ok.inj h
      exact ⟨rfl, one _ _ rfl, nil _⟩
    | CHECK_BRANCH_OP idx =>
      simp only [checkBranch] at h
      cases hb : cs[idx]? with
      | none => simp [hb] at h
      | some b =>
        cases b <;> simp only [hb] at h <;> cases Except.ok.inj h <;>
          exact ⟨rfl, nil _, nil _⟩
    | CHECK_HALT_OP idx =>
      simp only [checkHalt] at h
      cases hb : cs[idx]? with
      | none => simp [hb] at h
      | some b =>
        cases b <;> simp only [hb] at h <;> cases Except.ok.inj h <;>
          exact ⟨rfl, nil _, nil _⟩
    | MATCH_OP l =>
      cases Except.ok.inj h
      exact ⟨rfl, nil _, nil _⟩
    | HALT_OP =>
      cases Except.ok.inj h
      exact ⟨rfl, nil _, nil _⟩

theorem executeEpsilons_start {prog : Program} {t : Thread} {cs : List Bool} {a nx : ThreadList}
    {q : Nat} {r : ExecResult} (h : executeEpsilons prog t cs a nx q = .ok r) :
    r.t.Start = t.Start ∧
      (∃ ea, r.active = a ++ ea ∧ ∀ x ∈ ea, x.Start = t.Start) ∧
      (∃ en, r.next = nx ++ en ∧ ∀ x ∈ en, x.Start = t.Start) := by
  unfold executeEpsilons at h
  cases hf : fetch prog t with
  | error e => simp [hf] at h
  | ok p =>
    obtain ⟨pc, ins⟩ := p
    simp only [hf] at h
    have nil : ∀ l : ThreadList, ∃ e, l = l ++ e ∧ ∀ x ∈ e, x.Start = t.Start :=
      fun l => ⟨[], by simp, by simp⟩
    have one : ∀ (l : ThreadList) (y : Thread), y.Start = t.Start →
        ∃ e, l ++ [y] = l ++ e ∧ ∀ x ∈ e, x.Start = t.Start :=
      fun l y hy => ⟨[y], rfl, by simpa using hy⟩
    cases ins with
    | LIT_OP b => cases Except.ok.inj h; exact ⟨rfl, nil _, one _ _ rfl⟩
    | EITHER_OP x y => cases Except.ok.inj h; exact ⟨rfl, nil _, one _ _ rfl⟩
    | RANGE_OP lo hi => cases Except.ok.inj h; exact ⟨rfl, nil _, one _ _ rfl⟩
    | JUMP_TABLE_OP => cases Except.ok.inj h; exact ⟨rfl, nil _, one _ _ rfl⟩
    | JUMP_OP addr => cases Except.ok.inj h; exact ⟨rfl, nil _, nil _⟩
    | FORK_OP addr => cases Except.ok.inj h; exact ⟨rfl, one _ _ rfl, nil _⟩
    | CHECK_BRANCH_OP idx =>
      simp only [checkBranch] at h
      cases hb : cs[idx]? with
      | none => simp [hb] at h
      | some b =>
        cases b <;> simp only [hb] at h <;> cases Except.ok.inj h <;>
          exact ⟨rfl, nil _, nil _⟩
    | CHECK_HALT_OP idx =>
      simp only [checkHalt] at h
      cases hb : cs[idx]? with
      | none => simp [hb] at h
      | some b =>
        cases b <;> simp only [hb] at h <;> cases Except.ok.inj h <;>
          exact ⟨rfl, nil _, nil _⟩
    | MATCH_OP l => cases Except.ok.inj h; exact ⟨rfl, nil _, nil _⟩
    | HALT_OP => cases Except.ok.inj h; exact ⟨rfl, nil _, nil _⟩

theorem runThreadEpsilons_start {prog : Program} {q : Nat} :
    ∀ (n : Nat) (t : Thread) (cs : List Bool) (a nx : ThreadList) (r : ExecResult),
      runThreadEpsilons prog q n t cs a nx = .ok r →
      r.t.Start = t.Start ∧
      (∀ x ∈ r.active, x ∈ a ∨ x.Start = t.Start) ∧
      (∀ x ∈ r.next, x ∈ nx ∨ x.Start = t.Start) := by
  intro n
  induction n with
  | zero => intro t cs a nx r h; simp [runThreadEpsilons] at h
  | succ n ih =>
    intro t cs a nx r h
    simp only [runThreadEpsilons] at h
    cases he : executeEpsilons prog t cs a nx q with
    | error e => simp [he] at h
    | ok r1 =>
      simp only [he] at h
      obtain ⟨h1, ⟨ea, hea, hea'⟩, ⟨en, hen, hen'⟩⟩ := executeEpsilons_start he
      have hmem : (∀ x ∈ r1.active, x ∈ a ∨ x.Start = t.Start) ∧
          (∀ x ∈ r1.next, x ∈ nx ∨ x.Start = t.Start) := by
        constructor
        · intro x hx
          rw [hea] at hx
          rcases List.mem_append.mp hx with hx | hx
          · exact Or.inl hx
          · exact Or.inr (hea' x hx)
        · intro x hx
          rw [hen] at hx
          rcases List.mem_append.mp hx with hx | hx
          · exact Or.inl hx
          · exact Or.inr (hen' x hx)
      by_cases hret : r1.ret = true
      · rw [if_pos hret] at h
        obtain ⟨h2, h3, h4⟩ := ih _ _ _ _ _ h
        refine ⟨h2.trans h1, ?_, ?_⟩
        · intro x hx
          rcases h3 x hx with hx | hx
          · exact hmem.1 x hx
          · exact Or.inr (hx.trans h1)
        · intro x hx
          rcases h4 x hx with hx | hx
          · exact hmem.2 x hx
          · exact Or.inr (hx.trans h1)
      · rw [if_neg hret] at h
        cases Except.ok.inj h
        exact ⟨h1, hmem.1, hmem.2⟩

theorem runThread_start {prog : Program} {c : Byte} {q : Nat}
    (n : Nat) (t : Thread) (cs : List Bool) (a nx : ThreadList) (r : ExecResult)
    (h : runThread prog c q n t cs a nx = .ok r) :
    r.t.Start = t.Start ∧
      (∀ x ∈ r.active, x ∈ a ∨ x.Start = t.Start) ∧
      (∀ x ∈ r.next, x ∈ nx ∨ x.Start = t.Start) := by
  obtain ⟨_, _, h3, h4, h5⟩ := runThread_inv n t cs a nx r h
  exact ⟨h3, h4, h5⟩

/-- The loop over the active list keeps a property of the starts of the
threads, when the step keeps the start of the thread it runs and gives it to
the threads it appends. -/
theorem activeLoop_starts
    (step : Thread → List Bool → ThreadList → ThreadList → Except Fault ExecResult)
    (hstep : ∀ t cs a nx r, step t cs a nx = .ok r →
      r.t.Start = t.Start ∧ (∀ x ∈ r.active, x ∈ a ∨ x.Start = t.Start) ∧
      (∀ x ∈ r.next, x ∈ nx ∨ x.Start = t.Start))
    (offset : Nat) (P : Nat → Prop) :
    ∀ (n i : Nat) (vm vm' : Vm) (hits hits' : List SearchHit),
      activeLoop step offset n i vm hits = .ok (vm', hits') →
      (∀ x ∈ vm.Active, P x.Start) → (∀ x ∈ vm.Next, P x.Start) →
      (∀ x ∈ vm'.Active, P x.Start) ∧ (∀ x ∈ vm'.Next, P x.Start) := by
  intro n
  induction n with
  | zero =>
    intro i vm vm' hits hits' h ha hn
    simp only [activeLoop] at h
    split at h
    · cases h
    · cases Except.ok.inj h; exact ⟨ha, hn⟩
  | succ n ih =>
    intro i vm vm' hits hits' h ha hn
    simp only [activeLoop] at h
    cases hi : vm.Active[i]? with
    | none =>
      simp only [hi] at h
      cases Except.ok.inj h
      exact ⟨ha, hn⟩
    | some t =>
      simp only [hi] at h
      have ht : P t.Start := ha t (List.mem_iff_getElem?.mpr ⟨i, hi⟩)
      cases hs : step t vm.CheckStates vm.Active vm.Next with
      | error e => simp [hs] at h
      | ok r =>
        simp only [hs] at h
        obtain ⟨h1, h2, h3⟩ := hstep _ _ _ _ _ hs
        cases hr : reconcile r.t offset vm.Matches hits with
        | error e => simp [hr] at h
        | ok p =>
          obtain ⟨cells, hits1⟩ := p
          simp only [hr] at h
          refine ih _ _ _ _ _ h ?_ ?_
          · intro x hx
            simp only at hx
            rcases List.mem_or_eq_of_mem_set hx with hx | hx
            · rcases h2 x hx with hx | hx
              · exact ha x hx
              · rw [hx]; exact ht
            · rw [hx, h1]; exact ht
          · intro x hx
            simp only at hx
            rcases h3 x hx with hx | hx
            · exact hn x hx
            · rw [hx]; exact ht

theorem byteStep_starts (n : Nat) (vm vm' : Vm) (c : Byte) (q : Nat)
    (hits hits' : List SearchHit) (P : Nat → Prop)
    (h : byteStep n vm c q hits = .ok (vm', hits'))
    (ha : ∀ x ∈ vm.Active, P x.Start) (hn : vm.Next = []) :
    (∀ x ∈ vm'.Active, P x.Start ∨ (vm.First c = true ∧ x.Start = q)) ∧ vm'.Next = [] ∧
      vm'.First = vm.First ∧ vm'.Prog = vm.Prog := by
  have key : ∀ vm1 : Vm, vm1.First = vm.First → vm1.Prog = vm.Prog → vm1.Next = [] →
      (∀ x ∈ vm1.Active, P x.Start ∨ (vm.First c = true ∧ x.Start = q)) →
      (match activeLoop (runThread vm1.Prog c q n) q n 0 vm1 hits with
        | .error e => .error e
        | .ok (vm2, hits2) =>
          match clearCheckStates vm2.CheckStates with
          | .error e => .error e
          | .ok cs => .ok ({ vm2 with Active := vm2.Next, Next := [], CheckStates := cs }, hits2))
        = Except.ok (vm', hits') →
      (∀ x ∈ vm'.Active, P x.Start ∨ (vm.First c = true ∧ x.Start = q)) ∧ vm'.Next = [] ∧
        vm'.First = vm.First ∧ vm'.Prog = vm.Prog := by
    intro vm1 hf hp hnx hact hm
    cases hal : activeLoop (runThread vm1.Prog c q n) q n 0 vm1 hits with
    | error e => simp [hal] at hm
    | ok p =>
      obtain ⟨vm2, hits2⟩ := p
      simp only [hal] at hm
      cases hc : clearCheckStates vm2.CheckStates with
      | error e => simp [hc] at hm
      | ok cs =>
        simp only [hc, Except.ok.injEq, Prod.mk.injEq] at hm
        obtain ⟨hvm, _⟩ := hm
        subst hvm
        obtain ⟨_, hnext⟩ := activeLoop_starts _ (fun t cs a nx r hr => runThread_start n t cs a nx r hr)
          q (fun s => P s ∨ (vm.First c = true ∧ s = q)) n 0 vm1 vm2 hits hits2 hal hact
          (by rw [hnx]; intro x hx; cases hx)
        obtain ⟨hp2, hf2⟩ := activeLoop_fields _ q n 0 vm1 vm2 hits hits2 hal
        exact ⟨hnext, rfl, hf2.trans hf, hp2.trans hp⟩
  have hb : byteStep n vm c q hits =
      (match activeLoop (runThread
          (if vm.First c then { vm with Active := vm.Active ++ [⟨some 0, 0, q, UNALLOCATED⟩] }
            else vm).Prog c q n) q n 0
          (if vm.First c then { vm with Active := vm.Active ++ [⟨some 0, 0, q, UNALLOCATED⟩] }
            else vm) hits with
        | .error e => .error e
        | .ok (vm2, hits2) =>
          match clearCheckStates vm2.CheckStates with
          | .error e => .error e
          | .ok cs => .ok ({ vm2 with Active := vm2.Next, Next := [], CheckStates := cs }, hits2))
      := rfl
  rw [hb] at h
  refine key _ ?_ ?_ ?_ ?_ h
  · split <;> rfl
  · split <;> rfl
  · split <;> exact hn
  · intro x hx
    by_cases hfc : vm.First c = true
    · rw [if_pos hfc] at hx
      simp only [List.mem_append, List.mem_singleton] at hx
      rcases hx with hx | hx
      · exact Or.inl (ha x hx)
      · right; rw [hx]; exact ⟨hfc, rfl⟩
    · rw [if_neg hfc] at hx
      exact Or.inl (ha x hx)

theorem byteLoop_starts (n : Nat) :
    ∀ (input : List Byte) (P : Nat → Prop) (vm vm' : Vm) (q q' : Nat)
      (hits hits' : List SearchHit),
      byteLoop n input vm q hits = .ok (vm', q', hits') →
      q + input.length ≤ 2 ^ 64 →
      (∀ x ∈ vm.Active, P x.Start) → vm.Next = [] →
      (∀ x ∈ vm'.Active, P x.Start ∨
        ∃ i c, input[i]? = some c ∧ vm.First c = true ∧ x.Start = q + i) ∧
      vm'.Next = [] ∧ vm'.First = vm.First ∧ vm'.Prog = vm.Prog := by
  intro input
  induction input with
  | nil =>
    intro P vm vm' q q' hits hits' h _ ha hn
    simp only [byteLoop, Except.ok.injEq, Prod.mk.injEq] at h
    obtain ⟨rfl, _, _⟩ := h
    exact ⟨fun x hx => Or.inl (ha x hx), hn, rfl, rfl⟩
  | cons c rest ih =>
    intro P vm vm' q q' hits hits' h hlen ha hn
    simp only [byteLoop] at h
    simp only [List.length_cons] at hlen
    cases hs : byteStep n vm c q hits with
    | error e => simp [hs] at h
    | ok p =>
      obtain ⟨vm1, hits1⟩ := p
      simp only [hs] at h
      obtain ⟨h1, h2, h3, h4⟩ := byteStep_starts n vm vm1 c q hits hits1 P hs ha hn
      have hlen' : inc64 q + rest.length ≤ 2 ^ 64 := by
        unfold inc64
        by_cases hq : q + 1 < 2 ^ 64
        · rw [Nat.mod_eq_of_lt hq]; omega
        · have hr : rest.length = 0 := by omega
          have : (q + 1) % 2 ^ 64 < 2 ^ 64 := Nat.mod_lt _ (by positivity)
          omega
      obtain ⟨h5, h6, h7, h8⟩ := ih (fun s => P s ∨ (vm.First c = true ∧ s = q)) vm1 vm'
        (inc64 q) q' hits1 hits' h hlen' h1 h2
      refine ⟨?_, h6, h7.trans h3, h8.trans h4⟩
      intro x hx
      rcases h5 x hx with (hx | ⟨hf, hx⟩) | ⟨i, c', hi, hf, hx⟩
      · exact Or.inl hx
      · exact Or.inr ⟨0, c, List.getElem?_cons_zero, hf, by rw [hx]; rfl⟩
      · refine Or.inr ⟨i + 1, c', by simpa using hi, by rw [← h3]; exact hf, ?_⟩
        have hil : i < rest.length := by
          by_contra hcon
          rw [List.getElem?_eq_none (by omega)] at hi
          cases hi
        have hq : q + 1 < 2 ^ 64 := by omega
        rw [hx]
        unfold inc64
        rw [Nat.mod_eq_of_lt hq]
        omega

/-- C16. `MATCH` in `Vm::execute` (and `executeEpsilons`). For a thread at
`MATCH l`: the label of the thread becomes `l`, its end becomes the offset
handed to the call, its start is unchanged, the pc moves by one instruction
and the function returns true (lists and check bits unchanged). The offset is
one past the last byte consumed: a thread that consumes the byte at the offset
`q` with the `LIT` before the `MATCH` is queued for the next step, whose offset
is `inc64 q = q + 1`, and the `MATCH` executed there gives the end `q + 1`, so
that end minus start is the number of bytes from the start on. -/
theorem match_step (prog : Program) (t : Thread) (cs : List Bool)
    (active next : ThreadList) (cur : Byte) (offset pc l : Nat)
    (hpc : t.PC = some pc) (hins : prog[pc]? = some (.MATCH_OP l)) :
    Vm.execute prog t cs active next cur offset =
      .ok ⟨true, ⟨some (pc + 1), l, t.Start, offset⟩, cs, active, next⟩ ∧
    executeEpsilons prog t cs active next offset =
      .ok ⟨true, ⟨some (pc + 1), l, t.Start, offset⟩, cs, active, next⟩ ∧
    ∀ (b : Byte) (t0 : Thread) (pc0 q : Nat), t0.PC = some pc0 →
      prog[pc0]? = some (.LIT_OP b) → pc0 + 1 = pc → t0.Start ≤ q → q + 1 < 2 ^ 64 →
      Vm.execute prog t0 cs active next b q =
        .ok ⟨false, ⟨some pc, t0.Label, t0.Start, t0.End⟩, cs, active,
          next ++ [⟨some pc, t0.Label, t0.Start, t0.End⟩]⟩ ∧
      Vm.execute prog ⟨some pc, t0.Label, t0.Start, t0.End⟩ cs active next cur (inc64 q) =
        .ok ⟨true, ⟨some (pc + 1), l, t0.Start, q + 1⟩, cs, active, next⟩ ∧
      sub64 (q + 1) t0.Start = q + 1 - t0.Start := by
  refine ⟨?_, ?_, ?_⟩
  · simp only [Vm.execute, fetch_eq_ok hpc hins, Thread.advance, hpc, Option.map_some']
  · simp only [executeEpsilons, fetch_eq_ok hpc hins, Thread.advance, hpc, Option.map_some']
  · intro b t0 pc0 q hpc0 hins0 hnext hle hq
    subst hnext
    have hinc : inc64 q = q + 1 := by
      unfold inc64
      exact Nat.mod_eq_of_lt hq
    refine ⟨?_, ?_, ?_⟩
    · simp only [Vm.execute, fetch_eq_ok hpc0 hins0, Thread.advance, hpc0, Option.map_some',
        if_true]
    · have hf : fetch prog ⟨some (pc0 + 1), t0.Label, t0.Start, t0.End⟩ =
          .ok (pc0 + 1, .MATCH_OP l) := fetch_eq_ok rfl hins
      simp only [Vm.execute, hf, Thread.advance, Option.map_some', hinc]
    · unfold sub64
      rw [show q + 1 + 2 ^ 64 - t0.Start = (q + 1 - t0.Start) + 2 ^ 64 by omega,
        Nat.add_mod_right, Nat.mod_eq_of_lt (by omega)]

/-- Witness of C16: the thread of scenario S1 seeded at the offset 1, at the
`MATCH 0` after "abc", in the step of the offset 4. -/
theorem match_step_witness :
    (⟨some 3, 0, 1, UNALLOCATED⟩ : Thread).PC = some 3 ∧
    progABC[3]? = some (.MATCH_OP 0) ∧
    Vm.execute progABC ⟨some 3, 0, 1, UNALLOCATED⟩ [false] [] [] 121 4 =
      .ok ⟨true, ⟨some 4, 0, 1, 4⟩, [false], [], []⟩ ∧
    executeEpsilons progABC ⟨some 3, 0, 1, UNALLOCATED⟩ [false] [] [] 4 =
      .ok ⟨true, ⟨some 4, 0, 1, 4⟩, [false], [], []⟩ :=
  ⟨rfl, rfl,
    (match_step progABC ⟨some 3, 0, 1, UNALLOCATED⟩ [false] [] [] 121 4 3 0 rfl rfl).1,
    (match_step progABC ⟨some 3, 0, 1, UNALLOCATED⟩ [false] [] [] 121 4 3 0 rfl rfl).2.1⟩

/-- C17. The start of a thread is invariant. `Vm::execute` and
`executeEpsilons` do not change the start of the thread they step, and the
threads they append to the active or the next list have the start of the
stepped thread. Hence, in a search that begins with a fresh machine, every
thread in the active list between two bytes, and every thread left when
`Vm::search` returns, has as its start an offset at which a thread was seeded:
the offset `startOffset + i` of a byte `input[i]` of the first-byte set. -/
theorem thread_start_invariant (prog : Program) (first : ByteSet) (nc : Nat) :
    (∀ (t : Thread) (cs : List Bool) (a nx : ThreadList) (c : Byte) (q : Nat) (r : ExecResult),
      Vm.execute prog t cs a nx c q = .ok r →
      r.t.Start = t.Start ∧
        (∃ ea, r.active = a ++ ea ∧ ∀ x ∈ ea, x.Start = t.Start) ∧
        (∃ en, r.next = nx ++ en ∧ ∀ x ∈ en, x.Start = t.Start)) ∧
    (∀ (t : Thread) (cs : List Bool) (a nx : ThreadList) (q : Nat) (r : ExecResult),
      executeEpsilons prog t cs a nx q = .ok r →
      r.t.Start = t.Start ∧
        (∃ ea, r.active = a ++ ea ∧ ∀ x ∈ ea, x.Start = t.Start) ∧
        (∃ en, r.next = nx ++ en ∧ ∀ x ∈ en, x.Start = t.Start)) ∧
    (∀ (fuel : Nat) (input : List Byte) (startOffset : Nat) (vm : Vm) (q : Nat)
        (hits : List SearchHit),
      startOffset + input.length ≤ 2 ^ 64 →
      byteLoop fuel input (Vm.init prog first nc) startOffset [] = .ok (vm, q, hits) →
      ∀ x ∈ vm.Active, ∃ i c, input[i]? = some c ∧ first c = true ∧ x.Start = startOffset + i) ∧
    (∀ (fuel : Nat) (input : List Byte) (startOffset : Nat) (res : SearchResult),
      startOffset + input.length ≤ 2 ^ 64 →
      Vm.search fuel (Vm.init prog first nc) input startOffset = .ok res →
      ∀ x ∈ res.vm.Active, ∃ i c, input[i]? = some c ∧ first c = true ∧
        x.Start = startOffset + i) := by
  have hloop : ∀ (fuel : Nat) (input : List Byte) (startOffset : Nat) (vm : Vm) (q : Nat)
      (hits : List SearchHit), startOffset + input.length ≤ 2 ^ 64 →
      byteLoop fuel input (Vm.init prog first nc) startOffset [] = .ok (vm, q, hits) →
      (∀ x ∈ vm.Active, ∃ i c, input[i]? = some c ∧ first c = true ∧
        x.Start = startOffset + i) ∧ vm.Next = [] ∧ vm.Prog = prog := by
    intro fuel input startOffset vm q hits hlen h
    obtain ⟨h1, h2, _, h4⟩ := byteLoop_starts fuel input (fun _ => False) _ _ _ _ _ _ h hlen
      (by intro x hx; simp [Vm.init] at hx) rfl
    refine ⟨?_, h2, h4⟩
    intro x hx
    rcases h1 x hx with hf | hs
    · exact absurd hf (fun h => h)
    · exact hs
  refine ⟨fun t cs a nx c q r h => execute_start h,
    fun t cs a nx q r h => executeEpsilons_start h,
    fun fuel input startOffset vm q hits hlen h =>
      (hloop fuel input startOffset vm q hits hlen h).1, ?_⟩
  intro fuel input startOffset res hlen h
  rw [search_eq_searchEnd] at h
  cases hb : byteLoop fuel input (Vm.init prog first nc) startOffset [] with
  | error e => simp [hb] at h
  | ok p =>
    obtain ⟨vm1, q, hits1⟩ := p
    simp only [hb] at h
    obtain ⟨h1, h2, _⟩ := hloop fuel input startOffset vm1 q hits1 hlen hb
    unfold searchEnd at h
    cases hal : activeLoop (runThreadEpsilons vm1.Prog q fuel) q fuel 0 vm1 hits1 with
    | error e => simp [hal] at h
    | ok p2 =>
      obtain ⟨vm2, hits2⟩ := p2
      simp only [hal] at h
      cases hc : clearCheckStates vm2.CheckStates with
      | error e => simp [hc] at h
      | ok cs =>
        simp only [hc, Except.ok.injEq] at h
        subst h
        obtain ⟨_, hnext⟩ := activeLoop_starts _
          (fun t cs a nx r hr => runThreadEpsilons_start fuel t cs a nx r hr) q
          (fun s => ∃ i c, input[i]? = some c ∧ first c = true ∧ s = startOffset + i)
          fuel 0 vm1 vm2 hits1 hits2 hal h1 (by rw [h2]; intro x hx; cases hx)
        exact hnext

/-- Witness of C17: scenario S1 cut after "xab"; the thread left was seeded at
the offset 1. -/
theorem thread_start_invariant_witness :
    0 + ([120, 97, 98] : List Byte).length ≤ 2 ^ 64 ∧
    ∃ res, Vm.search 3 (Vm.init progABC (singleByte 97) 1) [120, 97, 98] 0 = .ok res ∧
      res.vm.Active = [⟨some 2, 0, 1, UNALLOCATED⟩] ∧
      ∀ x ∈ res.vm.Active, ∃ i c, ([120, 97, 98] : List Byte)[i]? = some c ∧
        singleByte 97 c = true ∧ x.Start = 0 + i :=
  ⟨by decide, _, rfl, rfl,
    (thread_start_invariant progABC (singleByte 97) 1).2.2.2 3 [120, 97, 98] 0 _ (by decide) rfl⟩

/-! ## The degrees of the graph -/

theorem setList_list_same (vert : Vertex) (o : Bool) (l : AdjacentList) :
    (vert.setList o l).list o = l := by
  cases o <;> rfl

theorem setList_list_other (vert : Vertex) {o p : Bool} (l : AdjacentList) (h : p ≠ o) :
    (vert.setList o l).list p = vert.list p := by
  cases o <;> cases p <;> first | rfl | exact absurd rfl h

theorem setList_self (vert : Vertex) (o : Bool) : vert.setList o (vert.list o) = vert := by
  cases o <;> rfl

theorem neighbours_congr {g g' : DynamicFSM} {l : AdjacentList}
    (h : 2 ≤ l.Flags → g'.AdjLists[l.What]? = g.AdjLists[l.What]?) :
    g'.neighbours l = g.neighbours l := by
  unfold DynamicFSM.neighbours
  rcases hfl : l.Flags with _ | _ | k
  · rfl
  · rfl
  · simp only []
    rw [h (by omega)]

theorem nb_some {g : DynamicFSM} {v : Nat} {vert : Vertex} (hv : g.Vertices[v]? = some vert)
    (o : Bool) :
    g.nb v o = (match g.neighbours (vert.list o) with
      | .ok ts => ts
      | .error _ => []) := by
  cases o
  · simp only [DynamicFSM.nb, DynamicFSM.sourcesOf, DynamicFSM.inVertices, hv, Vertex.list,
      Bool.false_eq_true, if_false]
  · simp only [DynamicFSM.nb, DynamicFSM.targetsOf, DynamicFSM.outVertices, hv, Vertex.list,
      if_true]

theorem nb_none {g : DynamicFSM} {v : Nat} (hv : g.Vertices[v]? = none) (o : Bool) :
    g.nb v o = [] := by
  cases o
  · simp only [DynamicFSM.nb, DynamicFSM.sourcesOf, DynamicFSM.inVertices, hv,
      Bool.false_eq_true, if_false]
  · simp only [DynamicFSM.nb, DynamicFSM.targetsOf, DynamicFSM.outVertices, hv, if_true]

/-- Replacing one adjacency list, with a side table that keeps the rows of
the other lists. -/
theorem replace_list {g : DynamicFSM} (hR : RowsOK g) {v : Nat} {vert : Vertex}
    (hv : g.Vertices[v]? = some vert) (o : Bool) (adj : List (List Nat)) (l : AdjacentList)
    (h1 : 2 ≤ l.Flags → l.What < adj.length)
    (h2 : ∀ r, r < g.AdjLists.length → (2 ≤ l.Flags → r ≠ l.What) →
      adj[r]? = g.AdjLists[r]?)
    (h3 : 2 ≤ l.Flags → ∀ (w : Nat) (wert : Vertex) (p : Bool), g.Vertices[w]? = some wert →
      ¬ (w = v ∧ p = o) → 2 ≤ (wert.list p).Flags → (wert.list p).What ≠ l.What)
    (hlen : g.AdjLists.length ≤ adj.length) :
    RowsOK ⟨adj, g.Vertices.set v (vert.setList o l)⟩ ∧
    (∀ w p, ¬ (w = v ∧ p = o) →
      (DynamicFSM.mk adj (g.Vertices.set v (vert.setList o l))).nb w p = g.nb w p) ∧
    (DynamicFSM.mk adj (g.Vertices.set v (vert.setList o l))).nb v o =
      (match (DynamicFSM.mk adj (g.Vertices.set v (vert.setList o l))).neighbours l with
        | .ok ts => ts
        | .error _ => []) := by
  have hvl : v < g.Vertices.length := by
    by_contra hcon
    rw [List.getElem?_eq_none (by omega)] at hv
    cases hv
  have hnew : (g.Vertices.set v (vert.setList o l))[v]? = some (vert.setList o l) :=
    List.getElem?_set_self hvl
  have hoth : ∀ w, w ≠ v → (g.Vertices.set v (vert.setList o l))[w]? = g.Vertices[w]? :=
    fun w hw => List.getElem?_set_ne (fun h => hw h.symm)
  -- the list `p` of the vertex `w` after the replacement, when it is another list
  have hlist : ∀ (w : Nat) (p : Bool) (wert' : Vertex), ¬ (w = v ∧ p = o) →
      (g.Vertices.set v (vert.setList o l))[w]? = some wert' →
      ∃ wert, g.Vertices[w]? = some wert ∧ wert'.list p = wert.list p := by
    intro w p wert' hne hw
    by_cases hwv : w = v
    · subst hwv
      rw [hnew] at hw
      cases hw
      exact ⟨vert, hv, setList_list_other vert l (fun hp => hne ⟨rfl, hp⟩)⟩
    · rw [hoth w hwv] at hw
      exact ⟨wert', hw, rfl⟩
  refine ⟨⟨?_, ?_⟩, ?_, ?_⟩
  · intro w wert' p hw hfl
    simp only at hw ⊢
    by_cases hsame : w = v ∧ p = o
    · obtain ⟨rfl, rfl⟩ := hsame
      rw [hnew] at hw
      cases hw
      rw [setList_list_same] at hfl ⊢
      exact h1 hfl
    · obtain ⟨wert, hwert, heq⟩ := hlist w p wert' hsame hw
      rw [heq] at hfl ⊢
      exact lt_of_lt_of_le (hR.inside w wert p hwert hfl) hlen
  · intro w w' wert' wert'' p p' hw hw' hfl hfl' hwhat
    simp only at hw hw'
    by_cases hs : w = v ∧ p = o
    · obtain ⟨rfl, rfl⟩ := hs
      rw [hnew] at hw
      cases hw
      rw [setList_list_same] at hfl hwhat
      by_cases hs' : w' = w ∧ p' = p
      · exact ⟨hs'.1.symm, hs'.2.symm⟩
      · obtain ⟨wert, hwert, heq⟩ := hlist w' p' wert'' hs' hw'
        rw [heq] at hfl' hwhat
        exact absurd hwhat.symm (h3 hfl w' wert p' hwert hs' hfl')
    · obtain ⟨wert, hwert, heq⟩ := hlist w p wert' hs hw
      rw [heq] at hfl hwhat
      by_cases hs' : w' = v ∧ p' = o
      · obtain ⟨rfl, rfl⟩ := hs'
        rw [hnew] at hw'
        cases hw'
        rw [setList_list_same] at hfl' hwhat
        exact absurd hwhat (h3 hfl' w wert p hwert hs hfl)
      · obtain ⟨wert2, hwert2, heq2⟩ := hlist w' p' wert'' hs' hw'
        rw [heq2] at hfl' hwhat
        exact hR.apart w w' wert wert2 p p' hwert hwert2 hfl hfl' hwhat
  · intro w p hne
    cases hw : (g.Vertices.set v (vert.setList o l))[w]? with
    | none =>
      have hw0 : g.Vertices[w]? = none := by
        by_cases hwv : w = v
        · subst hwv; rw [hnew] at hw; cases hw
        · rw [hoth w hwv] at hw; exact hw
      rw [nb_none (g := ⟨adj, g.Vertices.set v (vert.setList o l)⟩) hw, nb_none hw0]
    | some wert' =>
      obtain ⟨wert, hwert, heq⟩ := hlist w p wert' hne hw
      rw [nb_some (g := ⟨adj, g.Vertices.set v (vert.setList o l)⟩) hw, nb_some hwert, heq]
      have : (DynamicFSM.mk adj (g.Vertices.set v (vert.setList o l))).neighbours (wert.list p) =
          g.neighbours (wert.list p) := by
        apply neighbours_congr
        intro hfl
        exact h2 _ (hR.inside w wert p hwert hfl)
          (fun hl => h3 hl w wert p hwert hne hfl)
      rw [this]
  · rw [nb_some (g := ⟨adj, g.Vertices.set v (vert.setList o l)⟩) hnew, setList_list_same]

theorem set_same {α : Type} {l : List α} {i : Nat} {a : α} (h : l[i]? = some a) :
    l.set i a = l := by
  apply List.ext_getElem?
  intro j
  by_cases hj : i = j
  · subst hj
    have hlt : i < l.length := by
      by_contra hcon
      rw [List.getElem?_eq_none (by omega)] at h
      cases h
    rw [List.getElem?_set_self hlt, h]
  · rw [List.getElem?_set_ne hj]

/-- What `_add` does to a graph whose side table is used well: it succeeds,
appends `x` to the list it is given and leaves the other lists as they are. -/
theorem add_spec {g : DynamicFSM} (hR : RowsOK g) {v : Nat} {vert : Vertex}
    (hv : g.Vertices[v]? = some vert) (o : Bool) (x : Nat) :
    ∃ g', g.add v o x = .ok g' ∧ RowsOK g' ∧ g'.Vertices.length = g.Vertices.length ∧
      g'.nb v o = g.nb v o ++ [x] ∧
      ∀ w p, ¬ (w = v ∧ p = o) → g'.nb w p = g.nb w p := by
  rcases hfl : (vert.list o).Flags with _ | _ | k
  · obtain ⟨hR', hoth, hnb⟩ := replace_list hR hv o g.AdjLists ⟨x, 1⟩
      (fun h => absurd h (by simp)) (fun r _ _ => rfl)
      (fun h => absurd h (by simp)) (le_refl _)
    refine ⟨_, by simp only [DynamicFSM.add, hv, hfl], hR', by simp, ?_, hoth⟩
    rw [hnb, nb_some hv o]
    simp [DynamicFSM.neighbours, hfl]
  · obtain ⟨hR', hoth, hnb⟩ := replace_list hR hv o
      (g.AdjLists ++ [[(vert.list o).What, x]]) ⟨g.AdjLists.length, 2⟩
      (fun _ => by simp)
      (fun r hr _ => List.getElem?_append_left hr)
      (fun _ w wert p hw hne hflw => by
        have := hR.inside w wert p hw hflw
        simp only
        omega)
      (by simp)
    refine ⟨_, by simp only [DynamicFSM.add, hv, hfl], hR', by simp, ?_, hoth⟩
    rw [hnb, nb_some hv o]
    simp [DynamicFSM.neighbours, hfl]
  · have hin := hR.inside v vert o hv (by omega)
    have hrow : g.AdjLists[(vert.list o).What]? = some (g.AdjLists[(vert.list o).What]) :=
      List.getElem?_eq_getElem hin
    obtain ⟨hR', hoth, hnb⟩ := replace_list hR hv o
      (g.AdjLists.set (vert.list o).What (g.AdjLists[(vert.list o).What] ++ [x])) (vert.list o)
      (fun _ => by simpa using hin)
      (fun r _ hne => List.getElem?_set_ne (fun h => hne (by omega) h.symm))
      (fun _ w wert p hw hne hflw hwhat =>
        hne (hR.apart w v wert vert p o hw hv hflw (by omega) hwhat))
      (by simp)
    rw [setList_self, set_same hv] at hR' hoth hnb
    refine ⟨_, by simp only [DynamicFSM.add, hv, hfl, hrow], hR', rfl, ?_, hoth⟩
    rw [hnb, nb_some hv o]
    simp [DynamicFSM.neighbours, hfl, hrow, List.getElem?_set_self hin]

theorem nb_out (g : DynamicFSM) (v : Nat) : g.nb v true = g.targetsOf v := rfl

theorem nb_in (g : DynamicFSM) (v : Nat) : g.nb v false = g.sourcesOf v := rfl

theorem edgeExists_eq {g : DynamicFSM} {v : Nat} {vert : Vertex}
    (hv : g.Vertices[v]? = some vert) (hR : RowsOK g) (x : Nat) :
    g.edgeExists v x = .ok (decide (x ∈ g.targetsOf v)) := by
  unfold DynamicFSM.edgeExists DynamicFSM.targetsOf
  cases ho : g.outVertices v with
  | ok ts => rfl
  | error e =>
    exfalso
    unfold DynamicFSM.outVertices at ho
    rw [hv] at ho
    simp only [] at ho
    unfold DynamicFSM.neighbours at ho
    rcases hfl : vert.Out.Flags with _ | _ | k
    · rw [hfl] at ho; cases ho
    · rw [hfl] at ho; cases ho
    · rw [hfl] at ho
      simp only [] at ho
      have hin := hR.inside v vert true hv (by simp only [Vertex.list, if_true]; omega)
      simp only [Vertex.list, if_true] at hin
      rw [List.getElem?_eq_getElem hin] at ho
      cases ho

theorem getElem?_lt {α : Type} {l : List α} {i : Nat} {a : α} (h : l[i]? = some a) :
    i < l.length := by
  by_contra hcon
  rw [List.getElem?_eq_none (by omega)] at h
  cases h

/-- What `addEdge` does to a well-built graph, for two vertices of the graph. -/
theorem addEdge_spec {g : DynamicFSM} (hE : EdgesOK g) {s d : Nat}
    (hs : s < g.numVertices) (hd : d < g.numVertices) :
    ∃ g', g.addEdge s d = .ok g' ∧ EdgesOK g' ∧ g'.numVertices = g.numVertices ∧
      (d ∈ g.targetsOf s → g' = g) ∧
      (d ∉ g.targetsOf s →
        g'.targetsOf s = g.targetsOf s ++ [d] ∧ g'.sourcesOf d = g.sourcesOf d ++ [s] ∧
        (∀ w, w ≠ s → g'.targetsOf w = g.targetsOf w) ∧
        (∀ w, w ≠ d → g'.sourcesOf w = g.sourcesOf w)) := by
  have hsv : g.Vertices[s]? = some (g.Vertices[s]) := List.getElem?_eq_getElem hs
  have hdv : g.Vertices[d]? = some (g.Vertices[d]) := List.getElem?_eq_getElem hd
  have hex := edgeExists_eq hsv hE.rows d
  by_cases hmem : d ∈ g.targetsOf s
  · refine ⟨g, ?_, hE, rfl, fun _ => rfl, fun h => absurd hmem h⟩
    unfold DynamicFSM.addEdge
    rw [hex]
    simp [hmem]
  · obtain ⟨g1, hadd1, hR1, hlen1, hnb1, hoth1⟩ := add_spec hE.rows hsv true d
    have hd1 : d < g1.Vertices.length := by rw [hlen1]; exact hd
    have hdv1 : g1.Vertices[d]? = some (g1.Vertices[d]) := List.getElem?_eq_getElem hd1
    obtain ⟨g2, hadd2, hR2, hlen2, hnb2, hoth2⟩ := add_spec hR1 hdv1 false s
    have hT : ∀ w, g2.targetsOf w = if w = s then g.targetsOf s ++ [d] else g.targetsOf w := by
      intro w
      have h2 := hoth2 w true (fun h => by cases h.2)
      rw [nb_out, nb_out] at h2
      rw [h2]
      by_cases hw : w = s
      · subst hw
        rw [if_pos rfl, ← nb_out, hnb1, nb_out]
      · rw [if_neg hw]
        have h1 := hoth1 w true (fun h => hw h.1)
        rw [nb_out, nb_out] at h1
        exact h1
    have hS : ∀ w, g2.sourcesOf w = if w = d then g.sourcesOf d ++ [s] else g.sourcesOf w := by
      intro w
      by_cases hw : w = d
      · subst hw
        rw [if_pos rfl, ← nb_in, hnb2, nb_in]
        have h1 := hoth1 w false (fun h => by cases h.2)
        rw [nb_in, nb_in] at h1
        rw [h1]
      · rw [if_neg hw]
        have h2 := hoth2 w false (fun h => hw h.1)
        have h1 := hoth1 w false (fun h => by cases h.2)
        rw [nb_in, nb_in] at h1 h2
        rw [h2, h1]
    have hnot : s ∉ g.sourcesOf d := fun h => hmem ((hE.mirror s d).1 h)
    refine ⟨g2, ?_, ⟨hR2, ?_, ?_, ?_⟩, ?_, fun h => absurd h hmem, fun _ => ⟨?_, ?_, ?_, ?_⟩⟩
    · unfold DynamicFSM.addEdge
      rw [hex]
      simp only [hmem, decide_False, hadd1, hadd2]
    · intro u v
      rw [hS v, hT u]
      by_cases hv : v = d <;> by_cases hu : u = s
      · subst hv; subst hu; simp
      · subst hv
        rw [if_pos rfl, if_neg hu, List.mem_append, List.mem_singleton]
        constructor
        · rintro (h | h)
          · exact (hE.mirror u v).1 h
          · exact absurd h hu
        · intro h; exact Or.inl ((hE.mirror u v).2 h)
      · subst hu
        rw [if_neg hv, if_pos rfl, List.mem_append, List.mem_singleton]
        constructor
        · intro h; exact Or.inl ((hE.mirror u v).1 h)
        · rintro (h | h)
          · exact (hE.mirror u v).2 h
          · exact absurd h hv
      · rw [if_neg hv, if_neg hu]
        exact hE.mirror u v
    · intro v
      rw [hS v]
      by_cases hv : v = d
      · rw [if_pos hv]
        exact List.Nodup.append (hE.nodupIn d) (List.nodup_singleton s)
          (fun a ha hs' => by
            rw [List.mem_singleton] at hs'
            subst hs'
            exact hnot ha)
      · rw [if_neg hv]; exact hE.nodupIn v
    · intro u
      rw [hT u]
      by_cases hu : u = s
      · rw [if_pos hu]
        exact List.Nodup.append (hE.nodupOut s) (List.nodup_singleton d)
          (fun a ha hs' => by
            rw [List.mem_singleton] at hs'
            subst hs'
            exact hmem ha)
      · rw [if_neg hu]; exact hE.nodupOut u
    · unfold DynamicFSM.numVertices
      rw [hlen2, hlen1]
    · rw [hT s, if_pos rfl]
    · rw [hS d, if_pos rfl]
    · intro w hw; rw [hT w, if_neg hw]
    · intro w hw; rw [hS w, if_neg hw]

/-- A graph with the same side table whose vertices have the same lists, up
to vertices with empty lists that are new. -/
theorem edgesOK_of_same (g g' : DynamicFSM) (hadj : g'.AdjLists = g.AdjLists)
    (hsome : ∀ (w : Nat) (wert' : Vertex), g'.Vertices[w]? = some wert' →
      (∃ wert, g.Vertices[w]? = some wert ∧ wert'.In = wert.In ∧ wert'.Out = wert.Out) ∨
      (g.Vertices[w]? = none ∧ wert'.In.Flags = 0 ∧ wert'.Out.Flags = 0))
    (hnone : ∀ w : Nat, g'.Vertices[w]? = none → g.Vertices[w]? = none)
    (hE : EdgesOK g) : EdgesOK g' := by
  have hl : ∀ (wert wert' : Vertex), wert'.In = wert.In → wert'.Out = wert.Out →
      ∀ p, wert'.list p = wert.list p := by
    intro wert wert' h1 h2 p
    cases p
    · simpa [Vertex.list] using h1
    · simpa [Vertex.list] using h2
  have hnb : ∀ w p, g'.nb w p = g.nb w p := by
    intro w p
    cases hw : g'.Vertices[w]? with
    | none => rw [nb_none hw, nb_none (hnone w hw)]
    | some wert' =>
      rcases hsome w wert' hw with ⟨wert, hwert, h1, h2⟩ | ⟨hn, h1, h2⟩
      · rw [nb_some hw, nb_some hwert, hl wert wert' h1 h2 p]
        rw [@neighbours_congr g g' (wert.list p) (fun _ => by rw [hadj])]
      · rw [nb_some hw, nb_none hn]
        have : (wert'.list p).Flags = 0 := by
          cases p
          · simpa [Vertex.list] using h1
          · simpa [Vertex.list] using h2
        simp [DynamicFSM.neighbours, this]
  have hT : ∀ w, g'.targetsOf w = g.targetsOf w := fun w => hnb w true
  have hS : ∀ w, g'.sourcesOf w = g.sourcesOf w := fun w => hnb w false
  have hflag : ∀ (w : Nat) (wert' : Vertex) (p : Bool), g'.Vertices[w]? = some wert' →
      2 ≤ (wert'.list p).Flags →
      ∃ wert, g.Vertices[w]? = some wert ∧ wert'.list p = wert.list p := by
    intro w wert' p hw hfl
    rcases hsome w wert' hw with ⟨wert, hwert, h1, h2⟩ | ⟨_, h1, h2⟩
    · exact ⟨wert, hwert, hl wert wert' h1 h2 p⟩
    · exfalso
      have : (wert'.list p).Flags = 0 := by
        cases p
        · simpa [Vertex.list] using h1
        · simpa [Vertex.list] using h2
      omega
  refine ⟨⟨?_, ?_⟩, ?_, ?_, ?_⟩
  · intro w wert' p hw hfl
    obtain ⟨wert, hwert, heq⟩ := hflag w wert' p hw hfl
    rw [heq] at hfl ⊢
    rw [hadj]
    exact hE.rows.inside w wert p hwert hfl
  · intro w w' wert' wert'' p p' hw hw' hfl hfl' hwhat
    obtain ⟨wert, hwert, heq⟩ := hflag w wert' p hw hfl
    obtain ⟨wert2, hwert2, heq2⟩ := hflag w' wert'' p' hw' hfl'
    rw [heq] at hfl hwhat
    rw [heq2] at hfl' hwhat
    exact hE.rows.apart w w' wert wert2 p p' hwert hwert2 hfl hfl' hwhat
  · intro u v
    rw [hS, hT]
    exact hE.mirror u v
  · intro v; rw [hS]; exact hE.nodupIn v
  · intro u; rw [hT]; exact hE.nodupOut u

theorem edgesOK_create (numVs : Nat) : EdgesOK (DynamicFSM.create numVs) := by
  have hv : ∀ (w : Nat) (wert : Vertex),
      (DynamicFSM.create numVs).Vertices[w]? = some wert → wert = freshVertex := by
    intro w wert h
    simp only [DynamicFSM.create, List.getElem?_replicate] at h
    split at h
    · cases h; rfl
    · cases h
  have hfl : ∀ p, (freshVertex.list p).Flags = 0 := by
    intro p; cases p <;> rfl
  have hnb : ∀ w p, (DynamicFSM.create numVs).nb w p = [] := by
    intro w p
    cases hw : (DynamicFSM.create numVs).Vertices[w]? with
    | none => exact nb_none hw p
    | some wert =>
      rw [nb_some hw, hv w wert hw]
      simp [DynamicFSM.neighbours, hfl]
  refine ⟨⟨?_, ?_⟩, ?_, ?_, ?_⟩
  · intro w wert p hw h2
    rw [hv w wert hw, hfl] at h2
    omega
  · intro w w' wert wert' p p' hw _ h2
    rw [hv w wert hw, hfl] at h2
    omega
  · intro u v
    rw [← nb_in, ← nb_out, hnb, hnb]
    simp
  · intro v; rw [← nb_in, hnb]; exact List.nodup_nil
  · intro u; rw [← nb_out, hnb]; exact List.nodup_nil

theorem edgesOK_addVertex {g : DynamicFSM} (hE : EdgesOK g) : EdgesOK g.addVertex.1 := by
  refine edgesOK_of_same g g.addVertex.1 rfl ?_ ?_ hE
  · intro w wert' hw
    simp only [DynamicFSM.addVertex] at hw
    by_cases hlt : w < g.Vertices.length
    · rw [List.getElem?_append_left hlt] at hw
      exact Or.inl ⟨wert', hw, rfl, rfl⟩
    · rw [List.getElem?_append_right (by omega)] at hw
      have hw0 : w - g.Vertices.length = 0 := by
        by_contra hcon
        obtain ⟨j, hj⟩ : ∃ j, w - g.Vertices.length = j + 1 := ⟨w - g.Vertices.length - 1, by omega⟩
        rw [hj] at hw
        cases hw
      rw [hw0] at hw
      cases hw
      exact Or.inr ⟨List.getElem?_eq_none (by omega), rfl, rfl⟩
  · intro w hw
    simp only [DynamicFSM.addVertex] at hw
    have : ¬ w < (g.Vertices ++ [freshVertex]).length := by
      intro hlt
      rw [List.getElem?_eq_getElem hlt] at hw
      cases hw
    simp only [List.length_append, List.length_singleton] at this
    exact List.getElem?_eq_none (by omega)

theorem edgesOK_setTran {g : DynamicFSM} (hE : EdgesOK g) (v : Nat) (tr : Option Transition) :
    EdgesOK (g.setTran v tr) := by
  unfold DynamicFSM.setTran
  cases hv : g.Vertices[v]? with
  | none => exact hE
  | some vert =>
    simp only []
    have hvl := getElem?_lt hv
    refine edgesOK_of_same g ⟨g.AdjLists, g.Vertices.set v { vert with Tran := tr }⟩ rfl ?_ ?_ hE
    · intro w wert' hw
      simp only at hw
      by_cases hwv : v = w
      · subst hwv
        rw [List.getElem?_set_self hvl] at hw
        cases hw
        exact Or.inl ⟨vert, hv, rfl, rfl⟩
      · rw [List.getElem?_set_ne hwv] at hw
        exact Or.inl ⟨wert', hw, rfl, rfl⟩
    · intro w hw
      simp only at hw
      by_cases hwv : v = w
      · subst hwv
        rw [List.getElem?_set_self hvl] at hw
        cases hw
      · rw [List.getElem?_set_ne hwv] at hw
        exact hw

theorem addEdge_inv {g g1 : DynamicFSM} {s d : Nat} (h : g.addEdge s d = .ok g1) :
    s < g.numVertices ∧ (d ∈ g.targetsOf s ∨ d < g.numVertices) := by
  unfold DynamicFSM.addEdge at h
  have hs : s < g.numVertices := by
    by_contra hcon
    have : g.Vertices[s]? = none := List.getElem?_eq_none (by unfold DynamicFSM.numVertices at hcon; omega)
    simp [DynamicFSM.edgeExists, DynamicFSM.outVertices, this] at h
  refine ⟨hs, ?_⟩
  by_cases hmem : d ∈ g.targetsOf s
  · exact Or.inl hmem
  · right
    by_contra hcon
    cases hex : g.edgeExists s d with
    | error e => simp [hex] at h
    | ok b =>
      cases b with
      | true =>
        unfold DynamicFSM.edgeExists at hex
        cases ho : g.outVertices s with
        | error e => simp [ho] at hex
        | ok ts =>
          simp only [ho, Except.ok.injEq, decide_eq_true_eq] at hex
          exact hmem (by simpa [DynamicFSM.targetsOf, ho] using hex)
      | false =>
        simp only [hex] at h
        cases ha : g.add s true d with
        | error e => simp [ha] at h
        | ok g2 =>
          simp only [ha] at h
          have hlen : g2.Vertices.length = g.Vertices.length := by
            unfold DynamicFSM.add at ha
            cases hv : g.Vertices[s]? with
            | none => simp [hv] at ha
            | some vert =>
              simp only [hv] at ha
              split at ha
              · cases Except.ok.inj ha; simp
              · cases Except.ok.inj ha; simp
              · split at ha
                · cases ha
                · cases Except.ok.inj ha; rfl
          have : g2.Vertices[d]? = none :=
            List.getElem?_eq_none (by unfold DynamicFSM.numVertices at hcon; omega)
          simp [DynamicFSM.add, this] at h

theorem built_edgesOK {g : DynamicFSM} (h : DynamicFSM.Built g) : EdgesOK g := by
  induction h with
  | create n => exact edgesOK_create n
  | addVertex _ ih => exact edgesOK_addVertex ih
  | @addEdge g g1 s d _ hadd ih =>
    obtain ⟨hs, hd⟩ := addEdge_inv hadd
    rcases hd with hmem | hd
    · have hsv : g.Vertices[s]? = some (g.Vertices[s]) := List.getElem?_eq_getElem hs
      have hex := edgeExists_eq hsv ih.rows d
      unfold DynamicFSM.addEdge at hadd
      rw [hex] at hadd
      simp only [hmem, decide_True] at hadd
      cases Except.ok.inj hadd
      exact ih
    · obtain ⟨g', hg', hE', _⟩ := addEdge_spec ih hs hd
      rw [hadd] at hg'
      cases Except.ok.inj hg'
      exact hE'
  | setTran v tr _ ih => exact edgesOK_setTran ih v tr

theorem degree_eq_length {g : DynamicFSM} (hR : RowsOK g) {v : Nat} {vert : Vertex}
    (hv : g.Vertices[v]? = some vert) (o : Bool) :
    g.degree (vert.list o) = .ok (g.nb v o).length := by
  rw [nb_some hv o]
  unfold DynamicFSM.degree DynamicFSM.neighbours
  rcases hfl : (vert.list o).Flags with _ | _ | k
  · rfl
  · rfl
  · simp only []
    have hin := hR.inside v vert o hv (by omega)
    rw [List.getElem?_eq_getElem hin]

theorem sources_count {g : DynamicFSM} (hE : EdgesOK g) (v : Nat) :
    (g.sourcesOf v).length =
      ((List.range g.numVertices).filter (fun u => decide (v ∈ g.targetsOf u))).length := by
  apply List.Perm.length_eq
  rw [List.perm_ext_iff_of_nodup (hE.nodupIn v) ((List.nodup_range _).filter _)]
  intro u
  rw [List.mem_filter, List.mem_range, decide_eq_true_eq, hE.mirror u v]
  constructor
  · intro h
    refine ⟨?_, h⟩
    by_contra hcon
    have hn : g.Vertices[u]? = none :=
      List.getElem?_eq_none (by unfold DynamicFSM.numVertices at hcon; omega)
    have := nb_none hn true
    rw [nb_out] at this
    rw [this] at h
    cases h
  · exact fun h => h.2

/-- A graph built by three calls of `addEdge` on three fresh vertices: the
edges from 0 to 1, from 0 to 2 and from 1 to 2. -/
theorem built_example :
    DynamicFSM.Built
      ⟨[[1, 2], [0, 1]],
       [⟨none, adjZero, ⟨0, 2⟩⟩, ⟨none, adjOne 0, adjOne 2⟩, ⟨none, ⟨1, 2⟩, adjZero⟩]⟩ := by
  have h0 := DynamicFSM.Built.create 3
  have h1 : DynamicFSM.Built
      ⟨[], [⟨none, adjZero, adjOne 1⟩, ⟨none, adjOne 0, adjZero⟩, freshVertex]⟩ :=
    DynamicFSM.Built.addEdge 0 1 h0 rfl
  have h2 : DynamicFSM.Built
      ⟨[[1, 2]], [⟨none, adjZero, ⟨0, 2⟩⟩, ⟨none, adjOne 0, adjZero⟩,
        ⟨none, adjOne 0, adjZero⟩]⟩ :=
    DynamicFSM.Built.addEdge 0 2 h1 rfl
  exact DynamicFSM.Built.addEdge 1 2 h2 rfl

/-- C18. The degree invariant of the graph. In every graph built through the
interface of `DynamicFSM` (constructor, `addVertex`, `addEdge`, assignment of
transitions), for every vertex `v`: `inDegree(v)` is the number of vertices `u`
whose out-neighbour list contains `v`; `inDegree` and `outDegree` are the
lengths of the in-list and of the out-list (0 for `ZERO`, 1 for `ONE`, the size
of the row `AdjLists[What]` else). -/
theorem inDegree_counts_sources (g : DynamicFSM) (hB : DynamicFSM.Built g) (v : Nat)
    (hv : v < g.numVertices) :
    g.inDegree v =
      .ok ((List.range g.numVertices).filter (fun u => decide (v ∈ g.targetsOf u))).length ∧
    g.inDegree v = .ok (g.sourcesOf v).length ∧
    g.outDegree v = .ok (g.targetsOf v).length := by
  have hE := built_edgesOK hB
  have hvv : g.Vertices[v]? = some (g.Vertices[v]) := List.getElem?_eq_getElem hv
  have hin : g.inDegree v = .ok (g.sourcesOf v).length := by
    have := degree_eq_length hE.rows hvv false
    rw [nb_in] at this
    unfold DynamicFSM.inDegree
    rw [hvv]
    exact this
  have hout : g.outDegree v = .ok (g.targetsOf v).length := by
    have := degree_eq_length hE.rows hvv true
    rw [nb_out] at this
    unfold DynamicFSM.outDegree
    rw [hvv]
    exact this
  refine ⟨?_, hin, hout⟩
  rw [hin, sources_count hE v]

/-- Witness of C18: the vertex 2 of the graph with the edges from 0 to 1, from
0 to 2 and from 1 to 2 has the in-degree 2. -/
theorem inDegree_counts_sources_witness :
    DynamicFSM.Built
      ⟨[[1, 2], [0, 1]],
       [⟨none, adjZero, ⟨0, 2⟩⟩, ⟨none, adjOne 0, adjOne 2⟩, ⟨none, ⟨1, 2⟩, adjZero⟩]⟩ ∧
    DynamicFSM.inDegree
      ⟨[[1, 2], [0, 1]],
       [⟨none, adjZero, ⟨0, 2⟩⟩, ⟨none, adjOne 0, adjOne 2⟩, ⟨none, ⟨1, 2⟩, adjZero⟩]⟩ 2 =
      .ok 2 :=
  ⟨built_example,
    (inDegree_counts_sources _ built_example 2 (by decide)).1⟩

/-- C19. `addEdge` is idempotent. In a graph built through the interface, for
two vertices `source` and `target` of the graph, `addEdge(source, target)`
returns; afterwards `target` is an out-neighbour of `source`, `source` is an
in-neighbour of `target` and `edgeExists(source, target)` is true; a second
call leaves the graph as it is, and so does the first call when
`edgeExists(source, target)` was true before it: no neighbour list and no
degree changes. -/
theorem addEdge_idempotent (g : DynamicFSM) (hB : DynamicFSM.Built g) (source target : Nat)
    (hs : source < g.numVertices) (ht : target < g.numVertices) :
    ∃ g1, g.addEdge source target = .ok g1 ∧
      target ∈ g1.targetsOf source ∧ source ∈ g1.sourcesOf target ∧
      g1.edgeExists source target = .ok true ∧
      g1.addEdge source target = .ok g1 ∧
      (g.edgeExists source target = .ok true → g1 = g) := by
  have hE := built_edgesOK hB
  obtain ⟨g1, hadd, hE1, hn1, hsame, hnew⟩ := addEdge_spec hE hs ht
  have hsv : g.Vertices[source]? = some (g.Vertices[source]) := List.getElem?_eq_getElem hs
  have hs1 : source < g1.Vertices.length := by
    unfold DynamicFSM.numVertices at hn1 hs
    omega
  have hsv1 : g1.Vertices[source]? = some (g1.Vertices[source]) := List.getElem?_eq_getElem hs1
  have hmem1 : target ∈ g1.targetsOf source := by
    by_cases hmem : target ∈ g.targetsOf source
    · rw [hsame hmem]; exact hmem
    · rw [(hnew hmem).1]; simp
  have hex1 : g1.edgeExists source target = .ok true := by
    rw [edgeExists_eq hsv1 hE1.rows]
    simp [hmem1]
  refine ⟨g1, hadd, hmem1, (hE1.mirror source target).2 hmem1, hex1, ?_, ?_⟩
  · unfold DynamicFSM.addEdge
    rw [hex1]
  · intro hex
    rw [edgeExists_eq hsv hE.rows] at hex
    simp only [Except.ok.injEq, decide_eq_true_eq] at hex
    exact hsame hex

/-- Witness of C19: the first edge of a graph of two fresh vertices. -/
theorem addEdge_idempotent_witness :
    DynamicFSM.Built (DynamicFSM.create 2) ∧
    0 < (DynamicFSM.create 2).numVertices ∧ 1 < (DynamicFSM.create 2).numVertices ∧
    ∃ g1, (DynamicFSM.create 2).addEdge 0 1 = .ok g1 ∧
      1 ∈ g1.targetsOf 0 ∧ 0 ∈ g1.sourcesOf 1 ∧
      g1.edgeExists 0 1 = .ok true ∧
      g1.addEdge 0 1 = .ok g1 ∧
      ((DynamicFSM.create 2).edgeExists 0 1 = .ok true → g1 = DynamicFSM.create 2) :=
  ⟨DynamicFSM.Built.create 2, by decide, by decide,
    addEdge_idempotent (DynamicFSM.create 2) (DynamicFSM.Built.create 2) 0 1
      (by decide) (by decide)⟩

/-! ## Pattern lines -/

/-- Counterexample to C20 as stated: the line `abc<TAB>0<TAB>1<TAB>,` has
exactly four fields, its encoding list has no entry, and `parseLine` returns
false (and leaves `keys` as it is). -/
theorem parseLine_returns_true_fails :
    tokenize '\t' "abc\t0\t1\t,".toList = ["abc".toList, "0".toList, "1".toList, ",".toList] ∧
    Options.parseLine ⟨false, false, "ASCII".toList⟩ 7 "abc\t0\t1\t,".toList [] = (false, []) := by
  constructor <;> decide

/-- C20, amended. `Options::parseLine`. For an empty line it returns false and
leaves `keys` unchanged. For a line with exactly one tab-separated field
`text`, the records have the text `text`, the flags of the options
(`LiteralMode`, `CaseInsensitive`) and the encodings of the option `Encoding`;
for a line with exactly four fields the flags are the option values changed by
the fields 2 and 3 (`1` sets the flag, `0` clears it, any other text leaves
it) and the encodings come from the field 4. In both cases one record is
appended to `keys` for each entry of the comma-separated encoding list, in
list order, all with the same text, flags and `keyIndex`; `parseLine` returns
true when the list has an entry, and false (with `keys` unchanged) when it has
none. -/
theorem parseLine_fields (opts : Options) (keyIndex : Nat) (line : List Char)
    (keys : List Pattern) :
    (line = [] → opts.parseLine keyIndex line keys = (false, keys)) ∧
    (∀ text, tokenize '\t' line = [text] →
      opts.parseLine keyIndex line keys =
        (decide (tokenize ',' opts.Encoding ≠ []),
         keys ++ (tokenize ',' opts.Encoding).map
           (fun enc => ⟨text, opts.LiteralMode, opts.CaseInsensitive, keyIndex, enc⟩))) ∧
    (∀ text f2 f3 f4, tokenize '\t' line = [text, f2, f3, f4] →
      opts.parseLine keyIndex line keys =
        (decide (tokenize ',' f4 ≠ []),
         keys ++ (tokenize ',' f4).map
           (fun enc => ⟨text, setBool f2 opts.LiteralMode, setBool f3 opts.CaseInsensitive,
             keyIndex, enc⟩))) := by
  have hne : ∀ toks : List (List Char), toks ≠ [] → tokenize '\t' line = toks → line ≠ [] := by
    intro toks h1 h2 hl
    subst hl
    exact h1 h2.symm
  refine ⟨?_, ?_, ?_⟩
  · intro h
    simp [Options.parseLine, h]
  · intro text htok
    have hl := hne _ (by simp) htok
    unfold Options.parseLine
    rw [if_pos hl]
    simp only [htok]
    by_cases he : tokenize ',' opts.Encoding ≠ []
    · rw [if_pos he]; simp [he]
    · rw [if_neg he]
      have : tokenize ',' opts.Encoding = [] := by simpa using he
      simp [this]
  · intro text f2 f3 f4 htok
    have hl := hne _ (by simp) htok
    unfold Options.parseLine
    rw [if_pos hl]
    simp only [htok]
    by_cases he : tokenize ',' f4 ≠ []
    · rw [if_pos he]; simp [he]
    · rw [if_neg he]
      have : tokenize ',' f4 = [] := by simpa using he
      simp [this]

/-- Witness of C20 (amended): a line with four fields and two encodings. -/
theorem parseLine_fields_witness :
    tokenize '\t' "ab\t1\t0\tASCII,UTF-8".toList =
      ["ab".toList, "1".toList, "0".toList, "ASCII,UTF-8".toList] ∧
    Options.parseLine ⟨false, true, "ASCII".toList⟩ 3 "ab\t1\t0\tASCII,UTF-8".toList [] =
      (true, [⟨"ab".toList, true, false, 3, "ASCII".toList⟩,
              ⟨"ab".toList, true, false, 3, "UTF-8".toList⟩]) := by
  refine ⟨by decide, ?_⟩
  have h := (parseLine_fields ⟨false, true, "ASCII".toList⟩ 3 "ab\t1\t0\tASCII,UTF-8".toList
    []).2.2 "ab".toList "1".toList "0".toList "ASCII,UTF-8".toList (by decide)
  rw [h]
  decide

/-! ## Pattern lines and the command line -/

/-- C21. `setBool(s, b)`: the flag becomes true when `s` is the string "1",
false when `s` is the string "0", and keeps its value for every other
string. -/
theorem setBool_cases (s : List Char) (b : Bool) :
    (s = ['1'] → setBool s b = true) ∧
    (s = ['0'] → setBool s b = false) ∧
    (s ≠ ['1'] → s ≠ ['0'] → setBool s b = b) := by
  refine ⟨?_, ?_, ?_⟩
  · intro h; simp [setBool, h]
  · intro h; subst h; simp [setBool]
  · intro h1 h0; simp [setBool, h1, h0]

/-- Witness of C21: the field `yes` leaves the default `true` as it is (and
the default `false` as well). -/
theorem setBool_cases_witness :
    "yes".toList ≠ ['1'] ∧ "yes".toList ≠ ['0'] ∧
    setBool "yes".toList true = true ∧ setBool "yes".toList false = false :=
  ⟨by decide, by decide,
    (setBool_cases "yes".toList true).2.2 (by decide) (by decide),
    (setBool_cases "yes".toList false).2.2 (by decide) (by decide)⟩

/-- C22 at its failing input: with the patterns `a` and `(` in both encodings,
`lg_add_keyword` accepts the two pairs of `a` and rejects the two pairs of `(`;
`numErrors` is 2, the number of patterns is 2, and `createProgram` returns the
empty handle without calling `buildProgram`. -/
theorem createProgram_drops_accepted_patterns :
    envTwoPatterns.addKeyword 0 LG_ENC_ASCII = true ∧
    envTwoPatterns.addKeyword 0 LG_ENC_UTF_16 = true ∧
    (parsePatterns envTwoPatterns ⟨envTwoPatterns.Patterns, []⟩).numErrors = 2 ∧
    Main.createProgram envTwoPatterns ⟨envTwoPatterns.Patterns, []⟩ = ⟨false, false⟩ ∧
    Main.search envTwoPatterns = some .noProgram := by
  refine ⟨rfl, rfl, ?_, ?_, ?_⟩ <;> decide

/-- C24 at its failing inputs: the command `search` on an input file that
cannot be opened, and the command `search` for which no program is built (the
patterns `a` and `(` in both encodings), both end with the exit code 0. -/
theorem main_search_error_exit_zero :
    Main.search envNoInput = some .noInput ∧ Main.main envNoInput = 0 ∧
    Main.search envTwoPatterns = some .noProgram ∧ Main.main envTwoPatterns = 0 := by
  refine ⟨?_, ?_, ?_, ?_⟩ <;> decide

theorem and_1F (b : Nat) : b &&& 0x1F = b % 32 := Nat.and_pow_two_sub_one_eq_mod b 5
theorem and_3F (b : Nat) : b &&& 0x3F = b % 64 := Nat.and_pow_two_sub_one_eq_mod b 6
theorem and_0F (b : Nat) : b &&& 0x0F = b % 16 := Nat.and_pow_two_sub_one_eq_mod b 4
theorem and_07 (b : Nat) : b &&& 0x07 = b % 8 := Nat.and_pow_two_sub_one_eq_mod b 3

theorem shl_or (a b i : Nat) (h : b < 2 ^ i) : (a <<< i) ||| b = a * 2 ^ i + b := by
  rw [Nat.shiftLeft_eq, Nat.mul_comm a, ← Nat.mul_add_lt_is_or h]

theorem shl_or6 (a b : Nat) (h : b < 64) : (a <<< 6) ||| b = a * 64 + b :=
  shl_or a b 6 h

theorem shl_or12 (a b : Nat) (h : b < 4096) : (a <<< 12) ||| b = a * 4096 + b :=
  shl_or a b 12 h

theorem shl_or18 (a b : Nat) (h : b < 262144) : (a <<< 18) ||| b = a * 262144 + b :=
  shl_or a b 18 h

theorem shl6 (a : Nat) : a <<< 6 = a * 64 := Nat.shiftLeft_eq a 6

theorem shl12 (a : Nat) : a <<< 12 = a * 4096 := Nat.shiftLeft_eq a 12

theorem twobyte_eq (b0 b1 : Nat) : twobyte b0 b1 = (b0 % 32) * 64 + b1 % 64 := by
  unfold twobyte
  rw [and_1F, and_3F]
  exact shl_or6 _ _ (Nat.mod_lt _ (by decide))

theorem threebyte_eq (b0 b1 b2 : Nat) :
    threebyte b0 b1 b2 = (b0 % 16) * 4096 + (b1 % 64) * 64 + b2 % 64 := by
  unfold threebyte
  rw [and_0F, and_3F, and_3F]
  have hb1 := Nat.mod_lt b1 (show 64 > 0 by decide)
  have hb2 := Nat.mod_lt b2 (show 64 > 0 by decide)
  have h1 : ((b0 % 16) <<< 12) ||| ((b1 % 64) <<< 6) = (b0 % 16) * 4096 + (b1 % 64) * 64 := by
    rw [shl6, shl_or12 _ _ (by omega)]
  have h2 : (b0 % 16) * 4096 + (b1 % 64) * 64 = ((b0 % 16) * 64 + b1 % 64) <<< 6 := by
    rw [shl6]; omega
  calc ((b0 % 16) <<< 12) ||| ((b1 % 64) <<< 6) ||| (b2 % 64)
      = (((b0 % 16) * 64 + b1 % 64) <<< 6) ||| (b2 % 64) := by rw [h1, h2]
    _ = ((b0 % 16) * 64 + b1 % 64) * 64 + b2 % 64 := shl_or6 _ _ hb2
    _ = (b0 % 16) * 4096 + (b1 % 64) * 64 + b2 % 64 := by omega

theorem fourbyte_eq (b0 b1 b2 b3 : Nat) :
    fourbyte b0 b1 b2 b3 =
      (b0 % 8) * 262144 + (b1 % 64) * 4096 + (b2 % 64) * 64 + b3 % 64 := by
  unfold fourbyte
  rw [and_07, and_3F, and_3F, and_3F]
  have hb1 := Nat.mod_lt b1 (show 64 > 0 by decide)
  have hb2 := Nat.mod_lt b2 (show 64 > 0 by decide)
  have hb3 := Nat.mod_lt b3 (show 64 > 0 by decide)
  have h1 : ((b0 % 8) <<< 18) ||| ((b1 % 64) <<< 12) = (b0 % 8) * 262144 + (b1 % 64) * 4096 := by
    rw [shl12, shl_or18 _ _ (by omega)]
  have h2 : (b0 % 8) * 262144 + (b1 % 64) * 4096 = ((b0 % 8) * 64 + b1 % 64) <<< 12 := by
    rw [shl12]; omega
  have h3 : (((b0 % 8) * 64 + b1 % 64) <<< 12) ||| ((b2 % 64) <<< 6) =
      ((b0 % 8) * 64 + b1 % 64) * 4096 + (b2 % 64) * 64 := by
    rw [shl6, shl_or12 _ _ (by omega)]
  have h4 : ((b0 % 8) * 64 + b1 % 64) * 4096 + (b2 % 64) * 64 =
      (((b0 % 8) * 64 + b1 % 64) * 64 + b2 % 64) <<< 6 := by
    rw [shl6]; omega
  calc ((b0 % 8) <<< 18) ||| ((b1 % 64) <<< 12) ||| ((b2 % 64) <<< 6) ||| (b3 % 64)
      = ((((b0 % 8) * 64 + b1 % 64) * 64 + b2 % 64) <<< 6) ||| (b3 % 64) := by
        rw [h1, h2, h3, h4]
    _ = (((b0 % 8) * 64 + b1 % 64) * 64 + b2 % 64) * 64 + b3 % 64 := shl_or6 _ _ hb3
    _ = (b0 % 8) * 262144 + (b1 % 64) * 4096 + (b2 % 64) * 64 + b3 % 64 := by omega

set_option maxRecDepth 100000 in
theorem bad_continuation_iff (b : Nat) (hb : b < 256) :
    bad_continuation b = false ↔ 0x80 ≤ b ∧ b ≤ 0xBF := by
  unfold bad_continuation
  revert b
  decide

theorem reference_one (b0 b1 b2 b3 : Nat) (h : b0 < 0x80) :
    utf8_to_unicode_reference b0 b1 b2 b3 = (((onebyte b0 : Nat) : Int), 1) := by
  have hbs : bad_start b0 = false := by
    simp only [bad_start, Bool.or_eq_false_iff, Bool.and_eq_false_iff, decide_eq_false_iff_not]
    omega
  have hl : expected_length b0 = 1 := by
    simp only [expected_length, if_pos h]
  have hchk : (out_of_range (onebyte b0) || utf16_surrogate (onebyte b0) ||
      overlong (onebyte b0) 1) = false := by
    have h1 : out_of_range (onebyte b0) = false := by
      simp only [out_of_range, onebyte, decide_eq_false_iff_not]; omega
    have h2 : utf16_surrogate (onebyte b0) = false := by
      simp only [utf16_surrogate, onebyte, Bool.and_eq_false_iff, decide_eq_false_iff_not]; omega
    rw [h1, h2]
    rfl
  simp only [utf8_to_unicode_reference, hbs, hl, hchk, Bool.false_eq_true, if_false]

theorem reference_bad_start (b0 b1 b2 b3 : Nat) (h : (0x80 ≤ b0 ∧ b0 < 0xC2) ∨ 0xF4 < b0) :
    utf8_to_unicode_reference b0 b1 b2 b3 = ((-1 : Int), 0) := by
  have hbs : bad_start b0 = true := by
    simp only [bad_start, Bool.or_eq_true, Bool.and_eq_true, decide_eq_true_eq]
    omega
  simp only [utf8_to_unicode_reference, hbs, if_true]

theorem reference_two (b0 b1 b2 b3 : Nat) (h : 0xC2 ≤ b0 ∧ b0 ≤ 0xDF) (h1 : b1 < 256) :
    utf8_to_unicode_reference b0 b1 b2 b3 =
      if 0x80 ≤ b1 ∧ b1 ≤ 0xBF then (((twobyte b0 b1 : Nat) : Int), 2) else ((-1 : Int), 0) := by
  have hbs : bad_start b0 = false := by
    simp only [bad_start, Bool.or_eq_false_iff, Bool.and_eq_false_iff, decide_eq_false_iff_not]
    omega
  have hl : expected_length b0 = 2 := by
    simp only [expected_length]
    rw [if_neg (by omega), if_pos (by omega)]
  by_cases hc : 0x80 ≤ b1 ∧ b1 ≤ 0xBF
  · have hb := (bad_continuation_iff b1 h1).2 hc
    have hchk : (out_of_range (twobyte b0 b1) || utf16_surrogate (twobyte b0 b1) ||
        overlong (twobyte b0 b1) 2) = false := by
      rw [twobyte_eq]
      simp only [out_of_range, utf16_surrogate, overlong, Bool.or_eq_false_iff,
        Bool.and_eq_false_iff, decide_eq_false_iff_not]
      omega
    rw [if_pos hc]
    simp only [utf8_to_unicode_reference, hbs, hl, hb, hchk, Bool.false_eq_true, if_false]
  · have hb : bad_continuation b1 = true := by
      cases hbc : bad_continuation b1 with
      | true => rfl
      | false => exact absurd ((bad_continuation_iff b1 h1).1 hbc) hc
    rw [if_neg hc]
    simp only [utf8_to_unicode_reference, hbs, hl, hb, Bool.false_eq_true, if_false, if_true]

theorem reference_three (b0 b1 b2 b3 : Nat) (h : 0xE0 ≤ b0 ∧ b0 ≤ 0xEF) (h1 : b1 < 256)
    (h2 : b2 < 256) :
    utf8_to_unicode_reference b0 b1 b2 b3 =
      if 0x80 ≤ b1 ∧ b1 ≤ 0xBF ∧ 0x80 ≤ b2 ∧ b2 ≤ 0xBF ∧ (b0 = 0xE0 → 0xA0 ≤ b1) ∧
          (b0 = 0xED → b1 ≤ 0x9F) then
        (((threebyte b0 b1 b2 : Nat) : Int), 3)
      else ((-1 : Int), 0) := by
  have hbs : bad_start b0 = false := by
    simp only [bad_start, Bool.or_eq_false_iff, Bool.and_eq_false_iff, decide_eq_false_iff_not]
    omega
  have hl : expected_length b0 = 3 := by
    simp only [expected_length]
    rw [if_neg (by omega), if_neg (by omega), if_pos (by omega)]
  by_cases hc : (0x80 ≤ b1 ∧ b1 ≤ 0xBF) ∧ (0x80 ≤ b2 ∧ b2 ≤ 0xBF)
  · have hb1 := (bad_continuation_iff b1 h1).2 hc.1
    have hb2 := (bad_continuation_iff b2 h2).2 hc.2
    by_cases hv : (b0 = 0xE0 → 0xA0 ≤ b1) ∧ (b0 = 0xED → b1 ≤ 0x9F)
    · have hchk : (out_of_range (threebyte b0 b1 b2) || utf16_surrogate (threebyte b0 b1 b2) ||
          overlong (threebyte b0 b1 b2) 3) = false := by
        rw [threebyte_eq]
        simp only [out_of_range, utf16_surrogate, overlong, Bool.or_eq_false_iff,
          Bool.and_eq_false_iff, decide_eq_false_iff_not]
        omega
      rw [if_pos (by omega)]
      simp only [utf8_to_unicode_reference, hbs, hl, hb1, hb2, hchk, Bool.or_self,
        Bool.false_eq_true, if_false]
    · have hchk : (out_of_range (threebyte b0 b1 b2) || utf16_surrogate (threebyte b0 b1 b2) ||
          overlong (threebyte b0 b1 b2) 3) = true := by
        rw [threebyte_eq]
        simp only [out_of_range, utf16_surrogate, overlong, Bool.or_eq_true,
          Bool.and_eq_true, decide_eq_true_eq]
        omega
      rw [if_neg (by omega)]
      simp only [utf8_to_unicode_reference, hbs, hl, hb1, hb2, hchk, Bool.or_self,
        Bool.false_eq_true, if_false, if_true]
  · have hb : (bad_continuation b1 || bad_continuation b2) = true := by
      cases hbc1 : bad_continuation b1 with
      | true => rfl
      | false =>
        cases hbc2 : bad_continuation b2 with
        | true => rfl
        | false =>
          exact absurd ⟨(bad_continuation_iff b1 h1).1 hbc1, (bad_continuation_iff b2 h2).1 hbc2⟩ hc
    rw [if_neg (by omega)]
    simp only [utf8_to_unicode_reference, hbs, hl, hb, Bool.false_eq_true, if_false, if_true]

theorem reference_four (b0 b1 b2 b3 : Nat) (h : 0xF0 ≤ b0 ∧ b0 ≤ 0xF4) (h1 : b1 < 256)
    (h2 : b2 < 256) (h3 : b3 < 256) :
    utf8_to_unicode_reference b0 b1 b2 b3 =
      if 0x80 ≤ b1 ∧ b1 ≤ 0xBF ∧ 0x80 ≤ b2 ∧ b2 ≤ 0xBF ∧ 0x80 ≤ b3 ∧ b3 ≤ 0xBF ∧
          (b0 = 0xF0 → 0x90 ≤ b1) ∧ (b0 = 0xF4 → b1 ≤ 0x8F) then
        (((fourbyte b0 b1 b2 b3 : Nat) : Int), 4)
      else ((-1 : Int), 0) := by
  have hbs : bad_start b0 = false := by
    simp only [bad_start, Bool.or_eq_false_iff, Bool.and_eq_false_iff, decide_eq_false_iff_not]
    omega
  have hl : expected_length b0 = 4 := by
    simp only [expected_length]
    rw [if_neg (by omega), if_neg (by omega), if_neg (by omega)]
  by_cases hc : (0x80 ≤ b1 ∧ b1 ≤ 0xBF) ∧ (0x80 ≤ b2 ∧ b2 ≤ 0xBF) ∧ (0x80 ≤ b3 ∧ b3 ≤ 0xBF)
  · have hb1 := (bad_continuation_iff b1 h1).2 hc.1
    have hb2 := (bad_continuation_iff b2 h2).2 hc.2.1
    have hb3 := (bad_continuation_iff b3 h3).2 hc.2.2
    by_cases hv : (b0 = 0xF0 → 0x90 ≤ b1) ∧ (b0 = 0xF4 → b1 ≤ 0x8F)
    · have hchk : (out_of_range (fourbyte b0 b1 b2 b3) ||
          utf16_surrogate (fourbyte b0 b1 b2 b3) || overlong (fourbyte b0 b1 b2 b3) 4) = false := by
        rw [fourbyte_eq]
        simp only [out_of_range, utf16_surrogate, overlong, Bool.or_eq_false_iff,
          Bool.and_eq_false_iff, decide_eq_false_iff_not]
        omega
      rw [if_pos (by omega)]
      simp only [utf8_to_unicode_reference, hbs, hl, hb1, hb2, hb3, hchk, Bool.or_self,
        Bool.false_eq_true, if_false]
    · have hchk : (out_of_range (fourbyte b0 b1 b2 b3) ||
          utf16_surrogate (fourbyte b0 b1 b2 b3) || overlong (fourbyte b0 b1 b2 b3) 4) = true := by
        rw [fourbyte_eq]
        simp only [out_of_range, utf16_surrogate, overlong, Bool.or_eq_true,
          Bool.and_eq_true, decide_eq_true_eq]
        omega
      rw [if_neg (by omega)]
      simp only [utf8_to_unicode_reference, hbs, hl, hb1, hb2, hb3, hchk, Bool.or_self,
        Bool.false_eq_true, if_false, if_true]
  · have hb : (bad_continuation b1 || bad_continuation b2 || bad_continuation b3) = true := by
      cases hbc1 : bad_continuation b1 with
      | true => rfl
      | false =>
        cases hbc2 : bad_continuation b2 with
        | true => rfl
        | false =>
          cases hbc3 : bad_continuation b3 with
          | true => rfl
          | false =>
            exact absurd ⟨(bad_continuation_iff b1 h1).1 hbc1,
              (bad_continuation_iff b2 h2).1 hbc2, (bad_continuation_iff b3 h3).1 hbc3⟩ hc
    rw [if_neg (by omega)]
    simp only [utf8_to_unicode_reference, hbs, hl, hb, Bool.false_eq_true, if_false, if_true]

theorem reference_value (b0 b1 b2 b3 : Nat) (h1 : b1 < 256) (h2 : b2 < 256) (h3 : b3 < 256) :
    (utf8Valid b0 b1 b2 b3 → utf8_to_unicode_reference b0 b1 b2 b3 =
      (((utf8Value b0 b1 b2 b3 : Nat) : Int), expected_length b0)) ∧
    (¬ utf8Valid b0 b1 b2 b3 → utf8_to_unicode_reference b0 b1 b2 b3 = ((-1 : Int), 0)) := by
  have yes : ∀ x : Int × Nat, utf8Valid b0 b1 b2 b3 →
      x = (((utf8Value b0 b1 b2 b3 : Nat) : Int), expected_length b0) →
      (utf8Valid b0 b1 b2 b3 → x =
        (((utf8Value b0 b1 b2 b3 : Nat) : Int), expected_length b0)) ∧
      (¬ utf8Valid b0 b1 b2 b3 → x = ((-1 : Int), 0)) :=
    fun x hv hx => ⟨fun _ => hx, fun hn => absurd hv hn⟩
  have no : ∀ x : Int × Nat, ¬ utf8Valid b0 b1 b2 b3 → x = ((-1 : Int), 0) →
      (utf8Valid b0 b1 b2 b3 → x =
        (((utf8Value b0 b1 b2 b3 : Nat) : Int), expected_length b0)) ∧
      (¬ utf8Valid b0 b1 b2 b3 → x = ((-1 : Int), 0)) :=
    fun x hv hx => ⟨fun h => absurd h hv, fun _ => hx⟩
  by_cases hA : b0 < 0x80
  · refine yes _ (Or.inl (by omega)) ?_
    rw [reference_one b0 b1 b2 b3 hA]
    simp only [utf8Value, expected_length, if_pos hA]
  · by_cases hB : b0 < 0xC2 ∨ 0xF4 < b0
    · refine no _ ?_ (reference_bad_start b0 b1 b2 b3 (by omega))
      unfold utf8Valid
      omega
    · by_cases hC : b0 < 0xE0
      · have hl : expected_length b0 = 2 := by
          simp only [expected_length]
          rw [if_neg (by omega), if_pos (by omega)]
        have hval : utf8Value b0 b1 b2 b3 = twobyte b0 b1 := by
          simp only [utf8Value]
          rw [if_neg (by omega), if_pos (by omega)]
        by_cases hc : 0x80 ≤ b1 ∧ b1 ≤ 0xBF
        · refine yes _ (Or.inr (Or.inl (by omega))) ?_
          rw [reference_two b0 b1 b2 b3 (by omega) h1, if_pos hc, hl, hval]
        · refine no _ ?_ ?_
          · unfold utf8Valid
            omega
          · rw [reference_two b0 b1 b2 b3 (by omega) h1, if_neg hc]
      · by_cases hD : b0 < 0xF0
        · have hl : expected_length b0 = 3 := by
            simp only [expected_length]
            rw [if_neg (by omega), if_neg (by omega), if_pos (by omega)]
          have hval : utf8Value b0 b1 b2 b3 = threebyte b0 b1 b2 := by
            simp only [utf8Value]
            rw [if_neg (by omega), if_neg (by omega), if_pos (by omega)]
          by_cases hc : 0x80 ≤ b1 ∧ b1 ≤ 0xBF ∧ 0x80 ≤ b2 ∧ b2 ≤ 0xBF ∧ (b0 = 0xE0 → 0xA0 ≤ b1) ∧
              (b0 = 0xED → b1 ≤ 0x9F)
          · refine yes _ ?_ ?_
            · unfold utf8Valid
              omega
            · rw [reference_three b0 b1 b2 b3 (by omega) h1 h2, if_pos hc, hl, hval]
          · refine no _ ?_ ?_
            · unfold utf8Valid
              omega
            · rw [reference_three b0 b1 b2 b3 (by omega) h1 h2, if_neg hc]
        · have hl : expected_length b0 = 4 := by
            simp only [expected_length]
            rw [if_neg (by omega), if_neg (by omega), if_neg (by omega)]
          have hval : utf8Value b0 b1 b2 b3 = fourbyte b0 b1 b2 b3 := by
            simp only [utf8Value]
            rw [if_neg (by omega), if_neg (by omega), if_neg (by omega)]
          by_cases hc : 0x80 ≤ b1 ∧ b1 ≤ 0xBF ∧ 0x80 ≤ b2 ∧ b2 ≤ 0xBF ∧ 0x80 ≤ b3 ∧ b3 ≤ 0xBF ∧
              (b0 = 0xF0 → 0x90 ≤ b1) ∧ (b0 = 0xF4 → b1 ≤ 0x8F)
          · refine yes _ ?_ ?_
            · unfold utf8Valid
              omega
            · rw [reference_four b0 b1 b2 b3 (by omega) h1 h2 h3, if_pos hc, hl, hval]
          · refine no _ ?_ ?_
            · unfold utf8Valid
              omega
            · rw [reference_four b0 b1 b2 b3 (by omega) h1 h2 h3, if_neg hc]

/-- The reference decoder `utf8_to_unicode_reference` and the table of
`utf8_to_unicode_tester`. For every window of four bytes `b0 b1 b2 b3` the
decoder returns a code point (not `-1`) if and only if the window is in the
table of the tester (`utf8Valid`: `b0` in `[00,7F]`; `b0` in `[C2,DF]` and `b1`
in `[80,BF]`; `E0 [A0,BF] [80,BF]`; `[E1,EC]` or `[EE,EF]` with two
continuation bytes; `ED [80,9F] [80,BF]`; `F0 [90,BF] [80,BF] [80,BF]`;
`[F1,F3]` with three continuation bytes; `F4 [80,8F] [80,BF] [80,BF]`). In
that case the value is `onebyte`, `twobyte`, `threebyte` or `fourbyte` of the
window and the iterator advances by the expected length; in every other case
the value is `-1`. -/
theorem utf8_reference_decodes (b0 b1 b2 b3 : Nat) (h1 : b1 < 256) (h2 : b2 < 256)
    (h3 : b3 < 256) :
    ((utf8_to_unicode_reference b0 b1 b2 b3).1 ≠ -1 ↔ utf8Valid b0 b1 b2 b3) ∧
    (utf8Valid b0 b1 b2 b3 →
      utf8_to_unicode_reference b0 b1 b2 b3 =
        (((utf8Value b0 b1 b2 b3 : Nat) : Int), expected_length b0)) ∧
    (¬ utf8Valid b0 b1 b2 b3 → utf8_to_unicode_reference b0 b1 b2 b3 = ((-1 : Int), 0)) := by
  obtain ⟨hyes, hno⟩ := reference_value b0 b1 b2 b3 h1 h2 h3
  refine ⟨?_, hyes, hno⟩
  by_cases hv : utf8Valid b0 b1 b2 b3
  · rw [hyes hv]
    simp only [ne_eq, hv, iff_true]
    omega
  · rw [hno hv]
    simp [hv]

/-- The reference decoder on two windows: `E2 82 AC 00` holds U+20AC in three
bytes, and `ED A0 80 00` (a UTF-16 surrogate) is rejected. -/
theorem utf8_reference_decodes_witness :
    (0x82 < 256 ∧ 0xAC < 256 ∧ 0x00 < 256) ∧
    utf8Valid 0xE2 0x82 0xAC 0x00 ∧
    utf8_to_unicode_reference 0xE2 0x82 0xAC 0x00 = (0x20AC, 3) ∧
    ¬ utf8Valid 0xED 0xA0 0x80 0x00 ∧
    utf8_to_unicode_reference 0xED 0xA0 0x80 0x00 = (-1, 0) := by
  have hv : utf8Valid 0xE2 0x82 0xAC 0x00 := by unfold utf8Valid; omega
  have hn : ¬ utf8Valid 0xED 0xA0 0x80 0x00 := by unfold utf8Valid; omega
  refine ⟨by decide, hv, ?_, hn, ?_⟩
  · rw [(utf8_reference_decodes 0xE2 0x82 0xAC 0x00 (by decide) (by decide) (by decide)).2.1 hv]
    rfl
  · exact (utf8_reference_decodes 0xED 0xA0 0x80 0x00 (by decide) (by decide) (by decide)).2.2 hn

/-! ## Invariants of the loop over the active list -/

/-- An invariant of the check bits and the two thread lists that every step
keeps is kept by the loop over the active list. -/
theorem activeLoop_invariant
    (step : Thread → List Bool → ThreadList → ThreadList → Except Fault ExecResult)
    (Inv : List Bool → ThreadList → ThreadList → Prop)
    (hstep : ∀ (i : Nat) (t : Thread) (cs : List Bool) (a nx : ThreadList) (r : ExecResult),
      a[i]? = some t → step t cs a nx = .ok r → Inv cs a nx →
      Inv r.checkStates (r.active.set i r.t) r.next)
    (offset : Nat) :
    ∀ (n i : Nat) (vm vm' : Vm) (hits hits' : List SearchHit),
      activeLoop step offset n i vm hits = .ok (vm', hits') →
      Inv vm.CheckStates vm.Active vm.Next → Inv vm'.CheckStates vm'.Active vm'.Next := by
  intro n
  induction n with
  | zero =>
    intro i vm vm' hits hits' h hinv
    simp only [activeLoop] at h
    split at h
    · cases h
    · cases Except.ok.inj h; exact hinv
  | succ n ih =>
    intro i vm vm' hits hits' h hinv
    simp only [activeLoop] at h
    cases hi : vm.Active[i]? with
    | none =>
      simp only [hi] at h
      cases Except.ok.inj h
      exact hinv
    | some t =>
      simp only [hi] at h
      cases hs : step t vm.CheckStates vm.Active vm.Next with
      | error e => simp [hs] at h
      | ok r =>
        simp only [hs] at h
        cases hr : reconcile r.t offset vm.Matches hits with
        | error e => simp [hr] at h
        | ok p =>
          obtain ⟨cells, hits1⟩ := p
          simp only [hr] at h
          exact ih _ _ _ _ _ h (hstep i t _ _ _ r hi hs hinv)

theorem execute_dirty {prog : Program} {t : Thread} {cs : List Bool} {a nx : ThreadList}
    {c : Byte} {q : Nat} {r : ExecResult} (h : Vm.execute prog t cs a nx c q = .ok r)
    (hd : DirtyOK cs) : DirtyOK r.checkStates ∧ r.checkStates.length = cs.length := by
  unfold Vm.execute at h
  cases hf : fetch prog t with
  | error e => simp [hf] at h
  | ok p =>
    obtain ⟨pc, ins⟩ := p
    simp only [hf] at h
    cases ins with
    | LIT_OP b => simp only [] at h; split at h <;> cases Except.ok.inj h <;> exact ⟨hd, rfl⟩
    | EITHER_OP x y => simp only [] at h; split at h <;> cases Except.ok.inj h <;> exact ⟨hd, rfl⟩
    | RANGE_OP lo hi => simp only [] at h; split at h <;> cases Except.ok.inj h <;> exact ⟨hd, rfl⟩
    | JUMP_OP addr => cases Except.ok.inj h; exact ⟨hd, rfl⟩
    | JUMP_TABLE_OP =>
      simp only [] at h
      cases hs : prog[pc + (1 + c)]? with
      | none => simp [hs] at h
      | some slot =>
        simp only [hs] at h
        split at h <;> cases Except.ok.inj h <;> exact ⟨hd, rfl⟩
    | FORK_OP addr => cases Except.ok.inj h; exact ⟨hd, rfl⟩
    | CHECK_BRANCH_OP idx =>
      simp only [checkBranch] at h
      cases hb : cs[idx]? with
      | none => simp [hb] at h
      | some b =>
        cases b <;> simp only [hb] at h <;> cases Except.ok.inj h
        · exact ⟨dirtyOK_set cs idx, by simp⟩
        · exact ⟨hd, rfl⟩
    | CHECK_HALT_OP idx =>
      simp only [checkHalt] at h
      cases hb : cs[idx]? with
      | none => simp [hb] at h
      | some b =>
        cases b <;> simp only [hb] at h <;> cases Except.ok.inj h
        · exact ⟨dirtyOK_set cs idx, by simp⟩
        · exact ⟨hd, rfl⟩
    | MATCH_OP l => cases Except.ok.inj h; exact ⟨hd, rfl⟩
    | HALT_OP => cases Except.ok.inj h; exact ⟨hd, rfl⟩

theorem executeEpsilons_dirty {prog : Program} {t : Thread} {cs : List Bool}
    {a nx : ThreadList} {q : Nat} {r : ExecResult}
    (h : executeEpsilons prog t cs a nx q = .ok r) (hd : DirtyOK cs) :
    DirtyOK r.checkStates ∧ r.checkStates.length = cs.length := by
  unfold executeEpsilons at h
  cases hf : fetch prog t with
  | error e => simp [hf] at h
  | ok p =>
    obtain ⟨pc, ins⟩ := p
    simp only [hf] at h
    cases ins with
    | LIT_OP b => cases Except.ok.inj h; exact ⟨hd, rfl⟩
    | EITHER_OP x y => cases Except.ok.inj h; exact ⟨hd, rfl⟩
    | RANGE_OP lo hi => cases Except.ok.inj h; exact ⟨hd, rfl⟩
    | JUMP_TABLE_OP => cases Except.ok.inj h; exact ⟨hd, rfl⟩
    | JUMP_OP addr => cases Except.ok.inj h; exact ⟨hd, rfl⟩
    | FORK_OP addr => cases Except.ok.inj h; exact ⟨hd, rfl⟩
    | CHECK_BRANCH_OP idx =>
      simp only [checkBranch] at h
      cases hb : cs[idx]? with
      | none => simp [hb] at h
      | some b =>
        cases b <;> simp only [hb] at h <;> cases Except.ok.inj h
        · exact ⟨dirtyOK_set cs idx, by simp⟩
        · exact ⟨hd, rfl⟩
    | CHECK_HALT_OP idx =>
      simp only [checkHalt] at h
      cases hb : cs[idx]? with
      | none => simp [hb] at h
      | some b =>
        cases b <;> simp only [hb] at h <;> cases Except.ok.inj h
        · exact ⟨dirtyOK_set cs idx, by simp⟩
        · exact ⟨hd, rfl⟩
    | MATCH_OP l => cases Except.ok.inj h; exact ⟨hd, rfl⟩
    | HALT_OP => cases Except.ok.inj h; exact ⟨hd, rfl⟩

theorem runThread_dirty {prog : Program} {c : Byte} {q : Nat} :
    ∀ (n : Nat) (t : Thread) (cs : List Bool) (a nx : ThreadList) (r : ExecResult),
      runThread prog c q n t cs a nx = .ok r → DirtyOK cs →
      DirtyOK r.checkStates ∧ r.checkStates.length = cs.length := by
  intro n
  induction n with
  | zero => intro t cs a nx r h; simp [runThread] at h
  | succ n ih =>
    intro t cs a nx r h hd
    simp only [runThread] at h
    cases he : Vm.execute prog t cs a nx c q with
    | error e => simp [he] at h
    | ok r1 =>
      simp only [he] at h
      obtain ⟨h1, h2⟩ := execute_dirty he hd
      by_cases hret : r1.ret = true
      · rw [if_pos hret] at h
        obtain ⟨h3, h4⟩ := ih _ _ _ _ _ h h1
        exact ⟨h3, h4.trans h2⟩
      · rw [if_neg hret] at h
        cases Except.ok.inj h
        exact ⟨h1, h2⟩

theorem runThreadEpsilons_dirty {prog : Program} {q : Nat} :
    ∀ (n : Nat) (t : Thread) (cs : List Bool) (a nx : ThreadList) (r : ExecResult),
      runThreadEpsilons prog q n t cs a nx = .ok r → DirtyOK cs →
      DirtyOK r.checkStates ∧ r.checkStates.length = cs.length := by
  intro n
  induction n with
  | zero => intro t cs a nx r h; simp [runThreadEpsilons] at h
  | succ n ih =>
    intro t cs a nx r h hd
    simp only [runThreadEpsilons] at h
    cases he : executeEpsilons prog t cs a nx q with
    | error e => simp [he] at h
    | ok r1 =>
      simp only [he] at h
      obtain ⟨h1, h2⟩ := executeEpsilons_dirty he hd
      by_cases hret : r1.ret = true
      · rw [if_pos hret] at h
        obtain ⟨h3, h4⟩ := ih _ _ _ _ _ h h1
        exact ⟨h3, h4.trans h2⟩
      · rw [if_neg hret] at h
        cases Except.ok.inj h
        exact ⟨h1, h2⟩

theorem clearCheckStates_clean {cs cs' : List Bool} (hd : DirtyOK cs)
    (h : clearCheckStates cs = .ok cs') : cs' = List.replicate cs.length false := by
  have hlen : 0 < cs.length := by
    by_contra hcon
    unfold clearCheckStates at h
    rw [List.getElem?_eq_none (by omega)] at h
    cases h
  rw [clearCheckStates_dirtyOK hd hlen] at h
  exact (Except.ok.inj h).symm

theorem dirtyOK_replicate (n : Nat) : DirtyOK (List.replicate n false) := by
  apply dirtyOK_of_clean
  intro i
  rw [List.getElem?_replicate]
  split <;> simp

theorem byteStep_clean (n : Nat) (vm vm' : Vm) (c : Byte) (q : Nat)
    (hits hits' : List SearchHit) (nc : Nat)
    (h : byteStep n vm c q hits = .ok (vm', hits'))
    (hcs : vm.CheckStates = List.replicate nc false) :
    vm'.CheckStates = List.replicate nc false ∧ vm'.Prog = vm.Prog ∧ vm'.First = vm.First := by
  have key : ∀ vm1 : Vm, vm1.First = vm.First → vm1.Prog = vm.Prog →
      vm1.CheckStates = vm.CheckStates →
      (match activeLoop (runThread vm1.Prog c q n) q n 0 vm1 hits with
        | .error e => .error e
        | .ok (vm2, hits2) =>
          match clearCheckStates vm2.CheckStates with
          | .error e => .error e
          | .ok cs => .ok ({ vm2 with Active := vm2.Next, Next := [], CheckStates := cs }, hits2))
        = Except.ok (vm', hits') →
      vm'.CheckStates = List.replicate nc false ∧ vm'.Prog = vm.Prog ∧
        vm'.First = vm.First := by
    intro vm1 hf hp hc1 hm
    cases hal : activeLoop (runThread vm1.Prog c q n) q n 0 vm1 hits with
    | error e => simp [hal] at hm
    | ok p =>
      obtain ⟨vm2, hits2⟩ := p
      simp only [hal] at hm
      cases hc : clearCheckStates vm2.CheckStates with
      | error e => simp [hc] at hm
      | ok cs =>
        simp only [hc, Except.ok.injEq, Prod.mk.injEq] at hm
        obtain ⟨hvm, _⟩ := hm
        subst hvm
        have hinv := activeLoop_invariant (runThread vm1.Prog c q n)
          (fun cs _ _ => DirtyOK cs ∧ cs.length = nc)
          (fun i t cs a nx r _ hr hI => by
            obtain ⟨h1, h2⟩ := runThread_dirty n t cs a nx r hr hI.1
            exact ⟨h1, h2.trans hI.2⟩)
          q n 0 vm1 vm2 hits hits2 hal
          (by rw [hc1, hcs]; exact ⟨dirtyOK_replicate nc, by simp⟩)
        obtain ⟨hp2, hf2⟩ := activeLoop_fields _ q n 0 vm1 vm2 hits hits2 hal
        refine ⟨?_, hp2.trans hp, hf2.trans hf⟩
        simp only
        rw [clearCheckStates_clean hinv.1 hc, hinv.2]
  have hb : byteStep n vm c q hits =
      (match activeLoop (runThread
          (if vm.First c then { vm with Active := vm.Active ++ [⟨some 0, 0, q, UNALLOCATED⟩] }
            else vm).Prog c q n) q n 0
          (if vm.First c then { vm with Active := vm.Active ++ [⟨some 0, 0, q, UNALLOCATED⟩] }
            else vm) hits with
        | .error e => .error e
        | .ok (vm2, hits2) =>
          match clearCheckStates vm2.CheckStates with
          | .error e => .error e
          | .ok cs => .ok ({ vm2 with Active := vm2.Next, Next := [], CheckStates := cs }, hits2))
      := rfl
  rw [hb] at h
  refine key _ ?_ ?_ ?_ h
  · split <;> rfl
  · split <;> rfl
  · split <;> rfl

theorem byteLoop_clean (n nc : Nat) :
    ∀ (input : List Byte) (vm vm' : Vm) (q q' : Nat) (hits hits' : List SearchHit),
      byteLoop n input vm q hits = .ok (vm', q', hits') →
      vm.CheckStates = List.replicate nc false →
      vm'.CheckStates = List.replicate nc false ∧ vm'.Prog = vm.Prog ∧
        vm'.First = vm.First := by
  intro input
  induction input with
  | nil =>
    intro vm vm' q q' hits hits' h hcs
    simp only [byteLoop, Except.ok.injEq, Prod.mk.injEq] at h
    obtain ⟨rfl, _, _⟩ := h
    exact ⟨hcs, rfl, rfl⟩
  | cons c rest ih =>
    intro vm vm' q q' hits hits' h hcs
    simp only [byteLoop] at h
    cases hs : byteStep n vm c q hits with
    | error e => simp [hs] at h
    | ok p =>
      obtain ⟨vm1, hits1⟩ := p
      simp only [hs] at h
      obtain ⟨h1, h2, h3⟩ := byteStep_clean n vm vm1 c q hits hits1 nc hs hcs
      obtain ⟨h4, h5, h6⟩ := ih vm1 vm' (inc64 q) q' hits1 hits' h h1
      exact ⟨h4, h5.trans h2, h6.trans h3⟩

/-- C26. The check bits are clean at every byte boundary. `Vm::execute` and
`executeEpsilons` keep the property that a set check bit comes with a set bit
0 (`DirtyOK`). Hence, starting from the state left by `Vm::init`, after any
number of bytes of a search (at the start of the next byte) and when
`Vm::search` returns, every check bit is false. -/
theorem check_bits_clean (prog : Program) (first : ByteSet) (nc : Nat) :
    (∀ (t : Thread) (cs : List Bool) (a nx : ThreadList) (c : Byte) (q : Nat) (r : ExecResult),
      Vm.execute prog t cs a nx c q = .ok r → DirtyOK cs → DirtyOK r.checkStates) ∧
    (∀ (t : Thread) (cs : List Bool) (a nx : ThreadList) (q : Nat) (r : ExecResult),
      executeEpsilons prog t cs a nx q = .ok r → DirtyOK cs → DirtyOK r.checkStates) ∧
    (∀ (fuel : Nat) (input : List Byte) (startOffset : Nat) (vm : Vm) (q : Nat)
        (hits : List SearchHit),
      byteLoop fuel input (Vm.init prog first nc) startOffset [] = .ok (vm, q, hits) →
      vm.CheckStates = List.replicate nc false) ∧
    (∀ (fuel : Nat) (input : List Byte) (startOffset : Nat) (res : SearchResult),
      Vm.search fuel (Vm.init prog first nc) input startOffset = .ok res →
      res.vm.CheckStates = List.replicate nc false) := by
  refine ⟨fun t cs a nx c q r h hd => (execute_dirty h hd).1,
    fun t cs a nx q r h hd => (executeEpsilons_dirty h hd).1,
    fun fuel input startOffset vm q hits h =>
      (byteLoop_clean fuel nc input _ _ _ _ _ _ h rfl).1, ?_⟩
  intro fuel input startOffset res h
  rw [search_eq_searchEnd] at h
  cases hb : byteLoop fuel input (Vm.init prog first nc) startOffset [] with
  | error e => simp [hb] at h
  | ok p =>
    obtain ⟨vm1, q, hits1⟩ := p
    simp only [hb] at h
    obtain ⟨h1, _, _⟩ := byteLoop_clean fuel nc input _ _ _ _ _ _ hb rfl
    unfold searchEnd at h
    cases hal : activeLoop (runThreadEpsilons vm1.Prog q fuel) q fuel 0 vm1 hits1 with
    | error e => simp [hal] at h
    | ok p2 =>
      obtain ⟨vm2, hits2⟩ := p2
      simp only [hal] at h
      cases hc : clearCheckStates vm2.CheckStates with
      | error e => simp [hc] at h
      | ok cs =>
        simp only [hc, Except.ok.injEq] at h
        subst h
        have hinv := activeLoop_invariant (runThreadEpsilons vm1.Prog q fuel)
          (fun cs _ _ => DirtyOK cs ∧ cs.length = nc)
          (fun i t cs a nx r _ hr hI => by
            obtain ⟨h1, h2⟩ := runThreadEpsilons_dirty fuel t cs a nx r hr hI.1
            exact ⟨h1, h2.trans hI.2⟩)
          q fuel 0 vm1 vm2 hits1 hits2 hal
          (by rw [h1]; exact ⟨dirtyOK_replicate nc, by simp⟩)
        simp only
        rw [clearCheckStates_clean hinv.1 hc, hinv.2]

/-- Witness of C26: the search of "acbc" with the program of "ac|bc", which
sets the check bit 1 on the way, returns with clean check bits. -/
theorem check_bits_clean_witness :
    ∃ res, Vm.search 4 (Vm.init progJoin firstJoin 2) [97, 99, 98, 99] 0 = .ok res ∧
      res.hits = [⟨0, 2, 0⟩, ⟨2, 2, 0⟩] ∧ res.vm.CheckStates = List.replicate 2 false :=
  ⟨_, rfl, rfl,
    (check_bits_clean progJoin firstJoin 2).2.2.2 4 [97, 99, 98, 99] 0 _ rfl⟩

/-! ## Seeding -/

theorem byteStep_eq_stepActive (fuel : Nat) (vm : Vm) (c : Byte) (q : Nat)
    (hits : List SearchHit) :
    byteStep fuel vm c q hits = stepActive fuel (vm.seed c q) c q hits := rfl

theorem byteLoop_append (fuel : Nat) :
    ∀ (pre : List Byte) (c : Byte) (post : List Byte) (vm vm1 : Vm) (q q1 : Nat)
      (hits h1 : List SearchHit),
      byteLoop fuel pre vm q hits = .ok (vm1, q1, h1) → q + pre.length < 2 ^ 64 →
      q1 = q + pre.length ∧ vm1.First = vm.First ∧
      byteLoop fuel (pre ++ c :: post) vm q hits =
        (match byteStep fuel vm1 c (q + pre.length) h1 with
          | .error e => .error e
          | .ok (vm2, h2) => byteLoop fuel post vm2 (inc64 (q + pre.length)) h2) := by
  intro pre
  induction pre with
  | nil =>
    intro c post vm vm1 q q1 hits h1 h _
    simp only [byteLoop, Except.ok.injEq, Prod.mk.injEq] at h
    obtain ⟨rfl, rfl, rfl⟩ := h
    exact ⟨rfl, rfl, rfl⟩
  | cons b rest ih =>
    intro c post vm vm1 q q1 hits h1 h hq
    simp only [List.length_cons] at hq
    simp only [byteLoop] at h
    cases hs : byteStep fuel vm b q hits with
    | error e => simp [hs] at h
    | ok p =>
      obtain ⟨vmb, hb⟩ := p
      simp only [hs] at h
      have hinc : inc64 q = q + 1 := by
        unfold inc64
        exact Nat.mod_eq_of_lt (by omega)
      rw [hinc] at h
      obtain ⟨h2, h3, h4⟩ := ih c post vmb vm1 (q + 1) q1 hb h1 h (by omega)
      have hfirst : vmb.First = vm.First := by
        obtain ⟨s, cs', _, _, hres⟩ := (byteStep_ok_iff fuel vm b q hits (vmb, hb)).mp hs
        cases hres
        rfl
      refine ⟨by simp only [List.length_cons]; omega, h3.trans hfirst, ?_⟩
      simp only [List.cons_append, byteLoop, hs, hinc, List.length_cons]
      rw [show q + 1 + rest.length = q + (rest.length + 1) by omega] at h4
      exact h4

/-- Counterexample to C27 as stated: the thread seeded by the machine of
scenario S1 on the byte `a` at the offset 1 has the label 0, the label of the
first pattern (the one that `MATCH 0` writes), not a value that stands for "no
label". -/
theorem seed_label_is_zero :
    ((Vm.init progABC (singleByte 97) 1).seed 97 1).Active = [⟨some 0, 0, 1, UNALLOCATED⟩] ∧
    (∀ t ∈ ((Vm.init progABC (singleByte 97) 1).seed 97 1).Active,
      t.Label = 0 ∧ t.Label ≠ NOLABEL) ∧
    progABC[3]? = some (.MATCH_OP 0) := by
  refine ⟨rfl, ?_, rfl⟩
  intro t ht
  have : ((Vm.init progABC (singleByte 97) 1).seed 97 1).Active =
      [⟨some 0, 0, 1, UNALLOCATED⟩] := rfl
  rw [this, List.mem_singleton] at ht
  subst ht
  exact ⟨rfl, by decide⟩

/-- C27, amended. Seeding in `Vm::search`. The byte `c` that follows the bytes
`pre` of the block is processed at the absolute offset `startOffset +
pre.length` (the i-th byte at `startOffset + i`); its threads are run on the
machine that the seeding leaves, in which a new thread is appended to the
active list if and only if `First` contains the byte. The seeded thread has
pc 0 (the first instruction of the program), start `startOffset + i`, the end
`UNALLOCATED` (the maximum 64-bit value, for no end) and the label 0. -/
theorem seeding_at_each_byte (fuel : Nat) (pre : List Byte) (c : Byte) (post : List Byte)
    (vm vm1 : Vm) (startOffset q1 : Nat) (hits h1 : List SearchHit)
    (hpre : byteLoop fuel pre vm startOffset hits = .ok (vm1, q1, h1))
    (hq : startOffset + pre.length < 2 ^ 64) :
    byteLoop fuel (pre ++ c :: post) vm startOffset hits =
      (match stepActive fuel (vm1.seed c (startOffset + pre.length)) c
          (startOffset + pre.length) h1 with
        | .error e => .error e
        | .ok (vm2, h2) => byteLoop fuel post vm2 (inc64 (startOffset + pre.length)) h2) ∧
    vm1.First = vm.First ∧
    (vm.First c = true →
      (vm1.seed c (startOffset + pre.length)).Active =
        vm1.Active ++ [⟨some 0, 0, startOffset + pre.length, UNALLOCATED⟩]) ∧
    (vm.First c = false → vm1.seed c (startOffset + pre.length) = vm1) ∧
    UNALLOCATED = 2 ^ 64 - 1 := by
  obtain ⟨_, hf, hloop⟩ := byteLoop_append fuel pre c post vm vm1 startOffset q1 hits h1 hpre hq
  refine ⟨hloop, hf, ?_, ?_, by decide⟩
  · intro hc
    unfold Vm.seed
    rw [hf, hc]
    rfl
  · intro hc
    unfold Vm.seed
    rw [hf, hc]
    rfl

/-- Witness of C27 (amended): scenario S1 after the byte `x`; the byte `a` at
the offset 1 seeds a thread. -/
theorem seeding_at_each_byte_witness :
    byteLoop 3 [120] (Vm.init progABC (singleByte 97) 1) 0 [] =
      .ok (Vm.init progABC (singleByte 97) 1, 1, []) ∧
    0 + ([120] : List Byte).length < 2 ^ 64 ∧
    ((Vm.init progABC (singleByte 97) 1).First 97 = true →
      ((Vm.init progABC (singleByte 97) 1).seed 97 (0 + ([120] : List Byte).length)).Active =
        (Vm.init progABC (singleByte 97) 1).Active ++
          [⟨some 0, 0, 0 + ([120] : List Byte).length, UNALLOCATED⟩]) :=
  ⟨rfl, by decide,
    (seeding_at_each_byte 3 [120] 97 [98, 99] (Vm.init progABC (singleByte 97) 1)
      (Vm.init progABC (singleByte 97) 1) 0 1 [] [] rfl (by decide)).2.2.1⟩

/-! ## The pass after the last byte -/

theorem executeEpsilons_consuming {prog : Program} {t : Thread} {pc : Nat} {ins : Instruction}
    (hf : fetch prog t = .ok (pc, ins)) (hc : ins.isConsuming) (cs : List Bool)
    (a nx : ThreadList) (q : Nat) :
    executeEpsilons prog t cs a nx q = .ok ⟨false, t, cs, a, nx ++ [t]⟩ := by
  unfold executeEpsilons
  rw [hf]
  cases ins <;> first | rfl | exact absurd hc (by simp [Instruction.isConsuming])

theorem executeEpsilons_eq_execute {prog : Program} {t : Thread} {pc : Nat} {ins : Instruction}
    (hf : fetch prog t = .ok (pc, ins)) (hc : ¬ ins.isConsuming) (cs : List Bool)
    (a nx : ThreadList) (q : Nat) (c : Byte) :
    executeEpsilons prog t cs a nx q = Vm.execute prog t cs a nx c q := by
  unfold executeEpsilons Vm.execute
  rw [hf]
  cases ins <;> first | rfl | exact absurd (by simp [Instruction.isConsuming]) hc

theorem executeEpsilons_next {prog : Program} {t : Thread} {cs : List Bool} {a nx : ThreadList}
    {q : Nat} {r : ExecResult} (h : executeEpsilons prog t cs a nx q = .ok r) :
    r.next = nx ∨ (r.next = nx ++ [t] ∧ r.ret = false ∧ r.t = t ∧ AtConsuming prog t) := by
  cases hf : fetch prog t with
  | error e => simp [executeEpsilons, hf] at h
  | ok p =>
    obtain ⟨pc, ins⟩ := p
    obtain ⟨hpc, hins⟩ := fetch_ok_inv hf
    have pend : ins.isConsuming →
        r.next = nx ∨ (r.next = nx ++ [t] ∧ r.ret = false ∧ r.t = t ∧ AtConsuming prog t) := by
      intro hc
      rw [executeEpsilons_consuming hf hc] at h
      cases Except.ok.inj h
      exact Or.inr ⟨rfl, rfl, rfl, pc, ins, hpc, hins, hc⟩
    unfold executeEpsilons at h
    simp only [hf] at h
    cases ins with
    | LIT_OP b => exact pend trivial
    | EITHER_OP x y => exact pend trivial
    | RANGE_OP lo hi => exact pend trivial
    | JUMP_TABLE_OP => exact pend trivial
    | JUMP_OP addr => cases Except.ok.inj h; exact Or.inl rfl
    | FORK_OP addr => cases Except.ok.inj h; exact Or.inl rfl
    | CHECK_BRANCH_OP idx =>
      simp only [checkBranch] at h
      cases hb : cs[idx]? with
      | none => simp [hb] at h
      | some b => cases b <;> simp only [hb] at h <;> cases Except.ok.inj h <;> exact Or.inl rfl
    | CHECK_HALT_OP idx =>
      simp only [checkHalt] at h
      cases hb : cs[idx]? with
      | none => simp [hb] at h
      | some b => cases b <;> simp only [hb] at h <;> cases Except.ok.inj h <;> exact Or.inl rfl
    | MATCH_OP l => cases Except.ok.inj h; exact Or.inl rfl
    | HALT_OP => cases Except.ok.inj h; exact Or.inl rfl

theorem runThreadEpsilons_next {prog : Program} {q : Nat} :
    ∀ (n : Nat) (t : Thread) (cs : List Bool) (a nx : ThreadList) (r : ExecResult),
      runThreadEpsilons prog q n t cs a nx = .ok r →
      (∀ x ∈ nx, AtConsuming prog x) → ∀ x ∈ r.next, AtConsuming prog x := by
  intro n
  induction n with
  | zero => intro t cs a nx r h; simp [runThreadEpsilons] at h
  | succ n ih =>
    intro t cs a nx r h hnx
    simp only [runThreadEpsilons] at h
    cases he : executeEpsilons prog t cs a nx q with
    | error e => simp [he] at h
    | ok r1 =>
      simp only [he] at h
      have h1 : ∀ x ∈ r1.next, AtConsuming prog x := by
        rcases executeEpsilons_next he with hn | ⟨hn, _, _, hat⟩
        · rw [hn]; exact hnx
        · rw [hn]
          intro x hx
          rcases List.mem_append.mp hx with hx | hx
          · exact hnx x hx
          · rw [List.mem_singleton] at hx
            rw [hx]; exact hat
      by_cases hret : r1.ret = true
      · rw [if_pos hret] at h
        exact ih _ _ _ _ _ h h1
      · rw [if_neg hret] at h
        cases Except.ok.inj h
        exact h1

theorem byteLoop_next_nil (n : Nat) :
    ∀ (input : List Byte) (vm vm' : Vm) (q q' : Nat) (hits hits' : List SearchHit),
      byteLoop n input vm q hits = .ok (vm', q', hits') →
      (input ≠ [] ∨ vm.Next = []) → vm'.Next = [] ∧ vm'.Prog = vm.Prog := by
  intro input
  induction input with
  | nil =>
    intro vm vm' q q' hits hits' h hn
    simp only [byteLoop, Except.ok.injEq, Prod.mk.injEq] at h
    obtain ⟨rfl, _, _⟩ := h
    rcases hn with hn | hn
    · exact absurd rfl hn
    · exact ⟨hn, rfl⟩
  | cons c rest ih =>
    intro vm vm' q q' hits hits' h _
    simp only [byteLoop] at h
    cases hs : byteStep n vm c q hits with
    | error e => simp [hs] at h
    | ok p =>
      obtain ⟨vmb, hb⟩ := p
      simp only [hs] at h
      have hb2 : vmb.Next = [] ∧ vmb.Prog = vm.Prog := by
        obtain ⟨s, cs', _, _, hres⟩ := (byteStep_ok_iff n vm c q hits (vmb, hb)).mp hs
        cases hres
        exact ⟨rfl, rfl⟩
      obtain ⟨h1, h2⟩ := ih vmb vm' (inc64 q) q' hb hits' h (Or.inr hb2.1)
      exact ⟨h1, h2.trans hb2.2⟩

theorem searchEnd_pending (n : Nat) (vm1 : Vm) (q : Nat) (hits1 : List SearchHit)
    (res : SearchResult) (h : searchEnd n vm1 q hits1 = .ok res) (hn : vm1.Next = []) :
    (∀ x ∈ res.vm.Active, AtConsuming vm1.Prog x) ∧ (res.ret = true ↔ res.vm.Active ≠ []) := by
  simp only [searchEnd] at h
  cases hal : activeLoop (runThreadEpsilons vm1.Prog q n) q n 0 vm1 hits1 with
  | error e => simp [hal] at h
  | ok p =>
    obtain ⟨vm2, hits2⟩ := p
    simp only [hal] at h
    have hinv := activeLoop_invariant (runThreadEpsilons vm1.Prog q n)
      (fun _ _ nx => ∀ x ∈ nx, AtConsuming vm1.Prog x)
      (fun i t cs a nx r _ hs hI => runThreadEpsilons_next n t cs a nx r hs hI)
      q n 0 vm1 vm2 hits1 hits2 hal (by rw [hn]; intro x hx; cases hx)
    cases hc : clearCheckStates vm2.CheckStates with
    | error e => simp [hc] at h
    | ok cs =>
      simp only [hc] at h
      cases Except.ok.inj h
      refine ⟨hinv, ?_⟩
      simp only [decide_eq_true_eq]
      exact List.length_pos

/-- C28. The pass after the last byte of the block. At a byte-consuming
opcode (`LIT`, `EITHER`, `RANGE`, `JUMP_TABLE`) `executeEpsilons` keeps the
thread unchanged, pushes it on the next list and returns false; at the other
opcodes (`JUMP`, `FORK`, `CHECK_BRANCH`, `CHECK_HALT`, `MATCH`, `HALT`) it does
what `execute` does, whatever the byte. When `Vm::search` returns, every
thread of the active list has its pc at a byte-consuming opcode, and the value
returned is true if and only if that list is not empty. -/
theorem epsilon_pass_keeps_pending (fuel : Nat) (vm : Vm) (input : List Byte)
    (startOffset : Nat) (res : SearchResult)
    (h : Vm.search fuel vm input startOffset = .ok res)
    (hnext : input ≠ [] ∨ vm.Next = []) :
    (∀ (t : Thread) (cs : List Bool) (a nx : ThreadList) (q pc : Nat) (ins : Instruction),
      fetch vm.Prog t = .ok (pc, ins) → ins.isConsuming →
      executeEpsilons vm.Prog t cs a nx q = .ok ⟨false, t, cs, a, nx ++ [t]⟩) ∧
    (∀ (t : Thread) (cs : List Bool) (a nx : ThreadList) (q pc : Nat) (ins : Instruction),
      fetch vm.Prog t = .ok (pc, ins) → ¬ ins.isConsuming →
      ∀ c : Byte, executeEpsilons vm.Prog t cs a nx q = Vm.execute vm.Prog t cs a nx c q) ∧
    (∀ x ∈ res.vm.Active, AtConsuming vm.Prog x) ∧
    (res.ret = true ↔ res.vm.Active ≠ []) := by
  refine ⟨fun t cs a nx q pc ins hf hc => executeEpsilons_consuming hf hc cs a nx q,
    fun t cs a nx q pc ins hf hc c => executeEpsilons_eq_execute hf hc cs a nx q c, ?_⟩
  rw [search_eq_searchEnd] at h
  cases hb : byteLoop fuel input vm startOffset [] with
  | error e => simp [hb] at h
  | ok p =>
    obtain ⟨vm1, q1, h1⟩ := p
    simp only [hb] at h
    obtain ⟨hn, hp⟩ := byteLoop_next_nil fuel input vm vm1 startOffset q1 [] h1 hb hnext
    have := searchEnd_pending fuel vm1 q1 h1 res h hn
    rw [hp] at this
    exact this

/-- Witness of C28: the program of the join after the byte `a`; the thread is
run through `CHECK_HALT 1` and is left pending at `LIT 99`. -/
theorem epsilon_pass_keeps_pending_witness :
    Vm.search 4 (Vm.init progJoin firstJoin 2) [97] 0 =
      .ok ⟨true, { Vm.init progJoin firstJoin 2 with
                    Active := [⟨some 3, 0, 0, UNALLOCATED⟩] }, []⟩ ∧
    (∀ x ∈ ([⟨some 3, 0, 0, UNALLOCATED⟩] : ThreadList), AtConsuming progJoin x) ∧
    ((true : Bool) = true ↔ ([⟨some 3, 0, 0, UNALLOCATED⟩] : ThreadList) ≠ []) :=
  ⟨rfl,
    (epsilon_pass_keeps_pending 4 (Vm.init progJoin firstJoin 2) [97] 0
      ⟨true, { Vm.init progJoin firstJoin 2 with
                Active := [⟨some 3, 0, 0, UNALLOCATED⟩] }, []⟩ rfl (Or.inl (by simp))).2.2⟩

/-! ## The tail of a snippet -/

theorem slice_of_wrote {old new : Program} {base : Nat} {code : List Instruction}
    (h : Wrote old new base code) : Program.slice new base (base + code.length) = code := by
  unfold Program.slice
  rw [Nat.add_sub_cancel_left]
  apply List.ext_getElem?
  intro i
  by_cases hi : i < code.length
  · rw [List.getElem?_take_of_lt hi, List.getElem?_drop]
    exact h.code_eq i hi
  · have h1 : code[i]? = none := List.getElem?_eq_none (by omega)
    rw [h1]
    apply List.getElem?_eq_none
    have := List.length_take_le code.length (List.drop base new)
    omega

theorem isFallthrough_false {cg : CodeGenHelper} {rv w : Nat} (h : rv + 1 ≠ cg.rankD w) :
    isFallthrough cg rv w = false := by
  simp [isFallthrough, h]

theorem isFallthrough_true {cg : CodeGenHelper} {rv w : Nat} (h : ¬ rv + 1 ≠ cg.rankD w) :
    isFallthrough cg rv w = true := by
  simp only [isFallthrough, decide_eq_true_eq]
  exact Decidable.not_not.mp h

theorem tailCode_eq_guardedEdges (cg : CodeGenHelper) (rv : Nat) :
    ∀ (targets : List Nat) (h : Bool),
      tailCode cg rv targets h =
        guardedEdges cg rv (!(h || hasFallthrough cg rv targets)) targets := by
  intro targets
  induction targets with
  | nil => intro h; rfl
  | cons w rest ih =>
    intro h
    by_cases hne : rv + 1 ≠ cg.rankD w
    · have hf := isFallthrough_false hne
      have hany : hasFallthrough cg rv (w :: rest) = hasFallthrough cg rv rest := by
        simp [hasFallthrough, hf]
      simp only [tailCode, if_pos hne, guardedEdges, hf, Bool.false_eq_true, if_false, hany]
      rw [ih h]
      congr 1
      cases hci : (cg.snippetD w).CheckIndex <;> cases rest <;>
        simp [edgeCode, hci, hasFallthrough]
    · have hf := isFallthrough_true hne
      have hany : hasFallthrough cg rv (w :: rest) = true := by
        simp [hasFallthrough, hf]
      simp only [tailCode, if_neg hne, guardedEdges, hf, if_true, hany, List.nil_append]
      rw [ih true]
      simp

theorem edgeCode_branches (cg : CodeGenHelper) (w : Nat) (last : Bool) :
    (edgeCode cg w last).filter Instruction.isBranch =
      [if last then Instruction.JUMP_OP (cg.snippetD w).Start
       else Instruction.FORK_OP (cg.snippetD w).Start] := by
  unfold edgeCode
  cases (cg.snippetD w).CheckIndex <;> cases last <;> rfl

theorem tailCode_branches_true (cg : CodeGenHelper) (rv : Nat) :
    ∀ targets : List Nat,
      (tailCode cg rv targets true).filter Instruction.isBranch =
        (branchTargets cg rv targets).map (fun w => Instruction.FORK_OP (cg.snippetD w).Start) := by
  intro targets
  induction targets with
  | nil => rfl
  | cons w rest ih =>
    by_cases hne : rv + 1 ≠ cg.rankD w
    · have hf := isFallthrough_false hne
      simp only [tailCode, if_pos hne, List.filter_append, edgeCode_branches, ih,
        branchTargets, List.filter_cons, hf, Bool.not_false, if_true, List.map_cons,
        Bool.not_true, Bool.and_false, Bool.false_eq_true, if_false, List.singleton_append]
    · have hf := isFallthrough_true hne
      simp only [tailCode, if_neg hne, ih, branchTargets, List.filter_cons, hf, Bool.not_true,
        Bool.false_eq_true, if_false]

theorem branchTargets_of_no_fallthrough (cg : CodeGenHelper) (rv : Nat) :
    ∀ targets : List Nat, hasFallthrough cg rv targets = false →
      branchTargets cg rv targets = targets := by
  intro targets h
  unfold branchTargets
  rw [List.filter_eq_self]
  intro w hw
  unfold hasFallthrough at h
  rw [List.any_eq_false] at h
  simpa using h w hw

theorem tailCode_branches_none (cg : CodeGenHelper) (rv : Nat) :
    ∀ targets : List Nat, hasFallthrough cg rv targets = false →
      (tailCode cg rv targets false).filter Instruction.isBranch =
        targets.dropLast.map (fun w => Instruction.FORK_OP (cg.snippetD w).Start) ++
          (targets.getLast?.map (fun w => Instruction.JUMP_OP (cg.snippetD w).Start)).toList := by
  intro targets
  induction targets with
  | nil => intro _; rfl
  | cons w rest ih =>
    intro h
    have hw : isFallthrough cg rv w = false ∧ hasFallthrough cg rv rest = false := by
      simpa [hasFallthrough] using h
    have hne : rv + 1 ≠ cg.rankD w := by
      simpa [isFallthrough] using hw.1
    simp only [tailCode, if_pos hne, List.filter_append, edgeCode_branches, ih hw.2]
    cases rest with
    | nil => rfl
    | cons r rs => rfl

theorem tailCode_branches_some (cg : CodeGenHelper) (rv : Nat) :
    ∀ targets : List Nat, hasFallthrough cg rv targets = true →
      (tailCode cg rv targets false).filter Instruction.isBranch =
        (branchTargets cg rv targets).map (fun w => Instruction.FORK_OP (cg.snippetD w).Start) := by
  intro targets
  induction targets with
  | nil => intro h; simp [hasFallthrough] at h
  | cons w rest ih =>
    intro h
    by_cases hne : rv + 1 ≠ cg.rankD w
    · have hf := isFallthrough_false hne
      have hrest : hasFallthrough cg rv rest = true := by
        simpa [hasFallthrough, hf] using h
      have hne' : rest ≠ [] := by
        intro hr
        rw [hr] at hrest
        simp [hasFallthrough] at hrest
      simp only [tailCode, if_pos hne, List.filter_append, edgeCode_branches, ih hrest,
        branchTargets, List.filter_cons, hf, Bool.not_false, if_true, List.map_cons,
        decide_eq_false hne', Bool.false_and, Bool.false_eq_true, if_false,
        List.singleton_append]
    · have hf := isFallthrough_true hne
      simp only [tailCode, if_neg hne, tailCode_branches_true, branchTargets, List.filter_cons,
        hf, Bool.not_true, Bool.false_eq_true, if_false]

theorem tailCode_branches (cg : CodeGenHelper) (rv : Nat) (targets : List Nat) :
    (tailCode cg rv targets false).filter Instruction.isBranch =
      amendedBranches cg rv targets := by
  unfold amendedBranches
  cases h : hasFallthrough cg rv targets with
  | true =>
    simp only [if_true]
    exact tailCode_branches_some cg rv targets h
  | false =>
    simp only [Bool.false_eq_true, if_false, statedBranches]
    rw [branchTargets_of_no_fallthrough cg rv targets h]
    exact tailCode_branches_none cg rv targets h

theorem tailLoop_slice {cg : CodeGenHelper} {v : Nat} {targets : List Nat} {prog : Program}
    {curOp : Nat} {st : TailState}
    (h : tailLoop cg v targets ⟨prog, curOp, false, 0⟩ = .ok st) :
    Program.slice st.prog curOp st.curOp = tailCode cg (cg.rankD v) targets false ∧
    st.curOp = curOp + (tailCode cg (cg.rankD v) targets false).length := by
  obtain ⟨hW, hcur, _⟩ := tailLoop_wrote cg v targets _ st h
  refine ⟨?_, hcur⟩
  rw [hcur]
  exact slice_of_wrote hW

/-- Counterexample to C29 as stated: the start state of the graph of the join
has the out-edges to the states 1 and 2, in this order; the edge to 1 is the
fallthrough edge, so the edge to 2 is the last edge that is not a fallthrough
edge, for which the statement gives `JUMP 6`. The loop over the out-edges
writes `FORK 6`, and so does `createProgram` at the position 0. -/
theorem last_branch_edge_is_fork :
    graphJoin.outVertices 0 = .ok [1, 2] ∧
    isFallthrough layoutJoin (layoutJoin.rankD 0) 1 = true ∧
    isFallthrough layoutJoin (layoutJoin.rankD 0) 2 = false ∧
    statedBranches layoutJoin (layoutJoin.rankD 0) [1, 2] = [.JUMP_OP 6] ∧
    tailLoop layoutJoin 0 [1, 2] ⟨List.replicate 9 .HALT_OP, 0, false, 0⟩ =
      .ok ⟨.FORK_OP 6 :: List.replicate 8 .HALT_OP, 1, true, 1⟩ ∧
    (Program.slice (.FORK_OP 6 :: List.replicate 8 .HALT_OP) 0 1).filter Instruction.isBranch =
      [.FORK_OP 6] ∧
    createProgram graphJoin layoutJoin .HALT_OP = .ok ⟨progJoin, 2⟩ ∧
    progJoin[0]? = some (.FORK_OP 6) :=
  ⟨rfl, rfl, rfl, rfl, rfl, rfl, rfl, rfl⟩

/-- C29, amended. Tail encoding in `createProgram`. The `FORK` and `JUMP`
instructions that the loop over the out-edges of a state `v` writes (the
instructions of the program between the position of `curOp` before the loop
and its position after the loop) are, in iteration order of the out-edges:
nothing for a fallthrough edge (the rank of the target is the rank of `v`
plus 1); a `FORK` to the start of the snippet of the target for every other
edge; except that, when `v` has no fallthrough edge, the last out-edge is a
`JUMP` to the start of the snippet of its target. -/
theorem tail_branch_encoding (cg : CodeGenHelper) (v : Nat) (targets : List Nat)
    (prog : Program) (curOp : Nat) (st : TailState)
    (h : tailLoop cg v targets ⟨prog, curOp, false, 0⟩ = .ok st) :
    (Program.slice st.prog curOp st.curOp).filter Instruction.isBranch =
      amendedBranches cg (cg.rankD v) targets := by
  rw [(tailLoop_slice h).1]
  exact tailCode_branches cg (cg.rankD v) targets

/-- Witness of C29 (amended): the start state of the graph of the join, with
the fallthrough edge to the state 1 and the edge to the state 2: `FORK 6`. -/
theorem tail_branch_encoding_witness :
    tailLoop layoutJoin 0 [1, 2] ⟨List.replicate 9 .HALT_OP, 0, false, 0⟩ =
      .ok ⟨.FORK_OP 6 :: List.replicate 8 .HALT_OP, 1, true, 1⟩ ∧
    (Program.slice (.FORK_OP 6 :: List.replicate 8 .HALT_OP) 0 1).filter
        Instruction.isBranch = amendedBranches layoutJoin (layoutJoin.rankD 0) [1, 2] ∧
    amendedBranches layoutJoin (layoutJoin.rankD 0) [1, 2] = [.FORK_OP 6] :=
  ⟨rfl,
    tail_branch_encoding layoutJoin 0 [1, 2] (List.replicate 9 Instruction.HALT_OP) 0
      ⟨Instruction.FORK_OP 6 :: List.replicate 8 Instruction.HALT_OP, 1, true, 1⟩ rfl,
    rfl⟩

/-- C30. Check-guard emission in `createProgram`. The instructions that the
loop over the out-edges of a state `v` writes are, for every out-edge to a
state `w` that is not a fallthrough edge and in iteration order, a `JUMP` to
the snippet of `w` when the edge is the last out-edge and `v` has no
fallthrough edge and a `FORK` otherwise, immediately preceded by a check
instruction on the check index of `w` if and only if `w` has one: `CHECK_HALT`
before the `JUMP`, `CHECK_BRANCH` before a `FORK`. -/
theorem check_guard_emission (cg : CodeGenHelper) (v : Nat) (targets : List Nat)
    (prog : Program) (curOp : Nat) (st : TailState)
    (h : tailLoop cg v targets ⟨prog, curOp, false, 0⟩ = .ok st) :
    Program.slice st.prog curOp st.curOp = statedTail cg (cg.rankD v) targets ∧
    st.curOp = curOp + (statedTail cg (cg.rankD v) targets).length := by
  have e : tailCode cg (cg.rankD v) targets false = statedTail cg (cg.rankD v) targets := by
    rw [tailCode_eq_guardedEdges]
    rfl
  rw [← e]
  exact tailLoop_slice h

/-- Witness of C30: the state 2 of the graph of the join, whose one out-edge
goes to the state 3, which has the check index 1 and is not next in rank:
`CHECK_HALT 1`, `JUMP 3`. -/
theorem check_guard_emission_witness :
    tailLoop layoutJoin 2 [3] ⟨List.replicate 9 .HALT_OP, 7, false, 0⟩ =
      .ok ⟨(List.replicate 7 .HALT_OP) ++ [.CHECK_HALT_OP 1, .JUMP_OP 3], 9, false, 0⟩ ∧
    Program.slice ((List.replicate 7 .HALT_OP) ++ [.CHECK_HALT_OP 1, .JUMP_OP 3]) 7 9 =
      statedTail layoutJoin (layoutJoin.rankD 2) [3] ∧
    statedTail layoutJoin (layoutJoin.rankD 2) [3] = [.CHECK_HALT_OP 1, .JUMP_OP 3] :=
  ⟨rfl,
    (check_guard_emission layoutJoin 2 [3] (List.replicate 9 Instruction.HALT_OP) 7
      ⟨(List.replicate 7 Instruction.HALT_OP) ++
        [Instruction.CHECK_HALT_OP 1, Instruction.JUMP_OP 3], 9, false, 0⟩ rfl).1,
    rfl⟩

/-! ## The guard of the fallthrough target -/

theorem slice_of_hasCode {prog : Program} {base : Nat} {code : List Instruction}
    (h : HasCode prog base code) : Program.slice prog base (base + code.length) = code := by
  unfold Program.slice
  rw [Nat.add_sub_cancel_left]
  apply List.ext_getElem?
  intro i
  by_cases hi : i < code.length
  · rw [List.getElem?_take_of_lt hi, List.getElem?_drop]
    exact h i hi
  · have h1 : code[i]? = none := List.getElem?_eq_none (by omega)
    rw [h1]
    apply List.getElem?_eq_none
    have := List.length_take_le code.length (List.drop base prog)
    omega

theorem tailFlag_eq (cg : CodeGenHelper) (rv : Nat) :
    ∀ (targets : List Nat) (fl : Bool × Nat),
      tailFlag cg rv targets fl =
        match fallthroughTarget cg rv targets with
        | some w => (true, w)
        | none => fl := by
  intro targets
  induction targets with
  | nil => intro fl; rfl
  | cons w rest ih =>
    intro fl
    by_cases hne : rv + 1 ≠ cg.rankD w
    · have hf := isFallthrough_false hne
      have e : fallthroughTarget cg rv (w :: rest) = fallthroughTarget cg rv rest := by
        simp [fallthroughTarget, List.filter_cons, hf]
      simp only [tailFlag, if_pos hne, e]
      exact ih fl
    · have hf := isFallthrough_true hne
      simp only [tailFlag, if_neg hne]
      rw [ih (true, w)]
      unfold fallthroughTarget
      rw [List.filter_cons, if_pos hf]
      cases hr : List.filter (isFallthrough cg rv) rest with
      | nil => rfl
      | cons x xs =>
        rw [List.getLast?_cons_cons]
        cases hl : (x :: xs).getLast? with
        | none => simp at hl
        | some y => rfl

theorem fallthroughTarget_mem {cg : CodeGenHelper} {rv : Nat} {targets : List Nat} {w : Nat}
    (h : fallthroughTarget cg rv targets = some w) :
    w ∈ targets ∧ rv + 1 = cg.rankD w := by
  unfold fallthroughTarget at h
  have hm : w ∈ List.filter (isFallthrough cg rv) targets := List.mem_of_getLast?_eq_some h
  rw [List.mem_filter] at hm
  exact ⟨hm.1, by simpa [isFallthrough] using hm.2⟩

theorem tailCode_eq_statedTail (cg : CodeGenHelper) (rv : Nat) (targets : List Nat) :
    tailCode cg rv targets false = statedTail cg rv targets := by
  rw [tailCode_eq_guardedEdges]
  rfl

theorem vertexStep_tail {g : DynamicFSM} {cg : CodeGenHelper} {v : Nat} {prog prog' : Program}
    (h : vertexStep g cg v prog = .ok prog') (ht : usesTable cg v = false)
    (hne : g.targetsOf v ≠ []) :
    HasCode prog' (cg.snippetD v).Start
      (transitionCode (g.tranOf v) ++ statedTail cg (cg.rankD v) (g.targetsOf v) ++
        guardCode cg (tailFlag cg (cg.rankD v) (g.targetsOf v) (false, 0))) ∧
    SameOutside prog prog' (cg.snippetD v).Start
      ((cg.snippetD v).Start +
        (transitionCode (g.tranOf v) ++ statedTail cg (cg.rankD v) (g.targetsOf v) ++
          guardCode cg (tailFlag cg (cg.rankD v) (g.targetsOf v) (false, 0))).length) := by
  obtain ⟨hso, hA, hB, _⟩ := vertexStep_spec h
  have hB' := hB ht
  simp only [snippetTail, if_pos hne, tailCode_eq_statedTail] at hB'
  constructor
  · rw [List.append_assoc]
    exact hasCode_append.2 ⟨hA, hB'⟩
  · have hl : snippetLen g cg v =
        (transitionCode (g.tranOf v) ++ statedTail cg (cg.rankD v) (g.targetsOf v) ++
          guardCode cg (tailFlag cg (cg.rankD v) (g.targetsOf v) (false, 0))).length := by
      simp only [snippetLen, ht, Bool.false_eq_true, if_false, snippetTail, if_pos hne,
        tailCode_eq_statedTail, List.length_append]
      omega
    rw [← hl]
    exact hso

/-- C31. The guard of the fallthrough target in `createProgram`. Let the state
`v`, which gets no jump table, have a fallthrough edge to `w`. If `w` has the
check index `idx`, the instructions written for `v` are those of its
transition, those of its other out-edges and, last, `CHECK_HALT idx`; if `w`
has no check index, they are those of the transition and of the other
out-edges only: nothing is written for the fallthrough edge. Nothing outside
of these positions is changed. -/
theorem fallthrough_guard (g : DynamicFSM) (cg : CodeGenHelper) (v w : Nat)
    (prog prog' : Program) (h : vertexStep g cg v prog = .ok prog')
    (ht : usesTable cg v = false)
    (hw : fallthroughTarget cg (cg.rankD v) (g.targetsOf v) = some w) :
    (∀ idx, (cg.snippetD w).CheckIndex = some idx →
      Program.slice prog' (cg.snippetD v).Start
          ((cg.snippetD v).Start +
            (transitionCode (g.tranOf v) ++ statedTail cg (cg.rankD v) (g.targetsOf v)).length + 1) =
        transitionCode (g.tranOf v) ++ statedTail cg (cg.rankD v) (g.targetsOf v) ++
          [Instruction.CHECK_HALT_OP idx] ∧
      SameOutside prog prog' (cg.snippetD v).Start
        ((cg.snippetD v).Start +
          (transitionCode (g.tranOf v) ++ statedTail cg (cg.rankD v) (g.targetsOf v)).length + 1)) ∧
    ((cg.snippetD w).CheckIndex = none →
      Program.slice prog' (cg.snippetD v).Start
          ((cg.snippetD v).Start +
            (transitionCode (g.tranOf v) ++ statedTail cg (cg.rankD v) (g.targetsOf v)).length) =
        transitionCode (g.tranOf v) ++ statedTail cg (cg.rankD v) (g.targetsOf v) ∧
      SameOutside prog prog' (cg.snippetD v).Start
        ((cg.snippetD v).Start +
          (transitionCode (g.tranOf v) ++ statedTail cg (cg.rankD v) (g.targetsOf v)).length)) := by
  have hne : g.targetsOf v ≠ [] := by
    intro he
    rw [he] at hw
    cases hw
  obtain ⟨hc, hso⟩ := vertexStep_tail h ht hne
  have hfl : tailFlag cg (cg.rankD v) (g.targetsOf v) (false, 0) = (true, w) := by
    rw [tailFlag_eq, hw]
  rw [hfl] at hc hso
  constructor
  · intro idx hidx
    have hg : guardCode cg (true, w) = [Instruction.CHECK_HALT_OP idx] := by
      simp [guardCode, hidx]
    rw [hg] at hc hso
    have := slice_of_hasCode hc
    simp only [List.length_append, List.length_singleton] at this hso ⊢
    exact ⟨this, hso⟩
  · intro hnone
    have hg : guardCode cg (true, w) = [] := by
      simp [guardCode, hnone]
    rw [hg, List.append_nil] at hc hso
    exact ⟨slice_of_hasCode hc, hso⟩

/-- Witness of C31: the state 1 of the graph of the join (`a`), whose one
out-edge is the fallthrough edge to the state 3, which has the check index 1:
`LIT 97`, `CHECK_HALT 1`. -/
theorem fallthrough_guard_witness :
    vertexStep graphJoin layoutJoin 1 (List.replicate 9 .HALT_OP) =
      .ok ([.HALT_OP, .LIT_OP 97, .CHECK_HALT_OP 1] ++ List.replicate 6 .HALT_OP) ∧
    fallthroughTarget layoutJoin (layoutJoin.rankD 1) (graphJoin.targetsOf 1) = some 3 ∧
    Program.slice ([.HALT_OP, .LIT_OP 97, .CHECK_HALT_OP 1] ++ List.replicate 6 .HALT_OP) 1 3 =
      [.LIT_OP 97, .CHECK_HALT_OP 1] :=
  ⟨rfl, rfl,
    ((fallthrough_guard graphJoin layoutJoin 1 3 (List.replicate 9 Instruction.HALT_OP)
      ([Instruction.HALT_OP, Instruction.LIT_OP 97, Instruction.CHECK_HALT_OP 1] ++
        List.replicate 6 Instruction.HALT_OP) rfl rfl rfl).1 1 rfl).1⟩

/-! ## The iterator of the UTF-8 decoder -/

theorem pivotRows_getElem_map (permitted : ByteSet) (t : Nat) :
    ∀ (rows : List (List Nat)) (i j : Nat),
      (pivotRows permitted t i rows)[j]? =
        (rows[j]?).map (fun row => if permitted (i + j) = true ∧ t ∉ row then row ++ [t] else row) := by
  intro rows
  induction rows with
  | nil => intro i j; rfl
  | cons row rest ih =>
    intro i j
    cases j with
    | zero => simp only [pivotRows, List.getElem?_cons_zero, Option.map_some', Nat.add_zero]
    | succ j =>
      simp only [pivotRows, List.getElem?_cons_succ]
      rw [ih (i + 1) j, show i + 1 + j = i + (j + 1) by omega]

theorem acceptsByte_of_tran {g : DynamicFSM} {t : Nat} {tr : Transition}
    (h : g.tranOf t = some tr) (b : Byte) :
    tr.getBits (fun _ => false) b = g.acceptsByte t b := by
  simp [Transition.getBits, DynamicFSM.acceptsByte, h]

theorem pivotStatesLoop_rows (g : DynamicFSM) :
    ∀ (targets : List Nat) (ret : List (List Nat)),
      (∀ t ∈ targets, ∃ tr, g.tranOf t = some tr) →
      ∃ tbl, pivotStatesLoop g targets ret = .ok tbl ∧ tbl.length = ret.length ∧
        ∀ b : Nat, tbl[b]? = (ret[b]?).map (pivotRow g b targets) := by
  intro targets
  induction targets with
  | nil =>
    intro ret _
    refine ⟨ret, rfl, rfl, ?_⟩
    intro b
    cases ret[b]? <;> rfl
  | cons t rest ih =>
    intro ret h
    obtain ⟨tr, htr⟩ := h t (List.mem_cons_self _ _)
    obtain ⟨tbl, htbl, hlen, hrow⟩ := ih (pivotRows (tr.getBits (fun _ => false)) t 0 ret)
      (fun x hx => h x (List.mem_cons_of_mem _ hx))
    refine ⟨tbl, by simp [pivotStatesLoop, tran_of_tranOf htr, htbl], ?_, ?_⟩
    · rw [hlen, pivotRows_length]
    · intro b
      rw [hrow b, pivotRows_getElem_map, Nat.zero_add, acceptsByte_of_tran htr]
      cases ret[b]? <;> rfl

theorem pivotRow_spec (g : DynamicFSM) (b : Byte) :
    ∀ (targets row : List Nat),
      (row.Nodup → (pivotRow g b targets row).Nodup) ∧
      (∀ t, t ∈ pivotRow g b targets row ↔
        t ∈ row ∨ (t ∈ targets ∧ g.acceptsByte t b = true)) ∧
      (∃ ext, pivotRow g b targets row = row ++ ext ∧ ext.Sublist targets) ∧
      (targets.Nodup → (∀ t ∈ targets, t ∉ row) →
        pivotRow g b targets row = row ++ targets.filter (fun t => g.acceptsByte t b)) := by
  intro targets
  induction targets with
  | nil =>
    intro row
    refine ⟨fun h => h, fun t => by simp [pivotRow], ⟨[], by simp [pivotRow], List.Sublist.refl _⟩,
      fun _ _ => by simp [pivotRow]⟩
  | cons x rest ih =>
    intro row
    by_cases hc : g.acceptsByte x b = true ∧ x ∉ row
    · obtain ⟨h1, h2, ⟨ext, h3, h3'⟩, h4⟩ := ih (row ++ [x])
      simp only [pivotRow, if_pos hc]
      refine ⟨?_, ?_, ?_, ?_⟩
      · intro hnd
        apply h1
        rw [List.nodup_append]
        refine ⟨hnd, List.nodup_singleton x, ?_⟩
        intro a ha hb
        rw [List.mem_singleton] at hb
        subst hb
        exact hc.2 ha
      · intro t
        rw [h2 t]
        simp only [List.mem_append, List.mem_cons, List.not_mem_nil, or_false]
        constructor
        · rintro ((h | h) | ⟨h, h'⟩)
          · exact Or.inl h
          · exact Or.inr ⟨Or.inl h, by rw [h]; exact hc.1⟩
          · exact Or.inr ⟨Or.inr h, h'⟩
        · rintro (h | ⟨h | h, h'⟩)
          · exact Or.inl (Or.inl h)
          · exact Or.inl (Or.inr h)
          · exact Or.inr ⟨h, h'⟩
      · refine ⟨x :: ext, by rw [h3]; simp, List.Sublist.cons₂ x h3'⟩
      · intro hnd hdis
        rw [List.nodup_cons] at hnd
        rw [h4 hnd.2 ?_]
        · simp [List.filter_cons, hc.1]
        · intro t ht hmem
          rcases List.mem_append.mp hmem with hm | hm
          · exact hdis t (List.mem_cons_of_mem _ ht) hm
          · rw [List.mem_singleton] at hm
            subst hm
            exact hnd.1 ht
    · obtain ⟨h1, h2, ⟨ext, h3, h3'⟩, h4⟩ := ih row
      simp only [pivotRow, if_neg hc]
      refine ⟨h1, ?_, ?_, ?_⟩
      · intro t
        rw [h2 t]
        simp only [List.mem_cons]
        constructor
        · rintro (h | ⟨h, h'⟩)
          · exact Or.inl h
          · exact Or.inr ⟨Or.inr h, h'⟩
        · rintro (h | ⟨h | h, h'⟩)
          · exact Or.inl h
          · subst h
            by_cases hx : t ∈ row
            · exact Or.inl hx
            · exact absurd ⟨h', hx⟩ hc
          · exact Or.inr ⟨h, h'⟩
      · exact ⟨ext, h3, List.Sublist.cons x h3'⟩
      · intro hnd hdis
        rw [List.nodup_cons] at hnd
        rw [h4 hnd.2 (fun t ht => hdis t (List.mem_cons_of_mem _ ht))]
        have hx : g.acceptsByte x b = false := by
          cases hacc : g.acceptsByte x b with
          | false => rfl
          | true => exact absurd ⟨hacc, hdis x (List.mem_cons_self _ _)⟩ hc
        simp [List.filter_cons, hx]

theorem maxOutboundLoop_spec :
    ∀ (rows : List (List Nat)) (ret : Nat),
      ret ≤ maxOutboundLoop rows ret ∧
      (∀ row ∈ rows, row.length ≤ maxOutboundLoop rows ret) ∧
      (maxOutboundLoop rows ret = ret ∨ ∃ row ∈ rows, row.length = maxOutboundLoop rows ret) := by
  intro rows
  induction rows with
  | nil => intro ret; exact ⟨le_refl _, by simp, Or.inl rfl⟩
  | cons row rest ih =>
    intro ret
    simp only [maxOutboundLoop]
    obtain ⟨h1, h2, h3⟩ := ih (if row.length > ret then row.length else ret)
    refine ⟨?_, ?_, ?_⟩
    · refine le_trans ?_ h1
      split <;> omega
    · intro r hr
      rcases List.mem_cons.mp hr with rfl | hr
      · refine le_trans ?_ h1
        split <;> omega
      · exact h2 r hr
    · rcases h3 with h3 | ⟨r, hr, hr'⟩
      · by_cases hgt : row.length > ret
        · simp only [if_pos hgt] at h3 ⊢
          exact Or.inr ⟨row, List.mem_cons_self _ _, h3.symm⟩
        · simp only [if_neg hgt] at h3 ⊢
          exact Or.inl h3
      · exact Or.inr ⟨r, List.mem_cons_of_mem _ hr, hr'⟩

theorem pivotStates_table {g : DynamicFSM} {source : Nat} {targets : List Nat}
    (ho : g.outVertices source = .ok targets)
    (htr : ∀ t ∈ targets, ∃ tr, g.tranOf t = some tr) :
    ∃ tbl, pivotStates source g = .ok tbl ∧ tbl.length = 256 ∧
      ∀ b, b < 256 → tbl[b]? = some (pivotRow g b targets []) := by
  obtain ⟨tbl, h1, h2, h3⟩ := pivotStatesLoop_rows g targets (List.replicate 256 []) htr
  refine ⟨tbl, ?_, h2.trans (List.length_replicate _ _), ?_⟩
  · unfold pivotStates
    rw [ho]
    exact h1
  · intro b hb
    rw [h3 b, List.getElem?_replicate, if_pos hb]
    rfl

/-- C37. `pivotStates(source, graph)`, for a state whose out-edges lead to
states with a transition, returns 256 rows; the row of the byte `b` has no
duplicates, holds exactly the out-neighbours of `source` whose predicate
accepts `b`, in the order of the out-edges (it is the list of the accepting
out-neighbours when no neighbour occurs twice). `maxOutbound` of a table is an
upper bound of the lengths of its rows, and is the length of one of its rows
if there is a row, so it is 0 when all rows are empty. -/
theorem pivotStates_rows (g : DynamicFSM) (source : Nat) (targets : List Nat)
    (ho : g.outVertices source = .ok targets)
    (htr : ∀ t ∈ targets, ∃ tr, g.tranOf t = some tr) :
    ∃ tbl, pivotStates source g = .ok tbl ∧ tbl.length = 256 ∧
      (∀ b, b < 256 → ∃ row, tbl[b]? = some row ∧ row.Nodup ∧
        (∀ t, t ∈ row ↔ t ∈ targets ∧ g.acceptsByte t b = true) ∧
        row.Sublist targets ∧
        (targets.Nodup → row = targets.filter (fun t => g.acceptsByte t b))) ∧
      (∀ row ∈ tbl, row.length ≤ maxOutbound tbl) ∧
      (∃ row ∈ tbl, row.length = maxOutbound tbl) ∧
      ((∀ row ∈ tbl, row = []) → maxOutbound tbl = 0) := by
  obtain ⟨tbl, h1, h2, h3⟩ := pivotStates_table ho htr
  obtain ⟨_, m2, m3⟩ := maxOutboundLoop_spec tbl 0
  have hex : ∃ row ∈ tbl, row.length = maxOutbound tbl := by
    rcases m3 with m3 | m3
    · have h0 := h3 0 (by decide)
      have hm : pivotRow g 0 targets [] ∈ tbl := List.mem_iff_getElem?.mpr ⟨0, h0⟩
      refine ⟨_, hm, ?_⟩
      have := m2 _ hm
      unfold maxOutbound
      omega
    · exact m3
  refine ⟨tbl, h1, h2, ?_, m2, hex, ?_⟩
  · intro b hb
    obtain ⟨p1, p2, ⟨ext, p3, p3'⟩, p4⟩ := pivotRow_spec g b targets []
    refine ⟨_, h3 b hb, p1 List.nodup_nil, ?_, ?_, ?_⟩
    · intro t
      rw [p2 t]
      simp
    · rw [p3]
      simpa using p3'
    · intro hnd
      simpa using p4 hnd (fun _ _ => by simp)
  · intro hall
    obtain ⟨row, hr, hr'⟩ := hex
    rw [← hr', hall row hr]
    rfl

/-- Witness of C37: the start state of the graph of the join, with the
out-neighbours 1 (`a`) and 2 (`b`). -/
theorem pivotStates_rows_witness :
    graphJoin.outVertices 0 = .ok [1, 2] ∧
    ∃ tbl, pivotStates 0 graphJoin = .ok tbl ∧ tbl.length = 256 ∧
      (∀ b, b < 256 → ∃ row, tbl[b]? = some row ∧ row.Nodup ∧
        (∀ t, t ∈ row ↔ t ∈ [1, 2] ∧ graphJoin.acceptsByte t b = true) ∧
        row.Sublist [1, 2] ∧
        (([1, 2] : List Nat).Nodup → row = [1, 2].filter (fun t => graphJoin.acceptsByte t b))) ∧
      (∀ row ∈ tbl, row.length ≤ maxOutbound tbl) ∧
      (∃ row ∈ tbl, row.length = maxOutbound tbl) ∧
      ((∀ row ∈ tbl, row = []) → maxOutbound tbl = 0) :=
  ⟨rfl, pivotStates_rows graphJoin 0 [1, 2] rfl (by
    intro t ht
    simp only [List.mem_cons, List.mem_singleton, List.not_mem_nil, or_false] at ht
    rcases ht with rfl | rfl
    · exact ⟨_, rfl⟩
    · exact ⟨_, rfl⟩)⟩

/-! ## The label table of `createDynamicFSM` -/

/-- C36 at its failing input: the keywords `""` and `"a"` in ASCII, with an
empty table before the call. The empty keyword gets no label, so `"a"`, the
keyword 1, gets the label 0; the table has one entry for each keyword, so
`PatternsTable[0]` is the pair of the keyword 0, and not `(1, 0)`. -/
theorem patternsTable_label_mismatch :
    (createDynamicFSM (fun _ _ => true) ⟨["", "a"], [], []⟩ CP_ASCII).2 = [⟨0, 1, 0⟩] ∧
    (createDynamicFSM (fun _ _ => true) ⟨["", "a"], [], []⟩ CP_ASCII).1.PatternsTable =
      [(0, 0), (1, 0)] ∧
    (createDynamicFSM (fun _ _ => true) ⟨["", "a"], [], []⟩ CP_ASCII).1.PatternsTable[0]? =
      some (0, 0) ∧
    (createDynamicFSM (fun _ _ => true) ⟨["", "a"], [], []⟩ CP_ASCII).1.PatternsTable[0]? ≠
      some (1, 0) := by
  refine ⟨?_, ?_, ?_, ?_⟩ <;> decide

/-! ## The layout of a jump table -/

theorem statedRun_single (cg : CodeGenHelper) (t : Nat) :
    statedRun cg [t] = [Instruction.JUMP_OP (tableEntry cg t)] := rfl

theorem statedRun_cons_cons (cg : CodeGenHelper) (t r : Nat) (rs : List Nat) :
    statedRun cg (t :: r :: rs) =
      Instruction.FORK_OP (tableEntry cg t) :: statedRun cg (r :: rs) := by
  simp [statedRun, List.dropLast, List.getLast?_cons_cons]

theorem statedRun_length (cg : CodeGenHelper) :
    ∀ row : List Nat, (statedRun cg row).length = row.length := by
  intro row
  induction row with
  | nil => rfl
  | cons t rest ih =>
    cases rest with
    | nil => rfl
    | cons r rs => rw [statedRun_cons_cons, List.length_cons, ih]; rfl

theorem indirectLoop_exact (cg : CodeGenHelper) :
    ∀ (row : List Nat) (prog prog' : Program) (ind ind' : Nat),
      indirectLoop cg row prog ind = .ok (prog', ind') →
      Wrote prog prog' ind (statedRun cg row) ∧ ind' = ind + row.length := by
  intro row
  induction row with
  | nil =>
    intro prog prog' ind ind' h
    simp only [indirectLoop, Except.ok.injEq, Prod.mk.injEq] at h
    obtain ⟨rfl, rfl⟩ := h
    exact ⟨wrote_nil _ _, rfl⟩
  | cons t rest ih =>
    intro prog prog' ind ind' h
    simp only [indirectLoop] at h
    cases hs : cg.snippet t with
    | error e => simp [hs] at h
    | ok info =>
      simp only [hs] at h
      have hinfo := snippet_ok hs
      cases hw : writeOp prog ind
          (if rest = [] then Instruction.JUMP_OP (info.Start + info.NumEval)
            else Instruction.FORK_OP (info.Start + info.NumEval)) with
      | error e => simp [hw] at h
      | ok p =>
        obtain ⟨prog1, ind1⟩ := p
        simp only [hw] at h
        obtain ⟨hW1, rfl⟩ := wrote_writeOp hw
        obtain ⟨hW2, hind⟩ := ih _ _ _ _ h
        have hW := wrote_append hW1 (by simpa using hW2)
        refine ⟨?_, by rw [hind]; simp; omega⟩
        cases rest with
        | nil =>
          simp only [if_true, statedRun, List.dropLast_nil, List.map_nil, List.nil_append,
            List.getLast?_nil, Option.map_none', Option.toList_none, List.append_nil] at hW
          rw [statedRun_single]
          unfold tableEntry
          rw [hinfo]
          exact hW
        | cons r rs =>
          rw [if_neg (by simp)] at hW
          rw [statedRun_cons_cons]
          unfold tableEntry
          rw [hinfo]
          exact hW

theorem indirectCount_take_succ (row : List Nat) (rest : List (List Nat)) (j : Nat) :
    indirectCount ((row :: rest).take (j + 1)) =
      (if 2 ≤ row.length then row.length else 0) + indirectCount (rest.take j) := by
  simp [indirectCount]

theorem jumpTableLoop_exact (cg : CodeGenHelper) (base baseIndex : Nat) :
    ∀ (rows : List (List Nat)) (prog prog' : Program) (cur ind cur' ind' : Nat),
      jumpTableLoop cg base baseIndex rows prog cur ind = .ok (prog', cur', ind') →
      cur + rows.length ≤ ind →
      ∀ (i : Nat) (row : List Nat), rows[i]? = some row →
        prog'[cur + i]? = some (statedSlot cg
          (baseIndex + (ind + indirectCount (rows.take i) - base)) row) ∧
        (2 ≤ row.length →
          HasCode prog' (ind + indirectCount (rows.take i)) (statedRun cg row)) := by
  intro rows
  induction rows with
  | nil => intro prog prog' cur ind cur' ind' _ _ i row hi; simp at hi
  | cons row rest ih =>
    intro prog prog' cur ind cur' ind' h hle i r hi
    simp only [List.length_cons] at hle
    -- the head row: what is written, and the rest of the loop
    have head : ∃ (mid : Program) (ind1 : Nat),
        jumpTableLoop cg base baseIndex rest mid (cur + 1) ind1 = .ok (prog', cur', ind') ∧
        ind1 = ind + (if 2 ≤ row.length then row.length else 0) ∧
        mid[cur]? = some (statedSlot cg (baseIndex + (ind - base)) row) ∧
        (2 ≤ row.length → HasCode mid ind (statedRun cg row)) := by
      cases row with
      | nil =>
        simp only [jumpTableLoop] at h
        cases hw : writeOp prog cur Instruction.HALT_OP with
        | error e => simp [hw] at h
        | ok p =>
          obtain ⟨prog1, c1⟩ := p
          simp only [hw] at h
          obtain ⟨hW, rfl⟩ := wrote_writeOp hw
          refine ⟨prog1, ind, h, by simp, ?_, fun h2 => by simp at h2⟩
          simpa using hW.code_eq 0 (by simp)
      | cons t row' =>
        cases row' with
        | nil =>
          simp only [jumpTableLoop] at h
          cases hs : cg.snippet t with
          | error e => simp [hs] at h
          | ok info =>
            simp only [hs] at h
            cases hw : writeOp prog cur (Instruction.JUMP_OP (info.Start + info.NumEval)) with
            | error e => simp [hw] at h
            | ok p =>
              obtain ⟨prog1, c1⟩ := p
              simp only [hw] at h
              obtain ⟨hW, rfl⟩ := wrote_writeOp hw
              refine ⟨prog1, ind, h, by simp, ?_, fun h2 => by simp at h2⟩
              have := hW.code_eq 0 (by simp)
              simp only [Nat.add_zero, List.getElem?_cons_zero] at this
              rw [this]
              simp only [statedSlot, tableEntry, snippet_ok hs]
        | cons t2 row'' =>
          simp only [jumpTableLoop] at h
          cases hw : writeOp prog cur (Instruction.JUMP_OP (baseIndex + (ind - base))) with
          | error e => simp [hw] at h
          | ok p =>
            obtain ⟨prog1, c1⟩ := p
            simp only [hw] at h
            obtain ⟨hW, rfl⟩ := wrote_writeOp hw
            cases hi2 : indirectLoop cg (t :: t2 :: row'') prog1 ind with
            | error e => simp [hi2] at h
            | ok p2 =>
              obtain ⟨prog2, ind2⟩ := p2
              simp only [hi2] at h
              obtain ⟨hWi, rfl⟩ := indirectLoop_exact cg _ _ _ _ _ hi2
              refine ⟨prog2, _, h, by simp, ?_, fun _ => hWi.code_eq⟩
              rw [hWi.frame cur (Or.inl (by omega))]
              have := hW.code_eq 0 (by simp)
              simp only [Nat.add_zero, List.getElem?_cons_zero] at this
              rw [this]
              rfl
    obtain ⟨mid, ind1, hrest, hind1, hslot, hrun⟩ := head
    have hle1 : cur + 1 + rest.length ≤ ind1 := by rw [hind1]; omega
    obtain ⟨hR, _, _⟩ := jumpTableLoop_rowsWrote cg base baseIndex rest mid prog' (cur + 1) ind1
      cur' ind' hrest hle1
    cases i with
    | zero =>
      simp only [List.getElem?_cons_zero, Option.some.injEq] at hi
      subst hi
      simp only [List.take_zero, indirectCount, Nat.add_zero]
      constructor
      · rw [hR.frame cur (Or.inl (by omega))]
        exact hslot
      · intro h2
        intro k hk
        rw [statedRun_length] at hk
        rw [hR.frame (ind + k) (Or.inr (Or.inl ⟨by omega, by rw [hind1, if_pos h2]; omega⟩))]
        exact hrun h2 k (by rw [statedRun_length]; exact hk)
    | succ j =>
      simp only [List.getElem?_cons_succ] at hi
      obtain ⟨h1, h2⟩ := ih mid prog' (cur + 1) ind1 cur' ind' hrest hle1 j r hi
      rw [indirectCount_take_succ]
      rw [hind1] at h1 h2
      rw [show cur + (j + 1) = cur + 1 + j by omega,
        show ind + ((if 2 ≤ row.length then row.length else 0) + indirectCount (rest.take j)) =
          ind + (if 2 ≤ row.length then row.length else 0) + indirectCount (rest.take j) by omega]
      exact ⟨h1, h2⟩

theorem pivotStatesLoop_trans (g : DynamicFSM) :
    ∀ (targets : List Nat) (ret tbl : List (List Nat)),
      pivotStatesLoop g targets ret = .ok tbl → ∀ t ∈ targets, ∃ tr, g.tranOf t = some tr := by
  intro targets
  induction targets with
  | nil => intro ret tbl _ t ht; cases ht
  | cons x rest ih =>
    intro ret tbl h t ht
    simp only [pivotStatesLoop] at h
    cases hx : g.tran x with
    | error e => simp [hx] at h
    | ok tr =>
      simp only [hx] at h
      rcases List.mem_cons.mp ht with rfl | ht
      · refine ⟨tr, ?_⟩
        unfold DynamicFSM.tran at hx
        unfold DynamicFSM.tranOf
        cases hv : g.Vertices[t]? with
        | none => simp [hv] at hx
        | some vert =>
          simp only [hv] at hx
          cases hvt : vert.Tran with
          | none => simp [hvt] at hx
          | some tr' =>
            simp only [hvt, Except.ok.injEq] at hx
            subst hx
            simp [hvt]
      · exact ih _ _ h t ht

/-- C32. The layout of a jump table. When `createJumpTable` returns for the
state `v` with the table at `base` (the index of `base` as `createProgram`
passes it), the program holds `JUMP_TABLE` at `base` and 256 dispatch slots
after it. With `row` the out-neighbours of `v` that accept the byte `b`
(without duplicates, in the order of the out-edges), the slot of `b` is `HALT`
when there is none, a `JUMP` to `Start + NumEval` of the neighbour when there
is one, and otherwise a `JUMP` to a run in the indirect section, which begins
at `base + 257`; the run holds a `FORK` to `Start + NumEval` for every
neighbour but the last and a `JUMP` for the last. Nothing outside of the
header, the slots and the indirect section is changed. -/
theorem jump_table_layout (cg : CodeGenHelper) (prog prog' : Program) (base v : Nat)
    (g : DynamicFSM) (targets : List Nat)
    (h : createJumpTable cg prog base base v g = .ok prog')
    (ho : g.outVertices v = .ok targets) :
    ∃ tbl, pivotStates v g = .ok tbl ∧ tbl.length = 256 ∧
      prog'[base]? = some Instruction.JUMP_TABLE_OP ∧
      (∀ b, b < 256 → ∃ row, tbl[b]? = some row ∧ row.Nodup ∧
        (∀ t, t ∈ row ↔ t ∈ targets ∧ g.acceptsByte t b = true) ∧
        row.Sublist targets ∧
        prog'[base + 1 + b]? = some (statedSlot cg (runStart base tbl b) row) ∧
        (2 ≤ row.length → base + 257 ≤ runStart base tbl b ∧
          HasCode prog' (runStart base tbl b) (statedRun cg row))) ∧
      SameOutside prog prog' base (base + 257 + indirectCount tbl) := by
  obtain ⟨hso, hT⟩ := createJumpTable_spec h
  unfold createJumpTable at h
  cases hw : writeOp prog base Instruction.JUMP_TABLE_OP with
  | error e => simp [hw] at h
  | ok p =>
    obtain ⟨prog1, c1⟩ := p
    simp only [hw] at h
    obtain ⟨hW, rfl⟩ := wrote_writeOp hw
    cases hp : pivotStates v g with
    | error e => simp [hp] at h
    | ok tbl =>
      simp only [hp] at h
      have htbl : g.tableOf v = tbl := by simp [DynamicFSM.tableOf, hp]
      rw [htbl] at hso hT
      have hlen := pivotStates_length hp
      have htr : ∀ t ∈ targets, ∃ tr, g.tranOf t = some tr := by
        unfold pivotStates at hp
        rw [ho] at hp
        exact pivotStatesLoop_trans g targets _ _ hp
      obtain ⟨tbl', hp', _, hrows⟩ := pivotStates_table ho htr
      rw [hp] at hp'
      cases Except.ok.inj hp'
      cases hj : jumpTableLoop cg base base tbl prog1 (base + 1) (base + 257) with
      | error e => simp [hj] at h
      | ok r =>
        obtain ⟨prog2, c2, i2⟩ := r
        simp only [hj, Except.ok.injEq] at h
        subst h
        have hex := jumpTableLoop_exact cg base base tbl prog1 prog2 (base + 1) (base + 257)
          c2 i2 hj (by omega)
        refine ⟨tbl, rfl, hlen, hT.header, ?_, hso⟩
        intro b hb
        obtain ⟨p1, p2, ⟨ext, p3, p3'⟩, _⟩ := pivotRow_spec g b targets []
        obtain ⟨e1, e2⟩ := hex b _ (hrows b hb)
        have hrs : base + (base + 257 + indirectCount (tbl.take b) - base) =
            runStart base tbl b := by
          unfold runStart
          omega
        rw [hrs] at e1
        refine ⟨_, hrows b hb, p1 List.nodup_nil, ?_, ?_, e1, ?_⟩
        · intro t
          rw [p2 t]
          simp
        · rw [p3]
          simpa using p3'
        · intro h2
          exact ⟨by unfold runStart; omega, e2 h2⟩

set_option maxRecDepth 100000 in
/-- Witness of C32: a table for the start state of the graph of the join in a
program of 300 slots: the slot of `a` holds `JUMP 2` and the slot of `b` holds
`JUMP 7`, all others `HALT`. -/
theorem jump_table_layout_witness :
    createJumpTable layoutJoin (List.replicate 300 .HALT_OP) 0 0 0 graphJoin =
      .ok ((((List.replicate 300 Instruction.HALT_OP).set 0 .JUMP_TABLE_OP).set 98
        (.JUMP_OP 2)).set 99 (.JUMP_OP 7)) ∧
    graphJoin.outVertices 0 = .ok [1, 2] ∧
    ∃ tbl, pivotStates 0 graphJoin = .ok tbl ∧ tbl.length = 256 ∧
      ((((List.replicate 300 Instruction.HALT_OP).set 0 .JUMP_TABLE_OP).set 98
        (.JUMP_OP 2)).set 99 (.JUMP_OP 7))[0]? = some Instruction.JUMP_TABLE_OP :=
  ⟨rfl, rfl,
    (jump_table_layout layoutJoin (List.replicate 300 Instruction.HALT_OP)
      ((((List.replicate 300 Instruction.HALT_OP).set 0 Instruction.JUMP_TABLE_OP).set 98
        (Instruction.JUMP_OP 2)).set 99 (Instruction.JUMP_OP 7)) 0 0 graphJoin [1, 2]
      rfl rfl).imp (fun _ hh => ⟨hh.1, hh.2.1, hh.2.2.1⟩)⟩

/-! ## Properties of threads that the instructions keep -/

theorem mem_push {Q : Thread → Prop} {l : ThreadList} {y x : Thread} (hy : Q y)
    (hx : x ∈ l ++ [y]) : x ∈ l ∨ Q x := by
  rcases List.mem_append.mp hx with h | h
  · exact Or.inl h
  · rw [List.mem_singleton] at h
    rw [h]
    exact Or.inr hy

/-- A property of threads that depends on label, start and end only and that
holds of a thread after `MATCH` is kept by `execute`, and holds of the threads
it appends. -/
theorem execute_pred {prog : Program} {q : Nat} (Q : Thread → Prop)
    (hspan : ∀ x y : Thread, x.Label = y.Label → x.Start = y.Start → x.End = y.End → Q y → Q x)
    (hmatch : ∀ (y : Thread) (l : Nat), IsMatchLabel prog l → Q y →
      Q { y with Label := l, End := q })
    {t : Thread} {cs : List Bool} {a nx : ThreadList} {c : Byte} {r : ExecResult}
    (h : Vm.execute prog t cs a nx c q = .ok r) (ht : Q t) :
    Q r.t ∧ (∀ x ∈ r.active, x ∈ a ∨ Q x) ∧ (∀ x ∈ r.next, x ∈ nx ∨ Q x) := by
  have same : ∀ x : Thread, x.Label = t.Label → x.Start = t.Start → x.End = t.End → Q x :=
    fun x h1 h2 h3 => hspan x t h1 h2 h3 ht
  unfold Vm.execute at h
  cases hf : fetch prog t with
  | error e => simp [hf] at h
  | ok p =>
    obtain ⟨pc, ins⟩ := p
    obtain ⟨_, hins⟩ := fetch_ok_inv hf
    simp only [hf] at h
    cases ins with
    | LIT_OP b =>
      simp only [] at h
      split at h <;> cases Except.ok.inj h
      · exact ⟨same _ rfl rfl rfl, fun x hx => Or.inl hx, fun x hx => mem_push (same t.advance rfl rfl rfl) hx⟩
      · exact ⟨same _ rfl rfl rfl, fun x hx => Or.inl hx, fun x hx => Or.inl hx⟩
    | EITHER_OP x y =>
      simp only [] at h
      split at h <;> cases Except.ok.inj h
      · exact ⟨same _ rfl rfl rfl, fun x hx => Or.inl hx, fun x hx => mem_push (same t.advance rfl rfl rfl) hx⟩
      · exact ⟨same _ rfl rfl rfl, fun x hx => Or.inl hx, fun x hx => Or.inl hx⟩
    | RANGE_OP lo hi =>
      simp only [] at h
      split at h <;> cases Except.ok.inj h
      · exact ⟨same _ rfl rfl rfl, fun x hx => Or.inl hx, fun x hx => mem_push (same t.advance rfl rfl rfl) hx⟩
      · exact ⟨same _ rfl rfl rfl, fun x hx => Or.inl hx, fun x hx => Or.inl hx⟩
    | JUMP_OP addr =>
      cases Except.ok.inj h
      exact ⟨same _ rfl rfl rfl, fun x hx => Or.inl hx, fun x hx => Or.inl hx⟩
    | JUMP_TABLE_OP =>
      simp only [] at h
      cases hs : prog[pc + (1 + c)]? with
      | none => simp [hs] at h
      | some slot =>
        simp only [hs] at h
        split at h <;> cases Except.ok.inj h
        · exact ⟨ht, fun x hx => Or.inl hx,
            fun x hx => mem_push (same (Thread.fork t pc (1 + c)) rfl rfl rfl) hx⟩
        · exact ⟨same _ rfl rfl rfl, fun x hx => Or.inl hx, fun x hx => Or.inl hx⟩
    | FORK_OP addr =>
      cases Except.ok.inj h
      exact ⟨same _ rfl rfl rfl, fun x hx => mem_push (same (Thread.fork t 0 addr) rfl rfl rfl) hx,
        fun x hx => Or.inl hx⟩
    | CHECK_BRANCH_OP idx =>
      simp only [checkBranch] at h
      cases hb : cs[idx]? with
      | none => simp [hb] at h
      | some b =>
        cases b <;> simp only [hb] at h <;> cases Except.ok.inj h <;>
          exact ⟨same _ rfl rfl rfl, fun x hx => Or.inl hx, fun x hx => Or.inl hx⟩
    | CHECK_HALT_OP idx =>
      simp only [checkHalt] at h
      cases hb : cs[idx]? with
      | none => simp [hb] at h
      | some b =>
        cases b <;> simp only [hb] at h <;> cases Except.ok.inj h <;>
          exact ⟨same _ rfl rfl rfl, fun x hx => Or.inl hx, fun x hx => Or.inl hx⟩
    | MATCH_OP l =>
      cases Except.ok.inj h
      exact ⟨hspan _ { t with Label := l, End := q } rfl rfl rfl (hmatch t l ⟨pc, hins⟩ ht),
        fun x hx => Or.inl hx, fun x hx => Or.inl hx⟩
    | HALT_OP =>
      cases Except.ok.inj h
      exact ⟨same _ rfl rfl rfl, fun x hx => Or.inl hx, fun x hx => Or.inl hx⟩

theorem executeEpsilons_pred {prog : Program} {q : Nat} (Q : Thread → Prop)
    (hspan : ∀ x y : Thread, x.Label = y.Label → x.Start = y.Start → x.End = y.End → Q y → Q x)
    (hmatch : ∀ (y : Thread) (l : Nat), IsMatchLabel prog l → Q y →
      Q { y with Label := l, End := q })
    {t : Thread} {cs : List Bool} {a nx : ThreadList} {r : ExecResult}
    (h : executeEpsilons prog t cs a nx q = .ok r) (ht : Q t) :
    Q r.t ∧ (∀ x ∈ r.active, x ∈ a ∨ Q x) ∧ (∀ x ∈ r.next, x ∈ nx ∨ Q x) := by
  cases hf : fetch prog t with
  | error e => simp [executeEpsilons, hf] at h
  | ok p =>
    obtain ⟨pc, ins⟩ := p
    by_cases hc : ins.isConsuming
    · rw [executeEpsilons_consuming hf hc] at h
      cases Except.ok.inj h
      exact ⟨ht, fun x hx => Or.inl hx, fun x hx => mem_push ht hx⟩
    · rw [executeEpsilons_eq_execute hf hc cs a nx q 0] at h
      exact execute_pred Q hspan hmatch h ht

theorem runThread_pred {prog : Program} {c : Byte} {q : Nat} (Q : Thread → Prop)
    (hspan : ∀ x y : Thread, x.Label = y.Label → x.Start = y.Start → x.End = y.End → Q y → Q x)
    (hmatch : ∀ (y : Thread) (l : Nat), IsMatchLabel prog l → Q y →
      Q { y with Label := l, End := q }) :
    ∀ (n : Nat) (t : Thread) (cs : List Bool) (a nx : ThreadList) (r : ExecResult),
      runThread prog c q n t cs a nx = .ok r → Q t →
      Q r.t ∧ (∀ x ∈ r.active, x ∈ a ∨ Q x) ∧ (∀ x ∈ r.next, x ∈ nx ∨ Q x) := by
  intro n
  induction n with
  | zero => intro t cs a nx r h; simp [runThread] at h
  | succ n ih =>
    intro t cs a nx r h ht
    simp only [runThread] at h
    cases he : Vm.execute prog t cs a nx c q with
    | error e => simp [he] at h
    | ok r1 =>
      simp only [he] at h
      obtain ⟨h1, h2, h3⟩ := execute_pred Q hspan hmatch he ht
      by_cases hret : r1.ret = true
      · rw [if_pos hret] at h
        obtain ⟨k1, k2, k3⟩ := ih _ _ _ _ _ h h1
        refine ⟨k1, ?_, ?_⟩
        · intro x hx
          rcases k2 x hx with hx | hx
          · exact h2 x hx
          · exact Or.inr hx
        · intro x hx
          rcases k3 x hx with hx | hx
          · exact h3 x hx
          · exact Or.inr hx
      · rw [if_neg hret] at h
        cases Except.ok.inj h
        exact ⟨h1, h2, h3⟩

theorem runThreadEpsilons_pred {prog : Program} {q : Nat} (Q : Thread → Prop)
    (hspan : ∀ x y : Thread, x.Label = y.Label → x.Start = y.Start → x.End = y.End → Q y → Q x)
    (hmatch : ∀ (y : Thread) (l : Nat), IsMatchLabel prog l → Q y →
      Q { y with Label := l, End := q }) :
    ∀ (n : Nat) (t : Thread) (cs : List Bool) (a nx : ThreadList) (r : ExecResult),
      runThreadEpsilons prog q n t cs a nx = .ok r → Q t →
      Q r.t ∧ (∀ x ∈ r.active, x ∈ a ∨ Q x) ∧ (∀ x ∈ r.next, x ∈ nx ∨ Q x) := by
  intro n
  induction n with
  | zero => intro t cs a nx r h; simp [runThreadEpsilons] at h
  | succ n ih =>
    intro t cs a nx r h ht
    simp only [runThreadEpsilons] at h
    cases he : executeEpsilons prog t cs a nx q with
    | error e => simp [he] at h
    | ok r1 =>
      simp only [he] at h
      obtain ⟨h1, h2, h3⟩ := executeEpsilons_pred Q hspan hmatch he ht
      by_cases hret : r1.ret = true
      · rw [if_pos hret] at h
        obtain ⟨k1, k2, k3⟩ := ih _ _ _ _ _ h h1
        refine ⟨k1, ?_, ?_⟩
        · intro x hx
          rcases k2 x hx with hx | hx
          · exact h2 x hx
          · exact Or.inr hx
        · intro x hx
          rcases k3 x hx with hx | hx
          · exact h3 x hx
          · exact Or.inr hx
      · rw [if_neg hret] at h
        cases Except.ok.inj h
        exact ⟨h1, h2, h3⟩

/-! ## Invariants of the loop over the active list, with the match buffer -/

theorem activeLoop_invariant2
    (step : Thread → List Bool → ThreadList → ThreadList → Except Fault ExecResult)
    (Inv : Vm → List SearchHit → Prop) (offset : Nat)
    (hstep : ∀ (i : Nat) (t : Thread) (vm : Vm) (hits hits1 : List SearchHit) (r : ExecResult)
      (cells : List MatchCell),
      vm.Active[i]? = some t → step t vm.CheckStates vm.Active vm.Next = .ok r →
      reconcile r.t offset vm.Matches hits = .ok (cells, hits1) → Inv vm hits →
      Inv { vm with Active := r.active.set i r.t, Next := r.next,
                    CheckStates := r.checkStates, Matches := cells } hits1) :
    ∀ (n i : Nat) (vm vm' : Vm) (hits hits' : List SearchHit),
      activeLoop step offset n i vm hits = .ok (vm', hits') →
      Inv vm hits → Inv vm' hits' := by
  intro n
  induction n with
  | zero =>
    intro i vm vm' hits hits' h hinv
    simp only [activeLoop] at h
    split at h
    · cases h
    · cases Except.ok.inj h; exact hinv
  | succ n ih =>
    intro i vm vm' hits hits' h hinv
    simp only [activeLoop] at h
    cases hi : vm.Active[i]? with
    | none =>
      simp only [hi] at h
      cases Except.ok.inj h
      exact hinv
    | some t =>
      simp only [hi] at h
      cases hs : step t vm.CheckStates vm.Active vm.Next with
      | error e => simp [hs] at h
      | ok r =>
        simp only [hs] at h
        cases hr : reconcile r.t offset vm.Matches hits with
        | error e => simp [hr] at h
        | ok p =>
          obtain ⟨cells, hits1⟩ := p
          simp only [hr] at h
          exact ih _ _ _ _ _ h (hstep i t vm hits hits1 r cells hi hs hr hinv)

theorem loopCall_inv
    (step : Thread → List Bool → ThreadList → ThreadList → Except Fault ExecResult)
    (Inv : Vm → List SearchHit → Prop) (P : Thread → List MatchCell → Prop) (offset : Nat)
    (hcall : ∀ (i : Nat) (t : Thread) (vm : Vm) (hits : List SearchHit) (r : ExecResult),
      vm.Active[i]? = some t → step t vm.CheckStates vm.Active vm.Next = .ok r →
      Inv vm hits → P r.t vm.Matches)
    (hstep : ∀ (i : Nat) (t : Thread) (vm : Vm) (hits hits1 : List SearchHit) (r : ExecResult)
      (cells : List MatchCell),
      vm.Active[i]? = some t → step t vm.CheckStates vm.Active vm.Next = .ok r →
      reconcile r.t offset vm.Matches hits = .ok (cells, hits1) → Inv vm hits →
      Inv { vm with Active := r.active.set i r.t, Next := r.next,
                    CheckStates := r.checkStates, Matches := cells } hits1)
    {n i : Nat} {vm : Vm} {hits : List SearchHit} {t : Thread} {cells : List MatchCell}
    (h : LoopCall step offset n i vm hits t cells) (hinv : Inv vm hits) : P t cells := by
  induction h with
  | here hi hs => exact hcall _ _ _ _ _ hi hs hinv
  | later hi hs hr _ ih => exact ih (hstep _ _ _ _ _ _ _ hi hs hr hinv)

theorem mem_set_cases {α : Type} {l : List α} {i : Nat} {v x : α} (h : x ∈ l.set i v) :
    x ∈ l ∨ x = v := by
  rcases List.mem_or_eq_of_mem_set h with h | h
  · exact Or.inl h
  · exact Or.inr h

theorem reconcile_length {t : Thread} {q : Nat} {cells cells' : List MatchCell}
    {hits hits' : List SearchHit} (h : reconcile t q cells hits = .ok (cells', hits')) :
    cells'.length = cells.length := by
  rcases reconcile_cases h with h | ⟨_, _, h⟩
  · rw [h]
  · rw [h, List.length_set]

/-! ## The labels of the threads and the size of the match buffer -/

theorem maxMatchLabel_spec :
    ∀ (prog : Program) (n : Nat),
      n ≤ maxMatchLabel prog n ∧
      (∀ (pc l : Nat), prog[pc]? = some (Instruction.MATCH_OP l) → l ≤ maxMatchLabel prog n) ∧
      (maxMatchLabel prog n = n ∨ IsMatchLabel prog (maxMatchLabel prog n)) := by
  intro prog
  induction prog with
  | nil => intro n; exact ⟨le_refl _, fun pc l h => by simp at h, Or.inl rfl⟩
  | cons ins rest ih =>
    intro n
    have lift : ∀ l, IsMatchLabel rest l → IsMatchLabel (ins :: rest) l :=
      fun l ⟨pc, h⟩ => ⟨pc + 1, by simpa using h⟩
    have other : (∀ l, ins ≠ Instruction.MATCH_OP l) → maxMatchLabel (ins :: rest) n =
        maxMatchLabel rest n := by
      intro hne
      cases ins <;> first | rfl | exact absurd rfl (hne _)
    by_cases hm : ∃ l, ins = Instruction.MATCH_OP l
    · obtain ⟨l, rfl⟩ := hm
      simp only [maxMatchLabel]
      obtain ⟨h1, h2, h3⟩ := ih (if n < l then l else n)
      refine ⟨le_trans (by split <;> omega) h1, ?_, ?_⟩
      · intro pc l' hpc
        cases pc with
        | zero =>
          simp only [List.getElem?_cons_zero, Option.some.injEq, Instruction.MATCH_OP.injEq] at hpc
          subst hpc
          exact le_trans (by split <;> omega) h1
        | succ pc =>
          simp only [List.getElem?_cons_succ] at hpc
          exact h2 pc l' hpc
      · rcases h3 with h3 | h3
        · by_cases hlt : n < l
          · right
            rw [h3, if_pos hlt]
            exact ⟨0, by simp⟩
          · left
            rw [h3, if_neg hlt]
        · exact Or.inr (lift _ h3)
    · have hne : ∀ l, ins ≠ Instruction.MATCH_OP l := fun l hl => hm ⟨l, hl⟩
      rw [other hne]
      obtain ⟨h1, h2, h3⟩ := ih n
      refine ⟨h1, ?_, ?_⟩
      · intro pc l hpc
        cases pc with
        | zero =>
          simp only [List.getElem?_cons_zero, Option.some.injEq] at hpc
          exact absurd hpc (hne l)
        | succ pc =>
          simp only [List.getElem?_cons_succ] at hpc
          exact h2 pc l hpc
      · rcases h3 with h3 | h3
        · exact Or.inl h3
        · exact Or.inr (lift _ h3)

theorem init_matches (prog : Program) (first : Byte → Bool) (nc : Nat)
    (hlab : ∀ (pc l : Nat), prog[pc]? = some (Instruction.MATCH_OP l) → l < NOLABEL) :
    (Vm.init prog first nc).Matches =
      List.replicate (maxMatchLabel prog 0 + 1) (UNALLOCATED, 0) := by
  have hlt : maxMatchLabel prog 0 < NOLABEL := by
    rcases (maxMatchLabel_spec prog 0).2.2 with h | ⟨pc, h⟩
    · rw [h]; decide
    · exact hlab pc _ h
  unfold NOLABEL at hlt
  simp only [Vm.init]
  rw [Nat.mod_eq_of_lt (by omega)]

theorem labelOK_lt {prog : Program} {t : Thread} (h : LabelOK prog t) :
    t.Label < maxMatchLabel prog 0 + 1 := by
  rcases h with h | ⟨pc, h⟩
  · omega
  · have := (maxMatchLabel_spec prog 0).2.1 pc _ h
    omega

theorem labelOK_span (prog : Program) :
    ∀ x y : Thread, x.Label = y.Label → x.Start = y.Start → x.End = y.End →
      LabelOK prog y → LabelOK prog x := by
  intro x y h _ _ hy
  unfold LabelOK at hy ⊢
  rw [h]
  exact hy

theorem labelOK_match (prog : Program) (q : Nat) :
    ∀ (y : Thread) (l : Nat), IsMatchLabel prog l → LabelOK prog y →
      LabelOK prog { y with Label := l, End := q } :=
  fun _ _ hl _ => Or.inr hl

theorem labelsOK_step {prog : Program} {n : Nat}
    (step : Thread → List Bool → ThreadList → ThreadList → Except Fault ExecResult)
    (hQ : ∀ (t : Thread) (cs : List Bool) (a nx : ThreadList) (r : ExecResult),
      step t cs a nx = .ok r → LabelOK prog t →
      LabelOK prog r.t ∧ (∀ x ∈ r.active, x ∈ a ∨ LabelOK prog x) ∧
        (∀ x ∈ r.next, x ∈ nx ∨ LabelOK prog x))
    (offset : Nat) :
    ∀ (i : Nat) (t : Thread) (vm : Vm) (hits hits1 : List SearchHit) (r : ExecResult)
      (cells : List MatchCell),
      vm.Active[i]? = some t → step t vm.CheckStates vm.Active vm.Next = .ok r →
      reconcile r.t offset vm.Matches hits = .ok (cells, hits1) → LabelsOK prog n vm →
      LabelsOK prog n { vm with Active := r.active.set i r.t, Next := r.next,
                                CheckStates := r.checkStates, Matches := cells } := by
  intro i t vm hits hits1 r cells hi hs hr hinv
  have ht : LabelOK prog t := hinv.active t (List.mem_iff_getElem?.mpr ⟨i, hi⟩)
  obtain ⟨h1, h2, h3⟩ := hQ t _ _ _ r hs ht
  refine ⟨?_, ?_, ?_⟩
  · intro x hx
    rcases mem_set_cases hx with hx | hx
    · rcases h2 x hx with hx | hx
      · exact hinv.active x hx
      · exact hx
    · rw [hx]; exact h1
  · intro x hx
    rcases h3 x hx with hx | hx
    · exact hinv.next x hx
    · exact hx
  · exact (reconcile_length hr).trans hinv.size

theorem labelsOK_call {prog : Program} {n : Nat}
    (step : Thread → List Bool → ThreadList → ThreadList → Except Fault ExecResult)
    (hQ : ∀ (t : Thread) (cs : List Bool) (a nx : ThreadList) (r : ExecResult),
      step t cs a nx = .ok r → LabelOK prog t →
      LabelOK prog r.t ∧ (∀ x ∈ r.active, x ∈ a ∨ LabelOK prog x) ∧
        (∀ x ∈ r.next, x ∈ nx ∨ LabelOK prog x)) :
    ∀ (i : Nat) (t : Thread) (vm : Vm) (r : ExecResult),
      vm.Active[i]? = some t → step t vm.CheckStates vm.Active vm.Next = .ok r →
      LabelsOK prog n vm → LabelOK prog r.t ∧ vm.Matches.length = n := by
  intro i t vm r hi hs hinv
  have ht : LabelOK prog t := hinv.active t (List.mem_iff_getElem?.mpr ⟨i, hi⟩)
  exact ⟨(hQ t _ _ _ r hs ht).1, hinv.size⟩

theorem seed_fields (vm : Vm) (c : Byte) (q : Nat) :
    (vm.seed c q).Prog = vm.Prog ∧ (vm.seed c q).Next = vm.Next ∧
    (vm.seed c q).Matches = vm.Matches ∧
    (∀ x ∈ (vm.seed c q).Active, x ∈ vm.Active ∨ x = ⟨some 0, 0, q, UNALLOCATED⟩) := by
  unfold Vm.seed
  by_cases hf : vm.First c = true
  · rw [if_pos hf]
    refine ⟨rfl, rfl, rfl, ?_⟩
    intro x hx
    rcases List.mem_append.mp hx with h | h
    · exact Or.inl h
    · exact Or.inr (List.mem_singleton.mp h)
  · rw [if_neg hf]
    exact ⟨rfl, rfl, rfl, fun x hx => Or.inl hx⟩

theorem labelsOK_seed {prog : Program} {n : Nat} {vm : Vm} (c : Byte) (q : Nat)
    (h : LabelsOK prog n vm) : LabelsOK prog n (vm.seed c q) := by
  obtain ⟨_, h2, h3, h4⟩ := seed_fields vm c q
  refine ⟨?_, ?_, ?_⟩
  · intro x hx
    rcases h4 x hx with hx | hx
    · exact h.active x hx
    · rw [hx]; exact Or.inl rfl
  · rw [h2]; exact h.next
  · rw [h3]; exact h.size

theorem byteStep_labels {prog : Program} {n fuel : Nat} {vm vm1 : Vm} {c : Byte} {q : Nat}
    {hits hits1 : List SearchHit} (h : byteStep fuel vm c q hits = .ok (vm1, hits1))
    (hp : vm.Prog = prog) (hinv : LabelsOK prog n vm) :
    LabelsOK prog n vm1 ∧ vm1.Prog = prog := by
  rw [byteStep_eq_stepActive] at h
  unfold stepActive at h
  have hps : (vm.seed c q).Prog = prog := (seed_fields vm c q).1.trans hp
  cases hal : activeLoop (runThread (vm.seed c q).Prog c q fuel) q fuel 0 (vm.seed c q) hits with
  | error e => simp [hal] at h
  | ok p =>
    obtain ⟨vm2, hits2⟩ := p
    simp only [hal] at h
    have hinv2 := activeLoop_invariant2 _ (fun vm _ => LabelsOK prog n vm) q
      (labelsOK_step _ (fun t cs a nx r hr => by
        rw [hps] at hr
        exact runThread_pred (LabelOK prog) (labelOK_span prog) (labelOK_match prog q)
          fuel t cs a nx r hr) q)
      fuel 0 _ _ _ _ hal (labelsOK_seed c q hinv)
    have hprog := (activeLoop_fields _ q fuel 0 _ _ _ _ hal).1
    cases hc : clearCheckStates vm2.CheckStates with
    | error e => simp [hc] at h
    | ok cs =>
      simp only [hc, Except.ok.injEq, Prod.mk.injEq] at h
      obtain ⟨rfl, rfl⟩ := h
      exact ⟨⟨hinv2.next, (fun x hx => by cases hx), hinv2.size⟩, hprog.trans hps⟩

theorem searchCall_labels {prog : Program} {n fuel : Nat} {input : List Byte} {vm : Vm}
    {q q1 : Nat} {hits : List SearchHit} {t : Thread} {cells : List MatchCell}
    (h : SearchCall fuel input vm q hits q1 t cells) :
    vm.Prog = prog → LabelsOK prog n vm → LabelOK prog t ∧ cells.length = n := by
  induction h with
  | @byte c rest vm q hits t cells hcall =>
    intro hp hinv
    have hps : (vm.seed c q).Prog = prog := (seed_fields vm c q).1.trans hp
    have hQ : ∀ (t : Thread) (cs : List Bool) (a nx : ThreadList) (r : ExecResult),
        runThread (vm.seed c q).Prog c q fuel t cs a nx = .ok r → LabelOK prog t →
        LabelOK prog r.t ∧ (∀ x ∈ r.active, x ∈ a ∨ LabelOK prog x) ∧
          (∀ x ∈ r.next, x ∈ nx ∨ LabelOK prog x) := by
      intro t cs a nx r hr
      rw [hps] at hr
      exact runThread_pred (LabelOK prog) (labelOK_span prog) (labelOK_match prog q)
        fuel t cs a nx r hr
    exact loopCall_inv _ (fun vm _ => LabelsOK prog n vm)
      (fun t cells => LabelOK prog t ∧ cells.length = n) q
      (fun i t vm _ r => labelsOK_call _ hQ i t vm r) (labelsOK_step _ hQ q) hcall (labelsOK_seed c q hinv)
  | @next c rest vm vm1 q q1 hits hits1 t cells hstep _ ih =>
    intro hp hinv
    obtain ⟨h1, h2⟩ := byteStep_labels hstep hp hinv
    exact ih h2 h1
  | @last vm q hits t cells hcall =>
    intro hp hinv
    have hQ : ∀ (t : Thread) (cs : List Bool) (a nx : ThreadList) (r : ExecResult),
        runThreadEpsilons vm.Prog q fuel t cs a nx = .ok r → LabelOK prog t →
        LabelOK prog r.t ∧ (∀ x ∈ r.active, x ∈ a ∨ LabelOK prog x) ∧
          (∀ x ∈ r.next, x ∈ nx ∨ LabelOK prog x) := by
      intro t cs a nx r hr
      rw [hp] at hr
      exact runThreadEpsilons_pred (LabelOK prog) (labelOK_span prog) (labelOK_match prog q)
        fuel t cs a nx r hr
    exact loopCall_inv _ (fun vm _ => LabelsOK prog n vm)
      (fun t cells => LabelOK prog t ∧ cells.length = n) q
      (fun i t vm _ r => labelsOK_call _ hQ i t vm r) (labelsOK_step _ hQ q) hcall hinv

/-! ## Starts, ends and the cells of the match buffer -/

theorem threadOK_span (prog : Program) (s0 q : Nat) :
    ∀ x y : Thread, x.Label = y.Label → x.Start = y.Start → x.End = y.End →
      ThreadOK prog s0 q y → ThreadOK prog s0 q x := by
  intro x y h1 h2 h3 hy
  refine ⟨by rw [h2]; exact hy.start_ge, by rw [h2]; exact hy.start_le, ?_⟩
  rw [h1, h2, h3]
  exact hy.span

theorem threadOK_match (prog : Program) (s0 q : Nat) :
    ∀ (y : Thread) (l : Nat), IsMatchLabel prog l → ThreadOK prog s0 q y →
      ThreadOK prog s0 q { y with Label := l, End := q } :=
  fun _ _ hl hy => ⟨hy.start_ge, hy.start_le, Or.inr ⟨hy.start_le, le_refl _, hl⟩⟩

theorem threadOK_mono {prog : Program} {s0 q q' : Nat} {t : Thread} (hle : q ≤ q')
    (h : ThreadOK prog s0 q t) : ThreadOK prog s0 q' t := by
  refine ⟨h.start_ge, le_trans h.start_le hle, ?_⟩
  rcases h.span with h | ⟨h1, h2, h3⟩
  · exact Or.inl h
  · exact Or.inr ⟨h1, le_trans h2 hle, h3⟩

theorem cellOK_mono {s0 q q' : Nat} {cell : MatchCell} (hle : q ≤ q') (h : CellOK s0 q cell) :
    CellOK s0 q' cell := by
  rcases h with h | ⟨h1, h2, h3⟩
  · exact Or.inl h
  · exact Or.inr ⟨h1, h2, le_trans h3 hle⟩

theorem hitOK_mono {s0 q q' : Nat} {h : SearchHit} (hle : q ≤ q') (hh : HitOK s0 q h) :
    HitOK s0 q' h := by
  obtain ⟨h1, e, h2, h3, h4, h5⟩ := hh
  exact ⟨h1, e, h2, le_trans h3 hle, h4, h5⟩

theorem searchOK_mono {prog : Program} {s0 q q' : Nat} {vm : Vm} {hits : List SearchHit}
    (hle : q ≤ q') (h : SearchOK prog s0 q vm hits) : SearchOK prog s0 q' vm hits :=
  ⟨fun t ht => threadOK_mono hle (h.active t ht), fun t ht => threadOK_mono hle (h.next t ht),
    fun c hc => cellOK_mono hle (h.cells c hc), fun x hx => hitOK_mono hle (h.hits x hx)⟩

theorem hitOK_of_cell {s0 q : Nat} {cell : MatchCell} (l : Nat) (hq : q < UNALLOCATED)
    (hc : CellOK s0 q cell) (hne : cell.1 ≠ UNALLOCATED) :
    HitOK s0 q ⟨cell.1, sub64 cell.2 cell.1, l⟩ := by
  rcases hc with hc | ⟨h1, h2, h3⟩
  · exact absurd hc hne
  · have hsub : sub64 cell.2 cell.1 = cell.2 - cell.1 := by
      unfold sub64
      unfold UNALLOCATED at hq
      rw [show cell.2 + 2 ^ 64 - cell.1 = (cell.2 - cell.1) + 2 ^ 64 by omega,
        Nat.add_mod_right]
      exact Nat.mod_eq_of_lt (by omega)
    exact ⟨h1, cell.2, h2, h3, hsub, rfl⟩

theorem reconcile_ok {prog : Program} {s0 q : Nat} {t : Thread} {cells cells' : List MatchCell}
    {hits hits' : List SearchHit} (h : reconcile t q cells hits = .ok (cells', hits'))
    (ht : ThreadOK prog s0 q t) (hq : q < UNALLOCATED)
    (hc : ∀ cell ∈ cells, CellOK s0 q cell) (hh : ∀ x ∈ hits, HitOK s0 q x) :
    (∀ cell ∈ cells', CellOK s0 q cell) ∧ (∀ x ∈ hits', HitOK s0 q x) := by
  unfold reconcile at h
  by_cases he : t.End = q
  · rw [if_pos he] at h
    have hcell : CellOK s0 q (t.Start, t.End) := by
      rcases ht.span with hs | ⟨h1, h2, _⟩
      · rw [he] at hs
        omega
      · exact Or.inr ⟨ht.start_ge, h1, h2⟩
    have hset : ∀ cell ∈ cells.set t.Label (t.Start, t.End), CellOK s0 q cell := by
      intro cell hm
      rcases mem_set_cases hm with hm | hm
      · exact hc cell hm
      · rw [hm]; exact hcell
    cases hl : cells[t.Label]? with
    | none => simp [hl] at h
    | some lastHit =>
      simp only [hl] at h
      have hlast : CellOK s0 q lastHit := hc lastHit (List.mem_iff_getElem?.mpr ⟨_, hl⟩)
      by_cases h1 : lastHit.1 = UNALLOCATED ∨ (lastHit.1 = t.Start ∧ lastHit.2 < t.End)
      · rw [if_pos h1] at h
        simp only [Except.ok.injEq, Prod.mk.injEq] at h
        obtain ⟨rfl, rfl⟩ := h
        exact ⟨hset, hh⟩
      · rw [if_neg h1] at h
        by_cases h2 : lastHit.2 ≤ t.Start
        · rw [if_pos h2] at h
          simp only [Except.ok.injEq, Prod.mk.injEq] at h
          obtain ⟨rfl, rfl⟩ := h
          refine ⟨hset, ?_⟩
          intro x hx
          rcases List.mem_append.mp hx with hx | hx
          · exact hh x hx
          · rw [List.mem_singleton] at hx
            rw [hx]
            exact hitOK_of_cell t.Label hq hlast (fun hu => h1 (Or.inl hu))
        · rw [if_neg h2] at h
          simp only [Except.ok.injEq, Prod.mk.injEq] at h
          obtain ⟨rfl, rfl⟩ := h
          exact ⟨hc, hh⟩
  · rw [if_neg he] at h
    simp only [Except.ok.injEq, Prod.mk.injEq] at h
    obtain ⟨rfl, rfl⟩ := h
    exact ⟨hc, hh⟩

theorem searchOK_step {prog : Program} {s0 : Nat}
    (step : Thread → List Bool → ThreadList → ThreadList → Except Fault ExecResult)
    (offset : Nat) (hq : offset < UNALLOCATED)
    (hQ : ∀ (t : Thread) (cs : List Bool) (a nx : ThreadList) (r : ExecResult),
      step t cs a nx = .ok r → ThreadOK prog s0 offset t →
      ThreadOK prog s0 offset r.t ∧ (∀ x ∈ r.active, x ∈ a ∨ ThreadOK prog s0 offset x) ∧
        (∀ x ∈ r.next, x ∈ nx ∨ ThreadOK prog s0 offset x)) :
    ∀ (i : Nat) (t : Thread) (vm : Vm) (hits hits1 : List SearchHit) (r : ExecResult)
      (cells : List MatchCell),
      vm.Active[i]? = some t → step t vm.CheckStates vm.Active vm.Next = .ok r →
      reconcile r.t offset vm.Matches hits = .ok (cells, hits1) →
      SearchOK prog s0 offset vm hits →
      SearchOK prog s0 offset { vm with Active := r.active.set i r.t, Next := r.next,
                                        CheckStates := r.checkStates, Matches := cells } hits1 := by
  intro i t vm hits hits1 r cells hi hs hr hinv
  have ht : ThreadOK prog s0 offset t := hinv.active t (List.mem_iff_getElem?.mpr ⟨i, hi⟩)
  obtain ⟨h1, h2, h3⟩ := hQ t _ _ _ r hs ht
  obtain ⟨h4, h5⟩ := reconcile_ok hr h1 hq hinv.cells hinv.hits
  refine ⟨?_, ?_, h4, h5⟩
  · intro x hx
    rcases mem_set_cases hx with hx | hx
    · rcases h2 x hx with hx | hx
      · exact hinv.active x hx
      · exact hx
    · rw [hx]; exact h1
  · intro x hx
    rcases h3 x hx with hx | hx
    · exact hinv.next x hx
    · exact hx

theorem searchOK_call {prog : Program} {s0 : Nat}
    (step : Thread → List Bool → ThreadList → ThreadList → Except Fault ExecResult)
    (offset : Nat)
    (hQ : ∀ (t : Thread) (cs : List Bool) (a nx : ThreadList) (r : ExecResult),
      step t cs a nx = .ok r → ThreadOK prog s0 offset t →
      ThreadOK prog s0 offset r.t ∧ (∀ x ∈ r.active, x ∈ a ∨ ThreadOK prog s0 offset x) ∧
        (∀ x ∈ r.next, x ∈ nx ∨ ThreadOK prog s0 offset x)) :
    ∀ (i : Nat) (t : Thread) (vm : Vm) (hits : List SearchHit) (r : ExecResult),
      vm.Active[i]? = some t → step t vm.CheckStates vm.Active vm.Next = .ok r →
      SearchOK prog s0 offset vm hits →
      ThreadOK prog s0 offset r.t ∧ ∀ cell ∈ vm.Matches, CellOK s0 offset cell := by
  intro i t vm hits r hi hs hinv
  have ht : ThreadOK prog s0 offset t := hinv.active t (List.mem_iff_getElem?.mpr ⟨i, hi⟩)
  exact ⟨(hQ t _ _ _ r hs ht).1, hinv.cells⟩

theorem searchOK_seed {prog : Program} {s0 q : Nat} {vm : Vm} {hits : List SearchHit}
    (c : Byte) (hle : s0 ≤ q) (h : SearchOK prog s0 q vm hits) :
    SearchOK prog s0 q (vm.seed c q) hits := by
  obtain ⟨_, h2, h3, h4⟩ := seed_fields vm c q
  refine ⟨?_, ?_, ?_, h.hits⟩
  · intro x hx
    rcases h4 x hx with hx | hx
    · exact h.active x hx
    · rw [hx]; exact ⟨hle, le_refl _, Or.inl rfl⟩
  · rw [h2]; exact h.next
  · rw [h3]; exact h.cells

theorem byteStep_searchOK {prog : Program} {s0 fuel : Nat} {vm vm1 : Vm} {c : Byte} {q : Nat}
    {hits hits1 : List SearchHit} (h : byteStep fuel vm c q hits = .ok (vm1, hits1))
    (hp : vm.Prog = prog) (hle : s0 ≤ q) (hq : q < UNALLOCATED)
    (hinv : SearchOK prog s0 q vm hits) :
    SearchOK prog s0 q vm1 hits1 ∧ vm1.Prog = prog := by
  rw [byteStep_eq_stepActive] at h
  unfold stepActive at h
  have hps : (vm.seed c q).Prog = prog := (seed_fields vm c q).1.trans hp
  cases hal : activeLoop (runThread (vm.seed c q).Prog c q fuel) q fuel 0 (vm.seed c q) hits with
  | error e => simp [hal] at h
  | ok p =>
    obtain ⟨vm2, hits2⟩ := p
    simp only [hal] at h
    have hinv2 := activeLoop_invariant2 _ (fun vm hits => SearchOK prog s0 q vm hits) q
      (searchOK_step _ q hq (fun t cs a nx r hr => by
        rw [hps] at hr
        exact runThread_pred (ThreadOK prog s0 q) (threadOK_span prog s0 q)
          (threadOK_match prog s0 q) fuel t cs a nx r hr))
      fuel 0 _ _ _ _ hal (searchOK_seed c hle hinv)
    have hprog := (activeLoop_fields _ q fuel 0 _ _ _ _ hal).1
    cases hc : clearCheckStates vm2.CheckStates with
    | error e => simp [hc] at h
    | ok cs =>
      simp only [hc, Except.ok.injEq, Prod.mk.injEq] at h
      obtain ⟨rfl, rfl⟩ := h
      exact ⟨⟨hinv2.next, (fun x hx => by cases hx), hinv2.cells, hinv2.hits⟩, hprog.trans hps⟩

theorem searchCall_ok {prog : Program} {s0 fuel : Nat} {input : List Byte} {vm : Vm}
    {q q1 : Nat} {hits : List SearchHit} {t : Thread} {cells : List MatchCell}
    (h : SearchCall fuel input vm q hits q1 t cells) :
    vm.Prog = prog → s0 ≤ q → q + input.length < UNALLOCATED → SearchOK prog s0 q vm hits →
    ThreadOK prog s0 q1 t ∧ (∀ cell ∈ cells, CellOK s0 q1 cell) ∧ q1 < UNALLOCATED := by
  induction h with
  | @byte c rest vm q hits t cells hcall =>
    intro hp hle hq hinv
    have hps : (vm.seed c q).Prog = prog := (seed_fields vm c q).1.trans hp
    have hq' : q < UNALLOCATED := by omega
    have hQ : ∀ (t : Thread) (cs : List Bool) (a nx : ThreadList) (r : ExecResult),
        runThread (vm.seed c q).Prog c q fuel t cs a nx = .ok r → ThreadOK prog s0 q t →
        ThreadOK prog s0 q r.t ∧ (∀ x ∈ r.active, x ∈ a ∨ ThreadOK prog s0 q x) ∧
          (∀ x ∈ r.next, x ∈ nx ∨ ThreadOK prog s0 q x) := by
      intro t cs a nx r hr
      rw [hps] at hr
      exact runThread_pred (ThreadOK prog s0 q) (threadOK_span prog s0 q)
        (threadOK_match prog s0 q) fuel t cs a nx r hr
    obtain ⟨h1, h2⟩ := loopCall_inv _ (fun vm hits => SearchOK prog s0 q vm hits)
      (fun t cells => ThreadOK prog s0 q t ∧ ∀ cell ∈ cells, CellOK s0 q cell) q
      (searchOK_call _ q hQ) (searchOK_step _ q hq' hQ) hcall (searchOK_seed c hle hinv)
    exact ⟨h1, h2, hq'⟩
  | @next c rest vm vm1 q q1 hits hits1 t cells hstep _ ih =>
    intro hp hle hq hinv
    simp only [List.length_cons] at hq
    obtain ⟨k1, k2⟩ := byteStep_searchOK hstep hp hle (by omega) hinv
    rw [inc64_eq (by omega)] at ih
    exact ih k2 (by omega) (by omega) (searchOK_mono (by omega) k1)
  | @last vm q hits t cells hcall =>
    intro hp hle hq hinv
    have hq' : q < UNALLOCATED := by simpa using hq
    have hQ : ∀ (t : Thread) (cs : List Bool) (a nx : ThreadList) (r : ExecResult),
        runThreadEpsilons vm.Prog q fuel t cs a nx = .ok r → ThreadOK prog s0 q t →
        ThreadOK prog s0 q r.t ∧ (∀ x ∈ r.active, x ∈ a ∨ ThreadOK prog s0 q x) ∧
          (∀ x ∈ r.next, x ∈ nx ∨ ThreadOK prog s0 q x) := by
      intro t cs a nx r hr
      rw [hp] at hr
      exact runThreadEpsilons_pred (ThreadOK prog s0 q) (threadOK_span prog s0 q)
        (threadOK_match prog s0 q) fuel t cs a nx r hr
    obtain ⟨h1, h2⟩ := loopCall_inv _ (fun vm hits => SearchOK prog s0 q vm hits)
      (fun t cells => ThreadOK prog s0 q t ∧ ∀ cell ∈ cells, CellOK s0 q cell) q
      (searchOK_call _ q hQ) (searchOK_step _ q hq' hQ) hcall hinv
    exact ⟨h1, h2, hq'⟩

theorem init_searchOK (prog : Program) (first : Byte → Bool) (nc s0 : Nat) :
    SearchOK prog s0 s0 (Vm.init prog first nc) [] := by
  refine ⟨(fun t ht => by cases ht), (fun t ht => by cases ht), ?_, (fun x hx => by cases hx)⟩
  intro cell hc
  simp only [Vm.init] at hc
  rw [List.eq_of_mem_replicate hc]
  exact Or.inl rfl

theorem init_labelsOK (prog : Program) (first : Byte → Bool) (nc : Nat)
    (hlab : ∀ (pc l : Nat), prog[pc]? = some (Instruction.MATCH_OP l) → l < NOLABEL) :
    LabelsOK prog (maxMatchLabel prog 0 + 1) (Vm.init prog first nc) := by
  refine ⟨(fun t ht => by cases ht), (fun t ht => by cases ht), ?_⟩
  rw [init_matches prog first nc hlab, List.length_replicate]

/-- C34. The indexing of the match buffer is in bounds. For a program whose
`MATCH` labels are below `0xffffffff` (as `createProgram` writes them),
`Vm::init` gives `Matches` one empty cell more than the largest `MATCH` label;
and in every call of the reconciliation (the reads and writes of `Matches`)
during `Vm::search` on the machine of `Vm::init`, the buffer still has that
size and the label of the thread is a valid index. When the offsets of the
block stay below the maximum, a thread whose end is the current offset
carries the label of a `MATCH` instruction of the program. -/
theorem matches_index_in_bounds (prog : Program) (first : Byte → Bool) (nc fuel : Nat)
    (input : List Byte) (s0 q : Nat) (t : Thread) (cells : List MatchCell)
    (hlab : ∀ (pc l : Nat), prog[pc]? = some (Instruction.MATCH_OP l) → l < NOLABEL)
    (hcall : SearchCall fuel input (Vm.init prog first nc) s0 [] q t cells) :
    (Vm.init prog first nc).Matches =
      List.replicate (maxMatchLabel prog 0 + 1) (UNALLOCATED, 0) ∧
    cells.length = maxMatchLabel prog 0 + 1 ∧
    t.Label < cells.length ∧
    (s0 + input.length < UNALLOCATED → t.End = q → IsMatchLabel prog t.Label) := by
  obtain ⟨h1, h2⟩ := searchCall_labels hcall rfl (init_labelsOK prog first nc hlab)
  refine ⟨init_matches prog first nc hlab, h2, by rw [h2]; exact labelOK_lt h1, ?_⟩
  intro hq he
  obtain ⟨k1, _, k3⟩ := searchCall_ok hcall rfl (le_refl _) hq (init_searchOK prog first nc s0)
  rcases k1.span with hs | ⟨_, _, hs⟩
  · rw [he] at hs
    omega
  · exact hs

/-- Witness of C34: the machine of scenario S1 on the byte `a` at the offset
0; the seeded thread is run and reconciled with the buffer of one cell. -/
theorem matches_index_in_bounds_witness :
    SearchCall 3 [97] (Vm.init progABC (singleByte 97) 1) 0 [] 0
      ⟨some 1, 0, 0, UNALLOCATED⟩ [(UNALLOCATED, 0)] ∧
    (Vm.init progABC (singleByte 97) 1).Matches =
      List.replicate (maxMatchLabel progABC 0 + 1) (UNALLOCATED, 0) ∧
    ([(UNALLOCATED, 0)] : List MatchCell).length = maxMatchLabel progABC 0 + 1 ∧
    (⟨some 1, 0, 0, UNALLOCATED⟩ : Thread).Label <
      ([(UNALLOCATED, 0)] : List MatchCell).length ∧
    (0 + ([97] : List Byte).length < UNALLOCATED →
      (⟨some 1, 0, 0, UNALLOCATED⟩ : Thread).End = 0 →
      IsMatchLabel progABC (⟨some 1, 0, 0, UNALLOCATED⟩ : Thread).Label) :=
  ⟨SearchCall.byte (LoopCall.here (t := ⟨some 0, 0, 0, UNALLOCATED⟩)
      (r := ⟨false, ⟨some 1, 0, 0, UNALLOCATED⟩, [false], [⟨some 0, 0, 0, UNALLOCATED⟩],
        [⟨some 1, 0, 0, UNALLOCATED⟩]⟩) rfl rfl),
    matches_index_in_bounds progABC (singleByte 97) 1 3 [97] 0 0
      ⟨some 1, 0, 0, UNALLOCATED⟩ [(UNALLOCATED, 0)] (by
        intro pc l h
        have hpc : pc < progABC.length := by
          by_contra hcon
          rw [List.getElem?_eq_none (by omega)] at h
          cases h
        have h5 : pc < 5 := hpc
        interval_cases pc <;> simp [progABC] at h
        subst h
        decide)
      (SearchCall.byte (LoopCall.here (t := ⟨some 0, 0, 0, UNALLOCATED⟩)
        (r := ⟨false, ⟨some 1, 0, 0, UNALLOCATED⟩, [false], [⟨some 0, 0, 0, UNALLOCATED⟩],
          [⟨some 1, 0, 0, UNALLOCATED⟩]⟩) rfl rfl))⟩

end Lightgrep
